import Mathlib

/-!
# Selective block inversion: a shallow embedding of `src/matlab/DGNLselbinv.c`

The single function `mexFunction` of `DGNLselbinv.c` is embedded piece by piece.

* Dense arrays (`double *`) are functions `Nat → R` from the offset inside the
  allocation to the stored value; a matrix with leading dimension `ld` keeps entry
  `(i, j)` at offset `i + ld * j` (column major, as MATLAB and BLAS do).
* Index arrays (`J`, `I`, stored as doubles and cast to `integer` by the source)
  are `List Nat`, holding the 1-based MATLAB indices.  A read past the end of an
  index array is modelled as the value `0`, which is no valid index.
* Arithmetic is exact: `R` is a commutative ring (a field where `dgetri_` is
  involved), so `dgemm_` is the exact matrix product.
* The source repeats the same loops for each of its six update contributions
  (lines 1159-1740, 1745-2327, 3237-3815 share one text up to the names of the
  arrays, and so do lines 2546-3006, 4146-4608, 4613-5074).  Each repeated loop is
  embedded once, with the arrays as parameters, and instantiated six times.
-/

set_option linter.unusedSectionVars false
set_option linter.unusedVariables false

namespace Selbinv

/-! ## Control structures -/

/-- The loop `for (i = 0; i < n; i++) s = body i s`. -/
def forLoop {σ : Type} : Nat → (Nat → σ → σ) → σ → σ
  | 0, _, s => s
  | n + 1, body, s => body n (forLoop n body s)

/-- The two-pointer scan that the source writes as
`while (p < |A| && q < |B|) { ii = A[p]; jj = B[q];
   if (ii < jj) p++; else if (ii > jj) q++; else { body; p++; q++; } }`
(lines 993, 1082, 1294, 1535, 1633, ...).  The first argument bounds the number
of iterations; `|A| + |B|` always suffices since every iteration advances `p`
or `q`. -/
def mergeLoop {σ : Type} (A B : List Nat) (body : Nat → Nat → σ → σ) :
    Nat → Nat → Nat → σ → σ
  | 0, _, _, s => s
  | fuel + 1, p, q, s =>
    if p < A.length ∧ q < B.length then
      if A.getD p 0 < B.getD q 0 then mergeLoop A B body fuel (p + 1) q s
      else if A.getD p 0 > B.getD q 0 then mergeLoop A B body fuel p (q + 1) s
      else mergeLoop A B body fuel (p + 1) (q + 1) (body p q s)
    else s

/-- The pairs of positions `(p, q)` at which `mergeLoop` runs its body. -/
def matchList (A B : List Nat) : Nat → Nat → Nat → List (Nat × Nat)
  | 0, _, _ => []
  | fuel + 1, p, q =>
    if p < A.length ∧ q < B.length then
      if A.getD p 0 < B.getD q 0 then matchList A B fuel (p + 1) q
      else if A.getD p 0 > B.getD q 0 then matchList A B fuel p (q + 1)
      else (p, q) :: matchList A B fuel (p + 1) (q + 1)
    else []

/-- The positions matched by the complete scan of `A` against `B`. -/
def matchPairs (A B : List Nat) : List (Nat × Nat) :=
  matchList A B (A.length + B.length) 0 0

/-! ## Sorted-index-set intersection with contiguity detection (lines 986-1041) -/

/-- The variables `t`, `k_first`, `i_first`, `Ik_cont`, `Ii_cont` of the source
(also `tt`, `kt_first`, `jit_first`, `Ikt_cont`, `Jit_cont`). -/
structure Isect where
  t : Nat
  k_first : Nat
  i_first : Nat
  Ik_cont : Int
  Ii_cont : Int
  deriving DecidableEq, Repr

/-- The body run at matching positions `p`, `q` (lines 1004-1040). -/
def isectBody (p q : Nat) (s : Isect) : Isect :=
  if s.Ik_cont = -1 then
    { t := s.t + 1, k_first := p, i_first := q,
      Ik_cont := (p : Int) + 1, Ii_cont := (q : Int) + 1 }
  else
    { t := s.t + 1, k_first := s.k_first, i_first := s.i_first,
      Ik_cont := if (p : Int) = s.Ik_cont then (p : Int) + 1 else 0,
      Ii_cont := if (q : Int) = s.Ii_cont then (q : Int) + 1 else 0 }

/-- The initial values `t = 0, k_first = 0, i_first = 0, Ik_cont = Ii_cont = -1`. -/
def isectInit : Isect :=
  { t := 0, k_first := 0, i_first := 0, Ik_cont := -1, Ii_cont := -1 }

/-- The intersection scan of lines 986-1041. -/
def intersect (A B : List Nat) : Isect :=
  mergeLoop A B isectBody (A.length + B.length) 0 0 isectInit

/-! ## The run `I(l:j)` against the donor's `J` (lines 946-971) -/

/-- The offset `j_first = I[l] - J_i[0]` (line 962). -/
def jFirst (RI DJ : List Nat) (l : Nat) : Int :=
  (RI.getD l 0 : Int) - (DJ.getD 0 0 : Int)

/-- The loop of lines 963-971 from position `jj` on: the flag is cleared, and the
loop left, at the first `jj <= j` with `I[jj] > I[l] + jj - l`. -/
def jiContLoop (RI : List Nat) (l j : Nat) : Nat → Nat → Int → Int
  | 0, _, c => c
  | fuel + 1, jj, c =>
    if jj ≤ j then
      if (RI.getD jj 0 : Int) > (RI.getD l 0 : Int) + (jj : Int) - (l : Int) then 0
      else jiContLoop RI l j fuel (jj + 1) c
    else c

/-- The flag `Ji_cont` after lines 948-971. -/
def jiCont (RI : List Nat) (l j : Nat) : Int :=
  jiContLoop RI l j (j + 1 - l) l (-1)

/-- The pointer offset `i_first + mi_size * j_first` into the donor block. -/
def donorOffset (i_first mi_size : Nat) (j_first : Int) : Nat :=
  ((i_first : Int) + (mi_size : Int) * j_first).toNat

/-! ## Donor run grouping (lines 846-868) -/

/-- The inner `while (flag)` loop of lines 853-868 started with cursor `j`: the
result is the last position of the run. -/
def runEnd (I : List Nat) (block : Nat → Nat) (i : Nat) : Nat → Nat → Nat
  | 0, j => j
  | fuel + 1, j =>
    if j ≥ I.length then I.length - 1
    else if block (I.getD j 0 - 1) > i then j - 1
    else runEnd I block i fuel (j + 1)

/-- The loop `l = 0; while (l < |I|) { i = block[I[l]-1]; j = runEnd; body; l = j+1; }`
of lines 846-2334; `body` receives `l`, `j` and the donor `i`. -/
def donorLoop {σ : Type} (I : List Nat) (block : Nat → Nat) (body : Nat → Nat → Nat → σ → σ) :
    Nat → Nat → σ → σ
  | 0, _, s => s
  | fuel + 1, l, s =>
    if l < I.length then
      donorLoop I block body fuel
        (runEnd I block (block (I.getD l 0 - 1)) I.length (l + 1) + 1)
        (body l (runEnd I block (block (I.getD l 0 - 1)) I.length (l + 1))
          (block (I.getD l 0 - 1)) s)
    else s

/-- The groups `(l, j, i)` visited by `donorLoop`. -/
def donorRuns (I : List Nat) (block : Nat → Nat) : List (Nat × Nat × Nat) :=
  (donorLoop I block (fun l j i acc => (l, j, i) :: acc) I.length 0 []).reverse

/-- The inner scan of the donor's `J` against the run, written in the source as
`r = l; s = 0; while (s < ni_size) { if (J_i[s] == I[r]) { body; r++; } s++; }`
(lines 1307-1320, 1648-1662, ...); `body` receives `s` and `r`.  The result pairs
the final `r` with the final state. -/
def colScan {σ : Type} (DJ RI : List Nat) (l : Nat) (body : Nat → Nat → σ → σ) (init : σ) :
    Nat × σ :=
  forLoop DJ.length
    (fun s st => if DJ.getD s 0 = RI.getD st.1 0 then (st.1 + 1, body s st.1 st.2) else st)
    (l, init)

/-! ## The dense primitives -/

section Ring

variable {R : Type} [CommRing R]

/-- Exact model of the BLAS routine `dgemm_(transa, "N", m, n, k, alpha, A, lda, B,
ldb, beta, C, ldc)`: `C := alpha * op(A) * B + beta * C` on the `m x n` block that
starts at offset `cOff` of `C`, with `op(A) = A` (`transA = false`) or its
transpose.  As in the reference BLAS, a leading dimension below its documented
minimum is an illegal argument and leaves `C` untouched. -/
def dgemm (transA : Bool) (m n k : Nat) (alpha : R) (A : Nat → R) (aOff lda : Nat)
    (B : Nat → R) (bOff ldb : Nat) (beta : R) (C : Nat → R) (cOff ldc : Nat) : Nat → R :=
  if lda < max 1 (if transA then k else m) ∨ ldb < max 1 k ∨ ldc < max 1 m then C
  else fun x =>
    if cOff ≤ x ∧ (x - cOff) % ldc < m ∧ (x - cOff) / ldc < n then
      alpha * (∑ e ∈ Finset.range k,
          (if transA then A (aOff + e + lda * ((x - cOff) % ldc))
            else A (aOff + (x - cOff) % ldc + lda * e)) *
          B (bOff + e + ldb * ((x - cOff) / ldc)))
        + beta * C x
    else C x

/-! ## Contributions of shape `target(Ik,:) -= donor(Ii,Ji) * src(l:j,:)`

Parameters: `TI` the target's row index array (`mut_size = |TI|` is the target's
leading dimension), `DI` the donor's row index array (`mi_size = |DI|` its leading
dimension), `DJ` the donor's `J`, `RI` the index array the run `l..j` is taken
from (`ml_size = |RI|` is the leading dimension of `src`). -/

/-- The zero-copy call of lines 1173-1179. -/
def nnZeroCopy (TI DI RI : List Nat) (l j n_size : Nat) (is : Isect) (j_first : Int)
    (donor src tgt : Nat → R) : Nat → R :=
  if is.t ≠ 0 ∧ j - l + 1 ≠ 0 then
    dgemm false is.t n_size (j - l + 1) (-1) donor
      (donorOffset is.i_first DI.length j_first) DI.length src l RI.length 1 tgt
      is.k_first TI.length
  else tgt

/-- Lines 1291-1326: copy `donor(Ii,Ji)` into the buffer, row by row of the
intersection; the state is the buffer and the offset `pr - gemm_buff`. -/
def gatherA (TI DI DJ RI : List Nat) (l t : Nat) (donor buf : Nat → R) : Nat → R :=
  (mergeLoop TI DI
    (fun _ q (st : (Nat → R) × Nat) =>
      ((colScan DJ RI l
          (fun s _ (st3 : (Nat → R) × Nat) =>
            (Function.update st3.1 st3.2 (donor (q + DI.length * s)), st3.2 + t))
          (st.1, st.2)).2.1,
        st.2 + 1))
    (TI.length + DI.length) 0 0 (buf, 0)).1

/-- Lines 1431-1432: `for (q = 0; q < t * n_size; q++) *pr2++ = 0.0`. -/
def zeroFill (cnt cOff : Nat) (buf : Nat → R) : Nat → R :=
  forLoop cnt (fun q b => Function.update b (cOff + q) 0) buf

/-- Lines 1533-1554: subtract the rows of the product held in the buffer from the
matched rows of the target; the state is the target and the offset
`pr2 - gemm_buff`. -/
def scatterC (TI DI : List Nat) (n_size t cOff : Nat) (buf tgt : Nat → R) : Nat → R :=
  (mergeLoop TI DI
    (fun p _ (st : (Nat → R) × Nat) =>
      (forLoop n_size
          (fun r T => Function.update T (p + TI.length * r)
            (T (p + TI.length * r) - buf (st.2 + t * r)))
          st.1,
        st.2 + 1))
    (TI.length + DI.length) 0 0 (tgt, cOff)).1

/-- The gather, multiply and scatter path of lines 1284-1621.  The result is the
target and the buffer `gemm_buff`. -/
def nnGather (TI DI DJ RI : List Nat) (l j n_size : Nat) (is : Isect) (Ji_cont j_first : Int)
    (donor src tgt buf : Nat → R) : (Nat → R) × (Nat → R) :=
  let gathered : Bool := decide (is.Ii_cont = 0 ∨ Ji_cont = 0)
  let buf1 := if gathered then gatherA TI DI DJ RI l is.t donor buf else buf
  let cOff := if gathered then is.t * (j - l + 1) else 0
  if is.Ik_cont = 0 then
    let buf2 := zeroFill (is.t * n_size) cOff buf1
    let buf3 :=
      if is.t ≠ 0 ∧ j - l + 1 ≠ 0 then
        (if gathered then
          dgemm false is.t n_size (j - l + 1) 1 buf2 0 is.t src l RI.length 0 buf2 cOff is.t
        else
          dgemm false is.t n_size (j - l + 1) 1 donor
            (donorOffset is.i_first DI.length j_first) DI.length src l RI.length 0 buf2
            cOff is.t)
      else buf2
    (scatterC TI DI n_size is.t cOff buf3 tgt, buf3)
  else
    let tgt1 :=
      if is.t ≠ 0 ∧ j - l + 1 ≠ 0 then
        (if gathered then
          dgemm false is.t n_size (j - l + 1) (-1) buf1 0 is.t src l RI.length 1 tgt
            is.k_first TI.length
        else
          dgemm false is.t n_size (j - l + 1) (-1) donor
            (donorOffset is.i_first DI.length j_first) DI.length src l RI.length 1 tgt
            is.k_first TI.length)
      else tgt
    (tgt1, buf1)

/-- The hand-coded loop of lines 1631-1667; the state of the loop over the
columns `ii` is the target and the offset `pr3 - prBLL`. -/
def nnScalar (TI DI DJ RI : List Nat) (l j n_size : Nat) (donor src tgt : Nat → R) : Nat → R :=
  mergeLoop TI DI
    (fun p q T =>
      (forLoop n_size
        (fun ii (st : (Nat → R) × Nat) =>
          ((colScan DJ RI l
              (fun s _ (st3 : (Nat → R) × Nat) =>
                (Function.update st3.1 (p + TI.length * ii)
                  (st3.1 (p + TI.length * ii) - donor (q + DI.length * s) * src st3.2),
                 st3.2 + 1))
              (st.1, st.2)).2.1,
           (colScan DJ RI l
              (fun s _ (st3 : (Nat → R) × Nat) =>
                (Function.update st3.1 (p + TI.length * ii)
                  (st3.1 (p + TI.length * ii) - donor (q + DI.length * s) * src st3.2),
                 st3.2 + 1))
              (st.1, st.2)).2.2 + (RI.length - (j - l + 1))))
        (T, l)).1)
    (TI.length + DI.length) 0 0 tgt

/-- The number of buffer entries needed (lines 1259-1267). -/
def copyCnt (is : Isect) (Ji_cont : Int) (l j n_size : Nat) : Nat :=
  (if is.Ii_cont = 0 ∨ Ji_cont = 0 then is.t * (j - l + 1) else 0) +
    (if is.Ik_cont = 0 then is.t * n_size else 0)

/-- The decision `level3_BLAS` of lines 1271-1274. -/
def level3 (is : Isect) (Ji_cont : Int) (l j n_size : Nat) : Bool :=
  decide (copyCnt is Ji_cont l j n_size < is.t * (j - l + 1) * n_size)

/-- One contribution of shape `target(Ik,:) -= donor(Ii,Ji) * src(l:j,:)` with the
three-way branch of lines 1168-1740.  The state is the target, `gemm_buff` and
`size_gemm_buff`. -/
def contribNN (TI DI DJ RI : List Nat) (l j n_size : Nat) (donor src : Nat → R)
    (st : (Nat → R) × (Nat → R) × Nat) : (Nat → R) × (Nat → R) × Nat :=
  if (intersect TI DI).Ii_cont ≠ 0 ∧ (intersect TI DI).Ik_cont ≠ 0 ∧ jiCont RI l j ≠ 0 then
    (nnZeroCopy TI DI RI l j n_size (intersect TI DI) (jFirst RI DJ l) donor src st.1,
      st.2.1, st.2.2)
  else if level3 (intersect TI DI) (jiCont RI l j) l j n_size = true ∧ (intersect TI DI).t ≠ 0 then
    ((nnGather TI DI DJ RI l j n_size (intersect TI DI) (jiCont RI l j) (jFirst RI DJ l)
        donor src st.1 st.2.1).1,
     (nnGather TI DI DJ RI l j n_size (intersect TI DI) (jiCont RI l j) (jFirst RI DJ l)
        donor src st.1 st.2.1).2,
     max st.2.2 (copyCnt (intersect TI DI) (jiCont RI l j) l j n_size))
  else if (intersect TI DI).t ≠ 0 then
    (nnScalar TI DI DJ RI l j n_size donor src st.1, st.2.1, st.2.2)
  else st

/-! ## Contributions of shape `target(l:j,:) -= donor(Ii,Ji)^T * src(Ik,:)`

Parameters: `RI` the target's row index array, from which the run `l..j` is taken
(`mut_size = |RI|` is the target's leading dimension), `SI` the row index array of
`src` (`ml_size = |SI|` its leading dimension), `DI`, `DJ` as before. -/

/-- The zero-copy call of lines 2562-2569. -/
def tnZeroCopy (RI SI DI : List Nat) (l j n_size : Nat) (is : Isect) (j_first : Int)
    (donor src tgt : Nat → R) : Nat → R :=
  if j - l + 1 ≠ 0 ∧ is.t ≠ 0 then
    dgemm true (j - l + 1) n_size is.t (-1) donor
      (donorOffset is.i_first DI.length j_first) DI.length src is.k_first SI.length 1 tgt
      l RI.length
  else tgt

/-- Lines 2762-2783: copy `src(Ik,:)` into the buffer, row by row of the
intersection; the state is the buffer and the offset `pr2 - gemm_buff`. -/
def gatherB (SI DI : List Nat) (n_size t cOff : Nat) (src buf : Nat → R) : Nat → R :=
  (mergeLoop SI DI
    (fun r _ (st : (Nat → R) × Nat) =>
      (forLoop n_size
          (fun ii b => Function.update b (st.2 + t * ii) (src (r + SI.length * ii)))
          st.1,
        st.2 + 1))
    (SI.length + DI.length) 0 0 (buf, cOff)).1

/-- The gather and multiply path of lines 2664-2844.  The result is the target and
the buffer `gemm_buff`. -/
def tnGather (RI SI DI DJ : List Nat) (l j n_size : Nat) (is : Isect) (Ji_cont j_first : Int)
    (donor src tgt buf : Nat → R) : (Nat → R) × (Nat → R) :=
  let gathered : Bool := decide (is.Ii_cont = 0 ∨ Ji_cont = 0)
  let buf1 := if gathered then gatherA SI DI DJ RI l is.t donor buf else buf
  let cOff := if gathered then is.t * (j - l + 1) else 0
  let buf2 := if is.Ik_cont = 0 then gatherB SI DI n_size is.t cOff src buf1 else buf1
  let tgt1 :=
    if j - l + 1 ≠ 0 ∧ is.t ≠ 0 then
      (if gathered then
        (if is.Ik_cont = 0 then
          dgemm true (j - l + 1) n_size is.t (-1) buf2 0 is.t buf2 cOff is.t 1 tgt l RI.length
        else
          dgemm true (j - l + 1) n_size is.t (-1) buf2 0 is.t src is.k_first SI.length 1 tgt
            l RI.length)
      else
        (if is.Ik_cont = 0 then
          dgemm true (j - l + 1) n_size is.t (-1) donor
            (donorOffset is.i_first DI.length j_first) DI.length buf2 cOff is.t 1 tgt
            l RI.length
        else
          dgemm true (j - l + 1) n_size is.t (-1) donor
            (donorOffset is.i_first DI.length j_first) DI.length src is.k_first SI.length 1
            tgt l RI.length))
    else tgt
  (tgt1, buf2)

/-- The hand-coded loop of lines 2908-2944; the state of the loop over the
columns `ii` is the target and the offset `pr3 - prBUTinvL`. -/
def tnScalar (RI SI DI DJ : List Nat) (l j n_size : Nat) (donor src tgt : Nat → R) : Nat → R :=
  mergeLoop SI DI
    (fun p q T =>
      (forLoop n_size
        (fun ii (st : (Nat → R) × Nat) =>
          ((colScan DJ RI l
              (fun s _ (st3 : (Nat → R) × Nat) =>
                (Function.update st3.1 st3.2
                  (st3.1 st3.2 - donor (q + DI.length * s) * src (p + SI.length * ii)),
                 st3.2 + 1))
              (st.1, st.2)).2.1,
           (colScan DJ RI l
              (fun s _ (st3 : (Nat → R) × Nat) =>
                (Function.update st3.1 st3.2
                  (st3.1 st3.2 - donor (q + DI.length * s) * src (p + SI.length * ii)),
                 st3.2 + 1))
              (st.1, st.2)).2.2 + (RI.length - (j - l + 1))))
        (T, l)).1)
    (SI.length + DI.length) 0 0 tgt

/-- One contribution of shape `target(l:j,:) -= donor(Ii,Ji)^T * src(Ik,:)` with the
three-way branch of lines 2556-3006.  The state is the target, `gemm_buff` and
`size_gemm_buff`. -/
def contribTN (RI SI DI DJ : List Nat) (l j n_size : Nat) (donor src : Nat → R)
    (st : (Nat → R) × (Nat → R) × Nat) : (Nat → R) × (Nat → R) × Nat :=
  if (intersect SI DI).Ii_cont ≠ 0 ∧ (intersect SI DI).Ik_cont ≠ 0 ∧ jiCont RI l j ≠ 0 then
    (tnZeroCopy RI SI DI l j n_size (intersect SI DI) (jFirst RI DJ l) donor src st.1,
      st.2.1, st.2.2)
  else if level3 (intersect SI DI) (jiCont RI l j) l j n_size = true ∧ (intersect SI DI).t ≠ 0 then
    ((tnGather RI SI DI DJ l j n_size (intersect SI DI) (jiCont RI l j) (jFirst RI DJ l)
        donor src st.1 st.2.1).1,
     (tnGather RI SI DI DJ l j n_size (intersect SI DI) (jiCont RI l j) (jFirst RI DJ l)
        donor src st.1 st.2.1).2,
     max st.2.2 (copyCnt (intersect SI DI) (jiCont RI l j) l j n_size))
  else if (intersect SI DI).t ≠ 0 then
    (tnScalar RI SI DI DJ l j n_size donor src st.1, st.2.1, st.2.2)
  else st

/-! ## Data model -/

/-- A block column `BL{k}` or `BUT{k}` of the input: the index arrays `J` and `I`,
the values of `L` (`|I| x |J|`) and of `D`, and what `mxGetM`, `mxGetN` and
`mxIsNumeric` report for the field `D`. -/
structure Block (R : Type) where
  J : List Nat
  I : List Nat
  L : Nat → R
  D : Nat → R
  Dm : Nat
  Dn : Nat
  Dnumeric : Bool

/-- A block `BD{k}` of the input: the stored values of the sparse matrix `D` in
storage order (`mxGetPr`), and what `mxGetM`, `mxGetN`, `mxIsSparse` report. -/
structure DiagBlock (R : Type) where
  D : Nat → R
  Dm : Nat
  Dn : Nat
  Dsparse : Bool

/-- A block column `BLinv{k}` or `BUTinv{k}` of the output: `J`, `I`, the values
of `L` with its shape, and the shape and number of stored entries of the sparse
field `D`. -/
structure InvBlock (R : Type) where
  J : List Nat
  I : List Nat
  L : Nat → R
  Lm : Nat
  Ln : Nat
  Dm : Nat
  Dn : Nat
  Dnz : Nat

/-- A block `BDinv{k}` of the output: `J` and the dense matrix `D` with its shape. -/
structure DinvBlock (R : Type) where
  J : List Nat
  D : Nat → R
  Dm : Nat
  Dn : Nat

/-- The six arguments of the call. -/
structure Input (R : Type) where
  BL : List (Block R)
  BD : List (DiagBlock R)
  BUT : List (Block R)
  perm : List Nat
  Deltal : List R
  Deltar : List R

/-- The four results of the call; the cell arrays have `nblocks` cells. -/
structure Output (R : Type) where
  D : List R
  nblocks : Nat
  BLinv : Nat → InvBlock R
  BDinv : Nat → DinvBlock R
  BUTinv : Nat → InvBlock R

/-- The variables that live across the blocks: the three output cell arrays and
the auxiliary arrays `Dbuff`, `gemm_buff`, `ipiv` with `size_gemm_buff`, `sumn`. -/
structure State (R : Type) where
  BLinv : Nat → InvBlock R
  BDinv : Nat → DinvBlock R
  BUTinv : Nat → InvBlock R
  Dbuff : Nat → R
  gemm_buff : Nat → R
  size_gemm_buff : Nat
  ipiv : Nat → Nat
  sumn : Nat

/-- The ways in which the call ends in `mexErrMsgTxt`. -/
inductive Err where
  | sizeBD
  | sizeBUT
  | sizeDeltal
  | sizeDeltar
  | noBlock
  | shapeBLD (k : Nat)
  | shapeBDD (k : Nat)
  | shapeBUTD (k : Nat)
  | illegalArg (k : Nat) (arg : Nat)
  | singular (k : Nat) (j : Nat)
  deriving DecidableEq, Repr

/-- A block column with no entries, standing for a cell that is not there. -/
def Block.empty (R : Type) [Zero R] : Block R :=
  { J := [], I := [], L := fun _ => 0, D := fun _ => 0, Dm := 0, Dn := 0, Dnumeric := false }

/-- A diagonal block with no entries, standing for a cell that is not there. -/
def DiagBlock.empty (R : Type) [Zero R] : DiagBlock R :=
  { D := fun _ => 0, Dm := 0, Dn := 0, Dsparse := false }

/-- An output cell that has not been set. -/
def InvBlock.empty (R : Type) [Zero R] : InvBlock R :=
  { J := [], I := [], L := fun _ => 0, Lm := 0, Ln := 0, Dm := 0, Dn := 0, Dnz := 0 }

/-- An output cell that has not been set. -/
def DinvBlock.empty (R : Type) [Zero R] : DinvBlock R :=
  { J := [], D := fun _ => 0, Dm := 0, Dn := 0 }

/-- The call `memcpy(dst, src, n * sizeof(double))` on an index array. -/
def memcpyIdx (src : List Nat) (n : Nat) : List Nat :=
  (List.range n).map (fun x => src.getD x 0)

/-! ## Block-ownership map (lines 257-321) -/

/-- The array `block`, zero-initialised by `CAlloc` and filled with
`block[J[k] - 1] = i` for every entry of every `BL{i}.J`. -/
def buildBlock (BL : List (Block R)) : Nat → Nat :=
  forLoop BL.length
    (fun i b => forLoop (BL.getD i (Block.empty R)).J.length
      (fun k b1 => Function.update b1 ((BL.getD i (Block.empty R)).J.getD k 0 - 1) i) b)
    (fun _ => 0)

/-! ## Update part I (lines 828-3013) and part II (lines 3015-5081) for block `k`

The state of every contribution is `(target, gemm_buff, size_gemm_buff)`. -/

/-- Contribution 1, part I 1(a), lines 1159-1740:
`BUTinv{k}.L(Ik,:) -= BUTinv{i}.L(Ii,Ji) * BL{k}.L(l:j,:)` for the run `l..j` of `BL{k}.I`,
`Ik`, `Ii` from `BUTinv{k}.I` and `BUTinv{i}.I`. -/
def contrib1 (BLk BUTk : Block R) (BUTinvi : InvBlock R) (l j : Nat)
    (st : (Nat → R) × (Nat → R) × Nat) : (Nat → R) × (Nat → R) × Nat :=
  contribNN BUTk.I BUTinvi.I BUTinvi.J BLk.I l j BUTk.J.length BUTinvi.L BLk.L st

/-- Contribution 2, part I 1(b), lines 1745-2327:
`BUTinv{k}.L(Ikt,:) -= BDinv{i}.D(Jit,Ji) * BL{k}.L(l:j,:)` for the run `l..j` of `BL{k}.I`,
`Ikt`, `Jit` from `BUTinv{k}.I` and `BUTinv{i}.J`. -/
def contrib2 (BLk BUTk : Block R) (BUTinvi : InvBlock R) (BDinvi : DinvBlock R) (l j : Nat)
    (st : (Nat → R) × (Nat → R) × Nat) : (Nat → R) × (Nat → R) × Nat :=
  contribNN BUTk.I BUTinvi.J BUTinvi.J BLk.I l j BUTk.J.length BDinvi.D BLk.L st

/-- Contribution 3, part I 2, lines 2546-3006:
`BUTinv{k}.L(l:j,:) -= BLinv{i}.L(Ii,Ji)^T * BL{k}.L(Ik,:)` for the run `l..j` of
`BUTinv{k}.I`, `Ik`, `Ii` from `BL{k}.I` and `BLinv{i}.I`. -/
def contrib3 (BLk BUTk : Block R) (BLinvi : InvBlock R) (l j : Nat)
    (st : (Nat → R) × (Nat → R) × Nat) : (Nat → R) × (Nat → R) × Nat :=
  contribTN BUTk.I BLk.I BLinvi.I BLinvi.J l j BUTk.J.length BLinvi.L BLk.L st

/-- Contribution 4, part II 1, lines 3237-3815:
`BLinv{k}.L(Ik,:) -= BLinv{i}.L(Ii,Ji) * BUT{k}.L(l:j,:)` for the run `l..j` of `BUT{k}.I`,
`Ik`, `Ii` from `BLinv{k}.I` and `BLinv{i}.I`. -/
def contrib4 (BLk BUTk : Block R) (BLinvi : InvBlock R) (l j : Nat)
    (st : (Nat → R) × (Nat → R) × Nat) : (Nat → R) × (Nat → R) × Nat :=
  contribNN BLk.I BLinvi.I BLinvi.J BUTk.I l j BUTk.J.length BLinvi.L BUTk.L st

/-- Contribution 5, part II 2(a), lines 4146-4608:
`BLinv{k}.L(l:j,:) -= BUTinv{i}.L(Ii,Ji)^T * BUT{k}.L(Ik,:)` for the run `l..j` of
`BLinv{k}.I`, `Ik`, `Ii` from `BUT{k}.I` and `BUTinv{i}.I`. -/
def contrib5 (BLk BUTk : Block R) (BUTinvi : InvBlock R) (l j : Nat)
    (st : (Nat → R) × (Nat → R) × Nat) : (Nat → R) × (Nat → R) × Nat :=
  contribTN BLk.I BUTk.I BUTinvi.I BUTinvi.J l j BUTk.J.length BUTinvi.L BUTk.L st

/-- Contribution 6, part II 2(b), lines 4613-5074:
`BLinv{k}.L(l:j,:) -= BDinv{i}.D(Jit,Ji)^T * BUT{k}.L(Ikt,:)` for the run `l..j` of
`BLinv{k}.I`, `Ikt`, `Jit` from `BUT{k}.I` and `BUTinv{i}.J`. -/
def contrib6 (BLk BUTk : Block R) (BUTinvi : InvBlock R) (BDinvi : DinvBlock R) (l j : Nat)
    (st : (Nat → R) × (Nat → R) × Nat) : (Nat → R) × (Nat → R) × Nat :=
  contribTN BLk.I BUTk.I BUTinvi.J BUTinvi.J l j BUTk.J.length BDinvi.D BUTk.L st

/-- Lines 846-2334: for every run of `BL{k}.I`, contribution 1 and then
contribution 2, both into `BUTinv{k}.L`. -/
def partI1 (block : Nat → Nat) (BLk BUTk : Block R) (BUTinv : Nat → InvBlock R)
    (BDinv : Nat → DinvBlock R) (st : (Nat → R) × (Nat → R) × Nat) :
    (Nat → R) × (Nat → R) × Nat :=
  donorLoop BLk.I block
    (fun l j i s =>
      contrib2 BLk BUTk (BUTinv i) (BDinv i) l j (contrib1 BLk BUTk (BUTinv i) l j s))
    BLk.I.length 0 st

/-- Lines 2342-3013: for every run of `BUTinv{k}.I`, contribution 3 into
`BUTinv{k}.L`. -/
def partI2 (block : Nat → Nat) (BLk BUTk : Block R) (BLinv : Nat → InvBlock R)
    (st : (Nat → R) × (Nat → R) × Nat) : (Nat → R) × (Nat → R) × Nat :=
  donorLoop BUTk.I block (fun l j i s => contrib3 BLk BUTk (BLinv i) l j s)
    BUTk.I.length 0 st

/-- Update part I: `BUTinv{k}.L` after lines 828-3013. -/
def partI (block : Nat → Nat) (BLk BUTk : Block R) (BLinv BUTinv : Nat → InvBlock R)
    (BDinv : Nat → DinvBlock R) (st : (Nat → R) × (Nat → R) × Nat) :
    (Nat → R) × (Nat → R) × Nat :=
  partI2 block BLk BUTk BLinv (partI1 block BLk BUTk BUTinv BDinv st)

/-- Lines 3033-3822: for every run of `BUT{k}.I`, contribution 4 into `BLinv{k}.L`. -/
def partII1 (block : Nat → Nat) (BLk BUTk : Block R) (BLinv : Nat → InvBlock R)
    (st : (Nat → R) × (Nat → R) × Nat) : (Nat → R) × (Nat → R) × Nat :=
  donorLoop BUTk.I block (fun l j i s => contrib4 BLk BUTk (BLinv i) l j s)
    BUTk.I.length 0 st

/-- Lines 3833-5081: for every run of `BLinv{k}.I`, contribution 5 and then
contribution 6, both into `BLinv{k}.L`. -/
def partII2 (block : Nat → Nat) (BLk BUTk : Block R) (BUTinv : Nat → InvBlock R)
    (BDinv : Nat → DinvBlock R) (st : (Nat → R) × (Nat → R) × Nat) :
    (Nat → R) × (Nat → R) × Nat :=
  donorLoop BLk.I block
    (fun l j i s =>
      contrib6 BLk BUTk (BUTinv i) (BDinv i) l j (contrib5 BLk BUTk (BUTinv i) l j s))
    BLk.I.length 0 st

/-- Update part II: `BLinv{k}.L` after lines 3015-5081. -/
def partII (block : Nat → Nat) (BLk BUTk : Block R) (BLinv BUTinv : Nat → InvBlock R)
    (BDinv : Nat → DinvBlock R) (st : (Nat → R) × (Nat → R) × Nat) :
    (Nat → R) × (Nat → R) × Nat :=
  partII2 block BLk BUTk BUTinv BDinv (partII1 block BLk BUTk BLinv st)

/-! ## Assembly of the diagonal block -/

/-- Lines 491-508 (base case), the body of the loop over the columns `j`: the
diagonal entry from `BD{k}.D`, the entries right of it from column `j` of `BUT{k}.D`
times the diagonal entry, and `ipiv[j] = j + 1`.  The state is `BDinv{k}.D`, `ipiv` and
the offsets `prBDD`, `prBUTD`; the inner state is `BDinv{k}.D` and the offsets `pr`,
`prBUTD`. -/
def upperStepBase (n_size : Nat) (bdd butd : Nat → R) (j : Nat)
    (st : (Nat → R) × (Nat → Nat) × Nat × Nat) : (Nat → R) × (Nat → Nat) × Nat × Nat :=
  ((forLoop (n_size - (j + 1))
      (fun _ (s3 : (Nat → R) × Nat × Nat) =>
        (Function.update s3.1 s3.2.1 (bdd st.2.2.1 * butd s3.2.2),
          s3.2.1 + n_size, s3.2.2 + 1))
      (Function.update st.1 (j * n_size + j) (bdd st.2.2.1),
        j * n_size + j + n_size, st.2.2.2 + (j + 1))).1,
   Function.update st.2.1 j (j + 1),
   st.2.2.1 + 1,
   (forLoop (n_size - (j + 1))
      (fun _ (s3 : (Nat → R) × Nat × Nat) =>
        (Function.update s3.1 s3.2.1 (bdd st.2.2.1 * butd s3.2.2),
          s3.2.1 + n_size, s3.2.2 + 1))
      (Function.update st.1 (j * n_size + j) (bdd st.2.2.1),
        j * n_size + j + n_size, st.2.2.2 + (j + 1))).2.2)

/-- Lines 489-509 (base case): the loop over the columns. -/
def assembleUpperBase (n_size : Nat) (bdd butd D0 : Nat → R) (ipiv0 : Nat → Nat) :
    (Nat → R) × (Nat → Nat) × Nat × Nat :=
  forLoop n_size (upperStepBase n_size bdd butd) (D0, ipiv0, 0, 0)

/-- Lines 516-520 (base case), the body of the loop over the columns `j`: the
entries below the diagonal from `BL{k}.D`.  The state is `BDinv{k}.D` and the offsets
`prBDinvD`, `prBLD`. -/
def lowerStepBase (n_size : Nat) (bld : Nat → R) (j : Nat) (st : (Nat → R) × Nat × Nat) :
    (Nat → R) × Nat × Nat :=
  forLoop (n_size - (j + 1))
    (fun _ (s3 : (Nat → R) × Nat × Nat) =>
      (Function.update s3.1 s3.2.1 (bld s3.2.2), s3.2.1 + 1, s3.2.2 + 1))
    (st.1, st.2.1 + (j + 1), st.2.2 + (j + 1))

/-- Lines 511-521 (base case): the loop over the columns. -/
def assembleLowerBase (n_size : Nat) (bld D0 : Nat → R) : Nat → R :=
  (forLoop n_size (lowerStepBase n_size bld) (D0, 0, 0)).1

/-- Lines 5130-5147 (main loop): as `upperStepBase`. -/
def upperStepRec (n_size : Nat) (bdd butd : Nat → R) (j : Nat)
    (st : (Nat → R) × (Nat → Nat) × Nat × Nat) : (Nat → R) × (Nat → Nat) × Nat × Nat :=
  ((forLoop (n_size - (j + 1))
      (fun _ (s3 : (Nat → R) × Nat × Nat) =>
        (Function.update s3.1 s3.2.1 (bdd st.2.2.1 * butd s3.2.2),
          s3.2.1 + n_size, s3.2.2 + 1))
      (Function.update st.1 (j * n_size + j) (bdd st.2.2.1),
        j * n_size + j + n_size, st.2.2.2 + (j + 1))).1,
   Function.update st.2.1 j (j + 1),
   st.2.2.1 + 1,
   (forLoop (n_size - (j + 1))
      (fun _ (s3 : (Nat → R) × Nat × Nat) =>
        (Function.update s3.1 s3.2.1 (bdd st.2.2.1 * butd s3.2.2),
          s3.2.1 + n_size, s3.2.2 + 1))
      (Function.update st.1 (j * n_size + j) (bdd st.2.2.1),
        j * n_size + j + n_size, st.2.2.2 + (j + 1))).2.2)

/-- Lines 5128-5148 (main loop): the loop over the columns. -/
def assembleUpperRec (n_size : Nat) (bdd butd D0 : Nat → R) (ipiv0 : Nat → Nat) :
    (Nat → R) × (Nat → Nat) × Nat × Nat :=
  forLoop n_size (upperStepRec n_size bdd butd) (D0, ipiv0, 0, 0)

/-- Lines 5155-5159 (main loop): as `lowerStepBase`. -/
def lowerStepRec (n_size : Nat) (bld : Nat → R) (j : Nat) (st : (Nat → R) × Nat × Nat) :
    (Nat → R) × Nat × Nat :=
  forLoop (n_size - (j + 1))
    (fun _ (s3 : (Nat → R) × Nat × Nat) =>
      (Function.update s3.1 s3.2.1 (bld s3.2.2), s3.2.1 + 1, s3.2.2 + 1))
    (st.1, st.2.1 + (j + 1), st.2.2 + (j + 1))

/-- Lines 5150-5160 (main loop): the loop over the columns. -/
def assembleLowerRec (n_size : Nat) (bld D0 : Nat → R) : Nat → R :=
  (forLoop n_size (lowerStepRec n_size bld) (D0, 0, 0)).1

/-- Lines 581-585 and 5238-5242: `Dbuff[sumn + j] = BDinv{k}.D(j,j)`; the state is
`Dbuff` and the offset `prBDinvD`. -/
def extractDiag (n_size sumn : Nat) (D Dbuff : Nat → R) : Nat → R :=
  (forLoop n_size
    (fun j (st : (Nat → R) × Nat) =>
      (Function.update st.1 (sumn + j) (D st.2), st.2 + (n_size + 1)))
    (Dbuff, 0)).1

end Ring

section Field

variable {R : Type} [Field R] [DecidableEq R]

/-! ## The inverse-from-LU primitive `dgetri_` -/

/-- The unit lower triangular factor held below the diagonal of a packed LU array. -/
def packedL (n lda : Nat) (a : Nat → R) : Matrix (Fin n) (Fin n) R :=
  Matrix.of fun i j =>
    if j.val < i.val then a (i.val + lda * j.val) else if i.val = j.val then 1 else 0

/-- The upper triangular factor held on and above the diagonal of a packed LU array. -/
def packedU (n lda : Nat) (a : Nat → R) : Matrix (Fin n) (Fin n) R :=
  Matrix.of fun i j => if i.val ≤ j.val then a (i.val + lda * j.val) else 0

/-- The matrix `L * U` that a packed LU array stands for. -/
def luMatrix (n lda : Nat) (a : Nat → R) : Matrix (Fin n) (Fin n) R :=
  packedL n lda a * packedU n lda a

/-- The inverse of a square matrix over a field by Cramer's rule. -/
def exactInverse {n : Nat} (M : Matrix (Fin n) (Fin n) R) : Matrix (Fin n) (Fin n) R :=
  (M.det)⁻¹ • M.adjugate

/-- The column interchanges of `dgetri_`: for `j = n-1, ..., 1` (1-based) the
columns `j` and `ipiv(j)` are swapped when they differ. -/
def applyPivots (n : Nat) (ipiv : Nat → Nat) (X : Matrix (Fin n) (Fin n) R) :
    Matrix (Fin n) (Fin n) R :=
  forLoop (n - 1)
    (fun e Y =>
      if h : n - 2 - e < n ∧ ipiv (n - 2 - e) - 1 < n then
        Y.submatrix id (Equiv.swap (⟨n - 2 - e, h.1⟩ : Fin n) ⟨ipiv (n - 2 - e) - 1, h.2⟩)
      else Y)
    X

/-- Write a square matrix over the leading `n x n` part of a flat array. -/
def unpack (n lda : Nat) (X : Matrix (Fin n) (Fin n) R) (a : Nat → R) : Nat → R :=
  fun x => if h : x % lda < n ∧ x / lda < n then X ⟨x % lda, h.1⟩ ⟨x / lda, h.2⟩ else a x

/-- Modelled from the spec: the LAPACK routine `dgetri_(n, A, lda, ipiv, work, lwork,
info)`, which is not part of the repository.  The spec asks for an in-place
inverse from an LU decomposition that signals an illegal argument or a singular
diagonal block; the model returns `info` and the array: `info = -3` or `-6` for a
leading dimension or workspace below `max(1, n)`, `info = j` for the first
(1-based) zero `U(j,j)`, and otherwise `info = 0` with the exact inverse of
`L * U` after the column interchanges of `ipiv`. -/
def dgetri (n : Nat) (a : Nat → R) (lda : Nat) (ipiv : Nat → Nat) (lwork : Nat) :
    Int × (Nat → R) :=
  if lda < max 1 n then (-3, a)
  else if lwork < max 1 n then (-6, a)
  else
    match (List.range n).find? (fun j => decide (a (j + lda * j) = 0)) with
    | some j => ((j : Int) + 1, a)
    | none => (0, unpack n lda (applyPivots n ipiv (exactInverse (luMatrix n lda a))) a)

/-! ## The driver -/

/-- The state after the allocations of lines 235-258; output cells not yet set
are empty blocks. -/
def initState (n : Nat) : State R :=
  { BLinv := fun _ => InvBlock.empty R, BDinv := fun _ => DinvBlock.empty R,
    BUTinv := fun _ => InvBlock.empty R, Dbuff := fun _ => 0, gemm_buff := fun _ => 0,
    size_gemm_buff := n, ipiv := fun _ => 0, sumn := 0 }

/-- Lines 331-619: the last block `k = nblocks - 1`. -/
def baseCase (n k : Nat) (BLk : Block R) (BDk : DiagBlock R) (BUTk : Block R) (st : State R) :
    Except Err (State R) :=
  if BLk.Dn ≠ BLk.J.length ∨ BLk.Dm ≠ BLk.J.length ∨ BLk.Dnumeric = false then
    Except.error (Err.shapeBLD k)
  else if BDk.Dn ≠ BLk.J.length ∨ BDk.Dm ≠ BLk.J.length ∨ BDk.Dsparse = false then
    Except.error (Err.shapeBDD k)
  else if BUTk.Dn ≠ BUTk.J.length ∨ BUTk.Dm ≠ BUTk.J.length ∨ BUTk.Dnumeric = false then
    Except.error (Err.shapeBUTD k)
  else
    let n_size := BUTk.J.length
    let up := assembleUpperBase n_size BDk.D BUTk.D (fun _ => 0) st.ipiv
    let packed := assembleLowerBase n_size BLk.D up.1
    let res := dgetri n_size packed n_size up.2.1 n
    if res.1 < 0 then Except.error (Err.illegalArg k (-res.1).toNat)
    else if res.1 > 0 then Except.error (Err.singular k res.1.toNat)
    else
      Except.ok
        { BLinv := Function.update st.BLinv k
            { J := memcpyIdx BLk.J n_size, I := [], L := fun _ => 0, Lm := 0, Ln := n_size,
              Dm := n_size, Dn := n_size, Dnz := 0 },
          BUTinv := Function.update st.BUTinv k
            { J := memcpyIdx BUTk.J n_size, I := [], L := fun _ => 0, Lm := 0, Ln := n_size,
              Dm := n_size, Dn := n_size, Dnz := 0 },
          BDinv := Function.update st.BDinv k
            { J := memcpyIdx BLk.J n_size, D := res.2, Dm := n_size, Dn := n_size },
          Dbuff := extractDiag n_size (n - n_size) res.2 st.Dbuff,
          gemm_buff := st.gemm_buff,
          size_gemm_buff := st.size_gemm_buff,
          ipiv := up.2.1,
          sumn := n - n_size }

/-- Lines 622-5276: one pass of the main loop, for block `k < nblocks - 1`. -/
def processBlock (n k : Nat) (block : Nat → Nat) (BLk : Block R) (BDk : DiagBlock R)
    (BUTk : Block R) (st : State R) : Except Err (State R) :=
  if BLk.Dn ≠ BLk.J.length ∨ BLk.Dm ≠ BLk.J.length ∨ BLk.Dnumeric = false then
    Except.error (Err.shapeBLD k)
  else if BDk.Dn ≠ BLk.J.length ∨ BDk.Dm ≠ BLk.J.length ∨ BDk.Dsparse = false then
    Except.error (Err.shapeBDD k)
  else if BUTk.Dn ≠ BUTk.J.length ∨ BUTk.Dm ≠ BUTk.J.length ∨ BUTk.Dnumeric = false then
    Except.error (Err.shapeBUTD k)
  else
    let n_size := BUTk.J.length
    let s1 := partI block BLk BUTk st.BLinv st.BUTinv st.BDinv
      (fun _ => 0, st.gemm_buff, st.size_gemm_buff)
    let s2 := partII block BLk BUTk st.BLinv st.BUTinv st.BDinv (fun _ => 0, s1.2.1, s1.2.2)
    let up := assembleUpperRec n_size BDk.D BUTk.D (fun _ => 0) st.ipiv
    let packed := assembleLowerRec n_size BLk.D up.1
    let res := dgetri n_size packed n_size up.2.1 n
    if res.1 < 0 then Except.error (Err.illegalArg k (-res.1).toNat)
    else if res.1 > 0 then Except.error (Err.singular k res.1.toNat)
    else
      let Dk :=
        if BUTk.I.length ≠ 0 then
          dgemm true n_size n_size BUTk.I.length (-1) BUTk.L 0 BUTk.I.length s1.1 0
            BUTk.I.length 1 res.2 0 n_size
        else res.2
      Except.ok
        { BLinv := Function.update st.BLinv k
            { J := memcpyIdx BLk.J n_size, I := memcpyIdx BLk.I BLk.I.length, L := s2.1,
              Lm := BLk.I.length, Ln := n_size, Dm := n_size, Dn := n_size, Dnz := 0 },
          BUTinv := Function.update st.BUTinv k
            { J := memcpyIdx BUTk.J n_size, I := memcpyIdx BUTk.I BUTk.I.length, L := s1.1,
              Lm := BUTk.I.length, Ln := n_size, Dm := n_size, Dn := n_size, Dnz := 0 },
          BDinv := Function.update st.BDinv k
            { J := memcpyIdx BLk.J n_size, D := Dk, Dm := n_size, Dn := n_size },
          Dbuff := extractDiag n_size (st.sumn - n_size) Dk st.Dbuff,
          gemm_buff := s2.2.1,
          size_gemm_buff := s2.2.2,
          ipiv := up.2.1,
          sumn := st.sumn - n_size }

/-- The loop `while (k >= 0) { ...; k--; }` of lines 622-5276, entered with
`k = cnt - 1`. -/
def mainLoop (n : Nat) (block : Nat → Nat) (inp : Input R) : Nat → State R → Except Err (State R)
  | 0, st => Except.ok st
  | k + 1, st =>
    match processBlock n k block (inp.BL.getD k (Block.empty R))
        (inp.BD.getD k (DiagBlock.empty R)) (inp.BUT.getD k (Block.empty R)) st with
    | Except.error e => Except.error e
    | Except.ok st1 => mainLoop n block inp k st1

/-- Lines 5279-5284: the inverse permutation, written into `ipiv`. -/
def invPerm (n : Nat) (perm : List Nat) (ipiv : Nat → Nat) : Nat → Nat :=
  forLoop n (fun i ip => Function.update ip (perm.getD i 0 - 1) i) ipiv

/-- Lines 5286-5293: `D[i] = Deltar[i] * Dbuff[ipiv[i]] * Deltal[i]`. -/
def rescale (n : Nat) (Deltal Deltar : List R) (Dbuff : Nat → R) (ipiv : Nat → Nat) : List R :=
  (List.range n).map (fun i => Deltar.getD i 0 * Dbuff (ipiv i) * Deltal.getD i 0)

/-- The function `mexFunction`: the argument checks of lines 113-218, the block map,
the last block, the main loop and the final reordering and rescaling.  An empty
cell array `BL` makes the source read the cell `-1`; that call is reported as
`Err.noBlock`. -/
def selbinv (inp : Input R) : Except Err (Output R) :=
  if inp.BD.length ≠ inp.BL.length then Except.error Err.sizeBD
  else if inp.BUT.length ≠ inp.BL.length then Except.error Err.sizeBUT
  else if inp.Deltal.length ≠ inp.perm.length then Except.error Err.sizeDeltal
  else if inp.Deltar.length ≠ inp.perm.length then Except.error Err.sizeDeltar
  else if inp.BL.length = 0 then Except.error Err.noBlock
  else
    match baseCase inp.perm.length (inp.BL.length - 1)
        (inp.BL.getD (inp.BL.length - 1) (Block.empty R))
        (inp.BD.getD (inp.BL.length - 1) (DiagBlock.empty R))
        (inp.BUT.getD (inp.BL.length - 1) (Block.empty R))
        (initState inp.perm.length) with
    | Except.error e => Except.error e
    | Except.ok st0 =>
      match mainLoop inp.perm.length (buildBlock inp.BL) inp (inp.BL.length - 1) st0 with
      | Except.error e => Except.error e
      | Except.ok st =>
        Except.ok
          { D := rescale inp.perm.length inp.Deltal inp.Deltar st.Dbuff
              (invPerm inp.perm.length inp.perm st.ipiv),
            nblocks := inp.BL.length,
            BLinv := st.BLinv, BDinv := st.BDinv, BUTinv := st.BUTinv }

end Field

/-! ## Vocabulary of the statements -/

/-- The position in the donor's `J` of the `b`-th entry of the run that starts at
position `l` of `RI`. -/
def posJ (DJ RI : List Nat) (l b : Nat) : Nat :=
  DJ.indexOf (RI.getD (l + b) 0)

/-- A donor run: positions `l..j` of the strictly ascending index array `RI` whose
entries all lie in the strictly ascending array `DJ` of 1-based indices (the `J` of
the donor), the entry after the run, if there is one, not being in `DJ`. -/
structure DonorRun (DJ RI : List Nat) (l j : Nat) : Prop where
  sortedJ : DJ.Sorted (· < ·)
  sortedI : RI.Sorted (· < ·)
  le : l ≤ j
  lt : j < RI.length
  sub : ∀ r, l ≤ r → r ≤ j → RI.getD r 0 ∈ DJ
  maximal : j + 1 < RI.length → RI.getD (j + 1) 0 ∉ DJ
  onebased : ∀ v ∈ DJ, 1 ≤ v

/-- The index array holds consecutive integers. -/
def Consecutive (DJ : List Nat) : Prop :=
  ∀ s, s < DJ.length → DJ.getD s 0 = DJ.getD 0 0 + s

/-- `T2` is `T` except in row `ρ` of the `ld`-strided block at offset `off`, where the
entry of column `c < n` is `F c` of the old entry. -/
def RowUpd {R : Type} (off ld n ρ : Nat) (F : Nat → R → R) (T T2 : Nat → R) : Prop :=
  (∀ c, c < n → T2 (off + ρ + ld * c) = F c (T (off + ρ + ld * c))) ∧
  (∀ x, (∀ c, c < n → x ≠ off + ρ + ld * c) → T2 x = T x)

/-- `T2` is `T` except in the rows `row i` (`i < cnt`), updated as in `RowUpd`. -/
def RowsUpd {R : Type} (off ld n cnt : Nat) (row : Nat → Nat) (F : Nat → Nat → R → R)
    (T T2 : Nat → R) : Prop :=
  (∀ i, i < cnt → ∀ c, c < n → T2 (off + row i + ld * c) = F i c (T (off + row i + ld * c))) ∧
  (∀ x, (∀ i, i < cnt → ∀ c, c < n → x ≠ off + row i + ld * c) → T2 x = T x)

/-- Entry `(q, c)` of the product `donor(., Ji) * src(l:j, .)`: the row `q` of the
donor, restricted to the positions `Ji` of the run in the donor's `J`, times column
`c` of the rows `l..j` of `src`; `DM` and `|RI|` are the leading dimensions. -/
def nnTerm {R : Type} [CommRing R] (DJ RI : List Nat) (l j DM : Nat) (donor src : Nat → R)
    (q c : Nat) : R :=
  ∑ b ∈ Finset.range (j - l + 1), donor (q + DM * posJ DJ RI l b) * src (l + b + RI.length * c)

/-- What every path of a contribution `target(Ik,:) -= donor(Ii,Ji) * src(l:j,:)` has
to achieve, in terms of the matched positions: row `p_i` of the target loses the
row `q_i` of the product, for the `i`-th matched pair `(p_i, q_i)`; nothing else
changes. -/
def NNSpec {R : Type} [CommRing R] (TI DI DJ RI : List Nat) (l j n_size : Nat)
    (donor src T T2 : Nat → R) : Prop :=
  RowsUpd 0 TI.length n_size (matchPairs TI DI).length
    (fun i => ((matchPairs TI DI).getD i (0, 0)).1)
    (fun i c v => v - nnTerm DJ RI l j DI.length donor src ((matchPairs TI DI).getD i (0, 0)).2 c)
    T T2

/-- Entry `(b, c)` of the product `donor(Ii,Ji)^T * src(Ik,:)`, the sum running over
the matched pairs `(p_a, q_a)` of `SI` and `DI`: column `Ji[b]` of the donor rows
`q_a` times column `c` of the rows `p_a` of `src`. -/
def tnTerm {R : Type} [CommRing R] (SI DI DJ RI : List Nat) (l : Nat) (donor src : Nat → R)
    (b c : Nat) : R :=
  ∑ a ∈ Finset.range (matchPairs SI DI).length,
    donor (((matchPairs SI DI).getD a (0, 0)).2 + DI.length * posJ DJ RI l b) *
      src (((matchPairs SI DI).getD a (0, 0)).1 + SI.length * c)

/-- What every path of a contribution `target(l:j,:) -= donor(Ii,Ji)^T * src(Ik,:)` has
to achieve: row `l + b` of the target loses row `b` of the product; nothing else
changes. -/
def TNSpec {R : Type} [CommRing R] (RI SI DI DJ : List Nat) (l j n_size : Nat)
    (donor src T T2 : Nat → R) : Prop :=
  RowsUpd l RI.length n_size (j - l + 1) (fun b => b)
    (fun b c v => v - tnTerm SI DI DJ RI l donor src b c) T T2

/-- Entry `(p, c)` of `donor(Ii,Ji) * src(l:j,:)` scattered to the rows `Ik` of the
target: the row `q` of the product for the `q` with `TI[p] = DI[q]`, and `0` when
row `p` of the target has no partner in the donor. -/
def nnEntry {R : Type} [CommRing R] (TI DI DJ RI : List Nat) (l j : Nat) (donor src : Nat → R)
    (p c : Nat) : R :=
  ∑ q ∈ Finset.range DI.length,
    if TI.getD p 0 = DI.getD q 0 then nnTerm DJ RI l j DI.length donor src q c else 0

/-- Entry `(b, c)` of `donor(Ii,Ji)^T * src(Ik,:)`, the common values of `SI` and `DI`
found by comparing every position of `SI` with every position of `DI`. -/
def tnEntry {R : Type} [CommRing R] (SI DI DJ RI : List Nat) (l : Nat) (donor src : Nat → R)
    (b c : Nat) : R :=
  ∑ p ∈ Finset.range SI.length, ∑ q ∈ Finset.range DI.length,
    if SI.getD p 0 = DI.getD q 0 then
      donor (q + DI.length * posJ DJ RI l b) * src (p + SI.length * c)
    else 0

/-! ## Sample blocks -/

/-- A block column `BL{k}` with one column and the single row index `5`. -/
def sampleBL5 : Block ℤ :=
  { J := [1], I := [5], L := fun _ => 1, D := fun _ => 1, Dm := 1, Dn := 1, Dnumeric := true }

/-- A block column with one column and the single row index `7`. -/
def sampleB7 : Block ℤ :=
  { J := [1], I := [7], L := fun _ => 1, D := fun _ => 1, Dm := 1, Dn := 1, Dnumeric := true }

/-- A block column with one column and the single row index `3`. -/
def sampleB3 : Block ℤ :=
  { J := [1], I := [3], L := fun _ => 1, D := fun _ => 1, Dm := 1, Dn := 1, Dnumeric := true }

/-- A finished donor block column with `J = [3, 5, 6]`, not a run of consecutive
integers, `I = [7]` and the `1 x 3` matrix `L = (10 20 30)`. -/
def gapDonor : InvBlock ℤ :=
  { J := [3, 5, 6], I := [7], L := fun x => ([10, 20, 30] : List ℤ).getD x 0,
    Lm := 1, Ln := 3, Dm := 3, Dn := 3, Dnz := 0 }

/-- A finished donor diagonal block with `J = [3, 5, 6]` and `D(i,j) = i + 3 j`. -/
def gapDonorD : DinvBlock ℤ :=
  { J := [3, 5, 6], D := fun x => (x : ℤ), Dm := 3, Dn := 3 }

/-- A block column `BL{k}` with one column and the row indices `3, 4`. -/
def sampleBL34 : Block ℤ :=
  { J := [1], I := [3, 4], L := fun x => 2 * (x : ℤ) + 1, D := fun _ => 1, Dm := 1, Dn := 1,
    Dnumeric := true }

/-- A block column with one column and the row indices `5, 8`. -/
def sampleB58 : Block ℤ :=
  { J := [1], I := [5, 8], L := fun x => (x : ℤ) + 2, D := fun _ => 1, Dm := 1, Dn := 1,
    Dnumeric := true }

/-- A finished donor block column with `J = [3, 4]`, `I = [5, 6, 8]` and a `3 x 2`
matrix `L`. -/
def plainDonor : InvBlock ℤ :=
  { J := [3, 4], I := [5, 6, 8], L := fun x => (x : ℤ) + 1,
    Lm := 3, Ln := 2, Dm := 2, Dn := 2, Dnz := 0 }

/-- A finished donor diagonal block with `J = [3, 4]`. -/
def plainDonorD : DinvBlock ℤ :=
  { J := [3, 4], D := fun x => (x : ℤ) + 1, Dm := 2, Dn := 2 }

/-! ## Vocabulary of the statements about the driver -/

section DriverVocabulary

variable {R : Type} [Field R] [DecidableEq R]

/-- The dense block `M_k = unitLower(BL{k}.D) * diag(d) * unitLower(BUT{k}.D)^T` of size
`n` that the factors of block `k` stand for; `bld`, `bdd`, `butd` are the values of
`BL{k}.D`, `BD{k}.D` and `BUT{k}.D`. -/
def localBlock (n : Nat) (bld bdd butd : Nat → R) : Matrix (Fin n) (Fin n) R :=
  packedL n n bld * Matrix.diagonal (fun j : Fin n => bdd j.val) * (packedL n n butd).transpose

/-- The leading `n x n` part of a flat column-major array of leading dimension `n`. -/
def asMatrix (n : Nat) (a : Nat → R) : Matrix (Fin n) (Fin n) R :=
  Matrix.of fun i j => a (i.val + n * j.val)

/-- The cell `BL{k}` of the call. -/
def cellBL (inp : Input R) (k : Nat) : Block R := inp.BL.getD k (Block.empty R)

/-- The cell `BD{k}` of the call. -/
def cellBD (inp : Input R) (k : Nat) : DiagBlock R := inp.BD.getD k (DiagBlock.empty R)

/-- The cell `BUT{k}` of the call. -/
def cellBUT (inp : Input R) (k : Nat) : Block R := inp.BUT.getD k (Block.empty R)

/-- The dense block `M_k` of block `k` of the call. -/
def blockM (inp : Input R) (k : Nat) :
    Matrix (Fin (cellBUT inp k).J.length) (Fin (cellBUT inp k).J.length) R :=
  localBlock (cellBUT inp k).J.length (cellBL inp k).D (cellBD inp k).D (cellBUT inp k).D

/-- A call that passes every check of the source: the cell arrays and the scaling
vectors have matching sizes, there is a block, every `D` field has the class and
the shape `|J| x |J|` that is asked for, every block has between `1` and `n` columns,
and no stored diagonal entry of a `BD{k}.D` is zero. -/
structure Valid (inp : Input R) : Prop where
  nonempty : inp.BL.length ≠ 0
  sizeBD : inp.BD.length = inp.BL.length
  sizeBUT : inp.BUT.length = inp.BL.length
  sizeDeltal : inp.Deltal.length = inp.perm.length
  sizeDeltar : inp.Deltar.length = inp.perm.length
  shapeBL : ∀ k, k < inp.BL.length →
    (cellBL inp k).Dn = (cellBL inp k).J.length ∧ (cellBL inp k).Dm = (cellBL inp k).J.length ∧
      (cellBL inp k).Dnumeric = true
  shapeBD : ∀ k, k < inp.BL.length →
    (cellBD inp k).Dn = (cellBL inp k).J.length ∧ (cellBD inp k).Dm = (cellBL inp k).J.length ∧
      (cellBD inp k).Dsparse = true
  shapeBUT : ∀ k, k < inp.BL.length →
    (cellBUT inp k).Dn = (cellBUT inp k).J.length ∧
      (cellBUT inp k).Dm = (cellBUT inp k).J.length ∧ (cellBUT inp k).Dnumeric = true
  size_pos : ∀ k, k < inp.BL.length → 1 ≤ (cellBUT inp k).J.length
  size_le : ∀ k, k < inp.BL.length → (cellBUT inp k).J.length ≤ inp.perm.length
  diag : ∀ k, k < inp.BL.length → ∀ j, j < (cellBUT inp k).J.length → (cellBD inp k).D j ≠ 0

end DriverVocabulary

/-! ## Sample calls -/

/-- Block 0 of the two-block sample: `BL{0}` with `J = [1, 2]`, the row `I = [3]`,
`L = (4 5)` and `D` with the entry `7` below the diagonal. -/
def twoBL0 : Block ℚ :=
  { J := [1, 2], I := [3], L := fun x => ([4, 5] : List ℚ).getD x 0,
    D := fun x => ([1, 7, 0, 1] : List ℚ).getD x 0, Dm := 2, Dn := 2, Dnumeric := true }

/-- Block 1 of the two-block sample: `BL{1}` with `J = [3, 4]`, no rows, and the
identity as `D`. -/
def twoBL1 : Block ℚ :=
  { J := [3, 4], I := [], L := fun _ => 0,
    D := fun x => ([1, 0, 0, 1] : List ℚ).getD x 0, Dm := 2, Dn := 2, Dnumeric := true }

/-- Block 0 of the two-block sample: `BUT{0}` with `J = [1, 2]`, the row `I = [3]`,
`L = (6 8)` and `D` with the entry `9` below the diagonal. -/
def twoBUT0 : Block ℚ :=
  { J := [1, 2], I := [3], L := fun x => ([6, 8] : List ℚ).getD x 0,
    D := fun x => ([1, 9, 0, 1] : List ℚ).getD x 0, Dm := 2, Dn := 2, Dnumeric := true }

/-- Block 1 of the two-block sample: `BUT{1}` with `J = [3, 4]`, no rows, and the
identity as `D`. -/
def twoBUT1 : Block ℚ :=
  { J := [3, 4], I := [], L := fun _ => 0,
    D := fun x => ([1, 0, 0, 1] : List ℚ).getD x 0, Dm := 2, Dn := 2, Dnumeric := true }

/-- Block 0 of the two-block sample: `BD{0}.D = diag(5, 4)`. -/
def twoBD0 : DiagBlock ℚ :=
  { D := fun x => ([5, 4] : List ℚ).getD x 0, Dm := 2, Dn := 2, Dsparse := true }

/-- Block 1 of the two-block sample: `BD{1}.D = diag(2, 3)`. -/
def twoBD1 : DiagBlock ℚ :=
  { D := fun x => ([2, 3] : List ℚ).getD x 0, Dm := 2, Dn := 2, Dsparse := true }

/-- A call with two blocks of two columns, block 0 coupled to block 1 through the
row `3`, the identity permutation and unit scalings. -/
def sampleTwo : Input ℚ :=
  { BL := [twoBL0, twoBL1], BD := [twoBD0, twoBD1], BUT := [twoBUT0, twoBUT1],
    perm := [1, 2, 3, 4], Deltal := [1, 1, 1, 1], Deltar := [1, 1, 1, 1] }

/-- The only block of the one-block sample: `J = [1, 2]`, no rows, `D` with the entry
`7` below the diagonal. -/
def oneBL : Block ℚ :=
  { J := [1, 2], I := [], L := fun _ => 0,
    D := fun x => ([1, 7, 0, 1] : List ℚ).getD x 0, Dm := 2, Dn := 2, Dnumeric := true }

/-- A call with a single block of two columns, the identity permutation and the
scalings `Deltal = (2, 3)`, `Deltar = (5, 7)`. -/
def sampleOne : Input ℚ :=
  { BL := [oneBL], BD := [twoBD0], BUT := [oneBL],
    perm := [1, 2], Deltal := [2, 3], Deltar := [5, 7] }

/-- A call with two blocks of two columns and no off-diagonal rows at all. -/
def sampleDiagonal : Input ℚ :=
  { BL := [oneBL, twoBL1], BD := [twoBD0, twoBD1], BUT := [oneBL, twoBUT1],
    perm := [1, 2, 3, 4], Deltal := [1, 1, 1, 1], Deltar := [1, 1, 1, 1] }

/-! ## The two-block scenario -/

section Scenario

variable {R : Type} [Field R] [DecidableEq R]

/-- A block column with the index arrays `J`, `I`, the values `L` and a numeric `D`
of shape `|J| x |J|`. -/
def scenarioBlock (J I : List Nat) (L D : Nat → R) : Block R :=
  { J := J, I := I, L := L, D := D, Dm := J.length, Dn := J.length, Dnumeric := true }

/-- A sparse diagonal block of shape `n x n` with the stored values `d`. -/
def scenarioDiag (n : Nat) (d : Nat → R) : DiagBlock R :=
  { D := d, Dm := n, Dn := n, Dsparse := true }

/-- The call of the two-block scenario: `n = 4`, `J_0 = [1, 2]`, `J_1 = [3, 4]`, block 0
coupled to block 1 through the single row `I = [3]` with the `1 x 2` matrices `l0`
(`BL{0}.L`) and `u0` (`BUT{0}.L`), block 1 with empty `I` and `L`, the identity
permutation and unit scalings; `bld`, `d`, `butd` are the values of the `D` fields. -/
def twoBlockInput (l0 bld0 d0 u0 butd0 bld1 d1 butd1 : Nat → R) : Input R :=
  { BL := [scenarioBlock [1, 2] [3] l0 bld0, scenarioBlock [3, 4] [] (fun _ => 0) bld1],
    BD := [scenarioDiag 2 d0, scenarioDiag 2 d1],
    BUT := [scenarioBlock [1, 2] [3] u0 butd0, scenarioBlock [3, 4] [] (fun _ => 0) butd1],
    perm := [1, 2, 3, 4], Deltal := [1, 1, 1, 1], Deltar := [1, 1, 1, 1] }

/-- The unit block lower triangular `4 x 4` matrix with the `1 x 2` matrix `l` in row
3, columns 1..2. -/
def blockLower2 (l : Nat → R) : Matrix (Fin 4) (Fin 4) R :=
  !![1, 0, 0, 0; 0, 1, 0, 0; l 0, l 1, 1, 0; 0, 0, 0, 1]

/-- The block diagonal `4 x 4` matrix `blockdiag(M0, M1)`. -/
def blockDiag2 (M0 M1 : Matrix (Fin 2) (Fin 2) R) : Matrix (Fin 4) (Fin 4) R :=
  !![M0 0 0, M0 0 1, 0, 0; M0 1 0, M0 1 1, 0, 0; 0, 0, M1 0 0, M1 0 1; 0, 0, M1 1 0, M1 1 1]

/-- The matrix `A = Lt * blockdiag(M_0, M_1) * Ut^T` of the two-block scenario. -/
def twoBlockMatrix (l0 bld0 d0 u0 butd0 bld1 d1 butd1 : Nat → R) : Matrix (Fin 4) (Fin 4) R :=
  blockLower2 l0 * blockDiag2 (localBlock 2 bld0 d0 butd0) (localBlock 2 bld1 d1 butd1) *
    (blockLower2 u0).transpose

end Scenario

/-! ## Vocabulary of the symmetry statement -/

/-- The owner `block[I[p] - 1]` of the entry at position `p` of an index array. -/
def ownerOf (block : Nat → Nat) (I : List Nat) (p : Nat) : Nat :=
  block (I.getD p 0 - 1)

/-- A group `l..j` of the donor scan of `I`: its entries have the owner of the first
entry and the entry after it, if there is one, has a larger owner. -/
def IsRun (block : Nat → Nat) (I : List Nat) (l j : Nat) : Prop :=
  l ≤ j ∧ j < I.length ∧ (∀ p, l ≤ p → p ≤ j → ownerOf block I p = ownerOf block I l) ∧
    (j + 1 < I.length → ownerOf block I l < ownerOf block I (j + 1))

/-- The index array `I` of a block column is strictly ascending and every entry
lies in the `J` of its owner and in no other `J`, the owners ascending along `I`. -/
structure OwnedBy (block : Nat → Nat) (J : Nat → List Nat) (I : List Nat) : Prop where
  sorted : I.Sorted (· < ·)
  mono : ∀ p q, p ≤ q → q < I.length → ownerOf block I p ≤ ownerOf block I q
  owner : ∀ p, p < I.length → I.getD p 0 ∈ J (ownerOf block I p)
  unique : ∀ p i, p < I.length → I.getD p 0 ∈ J i → ownerOf block I p = i

/-- Every donor's `J` is a strictly ascending run of consecutive 1-based indices. -/
structure DonorsOK (J : Nat → List Nat) : Prop where
  sortedJ : ∀ i, (J i).Sorted (· < ·)
  consJ : ∀ i, Consecutive (J i)
  oneJ : ∀ i, ∀ v ∈ J i, 1 ≤ v

/-- The part of contribution 6 that falls on row `p` of `BLinv{k}.L`, as an array:
at the entries `(p, c)` minus the row `p` of `BDinv{i}.D(Jit,Ji)^T * BUT{k}.L(Ikt,:)` for
the owner `i` of `BL{k}.I[p]`, zero elsewhere. -/
def share6 {R : Type} [CommRing R] (block : Nat → Nat) (BLk BUTk : Block R)
    (BUTinv : Nat → InvBlock R) (BDinv : Nat → DinvBlock R) (p x : Nat) : R :=
  if x < BLk.I.length * BUTk.J.length ∧ x % BLk.I.length = p then
    - tnTerm BUTk.I (BUTinv (ownerOf block BLk.I p)).J (BUTinv (ownerOf block BLk.I p)).J
        BLk.I p (BDinv (ownerOf block BLk.I p)).D BUTk.L 0 (x / BLk.I.length)
  else 0

/-- The part of the role-swapped contribution 2 that comes from position `p` of
`BUT{k}.I`, as an array: at the entry `(r, c)` minus the product of
`D(q, pos)` and `BUT{k}.L(p, c)` for the position `q` of `BL{k}.I[r]` and the position
`pos` of `BUT{k}.I[p]` in the `J` of the owner of `BUT{k}.I[p]`; `D` is the donor's
matrix handed to the swapped update. -/
def share2 {R : Type} [CommRing R] (block : Nat → Nat) (BLk BUTk : Block R)
    (BUTinv : Nat → InvBlock R) (BDinvT : Nat → DinvBlock R) (p x : Nat) : R :=
  if x < BLk.I.length * BUTk.J.length then
    - ∑ q ∈ Finset.range (BUTinv (ownerOf block BUTk.I p)).J.length,
        if BLk.I.getD (x % BLk.I.length) 0 = (BUTinv (ownerOf block BUTk.I p)).J.getD q 0 then
          (BDinvT (ownerOf block BUTk.I p)).D
              (q + (BUTinv (ownerOf block BUTk.I p)).J.length *
                (BUTinv (ownerOf block BUTk.I p)).J.indexOf (BUTk.I.getD p 0)) *
            BUTk.L (p + BUTk.I.length * (x / BLk.I.length))
        else 0
  else 0

/-! ## Sample data for the symmetry statement -/

/-- The block map of the samples: the indices from `3` on belong to block 1. -/
def sampleMap : Nat → Nat := fun v => if 2 ≤ v then 1 else 0

/-- A block column `BUT{k}` with one column and the single row index `4`. -/
def sampleB4 : Block ℤ :=
  { J := [1], I := [4], L := fun _ => 1, D := fun _ => 1, Dm := 1, Dn := 1, Dnumeric := true }

/-- Finished donor block columns: block 1 with `J = [3, 5, 6]`, not a run of
consecutive integers, and no rows; every other cell empty. -/
def gapCells : Nat → InvBlock ℤ := fun i =>
  if i = 1 then
    { J := [3, 5, 6], I := [], L := fun _ => 0, Lm := 0, Ln := 3, Dm := 3, Dn := 3, Dnz := 0 }
  else InvBlock.empty ℤ

/-- Finished donor diagonal blocks: `D(a, b) = a + 3 b + 1` of shape `3 x 3`. -/
def gapCellsD : Nat → DinvBlock ℤ := fun _ =>
  { J := [3, 5, 6], D := fun x => (x : ℤ) + 1, Dm := 3, Dn := 3 }

/-- The transposes of the blocks of `gapCellsD`. -/
def gapCellsDT : Nat → DinvBlock ℤ := fun _ =>
  { J := [3, 5, 6], D := fun x => ((x / 3 + 3 * (x % 3) : Nat) : ℤ) + 1, Dm := 3, Dn := 3 }

/-- Finished donor block columns: block 1 with `J = [3, 4]` and no rows; every other
cell empty. -/
def plainCells : Nat → InvBlock ℤ := fun i =>
  if i = 1 then
    { J := [3, 4], I := [], L := fun _ => 0, Lm := 0, Ln := 2, Dm := 2, Dn := 2, Dnz := 0 }
  else InvBlock.empty ℤ

/-- Finished donor diagonal blocks: `D(a, b) = a + 2 b + 1` of shape `2 x 2`. -/
def plainCellsD : Nat → DinvBlock ℤ := fun _ =>
  { J := [3, 4], D := fun x => (x : ℤ) + 1, Dm := 2, Dn := 2 }

/-- The transposes of the blocks of `plainCellsD`. -/
def plainCellsDT : Nat → DinvBlock ℤ := fun _ =>
  { J := [3, 4], D := fun x => ((x / 2 + 2 * (x % 2) : Nat) : ℤ) + 1, Dm := 2, Dn := 2 }

/-- The one-block sample with the permutation `(2, 1)`. -/
def sampleSwapped : Input ℚ :=
  { BL := [oneBL], BD := [twoBD0], BUT := [oneBL],
    perm := [2, 1], Deltal := [2, 3], Deltar := [5, 7] }

/-! ## Vocabulary of the statements about the intersection scan -/

/-- The brute-force nested-loop intersection of two index arrays: for every position
`p` of `A`, in order, and every position `q` of `B`, in order, the pair `(p, q)` if
`A[p] = B[q]`. -/
def bruteForce (A B : List Nat) : List (Nat × Nat) :=
  (List.range A.length).flatMap (fun p =>
    ((List.range B.length).filter (fun q => decide (A.getD p 0 = B.getD q 0))).map
      (fun q => (p, q)))

/-- The order of the nested loops on pairs of positions: by the first position,
then by the second. -/
def loopOrder (x y : Nat × Nat) : Prop :=
  x.1 < y.1 ∨ (x.1 = y.1 ∧ x.2 < y.2)

/-- The state of the intersection scan after its first `a` matches. -/
def isectAfter (A B : List Nat) (a : Nat) : Isect :=
  ((matchPairs A B).take a).foldl (fun acc pq => isectBody pq.1 pq.2 acc) isectInit

/-! ## The three-way branch of a contribution -/

/-- The branches of lines 1168-1740: the zero-copy call, the gather-and-multiply
path, the hand-coded loop, and the empty branch. -/
inductive Path where
  | zeroCopy
  | gather
  | scalar
  | skip
  deriving DecidableEq, Repr

/-- The branch that lines 1168, 1278, 1623 enter: `if (Ii_cont && Ik_cont && Ji_cont)`,
`else ... if (level3_BLAS && t)`, `else if (t)`, `else`. -/
def pathOf (is : Isect) (Ji_cont : Int) (l j n_size : Nat) : Path :=
  if is.Ii_cont ≠ 0 ∧ is.Ik_cont ≠ 0 ∧ Ji_cont ≠ 0 then Path.zeroCopy
  else if level3 is Ji_cont l j n_size = true ∧ is.t ≠ 0 then Path.gather
  else if is.t ≠ 0 then Path.scalar
  else Path.skip

section Branches

variable {R : Type} [CommRing R]

/-- What the given branch of a contribution `target(Ik,:) -= donor(Ii,Ji) * src(l:j,:)`
makes of the state. -/
def branchNN (path : Path) (TI DI DJ RI : List Nat) (l j n_size : Nat) (donor src : Nat → R)
    (st : (Nat → R) × (Nat → R) × Nat) : (Nat → R) × (Nat → R) × Nat :=
  match path with
  | Path.zeroCopy =>
    (nnZeroCopy TI DI RI l j n_size (intersect TI DI) (jFirst RI DJ l) donor src st.1,
      st.2.1, st.2.2)
  | Path.gather =>
    ((nnGather TI DI DJ RI l j n_size (intersect TI DI) (jiCont RI l j) (jFirst RI DJ l)
        donor src st.1 st.2.1).1,
     (nnGather TI DI DJ RI l j n_size (intersect TI DI) (jiCont RI l j) (jFirst RI DJ l)
        donor src st.1 st.2.1).2,
     max st.2.2 (copyCnt (intersect TI DI) (jiCont RI l j) l j n_size))
  | Path.scalar => (nnScalar TI DI DJ RI l j n_size donor src st.1, st.2.1, st.2.2)
  | Path.skip => st

/-- What the given branch of a contribution `target(l:j,:) -= donor(Ii,Ji)^T * src(Ik,:)`
makes of the state. -/
def branchTN (path : Path) (RI SI DI DJ : List Nat) (l j n_size : Nat) (donor src : Nat → R)
    (st : (Nat → R) × (Nat → R) × Nat) : (Nat → R) × (Nat → R) × Nat :=
  match path with
  | Path.zeroCopy =>
    (tnZeroCopy RI SI DI l j n_size (intersect SI DI) (jFirst RI DJ l) donor src st.1,
      st.2.1, st.2.2)
  | Path.gather =>
    ((tnGather RI SI DI DJ l j n_size (intersect SI DI) (jiCont RI l j) (jFirst RI DJ l)
        donor src st.1 st.2.1).1,
     (tnGather RI SI DI DJ l j n_size (intersect SI DI) (jiCont RI l j) (jFirst RI DJ l)
        donor src st.1 st.2.1).2,
     max st.2.2 (copyCnt (intersect SI DI) (jiCont RI l j) l j n_size))
  | Path.scalar => (tnScalar RI SI DI DJ l j n_size donor src st.1, st.2.1, st.2.2)
  | Path.skip => st

end Branches

/-! ## Vocabulary of the statement about the donor scan -/

/-- The groups `(l, j, i)` that `donorLoop` visits from position `l` on, in order. -/
def runsFrom (I : List Nat) (block : Nat → Nat) : Nat → Nat → List (Nat × Nat × Nat)
  | 0, _ => []
  | fuel + 1, l =>
    if l < I.length then
      (l, runEnd I block (block (I.getD l 0 - 1)) I.length (l + 1), block (I.getD l 0 - 1)) ::
        runsFrom I block fuel (runEnd I block (block (I.getD l 0 - 1)) I.length (l + 1) + 1)
    else []

/-- The list `gs` of groups `(l, j, i)` splits the positions from `l` to the end of `I`
into successive maximal runs of equal owner, each tagged with that owner. -/
def Grouping (block : Nat → Nat) (I : List Nat) : Nat → List (Nat × Nat × Nat) → Prop
  | l, [] => l = I.length
  | l, g :: rest =>
    g.1 = l ∧ IsRun block I l g.2.1 ∧ g.2.2 = ownerOf block I l ∧
      Grouping block I (g.2.1 + 1) rest

/-- An index array `1, ..., 6` whose entries map to the owners `2, 2, 2, 5, 5, 7`. -/
def sampleOwnersI : List Nat := [1, 2, 3, 4, 5, 6]

/-- The block map of `sampleOwnersI`. -/
def sampleOwners : Nat → Nat := fun v => ([2, 2, 2, 5, 5, 7] : List Nat).getD v 0

/-! ## Vocabulary of the statements about the run of the call -/

section RunVocabulary

variable {R : Type} [Field R] [DecidableEq R]

/-- The three checks on the fields `D` of block `k` (lines 348-351, 364-367, 387-390 and
their copies in the main loop) pass. -/
def ShapeOK (inp : Input R) (k : Nat) : Prop :=
  ((cellBL inp k).Dn = (cellBL inp k).J.length ∧ (cellBL inp k).Dm = (cellBL inp k).J.length ∧
    (cellBL inp k).Dnumeric = true) ∧
  ((cellBD inp k).Dn = (cellBL inp k).J.length ∧ (cellBD inp k).Dm = (cellBL inp k).J.length ∧
    (cellBD inp k).Dsparse = true) ∧
  ((cellBUT inp k).Dn = (cellBUT inp k).J.length ∧
    (cellBUT inp k).Dm = (cellBUT inp k).J.length ∧ (cellBUT inp k).Dnumeric = true)

/-- A call that passes every argument check of the source: the cell arrays and the
scaling vectors have matching sizes, there is a block, and every `D` field has the
class and the shape that is asked for. -/
structure Checked (inp : Input R) : Prop where
  nonempty : inp.BL.length ≠ 0
  sizeBD : inp.BD.length = inp.BL.length
  sizeBUT : inp.BUT.length = inp.BL.length
  sizeDeltal : inp.Deltal.length = inp.perm.length
  sizeDeltar : inp.Deltar.length = inp.perm.length
  shape : ∀ k, k < inp.BL.length → ShapeOK inp k

/-- The status `info` that the call of `dgetri_` (lines 548 and 5187) reports for a block:
the order and the leading dimension are `n_size = |BUT{k}.J|`, the matrix is the
assembled block, the workspace has the length `n`. -/
def statusOf (n : Nat) (BLk : Block R) (BDk : DiagBlock R) (BUTk : Block R) : Int :=
  (dgetri BUTk.J.length
    (assembleLowerBase BUTk.J.length BLk.D
      (assembleUpperBase BUTk.J.length BDk.D BUTk.D (fun _ => 0) (fun _ => 0)).1)
    BUTk.J.length (assembleUpperBase BUTk.J.length BDk.D BUTk.D (fun _ => 0) (fun _ => 0)).2.1
    n).1

/-- The status that `dgetri_` reports for block `k` of the call. -/
def statusAt (inp : Input R) (k : Nat) : Int :=
  statusOf inp.perm.length (cellBL inp k) (cellBD inp k) (cellBUT inp k)

/-- The error with which the call ends when `dgetri_` reports the nonzero status `s`
for block `k` (lines 549-558 and 5188-5197). -/
def statusErr (k : Nat) (s : Int) : Err :=
  if s < 0 then Err.illegalArg k (-s).toNat else Err.singular k s.toNat

/-- The errors of the argument checks, as opposed to the failures of `dgetri_`. -/
def Err.isInvalidInput : Err → Bool
  | Err.illegalArg _ _ => false
  | Err.singular _ _ => false
  | _ => true

end RunVocabulary

/-! ## Vocabulary and sample calls of the statements about the argument checks -/

/-- The total number of indices in the arrays `BL{k}.J` of the call. -/
def totalJ {R : Type} (inp : Input R) : Nat :=
  (inp.BL.map (fun b => b.J.length)).sum

/-- The one-block sample with an empty cell array `BD`. -/
def sampleNoBD : Input ℚ :=
  { BL := [oneBL], BD := [], BUT := [oneBL], perm := [1, 2], Deltal := [2, 3], Deltar := [5, 7] }

/-- The one-block sample with a vector `Deltal` of length `1`. -/
def sampleShortDeltal : Input ℚ :=
  { BL := [oneBL], BD := [twoBD0], BUT := [oneBL], perm := [1, 2], Deltal := [2],
    Deltar := [5, 7] }

/-- A block column with the single column `J = [1]`, no rows and `D = (1)`. -/
def unitBL : Block ℚ :=
  { J := [1], I := [], L := fun _ => 0, D := fun _ => 1, Dm := 1, Dn := 1, Dnumeric := true }

/-- The `1 x 1` diagonal block `(2)`. -/
def unitBD : DiagBlock ℚ :=
  { D := fun _ => 2, Dm := 1, Dn := 1, Dsparse := true }

/-- A call with one block of one column and vectors `perm`, `Deltal`, `Deltar` of
length `2`. -/
def sampleLong : Input ℚ :=
  { BL := [unitBL], BD := [unitBD], BUT := [unitBL], perm := [1, 2], Deltal := [1, 1],
    Deltar := [1, 1] }

/-! ## Sample calls of the statements about failures -/

/-- A sparse `2 x 2` diagonal block whose stored entries are zero. -/
def zeroBD : DiagBlock ℚ :=
  { D := fun _ => 0, Dm := 2, Dn := 2, Dsparse := true }

/-- The one-block sample with the singular diagonal block `zeroBD`. -/
def sampleSingular : Input ℚ :=
  { BL := [oneBL], BD := [zeroBD], BUT := [oneBL], perm := [1, 2], Deltal := [2, 3],
    Deltar := [5, 7] }

/-- The block `oneBL` with a field `D` of shape `3 x 2`. -/
def badBL : Block ℚ :=
  { J := [1, 2], I := [], L := fun _ => 0,
    D := fun x => ([1, 7, 0, 1] : List ℚ).getD x 0, Dm := 3, Dn := 2, Dnumeric := true }

/-- A call with two blocks: block 0 has a field `BL{0}.D` of the wrong shape, the last
block has the singular diagonal block `zeroBD`. -/
def sampleBadShape : Input ℚ :=
  { BL := [badBL, twoBL1], BD := [twoBD0, zeroBD], BUT := [oneBL, twoBUT1],
    perm := [1, 2, 3, 4], Deltal := [1, 1, 1, 1], Deltar := [1, 1, 1, 1] }

/-- A call with two blocks: block 0 has a field `BL{0}.D` of the wrong shape, the last
block is the last block of the two-block sample. -/
def sampleBadOnly : Input ℚ :=
  { BL := [badBL, twoBL1], BD := [twoBD0, twoBD1], BUT := [oneBL, twoBUT1],
    perm := [1, 2, 3, 4], Deltal := [1, 1, 1, 1], Deltar := [1, 1, 1, 1] }

/-- The one-block sample with the permutation `(2, 1)` and unit scalings. -/
def sampleUnitSwapped : Input ℚ :=
  { BL := [oneBL], BD := [twoBD0], BUT := [oneBL], perm := [2, 1], Deltal := [1, 1],
    Deltar := [1, 1] }

/-! ## Vocabulary of the statements about the block map -/

/-- Block `i` of the cell array `BL` writes the entry `x` of the map: some entry of
`BL{i}.J` is `x + 1` (lines 277 and 290, `block[j - 1] = i`). -/
def Hits {R : Type} [Zero R] (BL : List (Block R)) (i x : Nat) : Prop :=
  ∃ e, e < (BL.getD i (Block.empty R)).J.length ∧ (BL.getD i (Block.empty R)).J.getD e 0 - 1 = x

/-! ## Sample call of the statement about the last block -/

/-- The block `oneBL` with a row `I = (7)` and the values `9` in `L`. -/
def rowsBL : Block ℚ :=
  { J := [1, 2], I := [7], L := fun _ => 9,
    D := fun x => ([1, 7, 0, 1] : List ℚ).getD x 0, Dm := 2, Dn := 2, Dnumeric := true }

/-- A call with a single block whose `I` and `L` are not empty. -/
def sampleLastRows : Input ℚ :=
  { BL := [rowsBL], BD := [twoBD0], BUT := [rowsBL], perm := [1, 2], Deltal := [2, 3],
    Deltar := [5, 7] }

/-! ## Vocabulary of the statements about the groups of the donor scan -/

/-- The list `gs` of groups `(l, j, i)` splits the positions from `l` to the end of `I`
into successive non-empty intervals `l..j`: each group starts where the one before
it ended, and the last one ends at the last position. -/
def Adjacent (I : List Nat) : Nat → List (Nat × Nat × Nat) → Prop
  | l, [] => l = I.length
  | l, g :: rest =>
    g.1 = l ∧ l ≤ g.2.1 ∧ g.2.1 < I.length ∧ Adjacent I (g.2.1 + 1) rest

/-- An index array `1, 2, 3` whose entries map to the owners `5, 2, 5`. -/
def sampleMixedI : List Nat := [1, 2, 3]

/-- The block map of `sampleMixedI`. -/
def sampleMixed : Nat → Nat := fun v => ([5, 2, 5] : List Nat).getD v 0

/-! ## Sample calls of the statement about singular blocks -/

/-- The block `twoBL1` with a field `D` of shape `3 x 2`. -/
def badBL1 : Block ℚ :=
  { J := [3, 4], I := [], L := fun _ => 0,
    D := fun x => ([1, 0, 0, 1] : List ℚ).getD x 0, Dm := 3, Dn := 2, Dnumeric := true }

/-- A call with two blocks: block 0 has the singular diagonal block `zeroBD`, the last
block has a field `BL{1}.D` of the wrong shape. -/
def sampleShapeLast : Input ℚ :=
  { BL := [oneBL, badBL1], BD := [zeroBD, twoBD1], BUT := [oneBL, twoBUT1],
    perm := [1, 2, 3, 4], Deltal := [1, 1, 1, 1], Deltar := [1, 1, 1, 1] }

/-- A block column without columns and rows; its field `D` is a `0 x 0` matrix. -/
def noColsBL : Block ℚ :=
  { J := [], I := [], L := fun _ => 0, D := fun _ => 0, Dm := 0, Dn := 0, Dnumeric := true }

/-- A sparse `0 x 0` diagonal block. -/
def noColsBD : DiagBlock ℚ :=
  { D := fun _ => 1, Dm := 0, Dn := 0, Dsparse := true }

/-- A call with two blocks: block 0 has the singular diagonal block `zeroBD`, the last
block has no columns. -/
def sampleEmptyLast : Input ℚ :=
  { BL := [oneBL, noColsBL], BD := [zeroBD, noColsBD], BUT := [oneBL, noColsBL],
    perm := [1, 2], Deltal := [1, 1], Deltar := [1, 1] }

/-- A call with two blocks of two columns, both with the singular diagonal block
`zeroBD`. -/
def sampleBothSingular : Input ℚ :=
  { BL := [oneBL, twoBL1], BD := [zeroBD, zeroBD], BUT := [oneBL, twoBUT1],
    perm := [1, 2, 3, 4], Deltal := [1, 1, 1, 1], Deltar := [1, 1, 1, 1] }

/-! ## Sample call of the statement about the positions of `Dbuff` -/

/-- A block column with the single column `J = [2]`, no rows and `D = (1)`. -/
def crossBL : Block ℚ :=
  { J := [2], I := [], L := fun _ => 0, D := fun _ => 1, Dm := 1, Dn := 1, Dnumeric := true }

/-- A call with two blocks of one column whose `J` are not in the order of the blocks:
`J_0 = [2]` and `J_1 = [1]`; the identity permutation and unit scalings. -/
def sampleCrossed : Input ℚ :=
  { BL := [crossBL, unitBL], BD := [unitBD, unitBD], BUT := [crossBL, unitBL],
    perm := [1, 2], Deltal := [1, 1], Deltar := [1, 1] }

/-! ## Vocabulary of the statements about the scratch buffer and the order of the
contributions -/

/-- The step `f` on the state `(target, gemm_buff, size_gemm_buff)` changes every entry
of the target by an amount that is the same for every state: the amount depends
neither on the target nor on the buffer that the step finds. -/
def StateIndependent {R : Type} [Sub R]
    (f : (Nat → R) × (Nat → R) × Nat → (Nat → R) × (Nat → R) × Nat) : Prop :=
  ∀ st st2 x, (f st).1 x - st.1 x = (f st2).1 x - st2.1 x

/-- A finished donor block column with `J = [5, 6]`, `I = [8]` and the `1 x 2` matrix
`L = (2 3)`. -/
def laterDonor : InvBlock ℤ :=
  { J := [5, 6], I := [8], L := fun x => (x : ℤ) + 2, Lm := 1, Ln := 2, Dm := 2, Dn := 2,
    Dnz := 0 }

/-! # Verification -/

/-! ## Index arrays -/

theorem getD_lt_of_sorted {A : List Nat} (hA : A.Sorted (· < ·)) {i j : Nat} (hij : i < j)
    (hj : j < A.length) : A.getD i 0 < A.getD j 0 := by
  have hi : i < A.length := lt_trans hij hj
  rw [List.getD_eq_getElem A 0 hi, List.getD_eq_getElem A 0 hj]
  exact (List.pairwise_iff_getElem.mp hA) i j hi hj hij

theorem getD_le_of_sorted {A : List Nat} (hA : A.Sorted (· < ·)) {i j : Nat} (hij : i ≤ j)
    (hj : j < A.length) : A.getD i 0 ≤ A.getD j 0 := by
  rcases Nat.eq_or_lt_of_le hij with h | h
  · subst h; exact le_rfl
  · exact le_of_lt (getD_lt_of_sorted hA h hj)

theorem getD_inj_of_sorted {A : List Nat} (hA : A.Sorted (· < ·)) {i j : Nat}
    (hi : i < A.length) (hj : j < A.length) (h : A.getD i 0 = A.getD j 0) : i = j := by
  rcases Nat.lt_trichotomy i j with hlt | heq | hgt
  · exact absurd h (ne_of_lt (getD_lt_of_sorted hA hlt hj))
  · exact heq
  · exact absurd h.symm (ne_of_lt (getD_lt_of_sorted hA hgt hi))

theorem lt_of_getD_lt_of_sorted {A : List Nat} (hA : A.Sorted (· < ·)) {i j : Nat}
    (hi : i < A.length) (h : A.getD i 0 < A.getD j 0) : i < j := by
  by_contra hc
  have hji : j ≤ i := Nat.le_of_not_lt hc
  have := getD_le_of_sorted hA hji hi
  omega

theorem getD_mem {A : List Nat} {i : Nat} (hi : i < A.length) : A.getD i 0 ∈ A := by
  rw [List.getD_eq_getElem A 0 hi]
  exact List.getElem_mem hi

theorem getD_indexOf {A : List Nat} {v : Nat} (hv : v ∈ A) : A.getD (A.indexOf v) 0 = v := by
  have h : A.indexOf v < A.length := List.indexOf_lt_length.mpr hv
  rw [List.getD_eq_getElem A 0 h]
  exact List.getElem_indexOf h

/-! ## Flat addressing -/

theorem flat_inj {ld i j i2 j2 : Nat} (hi : i < ld) (hi2 : i2 < ld)
    (h : i + ld * j = i2 + ld * j2) : i = i2 ∧ j = j2 := by
  have h1 : (i + ld * j) % ld = (i2 + ld * j2) % ld := by rw [h]
  rw [Nat.add_mul_mod_self_left, Nat.add_mul_mod_self_left, Nat.mod_eq_of_lt hi,
    Nat.mod_eq_of_lt hi2] at h1
  subst h1
  have hpos : 0 < ld := by omega
  have h2 : ld * j = ld * j2 := by omega
  exact ⟨rfl, Nat.eq_of_mul_eq_mul_left hpos h2⟩

theorem flat_mod {ld i j : Nat} (hi : i < ld) : (i + ld * j) % ld = i := by
  rw [Nat.add_mul_mod_self_left, Nat.mod_eq_of_lt hi]

theorem flat_div {ld i j : Nat} (hi : i < ld) : (i + ld * j) / ld = j := by
  have hpos : 0 < ld := by omega
  rw [Nat.add_mul_div_left _ _ hpos, Nat.div_eq_of_lt hi, Nat.zero_add]

/-! ## Loops -/

theorem forLoop_succ {σ : Type} (n : Nat) (body : Nat → σ → σ) (s : σ) :
    forLoop (n + 1) body s = body n (forLoop n body s) := rfl

theorem forLoop_zero {σ : Type} (body : Nat → σ → σ) (s : σ) : forLoop 0 body s = s := rfl

theorem mergeLoop_eq_foldl {σ : Type} (A B : List Nat) (body : Nat → Nat → σ → σ) :
    ∀ (fuel p q : Nat) (s : σ),
      mergeLoop A B body fuel p q s =
        (matchList A B fuel p q).foldl (fun acc pq => body pq.1 pq.2 acc) s := by
  intro fuel
  induction fuel with
  | zero => intro p q s; rfl
  | succ fuel ih =>
    intro p q s
    unfold mergeLoop matchList
    split_ifs
    · exact ih _ _ _
    · exact ih _ _ _
    · simp only [List.foldl_cons]; exact ih _ _ _
    · rfl

theorem matchList_sound (A B : List Nat) :
    ∀ (fuel p q : Nat) (x : Nat × Nat), x ∈ matchList A B fuel p q →
      p ≤ x.1 ∧ x.1 < A.length ∧ q ≤ x.2 ∧ x.2 < B.length ∧ A.getD x.1 0 = B.getD x.2 0 := by
  intro fuel
  induction fuel with
  | zero => intro p q x hx; simp [matchList] at hx
  | succ fuel ih =>
    intro p q x hx
    unfold matchList at hx
    split_ifs at hx with h1 h2 h3
    · have := ih _ _ x hx; omega
    · have := ih _ _ x hx; omega
    · rcases List.mem_cons.mp hx with h | h
      · subst h
        refine ⟨le_rfl, h1.1, le_rfl, h1.2, ?_⟩
        simp only at h2 h3 ⊢
        omega
      · have := ih _ _ x h; omega
    · simp at hx

theorem matchList_pairwise (A B : List Nat) :
    ∀ (fuel p q : Nat),
      (matchList A B fuel p q).Pairwise (fun x y => x.1 < y.1 ∧ x.2 < y.2) := by
  intro fuel
  induction fuel with
  | zero => intro p q; simp [matchList]
  | succ fuel ih =>
    intro p q
    unfold matchList
    split_ifs
    · exact ih _ _
    · exact ih _ _
    · refine List.Pairwise.cons ?_ (ih _ _)
      intro y hy
      have := matchList_sound A B fuel (p + 1) (q + 1) y hy
      simp only
      omega
    · exact List.Pairwise.nil

theorem matchList_complete {A B : List Nat} (hA : A.Sorted (· < ·)) (hB : B.Sorted (· < ·)) :
    ∀ (fuel p q : Nat), (A.length - p) + (B.length - q) ≤ fuel →
      ∀ (p2 q2 : Nat), p ≤ p2 → p2 < A.length → q ≤ q2 → q2 < B.length →
        A.getD p2 0 = B.getD q2 0 → (p2, q2) ∈ matchList A B fuel p q := by
  intro fuel
  induction fuel with
  | zero => intro p q hf p2 q2 hp hp2 hq hq2 _; omega
  | succ fuel ih =>
    intro p q hf p2 q2 hp hp2 hq hq2 heq
    have hpA : p < A.length := lt_of_le_of_lt hp hp2
    have hqB : q < B.length := lt_of_le_of_lt hq hq2
    unfold matchList
    rw [if_pos ⟨hpA, hqB⟩]
    have hqq : B.getD q 0 ≤ B.getD q2 0 := getD_le_of_sorted hB hq hq2
    have hpp : A.getD p 0 ≤ A.getD p2 0 := getD_le_of_sorted hA hp hp2
    split_ifs with h2 h3
    · have hne : p ≠ p2 := by
        intro h; subst h; omega
      exact ih _ _ (by omega) p2 q2 (by omega) hp2 hq hq2 heq
    · have hne : q ≠ q2 := by
        intro h; subst h; omega
      exact ih _ _ (by omega) p2 q2 hp hp2 (by omega) hq2 heq
    · have h4 : A.getD p 0 = B.getD q 0 := by omega
      by_cases hpe : p = p2
      · subst hpe
        have : q = q2 := getD_inj_of_sorted hB hqB hq2 (by omega)
        subst this
        exact List.mem_cons_self _ _
      · have hplt : p < p2 := by omega
        have h5 : A.getD p 0 < A.getD p2 0 := getD_lt_of_sorted hA hplt hp2
        have hqne : q ≠ q2 := by
          intro h; subst h; omega
        exact List.mem_cons_of_mem _
          (ih _ _ (by omega) p2 q2 (by omega) hp2 (by omega) hq2 heq)

theorem mem_matchPairs_iff {A B : List Nat} (hA : A.Sorted (· < ·)) (hB : B.Sorted (· < ·))
    (x : Nat × Nat) :
    x ∈ matchPairs A B ↔ x.1 < A.length ∧ x.2 < B.length ∧ A.getD x.1 0 = B.getD x.2 0 := by
  constructor
  · intro hx
    have := matchList_sound A B _ 0 0 x hx
    exact ⟨this.2.1, this.2.2.2.1, this.2.2.2.2⟩
  · intro hx
    exact matchList_complete hA hB _ 0 0 (by omega) x.1 x.2 (Nat.zero_le _) hx.1
      (Nat.zero_le _) hx.2.1 hx.2.2

theorem matchPairs_pairwise (A B : List Nat) :
    (matchPairs A B).Pairwise (fun x y => x.1 < y.1 ∧ x.2 < y.2) :=
  matchList_pairwise A B _ 0 0

theorem matchPairs_nodup (A B : List Nat) : (matchPairs A B).Nodup := by
  refine (matchPairs_pairwise A B).imp ?_
  intro x y h hxy
  rw [hxy] at h
  omega

theorem matchPairs_bound (A B : List Nat) (x : Nat × Nat) (hx : x ∈ matchPairs A B) :
    x.1 < A.length ∧ x.2 < B.length := by
  have := matchList_sound A B _ 0 0 x hx
  exact ⟨this.2.1, this.2.2.2.1⟩

/-! ## The intersection scan -/

theorem intersect_eq_foldl (A B : List Nat) :
    intersect A B =
      (matchPairs A B).foldl (fun acc pq => isectBody pq.1 pq.2 acc) isectInit :=
  mergeLoop_eq_foldl A B isectBody _ 0 0 isectInit

theorem isect_foldl_started :
    ∀ (ms : List (Nat × Nat)) (s : Isect), 0 ≤ s.Ik_cont → 0 ≤ s.Ii_cont →
      (∀ x ∈ ms, 1 ≤ x.1 ∧ 1 ≤ x.2) →
      ((ms.foldl (fun acc pq => isectBody pq.1 pq.2 acc) s).t = s.t + ms.length) ∧
      ((ms.foldl (fun acc pq => isectBody pq.1 pq.2 acc) s).k_first = s.k_first) ∧
      ((ms.foldl (fun acc pq => isectBody pq.1 pq.2 acc) s).i_first = s.i_first) ∧
      ((ms.foldl (fun acc pq => isectBody pq.1 pq.2 acc) s).Ik_cont ≠ 0 →
        s.Ik_cont ≠ 0 ∧ ∀ a < ms.length, ((ms.getD a (0, 0)).1 : Int) = s.Ik_cont + a) ∧
      ((ms.foldl (fun acc pq => isectBody pq.1 pq.2 acc) s).Ii_cont ≠ 0 →
        s.Ii_cont ≠ 0 ∧ ∀ a < ms.length, ((ms.getD a (0, 0)).2 : Int) = s.Ii_cont + a) := by
  intro ms
  induction ms with
  | nil =>
    intro s _ _ _
    simp
  | cons x rest ih =>
    intro s hk hi hms
    have hx := hms x (List.mem_cons_self _ _)
    have hrest : ∀ y ∈ rest, 1 ≤ y.1 ∧ 1 ≤ y.2 := fun y hy => hms y (List.mem_cons_of_mem _ hy)
    have hne : s.Ik_cont ≠ -1 := by omega
    have hbody : isectBody x.1 x.2 s =
        { t := s.t + 1, k_first := s.k_first, i_first := s.i_first,
          Ik_cont := if (x.1 : Int) = s.Ik_cont then (x.1 : Int) + 1 else 0,
          Ii_cont := if (x.2 : Int) = s.Ii_cont then (x.2 : Int) + 1 else 0 } := by
      unfold isectBody
      rw [if_neg hne]
    have hk2 : 0 ≤ (isectBody x.1 x.2 s).Ik_cont := by
      rw [hbody]; simp only; split_ifs <;> omega
    have hi2 : 0 ≤ (isectBody x.1 x.2 s).Ii_cont := by
      rw [hbody]; simp only; split_ifs <;> omega
    obtain ⟨h1, h2, h3, h4, h5⟩ := ih (isectBody x.1 x.2 s) hk2 hi2 hrest
    simp only [List.foldl_cons, List.length_cons]
    refine ⟨?_, ?_, ?_, ?_, ?_⟩
    · rw [h1, hbody]; simp only; omega
    · rw [h2, hbody]
    · rw [h3, hbody]
    · intro hfin
      obtain ⟨h6, h7⟩ := h4 hfin
      rw [hbody] at h6 h7
      simp only at h6 h7
      by_cases hc : (x.1 : Int) = s.Ik_cont
      · rw [if_pos hc] at h7
        refine ⟨by omega, ?_⟩
        intro a ha
        cases a with
        | zero => simp [hc]
        | succ a =>
          have := h7 a (by omega)
          simp only [List.getD_cons_succ]
          rw [this]; push_cast; omega
      · rw [if_neg hc] at h6
        exact absurd rfl h6
    · intro hfin
      obtain ⟨h6, h7⟩ := h5 hfin
      rw [hbody] at h6 h7
      simp only at h6 h7
      by_cases hc : (x.2 : Int) = s.Ii_cont
      · rw [if_pos hc] at h7
        refine ⟨by omega, ?_⟩
        intro a ha
        cases a with
        | zero => simp [hc]
        | succ a =>
          have := h7 a (by omega)
          simp only [List.getD_cons_succ]
          rw [this]; push_cast; omega
      · rw [if_neg hc] at h6
        exact absurd rfl h6

theorem intersect_spec (A B : List Nat) :
    (intersect A B).t = (matchPairs A B).length ∧
    ((intersect A B).Ik_cont ≠ 0 → ∀ a < (matchPairs A B).length,
      ((matchPairs A B).getD a (0, 0)).1 = (intersect A B).k_first + a) ∧
    ((intersect A B).Ii_cont ≠ 0 → ∀ a < (matchPairs A B).length,
      ((matchPairs A B).getD a (0, 0)).2 = (intersect A B).i_first + a) := by
  rw [intersect_eq_foldl]
  have hpw := matchPairs_pairwise A B
  generalize matchPairs A B = ms at hpw
  cases ms with
  | nil => simp [isectInit]
  | cons x rest =>
    have hrest : ∀ y ∈ rest, 1 ≤ y.1 ∧ 1 ≤ y.2 := by
      intro y hy
      have := (List.pairwise_cons.mp hpw).1 y hy
      omega
    have hbody : isectBody x.1 x.2 isectInit =
        { t := 1, k_first := x.1, i_first := x.2,
          Ik_cont := (x.1 : Int) + 1, Ii_cont := (x.2 : Int) + 1 } := by
      simp [isectBody, isectInit]
    obtain ⟨h1, h2, h3, h4, h5⟩ :=
      isect_foldl_started rest (isectBody x.1 x.2 isectInit)
        (by rw [hbody]; simp only; omega) (by rw [hbody]; simp only; omega) hrest
    simp only [List.foldl_cons, List.length_cons]
    rw [hbody] at h1 h2 h3 h4 h5 ⊢
    simp only at h1 h2 h3 h4 h5
    refine ⟨by omega, ?_, ?_⟩
    · intro hfin a ha
      obtain ⟨_, h7⟩ := h4 hfin
      rw [h2]
      cases a with
      | zero => simp
      | succ a =>
        have := h7 a (by omega)
        simp only [List.getD_cons_succ]
        omega
    · intro hfin a ha
      obtain ⟨_, h7⟩ := h5 hfin
      rw [h3]
      cases a with
      | zero => simp
      | succ a =>
        have := h7 a (by omega)
        simp only [List.getD_cons_succ]
        omega

/-! ## The consecutive-values test -/

theorem jiContLoop_ne_zero (RI : List Nat) (l j : Nat) :
    ∀ (fuel jj : Nat) (c : Int), j + 1 - jj ≤ fuel → jiContLoop RI l j fuel jj c ≠ 0 →
      ∀ x, jj ≤ x → x ≤ j →
        (RI.getD x 0 : Int) ≤ (RI.getD l 0 : Int) + (x : Int) - (l : Int) := by
  intro fuel
  induction fuel with
  | zero => intro jj c hf _ x hx hxj; omega
  | succ fuel ih =>
    intro jj c hf hne x hx hxj
    unfold jiContLoop at hne
    have hjj : jj ≤ j := by omega
    rw [if_pos hjj] at hne
    split_ifs at hne with h1
    · exact absurd rfl hne
    · by_cases hxe : x = jj
      · subst hxe; omega
      · exact ih (jj + 1) c (by omega) hne x (by omega) hxj

theorem sorted_getD_add_le {A : List Nat} (hA : A.Sorted (· < ·)) (l : Nat) :
    ∀ b, l + b < A.length → A.getD l 0 + b ≤ A.getD (l + b) 0 := by
  intro b
  induction b with
  | zero => intro _; simp
  | succ b ih =>
    intro h
    have h1 := ih (by omega)
    have h2 : A.getD (l + b) 0 < A.getD (l + (b + 1)) 0 :=
      getD_lt_of_sorted hA (by omega) h
    omega

theorem jiCont_consecutive {RI : List Nat} (hRI : RI.Sorted (· < ·)) {l j : Nat}
    (hj : j < RI.length) (h : jiCont RI l j ≠ 0) :
    ∀ b, l + b ≤ j → RI.getD (l + b) 0 = RI.getD l 0 + b := by
  intro b hb
  have h1 := jiContLoop_ne_zero RI l j (j + 1 - l) l (-1) le_rfl h (l + b) (by omega) hb
  have h2 := sorted_getD_add_le hRI l b (by omega)
  push_cast at h1
  omega

/-! ## `dgemm` -/

section RingLemmas

variable {R : Type} [CommRing R]

theorem dgemm_at (transA : Bool) (m n k : Nat) (alpha : R) (A : Nat → R) (aOff lda : Nat)
    (B : Nat → R) (bOff ldb : Nat) (beta : R) (C : Nat → R) (cOff ldc : Nat)
    (hlda : max 1 (if transA then k else m) ≤ lda) (hldb : max 1 k ≤ ldb)
    (hldc : max 1 m ≤ ldc) (i j : Nat) (hi : i < m) (hj : j < n) :
    dgemm transA m n k alpha A aOff lda B bOff ldb beta C cOff ldc (cOff + i + ldc * j) =
      alpha * (∑ e ∈ Finset.range k,
          (if transA then A (aOff + e + lda * i) else A (aOff + i + lda * e)) *
          B (bOff + e + ldb * j))
        + beta * C (cOff + i + ldc * j) := by
  have hild : i < ldc := by
    have := le_max_right 1 m
    omega
  unfold dgemm
  rw [if_neg (by omega)]
  have hsub : cOff + i + ldc * j - cOff = i + ldc * j := by omega
  simp only [hsub, flat_mod hild, flat_div hild]
  rw [if_pos ⟨by omega, hi, hj⟩]

theorem dgemm_other (transA : Bool) (m n k : Nat) (alpha : R) (A : Nat → R) (aOff lda : Nat)
    (B : Nat → R) (bOff ldb : Nat) (beta : R) (C : Nat → R) (cOff ldc : Nat) (x : Nat)
    (hx : ∀ i < m, ∀ j < n, x ≠ cOff + i + ldc * j) :
    dgemm transA m n k alpha A aOff lda B bOff ldb beta C cOff ldc x = C x := by
  unfold dgemm
  by_cases hg : lda < max 1 (if transA then k else m) ∨ ldb < max 1 k ∨ ldc < max 1 m
  · rw [if_pos hg]
  · rw [if_neg hg]
    by_cases h2 : cOff ≤ x ∧ (x - cOff) % ldc < m ∧ (x - cOff) / ldc < n
    · exfalso
      apply hx _ h2.2.1 _ h2.2.2
      have := Nat.mod_add_div (x - cOff) ldc
      omega
    · simp only [if_neg h2]

end RingLemmas

/-! ## The scan of the donor's `J` against the run -/

theorem colScan_prefix {σ : Type} (DJ RI : List Nat) (l w : Nat) (pos : Nat → Nat)
    (body : Nat → Nat → σ → σ) (init : σ)
    (hinj : ∀ s s2, s < DJ.length → s2 < DJ.length → DJ.getD s 0 = DJ.getD s2 0 → s = s2)
    (hpos : ∀ b < w, pos b < DJ.length ∧ DJ.getD (pos b) 0 = RI.getD (l + b) 0)
    (hmono : ∀ b b2, b < b2 → b2 < w → pos b < pos b2)
    (hstop : ∀ s < DJ.length, DJ.getD s 0 ≠ RI.getD (l + w) 0) :
    ∀ n, n ≤ DJ.length → ∃ c, c ≤ w ∧ (∀ b < c, pos b < n) ∧ (∀ b, c ≤ b → b < w → n ≤ pos b) ∧
      forLoop n
        (fun s (st : Nat × σ) =>
          if DJ.getD s 0 = RI.getD st.1 0 then (st.1 + 1, body s st.1 st.2) else st)
        (l, init) = (l + c, forLoop c (fun b acc => body (pos b) (l + b) acc) init) := by
  intro n
  induction n with
  | zero =>
    intro _
    exact ⟨0, Nat.zero_le _, by intro b hb; omega, by intro b _ _; omega, rfl⟩
  | succ n ih =>
    intro hn
    obtain ⟨c, hcw, hlt, hge, heq⟩ := ih (by omega)
    rw [forLoop_succ, heq]
    by_cases hc : c < w
    · by_cases hpc : pos c = n
      · refine ⟨c + 1, by omega, ?_, ?_, ?_⟩
        · intro b hb
          by_cases hbc : b = c
          · subst hbc; omega
          · have := hlt b (by omega); omega
        · intro b hb hbw
          have := hmono c b (by omega) hbw
          omega
        · have h1 := (hpos c hc).2
          rw [hpc] at h1
          simp only [h1, if_true, forLoop_succ, hpc]
          rfl
      · refine ⟨c, hcw, ?_, ?_, ?_⟩
        · intro b hb
          have := hlt b hb; omega
        · intro b hb hbw
          have h1 := hge c le_rfl hc
          by_cases hbc : b = c
          · subst hbc; omega
          · have := hmono c b (by omega) hbw
            omega
        · have h1 := hpos c hc
          have hne : DJ.getD n 0 ≠ RI.getD (l + c) 0 := by
            intro h
            rw [← h1.2] at h
            exact hpc (hinj _ _ h1.1 (by omega) h.symm)
          simp only [hne, if_false]
    · have hcw2 : c = w := by omega
      subst hcw2
      refine ⟨c, le_rfl, ?_, ?_, ?_⟩
      · intro b hb
        have := hlt b hb; omega
      · intro b hb hbw; omega
      · have hne := hstop n (by omega)
        simp only [hne, if_false]

theorem colScan_eq {σ : Type} (DJ RI : List Nat) (l w : Nat) (pos : Nat → Nat)
    (body : Nat → Nat → σ → σ) (init : σ)
    (hinj : ∀ s s2, s < DJ.length → s2 < DJ.length → DJ.getD s 0 = DJ.getD s2 0 → s = s2)
    (hpos : ∀ b < w, pos b < DJ.length ∧ DJ.getD (pos b) 0 = RI.getD (l + b) 0)
    (hmono : ∀ b b2, b < b2 → b2 < w → pos b < pos b2)
    (hstop : ∀ s < DJ.length, DJ.getD s 0 ≠ RI.getD (l + w) 0) :
    colScan DJ RI l body init =
      (l + w, forLoop w (fun b acc => body (pos b) (l + b) acc) init) := by
  obtain ⟨c, hcw, hlt, hge, heq⟩ :=
    colScan_prefix DJ RI l w pos body init hinj hpos hmono hstop DJ.length le_rfl
  have hc : c = w := by
    by_contra hne
    have h1 := hge c le_rfl (by omega)
    have h2 := (hpos c (by omega)).1
    omega
  subst hc
  unfold colScan
  exact heq

theorem DonorRun.posJ_lt {DJ RI : List Nat} {l j : Nat} (h : DonorRun DJ RI l j) {b : Nat}
    (hb : b < j - l + 1) : posJ DJ RI l b < DJ.length :=
  List.indexOf_lt_length.mpr (h.sub (l + b) (by omega) (by have := h.le; omega))

theorem DonorRun.getD_posJ {DJ RI : List Nat} {l j : Nat} (h : DonorRun DJ RI l j) {b : Nat}
    (hb : b < j - l + 1) : DJ.getD (posJ DJ RI l b) 0 = RI.getD (l + b) 0 :=
  getD_indexOf (h.sub (l + b) (by omega) (by have := h.le; omega))

theorem DonorRun.posJ_mono {DJ RI : List Nat} {l j : Nat} (h : DonorRun DJ RI l j) {b b2 : Nat}
    (hb : b < b2) (hb2 : b2 < j - l + 1) : posJ DJ RI l b < posJ DJ RI l b2 := by
  have hle := h.le
  have hlt := h.lt
  apply lt_of_getD_lt_of_sorted h.sortedJ (h.posJ_lt (by omega))
  rw [h.getD_posJ (by omega), h.getD_posJ hb2]
  exact getD_lt_of_sorted h.sortedI (by omega) (by omega)

theorem DonorRun.stop {DJ RI : List Nat} {l j : Nat} (h : DonorRun DJ RI l j) :
    ∀ s < DJ.length, DJ.getD s 0 ≠ RI.getD (l + (j - l + 1)) 0 := by
  intro s hs heq
  have hle := h.le
  have hidx : l + (j - l + 1) = j + 1 := by omega
  rw [hidx] at heq
  by_cases hj : j + 1 < RI.length
  · exact h.maximal hj (heq ▸ getD_mem hs)
  · have h0 : RI.getD (j + 1) 0 = 0 := by
      rw [List.getD_eq_default]; omega
    have := h.onebased _ (getD_mem hs)
    omega

theorem DonorRun.colScan_run {σ : Type} {DJ RI : List Nat} {l j : Nat} (h : DonorRun DJ RI l j)
    (body : Nat → Nat → σ → σ) (init : σ) :
    colScan DJ RI l body init =
      (j + 1, forLoop (j - l + 1) (fun b acc => body (posJ DJ RI l b) (l + b) acc) init) := by
  have hle := h.le
  have := Selbinv.colScan_eq DJ RI l (j - l + 1) (posJ DJ RI l) body init
    (fun s s2 hs hs2 he => getD_inj_of_sorted h.sortedJ hs hs2 he)
    (fun b hb => ⟨h.posJ_lt hb, h.getD_posJ hb⟩)
    (fun b b2 hb hb2 => h.posJ_mono hb hb2)
    h.stop
  rw [this]
  congr 1
  omega

/-- With a donor `J` of consecutive integers and a run of consecutive values, the
positions of the run in `J` start at `j_first` and are consecutive. -/
theorem DonorRun.posJ_consecutive {DJ RI : List Nat} {l j : Nat} (h : DonorRun DJ RI l j)
    (hc : Consecutive DJ) (hji : jiCont RI l j ≠ 0) {b : Nat} (hb : b < j - l + 1) :
    (posJ DJ RI l b : Int) = jFirst RI DJ l + b := by
  have hle := h.le
  have h1 := h.posJ_lt hb
  have h2 := h.getD_posJ hb
  rw [hc _ h1] at h2
  have h3 := jiCont_consecutive h.sortedI h.lt hji b (by omega)
  unfold jFirst
  omega

/-! ## Row-wise updates of a flat array -/

section RowLemmas

variable {R : Type}

theorem flat_off_inj {off ld i j i2 j2 : Nat} (hi : i < ld) (hi2 : i2 < ld)
    (h : off + i + ld * j = off + i2 + ld * j2) : i = i2 ∧ j = j2 :=
  flat_inj hi hi2 (by omega)

theorem forLoop_rowUpd (off ld n ρ : Nat) (F : Nat → R → R) (T : Nat → R) (hρ : ρ < ld) :
    RowUpd off ld n ρ F T
      (forLoop n (fun c acc => Function.update acc (off + ρ + ld * c)
        (F c (acc (off + ρ + ld * c)))) T) := by
  induction n with
  | zero =>
    exact ⟨by intro c hc; omega, by intro x _; rfl⟩
  | succ n ih =>
    obtain ⟨h1, h2⟩ := ih
    rw [forLoop_succ]
    constructor
    · intro c hc
      by_cases hcn : c = n
      · subst hcn
        rw [Function.update_same]
        congr 1
        apply h2
        intro c2 hc2 heq
        have := (flat_off_inj hρ hρ heq).2
        omega
      · rw [Function.update_noteq]
        · exact h1 c (by omega)
        · intro heq
          exact hcn (flat_off_inj hρ hρ heq).2
    · intro x hx
      rw [Function.update_noteq (hx n (by omega))]
      exact h2 x (fun c hc => hx c (by omega))

theorem foldl_rowsUpd (off ld n : Nat) (row : Nat → Nat) (F : Nat → Nat → R → R)
    (step : Nat → Nat × Nat → (Nat → R) → (Nat → R)) :
    ∀ (ms : List (Nat × Nat)) (a0 : Nat) (T : Nat → R),
      (∀ i, i < ms.length → ∀ T1, RowUpd off ld n (row (a0 + i)) (F (a0 + i)) T1
        (step (a0 + i) (ms.getD i (0, 0)) T1)) →
      (∀ i, i < ms.length → row (a0 + i) < ld) →
      (∀ i i2, i < i2 → i2 < ms.length → row (a0 + i) ≠ row (a0 + i2)) →
      (ms.foldl (fun st pq => (step st.2 pq st.1, st.2 + 1)) (T, a0)).2 = a0 + ms.length ∧
      RowsUpd off ld n ms.length (fun i => row (a0 + i)) (fun i => F (a0 + i)) T
        (ms.foldl (fun st pq => (step st.2 pq st.1, st.2 + 1)) (T, a0)).1 := by
  intro ms
  induction ms with
  | nil =>
    intro a0 T _ _ _
    exact ⟨rfl, by intro i hi; simp at hi, by intro x _; rfl⟩
  | cons x rest ih =>
    intro a0 T hstep hlt hne
    have h0 := hstep 0 (by simp) T
    simp only [Nat.add_zero, List.getD_cons_zero] at h0
    have hstep2 : ∀ i, i < rest.length → ∀ T1,
        RowUpd off ld n (row (a0 + 1 + i)) (F (a0 + 1 + i)) T1
          (step (a0 + 1 + i) (rest.getD i (0, 0)) T1) := by
      intro i hi T1
      have := hstep (i + 1) (by simp; omega) T1
      simp only [List.getD_cons_succ] at this
      have e : a0 + (i + 1) = a0 + 1 + i := by omega
      rw [e] at this
      exact this
    have hlt2 : ∀ i, i < rest.length → row (a0 + 1 + i) < ld := by
      intro i hi
      have := hlt (i + 1) (by simp; omega)
      have e : a0 + (i + 1) = a0 + 1 + i := by omega
      rw [e] at this
      exact this
    have hne2 : ∀ i i2, i < i2 → i2 < rest.length → row (a0 + 1 + i) ≠ row (a0 + 1 + i2) := by
      intro i i2 hii hi2
      have := hne (i + 1) (i2 + 1) (by omega) (by simp; omega)
      have e : a0 + (i + 1) = a0 + 1 + i := by omega
      have e2 : a0 + (i2 + 1) = a0 + 1 + i2 := by omega
      rw [e, e2] at this
      exact this
    obtain ⟨ih1, ih2, ih3⟩ := ih (a0 + 1) (step a0 x T) hstep2 hlt2 hne2
    simp only [List.foldl_cons, List.length_cons]
    refine ⟨by rw [ih1]; omega, ?_, ?_⟩
    · intro i hi c hc
      cases i with
      | zero =>
        simp only [Nat.add_zero]
        rw [ih3, h0.1 c hc]
        intro i2 hi2 c2 hc2 heq
        have hr0 := hlt 0 (by simp)
        simp only [Nat.add_zero] at hr0
        have := (flat_off_inj hr0 (hlt2 i2 hi2) heq).1
        have hh := hne 0 (i2 + 1) (by omega) (by simp; omega)
        simp only [Nat.add_zero] at hh
        have e : a0 + (i2 + 1) = a0 + 1 + i2 := by omega
        rw [e] at hh
        exact hh this
      | succ i =>
        have e : a0 + (i + 1) = a0 + 1 + i := by omega
        simp only [e]
        rw [ih2 i (by omega) c hc]
        congr 1
        apply h0.2
        intro c2 hc2 heq
        have hr0 := hlt 0 (by simp)
        simp only [Nat.add_zero] at hr0
        have := (flat_off_inj (hlt2 i (by omega)) hr0 heq).1
        have hh := hne 0 (i + 1) (by omega) (by simp; omega)
        simp only [Nat.add_zero] at hh
        rw [e] at hh
        exact hh this.symm
    · intro y hy
      rw [ih3, h0.2]
      · intro c hc
        have := hy 0 (by simp) c hc
        simp only [Nat.add_zero] at this
        exact this
      · intro i hi c hc
        have := hy (i + 1) (by omega) c hc
        have e : a0 + (i + 1) = a0 + 1 + i := by omega
        simp only at this ⊢
        rw [e] at this
        exact this

theorem foldl_counter_fst {σ α : Type} (g : α → σ → σ) :
    ∀ (ms : List α) (a0 : Nat) (T : σ),
      (ms.foldl (fun (st : σ × Nat) pq => (g pq st.1, st.2 + 1)) (T, a0)).1 =
        ms.foldl (fun acc pq => g pq acc) T := by
  intro ms
  induction ms with
  | nil => intro a0 T; rfl
  | cons x rest ih =>
    intro a0 T
    simp only [List.foldl_cons]
    exact ih _ _

/-- Two arrays that arise from the same array by the same row-wise update agree. -/
theorem RowsUpd.unique {off ld n cnt : Nat} {row : Nat → Nat} {F : Nat → Nat → R → R}
    {T T2 T3 : Nat → R} (h2 : RowsUpd off ld n cnt row F T T2)
    (h3 : RowsUpd off ld n cnt row F T T3) : T2 = T3 := by
  funext x
  by_cases hx : ∃ i, i < cnt ∧ ∃ c, c < n ∧ x = off + row i + ld * c
  · obtain ⟨i, hi, c, hc, rfl⟩ := hx
    rw [h2.1 i hi c hc, h3.1 i hi c hc]
  · have hx2 : ∀ i, i < cnt → ∀ c, c < n → x ≠ off + row i + ld * c := by
      intro i hi c hc heq
      exact hx ⟨i, hi, c, hc, heq⟩
    rw [h2.2 x hx2, h3.2 x hx2]

theorem RowsUpd.congr {off ld n cnt : Nat} {row : Nat → Nat} {F G : Nat → Nat → R → R}
    {T T2 : Nat → R} (h : RowsUpd off ld n cnt row F T T2)
    (hFG : ∀ i, i < cnt → ∀ c, c < n → ∀ v, F i c v = G i c v) :
    RowsUpd off ld n cnt row G T T2 :=
  ⟨fun i hi c hc => by rw [h.1 i hi c hc, hFG i hi c hc], h.2⟩

end RowLemmas

/-! ## The hand-coded loop of the contributions `target(Ik,:) -= donor(Ii,Ji) * src(l:j,:)` -/

section NNScalar

variable {R : Type} [CommRing R]

theorem forLoop_accum (w x : Nat) (f : Nat → R) (src T : Nat → R) (pr : Nat) :
    forLoop w
      (fun b (acc : (Nat → R) × Nat) =>
        (Function.update acc.1 x (acc.1 x - f b * src acc.2), acc.2 + 1)) (T, pr) =
      (Function.update T x (T x - ∑ b ∈ Finset.range w, f b * src (pr + b)), pr + w) := by
  induction w with
  | zero => simp [forLoop]
  | succ w ih =>
    rw [forLoop_succ, ih]
    simp only [Function.update_same, Function.update_idem, Finset.sum_range_succ]
    refine Prod.ext ?_ (by simp only; omega)
    simp only
    rw [sub_sub]

theorem matchPairs_getD_mem (A B : List Nat) {i : Nat} (hi : i < (matchPairs A B).length) :
    (matchPairs A B).getD i (0, 0) ∈ matchPairs A B := by
  rw [List.getD_eq_getElem _ _ hi]
  exact List.getElem_mem hi

theorem matchPairs_fst_lt (A B : List Nat) {i i2 : Nat} (h : i < i2)
    (hi2 : i2 < (matchPairs A B).length) :
    ((matchPairs A B).getD i (0, 0)).1 < ((matchPairs A B).getD i2 (0, 0)).1 := by
  have hi : i < (matchPairs A B).length := lt_trans h hi2
  rw [List.getD_eq_getElem _ _ hi, List.getD_eq_getElem _ _ hi2]
  exact ((List.pairwise_iff_getElem.mp (matchPairs_pairwise A B)) i i2 hi hi2 h).1

theorem matchPairs_snd_lt (A B : List Nat) {i i2 : Nat} (h : i < i2)
    (hi2 : i2 < (matchPairs A B).length) :
    ((matchPairs A B).getD i (0, 0)).2 < ((matchPairs A B).getD i2 (0, 0)).2 := by
  have hi : i < (matchPairs A B).length := lt_trans h hi2
  rw [List.getD_eq_getElem _ _ hi, List.getD_eq_getElem _ _ hi2]
  exact ((List.pairwise_iff_getElem.mp (matchPairs_pairwise A B)) i i2 hi hi2 h).2

theorem nnScalar_row {TI DI DJ RI : List Nat} {l j : Nat} (n_size : Nat) (donor src : Nat → R)
    (hrun : DonorRun DJ RI l j) (p q : Nat) (hp : p < TI.length) (T : Nat → R) :
    RowUpd 0 TI.length n_size p (fun c v => v - nnTerm DJ RI l j DI.length donor src q c) T
      (forLoop n_size
        (fun ii (st : (Nat → R) × Nat) =>
          ((colScan DJ RI l
              (fun s _ (st3 : (Nat → R) × Nat) =>
                (Function.update st3.1 (p + TI.length * ii)
                  (st3.1 (p + TI.length * ii) - donor (q + DI.length * s) * src st3.2),
                 st3.2 + 1))
              (st.1, st.2)).2.1,
           (colScan DJ RI l
              (fun s _ (st3 : (Nat → R) × Nat) =>
                (Function.update st3.1 (p + TI.length * ii)
                  (st3.1 (p + TI.length * ii) - donor (q + DI.length * s) * src st3.2),
                 st3.2 + 1))
              (st.1, st.2)).2.2 + (RI.length - (j - l + 1))))
        (T, l)).1 := by
  have hle := hrun.le
  have hlt := hrun.lt
  have key : ∀ n,
      forLoop n
        (fun ii (st : (Nat → R) × Nat) =>
          ((colScan DJ RI l
              (fun s _ (st3 : (Nat → R) × Nat) =>
                (Function.update st3.1 (p + TI.length * ii)
                  (st3.1 (p + TI.length * ii) - donor (q + DI.length * s) * src st3.2),
                 st3.2 + 1))
              (st.1, st.2)).2.1,
           (colScan DJ RI l
              (fun s _ (st3 : (Nat → R) × Nat) =>
                (Function.update st3.1 (p + TI.length * ii)
                  (st3.1 (p + TI.length * ii) - donor (q + DI.length * s) * src st3.2),
                 st3.2 + 1))
              (st.1, st.2)).2.2 + (RI.length - (j - l + 1))))
        (T, l) =
      (forLoop n (fun c acc => Function.update acc (0 + p + TI.length * c)
          ((fun c v => v - nnTerm DJ RI l j DI.length donor src q c) c
            (acc (0 + p + TI.length * c)))) T,
        l + RI.length * n) := by
    intro n
    induction n with
    | zero => rfl
    | succ n ih =>
      rw [forLoop_succ, ih, forLoop_succ]
      simp only [hrun.colScan_run]
      rw [forLoop_accum (j - l + 1) (p + TI.length * n)
        (fun b => donor (q + DI.length * posJ DJ RI l b)) src]
      refine Prod.ext ?_ ?_
      · simp only [Nat.zero_add, nnTerm]
        have hs : ∑ b ∈ Finset.range (j - l + 1),
              donor (q + DI.length * posJ DJ RI l b) * src (l + RI.length * n + b) =
            ∑ b ∈ Finset.range (j - l + 1),
              donor (q + DI.length * posJ DJ RI l b) * src (l + b + RI.length * n) :=
          Finset.sum_congr rfl (fun b _ => by
            rw [show l + RI.length * n + b = l + b + RI.length * n by omega])
        rw [hs]
      · simp only
        rw [Nat.mul_succ]
        omega
  rw [key]
  exact forLoop_rowUpd 0 TI.length n_size p _ T hp

theorem nnScalar_spec (TI DI : List Nat) {DJ RI : List Nat} {l j : Nat} (n_size : Nat)
    (donor src tgt : Nat → R) (hrun : DonorRun DJ RI l j) :
    NNSpec TI DI DJ RI l j n_size donor src tgt
      (nnScalar TI DI DJ RI l j n_size donor src tgt) := by
  unfold nnScalar NNSpec
  rw [mergeLoop_eq_foldl]
  have hfold := foldl_counter_fst
    (fun (pq : Nat × Nat) (T : Nat → R) =>
      (forLoop n_size
        (fun ii (st : (Nat → R) × Nat) =>
          ((colScan DJ RI l
              (fun s _ (st3 : (Nat → R) × Nat) =>
                (Function.update st3.1 (pq.1 + TI.length * ii)
                  (st3.1 (pq.1 + TI.length * ii) - donor (pq.2 + DI.length * s) * src st3.2),
                 st3.2 + 1))
              (st.1, st.2)).2.1,
           (colScan DJ RI l
              (fun s _ (st3 : (Nat → R) × Nat) =>
                (Function.update st3.1 (pq.1 + TI.length * ii)
                  (st3.1 (pq.1 + TI.length * ii) - donor (pq.2 + DI.length * s) * src st3.2),
                 st3.2 + 1))
              (st.1, st.2)).2.2 + (RI.length - (j - l + 1))))
        (T, l)).1)
    (matchList TI DI (TI.length + DI.length) 0 0) 0 tgt
  rw [← hfold]
  have h := foldl_rowsUpd 0 TI.length n_size
    (fun i => ((matchPairs TI DI).getD i (0, 0)).1)
    (fun i c v => v - nnTerm DJ RI l j DI.length donor src ((matchPairs TI DI).getD i (0, 0)).2 c)
    (fun (_ : Nat) (pq : Nat × Nat) (T : Nat → R) =>
      (forLoop n_size
        (fun ii (st : (Nat → R) × Nat) =>
          ((colScan DJ RI l
              (fun s _ (st3 : (Nat → R) × Nat) =>
                (Function.update st3.1 (pq.1 + TI.length * ii)
                  (st3.1 (pq.1 + TI.length * ii) - donor (pq.2 + DI.length * s) * src st3.2),
                 st3.2 + 1))
              (st.1, st.2)).2.1,
           (colScan DJ RI l
              (fun s _ (st3 : (Nat → R) × Nat) =>
                (Function.update st3.1 (pq.1 + TI.length * ii)
                  (st3.1 (pq.1 + TI.length * ii) - donor (pq.2 + DI.length * s) * src st3.2),
                 st3.2 + 1))
              (st.1, st.2)).2.2 + (RI.length - (j - l + 1))))
        (T, l)).1)
    (matchPairs TI DI) 0 tgt
    (by
      intro i hi T1
      simp only [Nat.zero_add]
      exact nnScalar_row n_size donor src hrun _ _
        (matchPairs_bound TI DI _ (matchPairs_getD_mem TI DI hi)).1 T1)
    (by
      intro i hi
      simp only [Nat.zero_add]
      exact (matchPairs_bound TI DI _ (matchPairs_getD_mem TI DI hi)).1)
    (by
      intro i i2 hii hi2
      simp only [Nat.zero_add]
      exact ne_of_lt (matchPairs_fst_lt TI DI hii hi2))
  simp only [Nat.zero_add] at h
  exact h.2

end NNScalar

/-! ## The multiply paths of the contributions `target(Ik,:) -= donor(Ii,Ji) * src(l:j,:)` -/

section NNGemm

variable {R : Type} [CommRing R]

theorem matchPairs_le_fst (A B : List Nat) :
    ∀ i, i < (matchPairs A B).length → i ≤ ((matchPairs A B).getD i (0, 0)).1 := by
  intro i
  induction i with
  | zero => intro _; exact Nat.zero_le _
  | succ i ih =>
    intro hi
    have h1 := ih (by omega)
    have h2 := matchPairs_fst_lt A B (show i < i + 1 by omega) hi
    omega

theorem matchPairs_le_snd (A B : List Nat) :
    ∀ i, i < (matchPairs A B).length → i ≤ ((matchPairs A B).getD i (0, 0)).2 := by
  intro i
  induction i with
  | zero => intro _; exact Nat.zero_le _
  | succ i ih =>
    intro hi
    have h1 := ih (by omega)
    have h2 := matchPairs_snd_lt A B (show i < i + 1 by omega) hi
    omega

theorem matchPairs_length_le (A B : List Nat) :
    (matchPairs A B).length ≤ A.length ∧ (matchPairs A B).length ≤ B.length := by
  by_cases h : (matchPairs A B).length = 0
  · omega
  · have hi : (matchPairs A B).length - 1 < (matchPairs A B).length := by omega
    have h1 := matchPairs_le_fst A B _ hi
    have h2 := matchPairs_le_snd A B _ hi
    have h3 := matchPairs_bound A B _ (matchPairs_getD_mem A B hi)
    omega

/-- The run fits into its index array. -/
theorem DonorRun.width_le {DJ RI : List Nat} {l j : Nat} (h : DonorRun DJ RI l j) :
    max 1 (j - l + 1) ≤ RI.length := by
  have := h.le
  have := h.lt
  rw [max_eq_right (by omega)]
  omega

/-- With a donor `J` of consecutive integers and a run of consecutive values, the
pointer offset passed to `dgemm_` addresses the donor entry of the first matched
row and the first column of the run. -/
theorem DonorRun.donorOffset_add {DJ RI : List Nat} {l j : Nat} (h : DonorRun DJ RI l j)
    (hc : Consecutive DJ) (hji : jiCont RI l j ≠ 0) (i_first DM a b : Nat)
    (hb : b < j - l + 1) :
    donorOffset i_first DM (jFirst RI DJ l) + a + DM * b =
      (i_first + a) + DM * posJ DJ RI l b := by
  have h0 := h.posJ_consecutive hc hji (show 0 < j - l + 1 by omega)
  have hb2 := h.posJ_consecutive hc hji hb
  have e : posJ DJ RI l b = posJ DJ RI l 0 + b := by omega
  have h0b : jFirst RI DJ l = (posJ DJ RI l 0 : Int) := by omega
  unfold donorOffset
  rw [h0b, e]
  have : ((i_first : Int) + (DM : Int) * (posJ DJ RI l 0 : Int)).toNat =
      i_first + DM * posJ DJ RI l 0 := by
    rw [← Int.toNat_ofNat (i_first + DM * posJ DJ RI l 0)]
    congr 1
  rw [this]
  ring

/-- A `dgemm_` call that subtracts the product directly from the target rows
`k_first, k_first + 1, ...` meets the specification, provided that its first
operand, as addressed through `aOff` and `lda`, holds the donor entries of the
matched rows and of the columns of the run. -/
theorem dgemm_direct_spec {TI DI DJ RI : List Nat} {l j : Nat} (n_size : Nat)
    (donor src tgt Aop : Nat → R) (aOff lda k_first : Nat) (hrun : DonorRun DJ RI l j)
    (ht : (matchPairs TI DI).length ≠ 0)
    (hlda : max 1 (matchPairs TI DI).length ≤ lda)
    (hA : ∀ a, a < (matchPairs TI DI).length → ∀ b, b < j - l + 1 →
      Aop (aOff + a + lda * b) =
        donor (((matchPairs TI DI).getD a (0, 0)).2 + DI.length * posJ DJ RI l b))
    (hk : ∀ a, a < (matchPairs TI DI).length →
      ((matchPairs TI DI).getD a (0, 0)).1 = k_first + a) :
    NNSpec TI DI DJ RI l j n_size donor src tgt
      (dgemm false (matchPairs TI DI).length n_size (j - l + 1) (-1) Aop aOff lda src l
        RI.length 1 tgt k_first TI.length) := by
  have hldc : max 1 (matchPairs TI DI).length ≤ TI.length := by
    have := (matchPairs_length_le TI DI).1
    rw [max_eq_right (by omega)]
    omega
  constructor
  · intro a ha c hc
    simp only [Nat.zero_add]
    rw [hk a ha]
    rw [dgemm_at false _ _ _ _ _ _ _ _ _ _ _ _ _ _ (by simpa using hlda) hrun.width_le hldc
      a c ha hc]
    simp only [Bool.false_eq_true, if_false, nnTerm]
    have hs : ∑ e ∈ Finset.range (j - l + 1), Aop (aOff + a + lda * e) *
          src (l + e + RI.length * c) =
        ∑ b ∈ Finset.range (j - l + 1),
          donor (((matchPairs TI DI).getD a (0, 0)).2 + DI.length * posJ DJ RI l b) *
            src (l + b + RI.length * c) :=
      Finset.sum_congr rfl (fun b hb => by rw [hA a ha b (Finset.mem_range.mp hb)])
    rw [hs]
    ring
  · intro x hx
    apply dgemm_other
    intro i hi c hc heq
    apply hx i hi c hc
    simp only [Nat.zero_add]
    rw [hk i hi, heq]

theorem nnSpec_of_nil {TI DI DJ RI : List Nat} {l j : Nat} (n_size : Nat)
    (donor src tgt : Nat → R) (h : (matchPairs TI DI).length = 0) :
    NNSpec TI DI DJ RI l j n_size donor src tgt tgt := by
  unfold NNSpec
  rw [h]
  exact ⟨by intro i hi; omega, by intro x _; rfl⟩

theorem nnZeroCopy_spec {TI DI DJ RI : List Nat} {l j : Nat} (n_size : Nat)
    (donor src tgt : Nat → R) (hrun : DonorRun DJ RI l j) (hc : Consecutive DJ)
    (hIi : (intersect TI DI).Ii_cont ≠ 0) (hIk : (intersect TI DI).Ik_cont ≠ 0)
    (hJi : jiCont RI l j ≠ 0) :
    NNSpec TI DI DJ RI l j n_size donor src tgt
      (nnZeroCopy TI DI RI l j n_size (intersect TI DI) (jFirst RI DJ l) donor src tgt) := by
  obtain ⟨ht, hk, hi⟩ := intersect_spec TI DI
  unfold nnZeroCopy
  by_cases h0 : (intersect TI DI).t = 0
  · rw [if_neg (by simp [h0])]
    exact nnSpec_of_nil n_size donor src tgt (by omega)
  · rw [if_pos ⟨h0, by omega⟩, ht]
    apply dgemm_direct_spec n_size donor src tgt donor _ _ _ hrun (by omega)
    · have := (matchPairs_length_le TI DI).2
      rw [max_eq_right (by omega)]
      exact this
    · intro a ha b hb
      rw [hrun.donorOffset_add hc hJi _ _ a b hb, hi hIi a ha]
    · exact hk hIk

/-! ### The buffer -/

theorem forLoop_strided (w t pr : Nat) (f : Nat → R) (T : Nat → R) :
    forLoop w
      (fun b (acc : (Nat → R) × Nat) => (Function.update acc.1 acc.2 (f b), acc.2 + t))
      (T, pr) =
      (forLoop w (fun c acc => Function.update acc (0 + pr + t * c)
          ((fun c _ => f c) c (acc (0 + pr + t * c)))) T,
        pr + t * w) := by
  induction w with
  | zero => rfl
  | succ w ih =>
    rw [forLoop_succ, ih, forLoop_succ]
    refine Prod.ext ?_ ?_
    · simp only [Nat.zero_add]
    · simp only
      rw [Nat.mul_succ]
      omega

theorem gatherA_spec (TI DI : List Nat) {DJ RI : List Nat} {l j : Nat} (donor buf : Nat → R)
    (hrun : DonorRun DJ RI l j) :
    RowsUpd 0 (matchPairs TI DI).length (j - l + 1) (matchPairs TI DI).length (fun i => i)
      (fun i b _ => donor (((matchPairs TI DI).getD i (0, 0)).2 + DI.length * posJ DJ RI l b))
      buf (gatherA TI DI DJ RI l (matchPairs TI DI).length donor buf) := by
  unfold gatherA
  rw [mergeLoop_eq_foldl]
  have h := foldl_rowsUpd 0 (matchPairs TI DI).length (j - l + 1) (fun i => i)
    (fun i b (_ : R) =>
      donor (((matchPairs TI DI).getD i (0, 0)).2 + DI.length * posJ DJ RI l b))
    (fun (a : Nat) (pq : Nat × Nat) (T : Nat → R) =>
      (colScan DJ RI l
          (fun s _ (st3 : (Nat → R) × Nat) =>
            (Function.update st3.1 st3.2 (donor (pq.2 + DI.length * s)),
              st3.2 + (matchPairs TI DI).length))
          (T, a)).2.1)
    (matchPairs TI DI) 0 buf
    (by
      intro i hi T1
      simp only [Nat.zero_add]
      rw [hrun.colScan_run]
      simp only
      rw [forLoop_strided (j - l + 1) (matchPairs TI DI).length i
        (fun b => donor (((matchPairs TI DI).getD i (0, 0)).2 + DI.length * posJ DJ RI l b))]
      exact forLoop_rowUpd 0 _ _ i _ T1 hi)
    (by intro i hi; simp only [Nat.zero_add]; exact hi)
    (by intro i i2 hii _; simp only [Nat.zero_add]; omega)
  simp only [Nat.zero_add] at h
  exact h.2

theorem zeroFill_spec (cnt cOff : Nat) (buf : Nat → R) :
    (∀ x, cOff ≤ x → x < cOff + cnt → zeroFill cnt cOff buf x = 0) ∧
    (∀ x, (x < cOff ∨ cOff + cnt ≤ x) → zeroFill cnt cOff buf x = buf x) := by
  unfold zeroFill
  induction cnt with
  | zero =>
    exact ⟨by intro x h1 h2; omega, by intro x _; rfl⟩
  | succ cnt ih =>
    obtain ⟨h1, h2⟩ := ih
    rw [forLoop_succ]
    constructor
    · intro x hx1 hx2
      by_cases hx : x = cOff + cnt
      · rw [hx, Function.update_same]
      · rw [Function.update_noteq hx]
        exact h1 x hx1 (by omega)
    · intro x hx
      rw [Function.update_noteq (by omega)]
      exact h2 x (by omega)

theorem scatterC_spec (TI DI : List Nat) (n_size t cOff : Nat) (buf tgt : Nat → R) :
    RowsUpd 0 TI.length n_size (matchPairs TI DI).length
      (fun i => ((matchPairs TI DI).getD i (0, 0)).1)
      (fun i c v => v - buf (cOff + i + t * c))
      tgt (scatterC TI DI n_size t cOff buf tgt) := by
  unfold scatterC
  rw [mergeLoop_eq_foldl]
  have h := foldl_rowsUpd 0 TI.length n_size
    (fun a => ((matchPairs TI DI).getD (a - cOff) (0, 0)).1)
    (fun a c (v : R) => v - buf (a + t * c))
    (fun (a : Nat) (pq : Nat × Nat) (T : Nat → R) =>
      forLoop n_size
        (fun r T1 => Function.update T1 (pq.1 + TI.length * r)
          (T1 (pq.1 + TI.length * r) - buf (a + t * r)))
        T)
    (matchPairs TI DI) cOff tgt
    (by
      intro i hi T1
      simp only [Nat.add_sub_cancel_left]
      have := forLoop_rowUpd 0 TI.length n_size ((matchPairs TI DI).getD i (0, 0)).1
        (fun c (v : R) => v - buf (cOff + i + t * c)) T1
        (matchPairs_bound TI DI _ (matchPairs_getD_mem TI DI hi)).1
      simp only [Nat.zero_add] at this
      exact this)
    (by
      intro i hi
      simp only [Nat.add_sub_cancel_left]
      exact (matchPairs_bound TI DI _ (matchPairs_getD_mem TI DI hi)).1)
    (by
      intro i i2 hii hi2
      simp only [Nat.add_sub_cancel_left]
      exact ne_of_lt (matchPairs_fst_lt TI DI hii hi2))
  simp only [Nat.add_sub_cancel_left] at h
  exact h.2

theorem flat_lt_mul {t w i e : Nat} (hi : i < t) (he : e < w) : i + t * e < t * w := by
  have h1 : t * (e + 1) ≤ t * w := Nat.mul_le_mul_left t (by omega)
  rw [Nat.mul_succ] at h1
  omega

/-- A `dgemm_` call that leaves the product in the buffer (`alpha = 1`, `beta = 0`)
stores there, row by row of the intersection, the rows of the product. -/
theorem dgemm_buffer_spec {TI DI DJ RI : List Nat} {l j : Nat} (n_size : Nat)
    (donor src buf2 Aop : Nat → R) (aOff lda cOff : Nat) (hrun : DonorRun DJ RI l j)
    (ht : (matchPairs TI DI).length ≠ 0)
    (hlda : max 1 (matchPairs TI DI).length ≤ lda)
    (hA : ∀ a, a < (matchPairs TI DI).length → ∀ b, b < j - l + 1 →
      Aop (aOff + a + lda * b) =
        donor (((matchPairs TI DI).getD a (0, 0)).2 + DI.length * posJ DJ RI l b)) :
    ∀ a, a < (matchPairs TI DI).length → ∀ c, c < n_size →
      dgemm false (matchPairs TI DI).length n_size (j - l + 1) 1 Aop aOff lda src l
        RI.length 0 buf2 cOff (matchPairs TI DI).length
        (cOff + a + (matchPairs TI DI).length * c) =
      nnTerm DJ RI l j DI.length donor src ((matchPairs TI DI).getD a (0, 0)).2 c := by
  intro a ha c hc
  rw [dgemm_at false _ _ _ _ _ _ _ _ _ _ _ _ _ _ (by simpa using hlda) hrun.width_le
    (by rw [max_eq_right (by omega)]) a c ha hc]
  simp only [Bool.false_eq_true, if_false, nnTerm, one_mul, zero_mul, add_zero]
  exact Finset.sum_congr rfl (fun b hb => by rw [hA a ha b (Finset.mem_range.mp hb)])

theorem scatter_buffer_spec {TI DI DJ RI : List Nat} {l j : Nat} (n_size cOff : Nat)
    (donor src tgt buf3 : Nat → R)
    (hbuf : ∀ a, a < (matchPairs TI DI).length → ∀ c, c < n_size →
      buf3 (cOff + a + (matchPairs TI DI).length * c) =
        nnTerm DJ RI l j DI.length donor src ((matchPairs TI DI).getD a (0, 0)).2 c) :
    NNSpec TI DI DJ RI l j n_size donor src tgt
      (scatterC TI DI n_size (matchPairs TI DI).length cOff buf3 tgt) := by
  unfold NNSpec
  exact (scatterC_spec TI DI n_size (matchPairs TI DI).length cOff buf3 tgt).congr
    (fun i hi c hc v => by rw [hbuf i hi c hc])

theorem nnGather_nil {TI DI DJ RI : List Nat} {l j : Nat} (n_size : Nat) (Ji_cont j_first : Int)
    (donor src tgt buf : Nat → R) (h : (matchPairs TI DI).length = 0) :
    (nnGather TI DI DJ RI l j n_size (intersect TI DI) Ji_cont j_first donor src tgt buf).1
      = tgt := by
  have ht := (intersect_spec TI DI).1
  have hnil : matchPairs TI DI = [] := List.length_eq_zero.mp h
  have hm : matchList TI DI (TI.length + DI.length) 0 0 = [] := hnil
  have h0 : (intersect TI DI).t = 0 := by omega
  unfold nnGather
  simp only [h0, ne_eq, not_true_eq_false, false_and, if_false]
  split_ifs <;> simp [scatterC, mergeLoop_eq_foldl, hm]

theorem nnGather_spec {TI DI DJ RI : List Nat} {l j : Nat} (n_size : Nat)
    (donor src tgt buf : Nat → R) (hrun : DonorRun DJ RI l j)
    (hc : (intersect TI DI).Ii_cont ≠ 0 → jiCont RI l j ≠ 0 → Consecutive DJ) :
    NNSpec TI DI DJ RI l j n_size donor src tgt
      (nnGather TI DI DJ RI l j n_size (intersect TI DI) (jiCont RI l j) (jFirst RI DJ l)
        donor src tgt buf).1 := by
  obtain ⟨ht, hk, hi⟩ := intersect_spec TI DI
  by_cases h0 : (matchPairs TI DI).length = 0
  · rw [nnGather_nil n_size _ _ donor src tgt buf h0]
    exact nnSpec_of_nil n_size donor src tgt h0
  have hw : j - l + 1 ≠ 0 := by omega
  have htt : max 1 (matchPairs TI DI).length ≤ (matchPairs TI DI).length := by
    rw [max_eq_right (by omega)]
  have hDM : max 1 (matchPairs TI DI).length ≤ DI.length := by
    have := (matchPairs_length_le TI DI).2
    rw [max_eq_right (by omega)]
    exact this
  unfold nnGather
  simp only [ht, ne_eq, h0, not_false_eq_true, hw, and_self, if_true]
  by_cases hg : (intersect TI DI).Ii_cont = 0 ∨ jiCont RI l j = 0
  · -- the donor block is gathered into the buffer
    have hgath := gatherA_spec TI DI donor buf hrun
    simp only [hg, decide_True, if_true]
    by_cases hIk : (intersect TI DI).Ik_cont = 0
    · simp only [hIk, if_true]
      apply scatter_buffer_spec
      apply dgemm_buffer_spec n_size donor src _ _ 0 _ _ hrun h0 htt
      intro a ha b hb
      rw [(zeroFill_spec _ _ _).2 _ (Or.inl (by
        have := flat_lt_mul ha hb
        omega))]
      exact hgath.1 a ha b hb
    · simp only [hIk, if_false]
      apply dgemm_direct_spec n_size donor src tgt _ 0 _ _ hrun h0 htt
      · intro a ha b hb
        exact hgath.1 a ha b hb
      · exact hk hIk
  · -- the donor block is addressed in place
    have hIi : (intersect TI DI).Ii_cont ≠ 0 := fun h => hg (Or.inl h)
    have hJi : jiCont RI l j ≠ 0 := fun h => hg (Or.inr h)
    have hcons := hc hIi hJi
    simp only [hg, decide_False, if_false, Bool.false_eq_true]
    by_cases hIk : (intersect TI DI).Ik_cont = 0
    · simp only [hIk, if_true]
      apply scatter_buffer_spec
      apply dgemm_buffer_spec n_size donor src _ _ _ _ _ hrun h0 hDM
      intro a ha b hb
      rw [hrun.donorOffset_add hcons hJi _ _ a b hb, hi hIi a ha]
    · simp only [hIk, if_false]
      apply dgemm_direct_spec n_size donor src tgt _ _ _ _ hrun h0 hDM
      · intro a ha b hb
        rw [hrun.donorOffset_add hcons hJi _ _ a b hb, hi hIi a ha]
      · exact hk hIk

/-! ### The three-way branch -/

theorem contribNN_spec (TI DI : List Nat) {DJ RI : List Nat} {l j : Nat} (n_size : Nat)
    (donor src : Nat → R) (st : (Nat → R) × (Nat → R) × Nat) (hrun : DonorRun DJ RI l j)
    (hc : Consecutive DJ) :
    NNSpec TI DI DJ RI l j n_size donor src st.1
      (contribNN TI DI DJ RI l j n_size donor src st).1 := by
  unfold contribNN
  split_ifs with h1 h2 h3
  · exact nnZeroCopy_spec n_size donor src st.1 hrun hc h1.1 h1.2.1 h1.2.2
  · exact nnGather_spec n_size donor src st.1 st.2.1 hrun (fun _ _ => hc)
  · exact nnScalar_spec TI DI n_size donor src st.1 hrun
  · exact nnSpec_of_nil n_size donor src st.1 (by
      have := (intersect_spec TI DI).1
      omega)

theorem matchPairs_exists_index {A B : List Nat} {x : Nat × Nat} (hx : x ∈ matchPairs A B) :
    ∃ i, i < (matchPairs A B).length ∧ (matchPairs A B).getD i (0, 0) = x := by
  obtain ⟨i, hi, he⟩ := List.mem_iff_getElem.mp hx
  exact ⟨i, hi, by rw [List.getD_eq_getElem _ _ hi]; exact he⟩

/-- The specification in terms of matched positions, read entry by entry: row `p`
of the target loses the row `q` of the product whenever `TI[p] = DI[q]`. -/
theorem NNSpec.entry_nn {TI DI DJ RI : List Nat} {l j n_size : Nat} {donor src T T2 : Nat → R}
    (h : NNSpec TI DI DJ RI l j n_size donor src T T2) (hTI : TI.Sorted (· < ·))
    (hDI : DI.Sorted (· < ·)) (p : Nat) (hp : p < TI.length) (c : Nat) (hc : c < n_size) :
    T2 (p + TI.length * c) = T (p + TI.length * c) -
      ∑ q ∈ Finset.range DI.length,
        if TI.getD p 0 = DI.getD q 0 then nnTerm DJ RI l j DI.length donor src q c else 0 := by
  unfold NNSpec at h
  by_cases hex : ∃ i, i < (matchPairs TI DI).length ∧ ((matchPairs TI DI).getD i (0, 0)).1 = p
  · obtain ⟨i, hi, hip⟩ := hex
    have hmem := (mem_matchPairs_iff hTI hDI _).mp (matchPairs_getD_mem TI DI hi)
    have h1 := h.1 i hi c hc
    simp only [Nat.zero_add, hip] at h1
    rw [h1]
    congr 1
    rw [Finset.sum_eq_single ((matchPairs TI DI).getD i (0, 0)).2]
    · rw [if_pos (by rw [← hip]; exact hmem.2.2)]
    · intro q hq hne
      rw [if_neg]
      intro heq
      apply hne
      rw [← hip, hmem.2.2] at heq
      exact (getD_inj_of_sorted hDI hmem.2.1 (Finset.mem_range.mp hq) heq).symm
    · intro hq
      exact absurd (Finset.mem_range.mpr hmem.2.1) hq
  · have h2 := h.2 (p + TI.length * c) (by
      intro i hi c2 hc2 heq
      simp only [Nat.zero_add] at heq
      have hb := (matchPairs_bound TI DI _ (matchPairs_getD_mem TI DI hi)).1
      exact hex ⟨i, hi, (flat_inj hp hb heq).1.symm⟩)
    rw [h2]
    have hz : ∑ q ∈ Finset.range DI.length,
        (if TI.getD p 0 = DI.getD q 0 then nnTerm DJ RI l j DI.length donor src q c else 0)
        = 0 := by
      apply Finset.sum_eq_zero
      intro q hq
      rw [if_neg]
      intro heq
      have hmem : (p, q) ∈ matchPairs TI DI :=
        (mem_matchPairs_iff hTI hDI (p, q)).mpr ⟨hp, Finset.mem_range.mp hq, heq⟩
      obtain ⟨i, hi, he⟩ := matchPairs_exists_index hmem
      exact hex ⟨i, hi, by rw [he]⟩
    rw [hz, sub_zero]

/-- Outside the `|TI| x n_size` block of the target nothing changes. -/
theorem NNSpec.frame {TI DI DJ RI : List Nat} {l j n_size : Nat} {donor src T T2 : Nat → R}
    (h : NNSpec TI DI DJ RI l j n_size donor src T T2) (x : Nat)
    (hx : TI.length * n_size ≤ x) : T2 x = T x := by
  apply h.2
  intro i hi c hc heq
  simp only [Nat.zero_add] at heq
  have hb := (matchPairs_bound TI DI _ (matchPairs_getD_mem TI DI hi)).1
  have := flat_lt_mul hb hc
  omega

end NNGemm

/-! ## The contributions `target(l:j,:) -= donor(Ii,Ji)^T * src(Ik,:)` -/

section TN

variable {R : Type} [CommRing R]

theorem tnSpec_of_nil {RI SI DI DJ : List Nat} {l j : Nat} (n_size : Nat)
    (donor src tgt : Nat → R) (h : (matchPairs SI DI).length = 0) :
    TNSpec RI SI DI DJ l j n_size donor src tgt tgt := by
  unfold TNSpec
  refine ⟨?_, by intro x _; rfl⟩
  intro b hb c hc
  simp [tnTerm, h]

/-- A `dgemm_` call with transposed first operand that subtracts the product from
the target rows `l..j` meets the specification, provided that its operands, as
addressed through their offsets and leading dimensions, hold the donor entries
and the `src` entries of the matched rows. -/
theorem dgemm_tn_spec {RI SI DI DJ : List Nat} {l j : Nat} (n_size : Nat)
    (donor src tgt Aop Bop : Nat → R) (aOff lda bOff ldb : Nat) (hrun : DonorRun DJ RI l j)
    (ht : (matchPairs SI DI).length ≠ 0)
    (hlda : max 1 (matchPairs SI DI).length ≤ lda)
    (hldb : max 1 (matchPairs SI DI).length ≤ ldb)
    (hA : ∀ a, a < (matchPairs SI DI).length → ∀ b, b < j - l + 1 →
      Aop (aOff + a + lda * b) =
        donor (((matchPairs SI DI).getD a (0, 0)).2 + DI.length * posJ DJ RI l b))
    (hB : ∀ a, a < (matchPairs SI DI).length → ∀ c, c < n_size →
      Bop (bOff + a + ldb * c) = src (((matchPairs SI DI).getD a (0, 0)).1 + SI.length * c)) :
    TNSpec RI SI DI DJ l j n_size donor src tgt
      (dgemm true (j - l + 1) n_size (matchPairs SI DI).length (-1) Aop aOff lda Bop bOff ldb
        1 tgt l RI.length) := by
  constructor
  · intro b hb c hc
    simp only
    rw [dgemm_at true _ _ _ _ _ _ _ _ _ _ _ _ _ _ (by simpa using hlda) hldb hrun.width_le
      b c hb hc]
    simp only [if_true, tnTerm]
    have hs : ∑ e ∈ Finset.range (matchPairs SI DI).length,
          Aop (aOff + e + lda * b) * Bop (bOff + e + ldb * c) =
        ∑ a ∈ Finset.range (matchPairs SI DI).length,
          donor (((matchPairs SI DI).getD a (0, 0)).2 + DI.length * posJ DJ RI l b) *
            src (((matchPairs SI DI).getD a (0, 0)).1 + SI.length * c) :=
      Finset.sum_congr rfl (fun a ha => by
        rw [hA a (Finset.mem_range.mp ha) b hb, hB a (Finset.mem_range.mp ha) c hc])
    rw [hs]
    ring
  · intro x hx
    apply dgemm_other
    intro i hi c hc heq
    exact hx i hi c hc heq

theorem tnZeroCopy_spec {RI SI DI DJ : List Nat} {l j : Nat} (n_size : Nat)
    (donor src tgt : Nat → R) (hrun : DonorRun DJ RI l j) (hc : Consecutive DJ)
    (hIi : (intersect SI DI).Ii_cont ≠ 0) (hIk : (intersect SI DI).Ik_cont ≠ 0)
    (hJi : jiCont RI l j ≠ 0) :
    TNSpec RI SI DI DJ l j n_size donor src tgt
      (tnZeroCopy RI SI DI l j n_size (intersect SI DI) (jFirst RI DJ l) donor src tgt) := by
  obtain ⟨ht, hk, hi⟩ := intersect_spec SI DI
  unfold tnZeroCopy
  by_cases h0 : (intersect SI DI).t = 0
  · rw [if_neg (by simp [h0])]
    exact tnSpec_of_nil n_size donor src tgt (by omega)
  · rw [if_pos ⟨by omega, h0⟩, ht]
    have hlen := matchPairs_length_le SI DI
    apply dgemm_tn_spec n_size donor src tgt donor src _ _ _ _ hrun (by omega)
    · rw [max_eq_right (by omega)]; exact hlen.2
    · rw [max_eq_right (by omega)]; exact hlen.1
    · intro a ha b hb
      rw [hrun.donorOffset_add hc hJi _ _ a b hb, hi hIi a ha]
    · intro a ha c hc2
      rw [hk hIk a ha]

theorem gatherB_spec (SI DI : List Nat) (n_size cOff : Nat) (src buf : Nat → R) :
    RowsUpd cOff (matchPairs SI DI).length n_size (matchPairs SI DI).length (fun i => i)
      (fun i c _ => src (((matchPairs SI DI).getD i (0, 0)).1 + SI.length * c))
      buf (gatherB SI DI n_size (matchPairs SI DI).length cOff src buf) := by
  unfold gatherB
  rw [mergeLoop_eq_foldl]
  have h := foldl_rowsUpd cOff (matchPairs SI DI).length n_size (fun a => a - cOff)
    (fun a c (_ : R) => src (((matchPairs SI DI).getD (a - cOff) (0, 0)).1 + SI.length * c))
    (fun (a : Nat) (pq : Nat × Nat) (T : Nat → R) =>
      forLoop n_size
        (fun ii b => Function.update b (a + (matchPairs SI DI).length * ii)
          (src (pq.1 + SI.length * ii)))
        T)
    (matchPairs SI DI) cOff buf
    (by
      intro i hi T1
      simp only [Nat.add_sub_cancel_left]
      exact forLoop_rowUpd cOff (matchPairs SI DI).length n_size i
        (fun c (_ : R) => src (((matchPairs SI DI).getD i (0, 0)).1 + SI.length * c)) T1 hi)
    (by intro i hi; simp only [Nat.add_sub_cancel_left]; exact hi)
    (by intro i i2 hii _; simp only [Nat.add_sub_cancel_left]; omega)
  simp only [Nat.add_sub_cancel_left] at h
  exact h.2

theorem tnGather_nil {RI SI DI DJ : List Nat} {l j : Nat} (n_size : Nat) (Ji_cont j_first : Int)
    (donor src tgt buf : Nat → R) (h : (matchPairs SI DI).length = 0) :
    (tnGather RI SI DI DJ l j n_size (intersect SI DI) Ji_cont j_first donor src tgt buf).1
      = tgt := by
  have ht := (intersect_spec SI DI).1
  have h0 : (intersect SI DI).t = 0 := by omega
  unfold tnGather
  simp only [h0, ne_eq, not_true_eq_false, and_false, if_false]

theorem tnGather_spec {RI SI DI DJ : List Nat} {l j : Nat} (n_size : Nat)
    (donor src tgt buf : Nat → R) (hrun : DonorRun DJ RI l j)
    (hc : (intersect SI DI).Ii_cont ≠ 0 → jiCont RI l j ≠ 0 → Consecutive DJ) :
    TNSpec RI SI DI DJ l j n_size donor src tgt
      (tnGather RI SI DI DJ l j n_size (intersect SI DI) (jiCont RI l j) (jFirst RI DJ l)
        donor src tgt buf).1 := by
  obtain ⟨ht, hk, hi⟩ := intersect_spec SI DI
  by_cases h0 : (matchPairs SI DI).length = 0
  · rw [tnGather_nil n_size _ _ donor src tgt buf h0]
    exact tnSpec_of_nil n_size donor src tgt h0
  have hw : j - l + 1 ≠ 0 := by omega
  have hlen := matchPairs_length_le SI DI
  have htt : max 1 (matchPairs SI DI).length ≤ (matchPairs SI DI).length := by
    rw [max_eq_right (by omega)]
  have hDM : max 1 (matchPairs SI DI).length ≤ DI.length := by
    rw [max_eq_right (by omega)]; exact hlen.2
  have hSM : max 1 (matchPairs SI DI).length ≤ SI.length := by
    rw [max_eq_right (by omega)]; exact hlen.1
  unfold tnGather
  simp only [ht, ne_eq, h0, not_false_eq_true, hw, and_self, if_true]
  by_cases hg : (intersect SI DI).Ii_cont = 0 ∨ jiCont RI l j = 0
  · have hgath := gatherA_spec SI DI donor buf hrun
    simp only [hg, decide_True, if_true]
    by_cases hIk : (intersect SI DI).Ik_cont = 0
    · simp only [hIk, if_true]
      have hgb := gatherB_spec SI DI n_size ((matchPairs SI DI).length * (j - l + 1)) src
        (gatherA SI DI DJ RI l (matchPairs SI DI).length donor buf)
      apply dgemm_tn_spec n_size donor src tgt _ _ 0 _ _ _ hrun h0 htt htt
      · intro a ha b hb
        rw [hgb.2 _ (by
          intro i hi c hc2 heq
          have := flat_lt_mul ha hb
          omega)]
        exact hgath.1 a ha b hb
      · intro a ha c hc2
        exact hgb.1 a ha c hc2
    · simp only [hIk, if_false]
      apply dgemm_tn_spec n_size donor src tgt _ src 0 _ _ _ hrun h0 htt hSM
      · intro a ha b hb
        exact hgath.1 a ha b hb
      · intro a ha c hc2
        rw [hk hIk a ha]
  · have hIi : (intersect SI DI).Ii_cont ≠ 0 := fun h => hg (Or.inl h)
    have hJi : jiCont RI l j ≠ 0 := fun h => hg (Or.inr h)
    have hcons := hc hIi hJi
    simp only [hg, decide_False, if_false, Bool.false_eq_true]
    by_cases hIk : (intersect SI DI).Ik_cont = 0
    · simp only [hIk, if_true]
      have hgb := gatherB_spec SI DI n_size 0 src buf
      apply dgemm_tn_spec n_size donor src tgt donor _ _ _ _ _ hrun h0 hDM htt
      · intro a ha b hb
        rw [hrun.donorOffset_add hcons hJi _ _ a b hb, hi hIi a ha]
      · intro a ha c hc2
        exact hgb.1 a ha c hc2
    · simp only [hIk, if_false]
      apply dgemm_tn_spec n_size donor src tgt donor src _ _ _ _ hrun h0 hDM hSM
      · intro a ha b hb
        rw [hrun.donorOffset_add hcons hJi _ _ a b hb, hi hIi a ha]
      · intro a ha c hc2
        rw [hk hIk a ha]

/-! ### The hand-coded loop -/

theorem update_sub_single (T : Nat → R) (y : Nat) (v : R) :
    Function.update T y (T y - v) = T - Pi.single y v := by
  funext x
  by_cases hx : x = y
  · subst hx; simp
  · simp [Function.update_noteq hx, Pi.single_apply, hx]

theorem forLoop_consec (w : Nat) (f : Nat → R) (T : Nat → R) (pr : Nat) :
    forLoop w
      (fun b (acc : (Nat → R) × Nat) =>
        (Function.update acc.1 acc.2 (acc.1 acc.2 - f b), acc.2 + 1)) (T, pr) =
      (T - ∑ b ∈ Finset.range w, Pi.single (pr + b) (f b), pr + w) := by
  induction w with
  | zero => simp [forLoop]
  | succ w ih =>
    rw [forLoop_succ, ih]
    simp only [update_sub_single, Finset.sum_range_succ]
    refine Prod.ext ?_ (by simp only; omega)
    simp only
    rw [sub_sub]

theorem foldl_sub_eq (Δ : Nat × Nat → (Nat → R)) :
    ∀ (ms : List (Nat × Nat)) (T : Nat → R),
      ms.foldl (fun acc pq => acc - Δ pq) T =
        T - ∑ a ∈ Finset.range ms.length, Δ (ms.getD a (0, 0)) := by
  intro ms
  induction ms with
  | nil => intro T; simp
  | cons x rest ih =>
    intro T
    simp only [List.foldl_cons, List.length_cons]
    rw [ih, Finset.sum_range_succ']
    simp only [List.getD_cons_succ, List.getD_cons_zero]
    rw [sub_sub, add_comm]

theorem block_sum_at (l TM n w : Nat) (v : Nat → Nat → R) (hlw : l + w ≤ TM) (b0 c0 : Nat)
    (hb : b0 < w) (hc : c0 < n) :
    (∑ c ∈ Finset.range n, ∑ b ∈ Finset.range w, Pi.single (l + TM * c + b) (v b c) : Nat → R)
      (l + b0 + TM * c0) = v b0 c0 := by
  simp only [Finset.sum_apply, Pi.single_apply]
  rw [Finset.sum_eq_single c0]
  · rw [Finset.sum_eq_single b0]
    · rw [if_pos (by omega)]
    · intro b _ hne
      rw [if_neg (by omega)]
    · intro h; exact absurd (Finset.mem_range.mpr hb) h
  · intro c _ hne
    apply Finset.sum_eq_zero
    intro b hbm
    rw [if_neg]
    intro heq
    have hb2 := Finset.mem_range.mp hbm
    have := (flat_inj (show l + b0 < TM by omega) (show l + b < TM by omega)
      (show l + b0 + TM * c0 = l + b + TM * c by omega)).2
    exact hne this.symm
  · intro h; exact absurd (Finset.mem_range.mpr hc) h

theorem block_sum_other (l TM n w : Nat) (v : Nat → Nat → R) (x : Nat)
    (hx : ∀ b, b < w → ∀ c, c < n → x ≠ l + b + TM * c) :
    (∑ c ∈ Finset.range n, ∑ b ∈ Finset.range w, Pi.single (l + TM * c + b) (v b c) : Nat → R)
      x = 0 := by
  simp only [Finset.sum_apply, Pi.single_apply]
  apply Finset.sum_eq_zero
  intro c hcm
  apply Finset.sum_eq_zero
  intro b hbm
  rw [if_neg]
  intro heq
  exact hx b (Finset.mem_range.mp hbm) c (Finset.mem_range.mp hcm) (by omega)

theorem tnScalar_match {RI SI DI DJ : List Nat} {l j : Nat} (n_size : Nat)
    (donor src : Nat → R) (hrun : DonorRun DJ RI l j) (p q : Nat) (T : Nat → R) :
    (forLoop n_size
        (fun ii (st : (Nat → R) × Nat) =>
          ((colScan DJ RI l
              (fun s _ (st3 : (Nat → R) × Nat) =>
                (Function.update st3.1 st3.2
                  (st3.1 st3.2 - donor (q + DI.length * s) * src (p + SI.length * ii)),
                 st3.2 + 1))
              (st.1, st.2)).2.1,
           (colScan DJ RI l
              (fun s _ (st3 : (Nat → R) × Nat) =>
                (Function.update st3.1 st3.2
                  (st3.1 st3.2 - donor (q + DI.length * s) * src (p + SI.length * ii)),
                 st3.2 + 1))
              (st.1, st.2)).2.2 + (RI.length - (j - l + 1))))
        (T, l)).1 =
      T - ∑ c ∈ Finset.range n_size, ∑ b ∈ Finset.range (j - l + 1),
        Pi.single (l + RI.length * c + b)
          (donor (q + DI.length * posJ DJ RI l b) * src (p + SI.length * c)) := by
  have hle := hrun.le
  have hlt := hrun.lt
  have key : ∀ n,
      forLoop n
        (fun ii (st : (Nat → R) × Nat) =>
          ((colScan DJ RI l
              (fun s _ (st3 : (Nat → R) × Nat) =>
                (Function.update st3.1 st3.2
                  (st3.1 st3.2 - donor (q + DI.length * s) * src (p + SI.length * ii)),
                 st3.2 + 1))
              (st.1, st.2)).2.1,
           (colScan DJ RI l
              (fun s _ (st3 : (Nat → R) × Nat) =>
                (Function.update st3.1 st3.2
                  (st3.1 st3.2 - donor (q + DI.length * s) * src (p + SI.length * ii)),
                 st3.2 + 1))
              (st.1, st.2)).2.2 + (RI.length - (j - l + 1))))
        (T, l) =
      (T - ∑ c ∈ Finset.range n, ∑ b ∈ Finset.range (j - l + 1),
          Pi.single (l + RI.length * c + b)
            (donor (q + DI.length * posJ DJ RI l b) * src (p + SI.length * c)),
        l + RI.length * n) := by
    intro n
    induction n with
    | zero => simp [forLoop]
    | succ n ih =>
      rw [forLoop_succ, ih]
      simp only [hrun.colScan_run]
      rw [forLoop_consec (j - l + 1)
        (fun b => donor (q + DI.length * posJ DJ RI l b) * src (p + SI.length * n))]
      refine Prod.ext ?_ ?_
      · simp only
        rw [sub_sub]
        conv_rhs => rw [Finset.sum_range_succ]
      · simp only
        rw [Nat.mul_succ]
        omega
  rw [key]

theorem tnScalar_spec (SI DI : List Nat) {RI DJ : List Nat} {l j : Nat} (n_size : Nat)
    (donor src tgt : Nat → R) (hrun : DonorRun DJ RI l j) :
    TNSpec RI SI DI DJ l j n_size donor src tgt
      (tnScalar RI SI DI DJ l j n_size donor src tgt) := by
  have hle := hrun.le
  have hlt := hrun.lt
  unfold tnScalar
  rw [mergeLoop_eq_foldl]
  simp only [tnScalar_match n_size donor src hrun]
  rw [show matchList SI DI (SI.length + DI.length) 0 0 = matchPairs SI DI from rfl]
  rw [foldl_sub_eq (fun pq => ∑ c ∈ Finset.range n_size, ∑ b ∈ Finset.range (j - l + 1),
        Pi.single (l + RI.length * c + b)
          (donor (pq.2 + DI.length * posJ DJ RI l b) * src (pq.1 + SI.length * c)))]
  constructor
  · intro b hb c hc
    simp only [Pi.sub_apply, Finset.sum_apply, tnTerm]
    congr 1
    apply Finset.sum_congr rfl
    intro a _
    have := block_sum_at l RI.length n_size (j - l + 1)
      (fun b c => donor (((matchPairs SI DI).getD a (0, 0)).2 + DI.length * posJ DJ RI l b) *
        src (((matchPairs SI DI).getD a (0, 0)).1 + SI.length * c)) (by omega) b c hb hc
    simp only [Finset.sum_apply] at this
    exact this
  · intro x hx
    simp only [Pi.sub_apply, Finset.sum_apply]
    rw [Finset.sum_eq_zero, sub_zero]
    intro a _
    have := block_sum_other l RI.length n_size (j - l + 1)
      (fun b c => donor (((matchPairs SI DI).getD a (0, 0)).2 + DI.length * posJ DJ RI l b) *
        src (((matchPairs SI DI).getD a (0, 0)).1 + SI.length * c)) x hx
    simp only [Finset.sum_apply] at this
    exact this

theorem contribTN_spec (SI DI : List Nat) {RI DJ : List Nat} {l j : Nat} (n_size : Nat)
    (donor src : Nat → R) (st : (Nat → R) × (Nat → R) × Nat) (hrun : DonorRun DJ RI l j)
    (hc : Consecutive DJ) :
    TNSpec RI SI DI DJ l j n_size donor src st.1
      (contribTN RI SI DI DJ l j n_size donor src st).1 := by
  unfold contribTN
  split_ifs with h1 h2 h3
  · exact tnZeroCopy_spec n_size donor src st.1 hrun hc h1.1 h1.2.1 h1.2.2
  · exact tnGather_spec n_size donor src st.1 st.2.1 hrun (fun _ _ => hc)
  · exact tnScalar_spec SI DI n_size donor src st.1 hrun
  · exact tnSpec_of_nil n_size donor src st.1 (by
      have := (intersect_spec SI DI).1
      omega)

end TN

/-! ## Sums over the matched pairs -/

section Sums

variable {R : Type} [CommRing R]

theorem sum_range_getD (f : Nat × Nat → R) :
    ∀ (ms : List (Nat × Nat)),
      ∑ a ∈ Finset.range ms.length, f (ms.getD a (0, 0)) = (ms.map f).sum := by
  intro ms
  induction ms with
  | nil => simp
  | cons x rest ih =>
    simp only [List.length_cons, List.map_cons, List.sum_cons]
    rw [Finset.sum_range_succ', ← ih]
    simp only [List.getD_cons_succ, List.getD_cons_zero]
    rw [add_comm]

/-- A sum over the pairs matched by the two-pointer scan of two strictly ascending
arrays is the sum over all pairs of positions that hold a common value. -/
theorem sum_matchPairs {A B : List Nat} (hA : A.Sorted (· < ·)) (hB : B.Sorted (· < ·))
    (f : Nat × Nat → R) :
    ∑ a ∈ Finset.range (matchPairs A B).length, f ((matchPairs A B).getD a (0, 0)) =
      ∑ p ∈ Finset.range A.length, ∑ q ∈ Finset.range B.length,
        if A.getD p 0 = B.getD q 0 then f (p, q) else 0 := by
  rw [sum_range_getD, ← List.sum_toFinset f (matchPairs_nodup A B)]
  rw [← Finset.sum_product (Finset.range A.length) (Finset.range B.length)
    (fun x => if A.getD x.1 0 = B.getD x.2 0 then f x else 0)]
  rw [← Finset.sum_filter]
  apply Finset.sum_congr _ (fun _ _ => rfl)
  ext x
  simp only [List.mem_toFinset, Finset.mem_filter, Finset.mem_product, Finset.mem_range]
  rw [mem_matchPairs_iff hA hB]
  tauto

theorem TNSpec.entry_tn {RI SI DI DJ : List Nat} {l j n_size : Nat} {donor src T T2 : Nat → R}
    (h : TNSpec RI SI DI DJ l j n_size donor src T T2) (hSI : SI.Sorted (· < ·))
    (hDI : DI.Sorted (· < ·)) (b : Nat) (hb : b < j - l + 1) (c : Nat) (hc : c < n_size) :
    T2 (l + b + RI.length * c) = T (l + b + RI.length * c) -
      tnEntry SI DI DJ RI l donor src b c := by
  rw [h.1 b hb c hc]
  simp only [tnTerm, tnEntry]
  rw [sum_matchPairs hSI hDI
    (fun x => donor (x.2 + DI.length * posJ DJ RI l b) * src (x.1 + SI.length * c))]

theorem NNSpec.entry_sum {TI DI DJ RI : List Nat} {l j n_size : Nat} {donor src T T2 : Nat → R}
    (h : NNSpec TI DI DJ RI l j n_size donor src T T2) (hTI : TI.Sorted (· < ·))
    (hDI : DI.Sorted (· < ·)) (p : Nat) (hp : p < TI.length) (c : Nat) (hc : c < n_size) :
    T2 (p + TI.length * c) = T (p + TI.length * c) - nnEntry TI DI DJ RI l j donor src p c :=
  h.entry_nn hTI hDI p hp c hc

end Sums

/-! ## Claims about the update contributions -/

section Claims

/-- A donor `J` that is not a run of consecutive integers, met by a one-entry run. -/
theorem gapRun : DonorRun [3, 5, 6] [5] 0 0 :=
  { sortedJ := by decide, sortedI := by decide, le := by decide, lt := by decide,
    sub := by intro r h1 h2; interval_cases r; decide,
    maximal := by decide, onebased := by decide }

/-- A donor `J` of consecutive integers, met by a two-entry run. -/
theorem plainRun : DonorRun [3, 4] [3, 4] 0 1 :=
  { sortedJ := by decide, sortedI := by decide, le := by decide, lt := by decide,
    sub := by intro r h1 h2; interval_cases r <;> decide,
    maximal := by decide, onebased := by decide }

theorem plainConsecutive : Consecutive [3, 4] := by
  intro s hs
  simp only [List.length_cons, List.length_nil] at hs
  interval_cases s <;> rfl

/-- C1, as stated, fails: with strictly ascending index arrays and the run `[5]`
contained in the donor's `J = [3, 5, 6]`, all three contiguity flags are set, the
zero-copy path subtracts the donor column of index `6` (offset `j_first = 5 - 3 = 2`)
and the hand-coded loop the donor column of index `5` (position `1`). -/
theorem path_independence_counterexample :
    DonorRun [3, 5, 6] [5] 0 0 ∧ ([7] : List Nat).Sorted (· < ·) ∧
    (intersect [7] [7]).Ii_cont ≠ 0 ∧ (intersect [7] [7]).Ik_cont ≠ 0 ∧ jiCont [5] 0 0 ≠ 0 ∧
    nnZeroCopy [7] [7] [5] 0 0 1 (intersect [7] [7]) (jFirst [5] [3, 5, 6] 0)
        (fun x => ([10, 20, 30] : List ℤ).getD x 0) (fun _ => 1) (fun _ => 0) 0 = -30 ∧
    nnScalar [7] [7] [3, 5, 6] [5] 0 0 1
        (fun x => ([10, 20, 30] : List ℤ).getD x 0) (fun _ => 1) (fun _ => 0) 0 = -20 :=
  ⟨gapRun, by decide, by decide, by decide, by decide, by decide, by decide⟩

/-- C1 (amended): path independence.  For a donor run `l..j` of `RI` in a donor `J`
that is a run of consecutive integers, and for both shapes of contribution
(`target(Ik,:) -= donor(Ii,Ji) * src(l:j,:)` and
`target(l:j,:) -= donor(Ii,Ji)^T * src(Ik,:)`, of which the six contribution types
are instances), the whole target array after the update is the same whether it
is computed by the zero-copy call (when all three flags are set), by the gather
and multiply path, by the hand-coded loop, or by the branch that the cost
heuristic selects. -/
theorem path_independence {R : Type} [CommRing R] (TI SI DI DJ RI : List Nat)
    (l j n_size sz : Nat) (donor src tgt buf : Nat → R)
    (hrun : DonorRun DJ RI l j) (hcons : Consecutive DJ) :
    ((intersect TI DI).Ii_cont ≠ 0 → (intersect TI DI).Ik_cont ≠ 0 → jiCont RI l j ≠ 0 →
      nnZeroCopy TI DI RI l j n_size (intersect TI DI) (jFirst RI DJ l) donor src tgt =
        nnScalar TI DI DJ RI l j n_size donor src tgt) ∧
    (nnGather TI DI DJ RI l j n_size (intersect TI DI) (jiCont RI l j) (jFirst RI DJ l)
        donor src tgt buf).1 = nnScalar TI DI DJ RI l j n_size donor src tgt ∧
    (contribNN TI DI DJ RI l j n_size donor src (tgt, buf, sz)).1 =
        nnScalar TI DI DJ RI l j n_size donor src tgt ∧
    ((intersect SI DI).Ii_cont ≠ 0 → (intersect SI DI).Ik_cont ≠ 0 → jiCont RI l j ≠ 0 →
      tnZeroCopy RI SI DI l j n_size (intersect SI DI) (jFirst RI DJ l) donor src tgt =
        tnScalar RI SI DI DJ l j n_size donor src tgt) ∧
    (tnGather RI SI DI DJ l j n_size (intersect SI DI) (jiCont RI l j) (jFirst RI DJ l)
        donor src tgt buf).1 = tnScalar RI SI DI DJ l j n_size donor src tgt ∧
    (contribTN RI SI DI DJ l j n_size donor src (tgt, buf, sz)).1 =
        tnScalar RI SI DI DJ l j n_size donor src tgt := by
  have hs := nnScalar_spec TI DI n_size donor src tgt hrun
  have hs2 := tnScalar_spec SI DI n_size donor src tgt hrun
  refine ⟨?_, ?_, ?_, ?_, ?_, ?_⟩
  · intro h1 h2 h3
    exact RowsUpd.unique (nnZeroCopy_spec n_size donor src tgt hrun hcons h1 h2 h3) hs
  · exact RowsUpd.unique (nnGather_spec n_size donor src tgt buf hrun (fun _ _ => hcons)) hs
  · exact RowsUpd.unique (contribNN_spec TI DI n_size donor src (tgt, buf, sz) hrun hcons) hs
  · intro h1 h2 h3
    exact RowsUpd.unique (tnZeroCopy_spec n_size donor src tgt hrun hcons h1 h2 h3) hs2
  · exact RowsUpd.unique (tnGather_spec n_size donor src tgt buf hrun (fun _ _ => hcons)) hs2
  · exact RowsUpd.unique (contribTN_spec SI DI n_size donor src (tgt, buf, sz) hrun hcons) hs2

/-- Witness of C1 (amended): the donor `J = [3, 4]`, the run `[3, 4]`, target rows
`[5, 8]` against donor rows `[5, 6, 8]`. -/
theorem path_independence_witness :
    DonorRun [3, 4] [3, 4] 0 1 ∧ Consecutive [3, 4] ∧
    (nnGather [5, 8] [5, 6, 8] [3, 4] [3, 4] 0 1 2 (intersect [5, 8] [5, 6, 8])
        (jiCont [3, 4] 0 1) (jFirst [3, 4] [3, 4] 0)
        (fun x => (x : ℤ) + 1) (fun x => 2 * (x : ℤ) + 1) (fun _ => 0) (fun _ => 0)).1 =
      nnScalar [5, 8] [5, 6, 8] [3, 4] [3, 4] 0 1 2
        (fun x => (x : ℤ) + 1) (fun x => 2 * (x : ℤ) + 1) (fun _ => 0) :=
  ⟨plainRun, plainConsecutive,
    (path_independence [5, 8] [5, 8] [5, 6, 8] [3, 4] [3, 4] 0 1 2 0
      (fun x => (x : ℤ) + 1) (fun x => 2 * (x : ℤ) + 1) (fun _ => 0) (fun _ => 0)
      plainRun plainConsecutive).2.1⟩

/-- C2, as stated, fails: for the run `[5]` of `BL{k}.I` in the donor's `J = [3, 5, 6]`
the claim asks for `BUTinv{k}.L(0,0) = 0 - BUTinv{i}.L(0,1) * BL{k}.L(0,0) = -20`, the
entry of the donor column of index `5`; the step subtracts the column at offset
`j_first = 2`, of index `6`, and yields `-30`. -/
theorem contribution1_counterexample :
    DonorRun gapDonor.J sampleBL5.I 0 0 ∧ sampleB7.I.Sorted (· < ·) ∧
    gapDonor.I.Sorted (· < ·) ∧
    (contrib1 sampleBL5 sampleB7 gapDonor 0 0 (fun _ => 0, fun _ => 0, 0)).1 0 = -30 ∧
    (0 : ℤ) - nnEntry sampleB7.I gapDonor.I gapDonor.J sampleBL5.I 0 0 gapDonor.L sampleBL5.L 0 0
      = -20 :=
  ⟨gapRun, by decide, by decide, by decide, by decide⟩

/-- C2 (amended): contribution 1.  For block `k` and a donor run `l..j` of `BL{k}.I`
in the donor's `J`, provided that `J` is a run of consecutive integers: the step
replaces `BUTinv{k}.L(Ik,:)` by `BUTinv{k}.L(Ik,:) - BUTinv{i}.L(Ii,Ji) * BL{k}.L(l:j,:)`,
`Ik`, `Ii` being the positions in `BUTinv{k}.I`, `BUTinv{i}.I` of their common values
and `Ji` the positions of the run in the donor's `J`; every other row of
`BUTinv{k}.L`, and everything outside the block, is unchanged. -/
theorem contribution1_spec {R : Type} [CommRing R] (BLk BUTk : Block R) (BUTinvi : InvBlock R)
    (l j : Nat) (st : (Nat → R) × (Nat → R) × Nat)
    (hrun : DonorRun BUTinvi.J BLk.I l j) (hcons : Consecutive BUTinvi.J)
    (hT : BUTk.I.Sorted (· < ·)) (hD : BUTinvi.I.Sorted (· < ·)) :
    (∀ p, p < BUTk.I.length → ∀ c, c < BUTk.J.length →
      (contrib1 BLk BUTk BUTinvi l j st).1 (p + BUTk.I.length * c) =
        st.1 (p + BUTk.I.length * c) -
          nnEntry BUTk.I BUTinvi.I BUTinvi.J BLk.I l j BUTinvi.L BLk.L p c) ∧
    (∀ p, p < BUTk.I.length →
      (∀ q, q < BUTinvi.I.length → BUTk.I.getD p 0 ≠ BUTinvi.I.getD q 0) →
      ∀ c, c < BUTk.J.length →
        (contrib1 BLk BUTk BUTinvi l j st).1 (p + BUTk.I.length * c) =
          st.1 (p + BUTk.I.length * c)) ∧
    (∀ x, BUTk.I.length * BUTk.J.length ≤ x →
      (contrib1 BLk BUTk BUTinvi l j st).1 x = st.1 x) := by
  have h := contribNN_spec BUTk.I BUTinvi.I BUTk.J.length BUTinvi.L BLk.L st hrun hcons
  refine ⟨fun p hp c hc => h.entry_sum hT hD p hp c hc, ?_, fun x hx => h.frame x hx⟩
  intro p hp hne c hc
  have h1 := h.entry_sum hT hD p hp c hc
  unfold contrib1
  rw [h1]
  unfold nnEntry
  rw [Finset.sum_eq_zero, sub_zero]
  intro q hq
  rw [if_neg (hne q (Finset.mem_range.mp hq))]

/-- Witness of C2 (amended): the run `[3, 4]` of `BL{k}.I` in the donor's `J = [3, 4]`,
`BUTinv{k}.I = [5, 8]` against `BUTinv{i}.I = [5, 6, 8]`. -/
theorem contribution1_witness :
    DonorRun plainDonor.J sampleBL34.I 0 1 ∧ Consecutive plainDonor.J ∧
    sampleB58.I.Sorted (· < ·) ∧ plainDonor.I.Sorted (· < ·) ∧
    (∀ x, sampleB58.I.length * sampleB58.J.length ≤ x →
      (contrib1 sampleBL34 sampleB58 plainDonor 0 1 (fun _ => 0, fun _ => 0, 0)).1 x =
        (fun _ => (0 : ℤ)) x) :=
  ⟨plainRun, plainConsecutive, by decide, by decide,
    (contribution1_spec sampleBL34 sampleB58 plainDonor 0 1 (fun _ => 0, fun _ => 0, 0)
      plainRun plainConsecutive (by decide) (by decide)).2.2⟩

/-- C3, as stated, fails: for the run `[5]` of `BL{k}.I` in the donor's `J = [3, 5, 6]`
and `BUTinv{k}.I = [3]` the claim asks for
`BUTinv{k}.L(0,0) = 0 - BDinv{i}.D(0,1) * BL{k}.L(0,0) = -3`, the entry of the donor
column of index `5`; the step subtracts `BDinv{i}.D(0,2)`, of index `6`, and yields
`-6`. -/
theorem contribution2_counterexample :
    DonorRun gapDonor.J sampleBL5.I 0 0 ∧ sampleB3.I.Sorted (· < ·) ∧
    (contrib2 sampleBL5 sampleB3 gapDonor gapDonorD 0 0 (fun _ => 0, fun _ => 0, 0)).1 0 = -6 ∧
    (0 : ℤ) - nnEntry sampleB3.I gapDonor.J gapDonor.J sampleBL5.I 0 0 gapDonorD.D sampleBL5.L 0 0
      = -3 :=
  ⟨gapRun, by decide, by decide, by decide⟩

/-- C3 (amended): contribution 2.  For block `k` and a donor run `l..j` of `BL{k}.I`
in the donor's `J`, provided that `J` is a run of consecutive integers: the step
replaces `BUTinv{k}.L(Ikt,:)` by `BUTinv{k}.L(Ikt,:) - BDinv{i}.D(Jit,Ji) * BL{k}.L(l:j,:)`,
`Ikt`, `Jit` being the positions in `BUTinv{k}.I` and in the donor's `J` of their
common values; every other row, and everything outside the block, is unchanged. -/
theorem contribution2_spec {R : Type} [CommRing R] (BLk BUTk : Block R) (BUTinvi : InvBlock R)
    (BDinvi : DinvBlock R) (l j : Nat) (st : (Nat → R) × (Nat → R) × Nat)
    (hrun : DonorRun BUTinvi.J BLk.I l j) (hcons : Consecutive BUTinvi.J)
    (hT : BUTk.I.Sorted (· < ·)) :
    (∀ p, p < BUTk.I.length → ∀ c, c < BUTk.J.length →
      (contrib2 BLk BUTk BUTinvi BDinvi l j st).1 (p + BUTk.I.length * c) =
        st.1 (p + BUTk.I.length * c) -
          nnEntry BUTk.I BUTinvi.J BUTinvi.J BLk.I l j BDinvi.D BLk.L p c) ∧
    (∀ p, p < BUTk.I.length →
      (∀ q, q < BUTinvi.J.length → BUTk.I.getD p 0 ≠ BUTinvi.J.getD q 0) →
      ∀ c, c < BUTk.J.length →
        (contrib2 BLk BUTk BUTinvi BDinvi l j st).1 (p + BUTk.I.length * c) =
          st.1 (p + BUTk.I.length * c)) ∧
    (∀ x, BUTk.I.length * BUTk.J.length ≤ x →
      (contrib2 BLk BUTk BUTinvi BDinvi l j st).1 x = st.1 x) := by
  have h := contribNN_spec BUTk.I BUTinvi.J BUTk.J.length BDinvi.D BLk.L st hrun hcons
  refine ⟨fun p hp c hc => h.entry_sum hT hrun.sortedJ p hp c hc, ?_, fun x hx => h.frame x hx⟩
  intro p hp hne c hc
  have h1 := h.entry_sum hT hrun.sortedJ p hp c hc
  unfold contrib2
  rw [h1]
  unfold nnEntry
  rw [Finset.sum_eq_zero, sub_zero]
  intro q hq
  rw [if_neg (hne q (Finset.mem_range.mp hq))]

/-- Witness of C3 (amended): the run `[3, 4]` of `BL{k}.I` in the donor's `J = [3, 4]`,
`BUTinv{k}.I = [3, 4]`. -/
theorem contribution2_witness :
    DonorRun plainDonor.J sampleBL34.I 0 1 ∧ Consecutive plainDonor.J ∧
    sampleBL34.I.Sorted (· < ·) ∧
    (∀ x, sampleBL34.I.length * sampleBL34.J.length ≤ x →
      (contrib2 sampleBL34 sampleBL34 plainDonor plainDonorD 0 1
        (fun _ => 0, fun _ => 0, 0)).1 x = (fun _ => (0 : ℤ)) x) :=
  ⟨plainRun, plainConsecutive, by decide,
    (contribution2_spec sampleBL34 sampleBL34 plainDonor plainDonorD 0 1
      (fun _ => 0, fun _ => 0, 0) plainRun plainConsecutive (by decide)).2.2⟩

/-- C4, as stated, fails: for the run `[5]` of `BUTinv{k}.I` in the donor's
`J = [3, 5, 6]` and `BL{k}.I = BLinv{i}.I = [7]` the claim asks for
`BUTinv{k}.L(0,0) = 0 - BLinv{i}.L(0,1) * BL{k}.L(0,0) = -20`; the step subtracts
`BLinv{i}.L(0,2)`, the entry of the donor column of index `6`, and yields `-30`. -/
theorem contribution3_counterexample :
    DonorRun gapDonor.J sampleBL5.I 0 0 ∧ sampleB7.I.Sorted (· < ·) ∧
    gapDonor.I.Sorted (· < ·) ∧
    (contrib3 sampleB7 sampleBL5 gapDonor 0 0 (fun _ => 0, fun _ => 0, 0)).1 0 = -30 ∧
    (0 : ℤ) - tnEntry sampleB7.I gapDonor.I gapDonor.J sampleBL5.I 0 gapDonor.L sampleB7.L 0 0
      = -20 :=
  ⟨gapRun, by decide, by decide, by decide, by decide⟩

/-- C4 (amended): contribution 3.  For block `k` and a donor run `l..j` of
`BUTinv{k}.I` (`= BUT{k}.I`) in the donor's `J`, provided that `J` is a run of
consecutive integers: the step replaces `BUTinv{k}.L(l:j,:)` by
`BUTinv{k}.L(l:j,:) - BLinv{i}.L(Ii,Ji)^T * BL{k}.L(Ik,:)`, `Ik`, `Ii` being the positions
in `BL{k}.I`, `BLinv{i}.I` of their common values; everything outside the rows
`l..j` is unchanged. -/
theorem contribution3_spec {R : Type} [CommRing R] (BLk BUTk : Block R) (BLinvi : InvBlock R)
    (l j : Nat) (st : (Nat → R) × (Nat → R) × Nat)
    (hrun : DonorRun BLinvi.J BUTk.I l j) (hcons : Consecutive BLinvi.J)
    (hS : BLk.I.Sorted (· < ·)) (hD : BLinvi.I.Sorted (· < ·)) :
    (∀ b, b < j - l + 1 → ∀ c, c < BUTk.J.length →
      (contrib3 BLk BUTk BLinvi l j st).1 (l + b + BUTk.I.length * c) =
        st.1 (l + b + BUTk.I.length * c) -
          tnEntry BLk.I BLinvi.I BLinvi.J BUTk.I l BLinvi.L BLk.L b c) ∧
    (∀ x, (∀ b, b < j - l + 1 → ∀ c, c < BUTk.J.length → x ≠ l + b + BUTk.I.length * c) →
      (contrib3 BLk BUTk BLinvi l j st).1 x = st.1 x) := by
  have h := contribTN_spec BLk.I BLinvi.I BUTk.J.length BLinvi.L BLk.L st hrun hcons
  exact ⟨fun b hb c hc => h.entry_tn hS hD b hb c hc, h.2⟩

/-- Witness of C4 (amended): the run `[3, 4]` of `BUTinv{k}.I` in the donor's
`J = [3, 4]`, `BL{k}.I = [5, 8]` against `BLinv{i}.I = [5, 6, 8]`. -/
theorem contribution3_witness :
    DonorRun plainDonor.J sampleBL34.I 0 1 ∧ Consecutive plainDonor.J ∧
    sampleB58.I.Sorted (· < ·) ∧ plainDonor.I.Sorted (· < ·) ∧
    (∀ b, b < 1 - 0 + 1 → ∀ c, c < sampleBL34.J.length →
      (contrib3 sampleB58 sampleBL34 plainDonor 0 1 (fun _ => 0, fun _ => 0, 0)).1
          (0 + b + sampleBL34.I.length * c) =
        (fun _ => (0 : ℤ)) (0 + b + sampleBL34.I.length * c) -
          tnEntry sampleB58.I plainDonor.I plainDonor.J sampleBL34.I 0 plainDonor.L
            sampleB58.L b c) :=
  ⟨plainRun, plainConsecutive, by decide, by decide,
    (contribution3_spec sampleB58 sampleBL34 plainDonor 0 1 (fun _ => 0, fun _ => 0, 0)
      plainRun plainConsecutive (by decide) (by decide)).1⟩

end Claims

/-! ## Assembly of the diagonal block -/

section Assembly

variable {R : Type} [CommRing R]

theorem forLoop_writes (m : Nat) (pos : Nat → Nat) (g : Nat → R) (T : Nat → R)
    (hinj : ∀ e e2, e < m → e2 < m → pos e = pos e2 → e = e2) :
    (∀ e, e < m → forLoop m (fun e acc => Function.update acc (pos e) (g e)) T (pos e) = g e) ∧
    (∀ x, (∀ e, e < m → x ≠ pos e) →
      forLoop m (fun e acc => Function.update acc (pos e) (g e)) T x = T x) := by
  induction m with
  | zero => exact ⟨by intro e he; omega, by intro x _; rfl⟩
  | succ m ih =>
    obtain ⟨h1, h2⟩ := ih (fun e e2 he he2 => hinj e e2 (by omega) (by omega))
    constructor
    · intro e he
      rw [forLoop_succ]
      by_cases hem : e = m
      · subst hem; rw [Function.update_same]
      · rw [Function.update_noteq]
        · exact h1 e (by omega)
        · intro heq
          exact hem (hinj e m he (by omega) heq)
    · intro x hx
      rw [forLoop_succ, Function.update_noteq (hx m (by omega))]
      exact h2 x (fun e he => hx e (by omega))

theorem assembleUpper_inner (n m : Nat) (d : R) (butd T : Nat → R) (pr0 pb0 : Nat) :
    forLoop m
      (fun _ (s3 : (Nat → R) × Nat × Nat) =>
        (Function.update s3.1 s3.2.1 (d * butd s3.2.2), s3.2.1 + n, s3.2.2 + 1))
      (T, pr0, pb0) =
    (forLoop m (fun e acc => Function.update acc (pr0 + n * e) (d * butd (pb0 + e))) T,
      pr0 + n * m, pb0 + m) := by
  induction m with
  | zero => rfl
  | succ m ih =>
    rw [forLoop_succ, ih, forLoop_succ]
    refine Prod.ext rfl (Prod.ext ?_ ?_)
    · simp only; rw [Nat.mul_succ]; omega
    · simp only; omega

theorem assembleLower_inner (m : Nat) (bld T : Nat → R) (a b : Nat) :
    forLoop m
      (fun _ (s3 : (Nat → R) × Nat × Nat) =>
        (Function.update s3.1 s3.2.1 (bld s3.2.2), s3.2.1 + 1, s3.2.2 + 1))
      (T, a, b) =
    (forLoop m (fun e acc => Function.update acc (a + e) (bld (b + e))) T, a + m, b + m) := by
  induction m with
  | zero => rfl
  | succ m ih =>
    rw [forLoop_succ, ih, forLoop_succ]
    refine Prod.ext rfl (Prod.ext ?_ ?_)
    · simp only; omega
    · simp only; omega

theorem upperStepBase_eq (n : Nat) (bdd butd : Nat → R) (j : Nat) (D : Nat → R)
    (ip : Nat → Nat) (a b : Nat) :
    upperStepBase n bdd butd j (D, ip, a, b) =
      (forLoop (n - (j + 1))
          (fun e acc => Function.update acc (j * n + j + n + n * e)
            (bdd a * butd (b + (j + 1) + e)))
          (Function.update D (j * n + j) (bdd a)),
        Function.update ip j (j + 1), a + 1, b + (j + 1) + (n - (j + 1))) := by
  unfold upperStepBase
  simp only [assembleUpper_inner]

/-- The state of the first assembly loop after `J` columns: the pointers, the pivot
vector and every entry of the matrix. -/
theorem assembleUpper_inv (n : Nat) (bdd butd D0 : Nat → R) (ipiv0 : Nat → Nat) :
    ∀ J, J ≤ n →
      (forLoop J (upperStepBase n bdd butd) (D0, ipiv0, 0, 0)).2.2.1 = J ∧
      (forLoop J (upperStepBase n bdd butd) (D0, ipiv0, 0, 0)).2.2.2 = n * J ∧
      (∀ e, (forLoop J (upperStepBase n bdd butd) (D0, ipiv0, 0, 0)).2.1 e =
        if e < J then e + 1 else ipiv0 e) ∧
      (∀ x, (forLoop J (upperStepBase n bdd butd) (D0, ipiv0, 0, 0)).1 x =
          if x % n < J ∧ x % n ≤ x / n ∧ x / n < n then
            (if x % n = x / n then bdd (x % n) else bdd (x % n) * butd (x / n + n * (x % n)))
          else D0 x) := by
  intro J
  induction J with
  | zero =>
    intro _
    refine ⟨rfl, rfl, ?_, ?_⟩
    · intro e; simp [forLoop]
    · intro x; simp [forLoop]
  | succ J ih =>
    intro hJ
    have hn : 0 < n := by omega
    rw [forLoop_succ]
    rcases hS : forLoop J (upperStepBase n bdd butd) (D0, ipiv0, 0, 0) with ⟨D, ip, a, b⟩
    have ih2 := ih (by omega)
    rw [hS] at ih2
    obtain ⟨h1, h2, h3, h4⟩ := ih2
    simp only at h1 h2 h3 h4
    subst h1
    subst h2
    rw [upperStepBase_eq]
    refine ⟨rfl, ?_, ?_, ?_⟩
    · simp only; rw [Nat.mul_succ]; omega
    · intro e
      simp only
      by_cases he : e = a
      · subst he; simp
      · rw [Function.update_noteq he, h3]
        by_cases he2 : e < a
        · rw [if_pos he2, if_pos (by omega)]
        · rw [if_neg he2, if_neg (by omega)]
    · intro x
      simp only
      have hx := Nat.mod_add_div x n
      have hxm : x % n < n := Nat.mod_lt _ hn
      obtain ⟨w1, w2⟩ := forLoop_writes (n - (a + 1)) (fun e => a * n + a + n + n * e)
        (fun e => bdd a * butd (n * a + (a + 1) + e))
        (Function.update D (a * n + a) (bdd a))
        (by
          intro e e2 _ _ heq
          simp only at heq
          have : n * e = n * e2 := by omega
          exact Nat.eq_of_mul_eq_mul_left hn this)
      by_cases hrow : x % n = a ∧ a ≤ x / n ∧ x / n < n
      · obtain ⟨hr1, hr2, hr3⟩ := hrow
        by_cases hdiag : x / n = a
        · have hxe : x = a * n + a := by
            have h5 := hx
            rw [hr1, hdiag, Nat.mul_comm] at h5
            omega
          rw [w2 x (by
            intro e he heq
            rw [hxe] at heq
            have : n * (e + 1) = 0 := by rw [Nat.mul_succ]; omega
            have := Nat.mul_eq_zero.mp this
            omega)]
          rw [hxe, Function.update_same]
          rw [← hxe, if_pos (show x % n < a + 1 ∧ x % n ≤ x / n ∧ x / n < n from
            ⟨by omega, by omega, by omega⟩), if_pos (by omega), hr1]
        · have hxe : x = a * n + a + n + n * (x / n - a - 1) := by
            have e1 : n * (x / n) = n * a + n + n * (x / n - a - 1) := by
              have : x / n = a + 1 + (x / n - a - 1) := by omega
              conv_lhs => rw [this]
              ring
            rw [Nat.mul_comm a n]
            omega
          have hlt : x / n - a - 1 < n - (a + 1) := by omega
          have := w1 (x / n - a - 1) hlt
          rw [← hxe] at this
          rw [this, if_pos (show x % n < a + 1 ∧ x % n ≤ x / n ∧ x / n < n from
            ⟨by omega, by omega, by omega⟩), if_neg (by omega), hr1]
          congr 2
          have : x / n = a + 1 + (x / n - a - 1) := by omega
          omega
      · rw [w2 x (by
          intro e he heq
          apply hrow
          have hmod : x % n = a := by
            rw [heq]
            have : a * n + a + n + n * e = a + n * (a + 1 + e) := by ring
            rw [this]
            exact flat_mod (by omega)
          have hdiv : x / n = a + 1 + e := by
            rw [heq]
            have : a * n + a + n + n * e = a + n * (a + 1 + e) := by ring
            rw [this]
            exact flat_div (by omega)
          exact ⟨hmod, by omega, by omega⟩)]
        rw [Function.update_noteq (by
          intro heq
          apply hrow
          have hmod : x % n = a := by
            rw [heq]
            have : a * n + a = a + n * a := by ring
            rw [this]
            exact flat_mod (by omega)
          have hdiv : x / n = a := by
            rw [heq]
            have : a * n + a = a + n * a := by ring
            rw [this]
            exact flat_div (by omega)
          exact ⟨hmod, by omega, by omega⟩)]
        rw [h4]
        by_cases hc1 : x % n < a ∧ x % n ≤ x / n ∧ x / n < n
        · rw [if_pos hc1, if_pos (show x % n < a + 1 ∧ x % n ≤ x / n ∧ x / n < n from
            ⟨by omega, hc1.2.1, hc1.2.2⟩)]
        · rw [if_neg hc1, if_neg]
          intro hc2
          by_cases hxJ : x % n = a
          · exact hrow ⟨hxJ, by omega, hc2.2.2⟩
          · exact hc1 ⟨by omega, hc2.2.1, hc2.2.2⟩

theorem lowerStepBase_eq (n : Nat) (bld : Nat → R) (j : Nat) (D : Nat → R) (a b : Nat) :
    lowerStepBase n bld j (D, a, b) =
      (forLoop (n - (j + 1))
          (fun e acc => Function.update acc (a + (j + 1) + e) (bld (b + (j + 1) + e))) D,
        a + (j + 1) + (n - (j + 1)), b + (j + 1) + (n - (j + 1))) := by
  unfold lowerStepBase
  simp only [assembleLower_inner]

/-- The state of the second assembly loop after `J` columns. -/
theorem assembleLower_inv (n : Nat) (bld D0 : Nat → R) :
    ∀ J, J ≤ n →
      (forLoop J (lowerStepBase n bld) (D0, 0, 0)).2.1 = n * J ∧
      (forLoop J (lowerStepBase n bld) (D0, 0, 0)).2.2 = n * J ∧
      (∀ x, (forLoop J (lowerStepBase n bld) (D0, 0, 0)).1 x =
          if x / n < J ∧ x / n < x % n then bld x else D0 x) := by
  intro J
  induction J with
  | zero =>
    intro _
    refine ⟨rfl, rfl, ?_⟩
    intro x; simp [forLoop]
  | succ J ih =>
    intro hJ
    have hn : 0 < n := by omega
    rw [forLoop_succ]
    rcases hS : forLoop J (lowerStepBase n bld) (D0, 0, 0) with ⟨D, a, b⟩
    have ih2 := ih (by omega)
    rw [hS] at ih2
    obtain ⟨h1, h2, h4⟩ := ih2
    simp only at h1 h2 h4
    subst h1
    subst h2
    rw [lowerStepBase_eq]
    refine ⟨?_, ?_, ?_⟩
    · simp only; rw [Nat.mul_succ]; omega
    · simp only; rw [Nat.mul_succ]; omega
    · intro x
      simp only
      have hx := Nat.mod_add_div x n
      have hxm : x % n < n := Nat.mod_lt _ hn
      obtain ⟨w1, w2⟩ := forLoop_writes (n - (J + 1)) (fun e => n * J + (J + 1) + e)
        (fun e => bld (n * J + (J + 1) + e)) D
        (by intro e e2 _ _ heq; simp only at heq; omega)
      by_cases hcol : x / n = J ∧ J < x % n
      · obtain ⟨hc1, hc2⟩ := hcol
        have hxe : x = n * J + (J + 1) + (x % n - J - 1) := by
          rw [hc1] at hx; omega
        have := w1 (x % n - J - 1) (by omega)
        rw [← hxe] at this
        rw [this, if_pos (show x / n < J + 1 ∧ x / n < x % n from ⟨by omega, by omega⟩)]
      · rw [w2 x (by
          intro e he heq
          apply hcol
          have hdiv : x / n = J := by
            rw [heq]
            have : n * J + (J + 1) + e = (J + 1 + e) + n * J := by ring
            rw [this]
            exact flat_div (by omega)
          have hmod : x % n = J + 1 + e := by
            rw [heq]
            have : n * J + (J + 1) + e = (J + 1 + e) + n * J := by ring
            rw [this]
            exact flat_mod (by omega)
          exact ⟨hdiv, by omega⟩)]
        rw [h4]
        by_cases hc1 : x / n < J ∧ x / n < x % n
        · rw [if_pos hc1, if_pos (show x / n < J + 1 ∧ x / n < x % n from ⟨by omega, hc1.2⟩)]
        · rw [if_neg hc1, if_neg]
          intro hc2
          by_cases hxJ : x / n = J
          · exact hcol ⟨hxJ, by omega⟩
          · exact hc1 ⟨by omega, hc2.2⟩

/-- Every entry of the matrix that the two assembly loops of the base case build
from a zero matrix, and the pivot vector. -/
theorem assembleBase_entries (n : Nat) (bdd butd bld : Nat → R) (ipiv0 : Nat → Nat) :
    (∀ i j, i < n → j < n →
      assembleLowerBase n bld (assembleUpperBase n bdd butd (fun _ => 0) ipiv0).1 (i + n * j) =
        if i = j then bdd i else if j < i then bld (i + n * j) else bdd i * butd (j + n * i)) ∧
    (∀ j, j < n → (assembleUpperBase n bdd butd (fun _ => 0) ipiv0).2.1 j = j + 1) := by
  obtain ⟨_, _, u3, u4⟩ := assembleUpper_inv n bdd butd (fun _ => 0) ipiv0 n le_rfl
  obtain ⟨_, _, l3⟩ := assembleLower_inv n bld
    (assembleUpperBase n bdd butd (fun _ => 0) ipiv0).1 n le_rfl
  constructor
  · intro i j hi hj
    unfold assembleLowerBase
    rw [l3]
    unfold assembleUpperBase
    rw [u4]
    simp only [flat_mod hi, flat_div hi]
    by_cases hij : i = j
    · subst hij
      rw [if_neg (by omega), if_pos (show i < n ∧ i ≤ i ∧ i < n from ⟨hi, le_rfl, hi⟩),
        if_pos rfl, if_pos rfl]
    · by_cases hlt : j < i
      · rw [if_pos (show j < n ∧ j < i from ⟨hj, hlt⟩), if_neg hij, if_pos hlt]
      · rw [if_neg (by omega), if_pos (show i < n ∧ i ≤ j ∧ j < n from ⟨hi, by omega, hj⟩),
          if_neg hij, if_neg hij, if_neg hlt]
  · intro j hj
    unfold assembleUpperBase
    rw [u3, if_pos hj]

theorem assembleUpperRec_eq : @assembleUpperRec = @assembleUpperBase := rfl

theorem assembleLowerRec_eq : @assembleLowerRec = @assembleLowerBase := rfl

end Assembly

section Diagonal

variable {R : Type} [Field R] [DecidableEq R]

/-- The two triangular factors that the packed array of the assembly stands for. -/
theorem assembleBase_factors (n : Nat) (bdd butd bld : Nat → R) (ipiv0 : Nat → Nat) :
    packedL n n
        (assembleLowerBase n bld (assembleUpperBase n bdd butd (fun _ => 0) ipiv0).1) =
      packedL n n bld ∧
    packedU n n
        (assembleLowerBase n bld (assembleUpperBase n bdd butd (fun _ => 0) ipiv0).1) =
      Matrix.diagonal (fun j : Fin n => bdd j.val) * (packedL n n butd).transpose := by
  have he := (assembleBase_entries n bdd butd bld ipiv0).1
  constructor
  · ext i j
    simp only [packedL, Matrix.of_apply]
    by_cases hji : j.val < i.val
    · rw [if_pos hji, if_pos hji, he i.val j.val i.isLt j.isLt, if_neg (by omega), if_pos hji]
    · rw [if_neg hji, if_neg hji]
  · ext i j
    rw [Matrix.diagonal_mul]
    simp only [packedU, packedL, Matrix.of_apply, Matrix.transpose_apply]
    rw [he i.val j.val i.isLt j.isLt]
    by_cases hij : i.val = j.val
    · rw [if_pos (by omega), if_pos hij, if_neg (by omega), if_pos hij.symm, mul_one]
    · by_cases hlt : i.val < j.val
      · rw [if_pos (by omega), if_neg hij, if_neg (by omega), if_pos hlt]
      · rw [if_neg (by omega), if_neg hlt, if_neg (fun h => hij h.symm), mul_zero]

/-- C7: diagonal-block assembly.  For `n = |J_k|` and the stored values `d_0, d_1, ...`
of `BD{k}.D`, the matrix handed to `dgetri_` (built from a zero matrix by the two
assembly loops) has diagonal entry `(j,j) = d_j`, the entries below the diagonal
copied from `BL{k}.D`, and above the diagonal `(j,i) = d_j * BUT{k}.D(i,j)` for `i > j`;
the pivot vector is the identity `ipiv[j] = j + 1`; the matrix is the packed LU form
of `unitLower(BL{k}.D) * diag(d) * unitLower(BUT{k}.D)^T`; and the main loop builds the
same matrix and pivot vector as the base case. -/
theorem assembly_packed_lu (n : Nat) (bdd butd bld : Nat → R) (ipiv0 : Nat → Nat) :
    (∀ j, j < n →
      assembleLowerBase n bld (assembleUpperBase n bdd butd (fun _ => 0) ipiv0).1 (j + n * j)
        = bdd j) ∧
    (∀ i j, j < i → i < n →
      assembleLowerBase n bld (assembleUpperBase n bdd butd (fun _ => 0) ipiv0).1 (i + n * j)
        = bld (i + n * j)) ∧
    (∀ i j, j < i → i < n →
      assembleLowerBase n bld (assembleUpperBase n bdd butd (fun _ => 0) ipiv0).1 (j + n * i)
        = bdd j * butd (i + n * j)) ∧
    (∀ j, j < n → (assembleUpperBase n bdd butd (fun _ => 0) ipiv0).2.1 j = j + 1) ∧
    luMatrix n n
        (assembleLowerBase n bld (assembleUpperBase n bdd butd (fun _ => 0) ipiv0).1) =
      packedL n n bld * Matrix.diagonal (fun j : Fin n => bdd j.val) *
        (packedL n n butd).transpose ∧
    assembleLowerRec n bld (assembleUpperRec n bdd butd (fun _ => 0) ipiv0).1 =
      assembleLowerBase n bld (assembleUpperBase n bdd butd (fun _ => 0) ipiv0).1 ∧
    (assembleUpperRec n bdd butd (fun _ => 0) ipiv0).2.1 =
      (assembleUpperBase n bdd butd (fun _ => 0) ipiv0).2.1 := by
  obtain ⟨he, hp⟩ := assembleBase_entries n bdd butd bld ipiv0
  obtain ⟨hL, hU⟩ := assembleBase_factors n bdd butd bld ipiv0
  refine ⟨?_, ?_, ?_, hp, ?_, ?_, ?_⟩
  · intro j hj
    rw [he j j hj hj, if_pos rfl]
  · intro i j hji hi
    rw [he i j hi (by omega), if_neg (by omega), if_pos hji]
  · intro i j hji hi
    rw [he j i (by omega) hi, if_neg (by omega), if_neg (by omega)]
  · unfold luMatrix
    rw [hL, hU, Matrix.mul_assoc]
  · rw [assembleUpperRec_eq, assembleLowerRec_eq]
  · rw [assembleUpperRec_eq]

end Diagonal

/-! ## The inverse of the assembled block -/

section Inverse

variable {R : Type} [Field R] [DecidableEq R]

theorem applyPivots_id (n : Nat) (ipiv : Nat → Nat) (h : ∀ j, j < n → ipiv j = j + 1)
    (X : Matrix (Fin n) (Fin n) R) : applyPivots n ipiv X = X := by
  unfold applyPivots
  generalize n - 1 = m
  induction m with
  | zero => rfl
  | succ m ih =>
    rw [forLoop_succ, ih]
    by_cases hh : n - 2 - m < n ∧ ipiv (n - 2 - m) - 1 < n
    · rw [dif_pos hh]
      have e : (⟨ipiv (n - 2 - m) - 1, hh.2⟩ : Fin n) = ⟨n - 2 - m, hh.1⟩ := by
        apply Fin.ext
        show ipiv (n - 2 - m) - 1 = n - 2 - m
        rw [h _ hh.1]
        omega
      rw [e, Equiv.swap_self]
      rfl
    · rw [dif_neg hh]

theorem det_luMatrix (n lda : Nat) (a : Nat → R) :
    (luMatrix n lda a).det = ∏ j : Fin n, a (j.val + lda * j.val) := by
  have hL : (packedL n lda a).BlockTriangular OrderDual.toDual := by
    intro i j hij
    have h1 : i.val < j.val := hij
    simp only [packedL, Matrix.of_apply]
    rw [if_neg (by omega), if_neg (by omega)]
  have hU : (packedU n lda a).BlockTriangular id := by
    intro i j hij
    have h1 : j.val < i.val := hij
    simp only [packedU, Matrix.of_apply]
    rw [if_neg (by omega)]
  unfold luMatrix
  rw [Matrix.det_mul, Matrix.det_of_lowerTriangular _ hL, Matrix.det_of_upperTriangular hU]
  simp [packedL, packedU]

theorem mul_exactInverse {n : Nat} (M : Matrix (Fin n) (Fin n) R) (h : M.det ≠ 0) :
    M * exactInverse M = 1 := by
  unfold exactInverse
  rw [Matrix.mul_smul, Matrix.mul_adjugate, smul_smul, inv_mul_cancel₀ h, one_smul]

theorem exactInverse_unique {n : Nat} (M X : Matrix (Fin n) (Fin n) R) (h : M * X = 1) :
    X = exactInverse M := by
  have hdet : M.det ≠ 0 := by
    intro h0
    have := congrArg Matrix.det h
    rw [Matrix.det_mul, h0, zero_mul, Matrix.det_one] at this
    exact zero_ne_one this
  have h2 : X * M = 1 := (Matrix.mul_eq_one_comm).mp h
  calc X = X * (M * exactInverse M) := by rw [mul_exactInverse M hdet, Matrix.mul_one]
    _ = exactInverse M := by rw [← Matrix.mul_assoc, h2, Matrix.one_mul]

theorem dgetri_of_nonsingular (n : Nat) (a : Nat → R) (lda : Nat) (ipiv : Nat → Nat)
    (lwork : Nat) (h1 : max 1 n ≤ lda) (h2 : max 1 n ≤ lwork)
    (h3 : ∀ j, j < n → a (j + lda * j) ≠ 0) :
    dgetri n a lda ipiv lwork =
      (0, unpack n lda (applyPivots n ipiv (exactInverse (luMatrix n lda a))) a) := by
  unfold dgetri
  rw [if_neg (by omega), if_neg (by omega)]
  have hf : (List.range n).find? (fun j => decide (a (j + lda * j) = 0)) = none := by
    rw [List.find?_eq_none]
    intro j hj
    have := h3 j (List.mem_range.mp hj)
    simpa using this
  rw [hf]

theorem unpack_at (n : Nat) (X : Matrix (Fin n) (Fin n) R) (a : Nat → R) (i j : Nat)
    (hi : i < n) (hj : j < n) : unpack n n X a (i + n * j) = X ⟨i, hi⟩ ⟨j, hj⟩ := by
  unfold unpack
  have h : (i + n * j) % n < n ∧ (i + n * j) / n < n := by
    rw [flat_mod hi, flat_div hi]
    exact ⟨hi, hj⟩
  rw [dif_pos h]
  congr 1
  · exact Fin.ext (flat_mod hi)
  · exact Fin.ext (flat_div hi)

theorem asMatrix_unpack (n : Nat) (X : Matrix (Fin n) (Fin n) R) (a : Nat → R) :
    asMatrix n (unpack n n X a) = X := by
  ext i j
  simp only [asMatrix, Matrix.of_apply]
  exact unpack_at n X a i.val j.val i.isLt j.isLt

/-- The call of `dgetri_` on the assembled block succeeds and returns the exact
inverse of `M_k`, if no diagonal entry is zero. -/
theorem dgetri_assembled (n_size n : Nat) (bld bdd butd : Nat → R) (ipiv0 : Nat → Nat)
    (hn : 1 ≤ n_size) (hle : n_size ≤ n) (hd : ∀ j, j < n_size → bdd j ≠ 0) :
    dgetri n_size
        (assembleLowerBase n_size bld (assembleUpperBase n_size bdd butd (fun _ => 0) ipiv0).1)
        n_size (assembleUpperBase n_size bdd butd (fun _ => 0) ipiv0).2.1 n =
      (0, unpack n_size n_size (exactInverse (localBlock n_size bld bdd butd))
        (assembleLowerBase n_size bld
          (assembleUpperBase n_size bdd butd (fun _ => 0) ipiv0).1)) ∧
    localBlock n_size bld bdd butd * exactInverse (localBlock n_size bld bdd butd) = 1 := by
  obtain ⟨he, hp⟩ := assembleBase_entries n_size bdd butd bld ipiv0
  obtain ⟨hL, hU⟩ := assembleBase_factors n_size bdd butd bld ipiv0
  have hlu : luMatrix n_size n_size
      (assembleLowerBase n_size bld (assembleUpperBase n_size bdd butd (fun _ => 0) ipiv0).1) =
      localBlock n_size bld bdd butd := by
    unfold luMatrix localBlock
    rw [hL, hU, Matrix.mul_assoc]
  have hdiag : ∀ j, j < n_size →
      assembleLowerBase n_size bld (assembleUpperBase n_size bdd butd (fun _ => 0) ipiv0).1
        (j + n_size * j) ≠ 0 := by
    intro j hj
    rw [he j j hj hj, if_pos rfl]
    exact hd j hj
  constructor
  · rw [dgetri_of_nonsingular _ _ _ _ _ (by omega) (by omega) hdiag, applyPivots_id _ _ hp, hlu]
  · apply mul_exactInverse
    rw [← hlu, det_luMatrix]
    exact Finset.prod_ne_zero_iff.mpr (fun j _ => hdiag j.val j.isLt)

end Inverse

/-! ## One block of the driver -/

section DriverLemmas

variable {R : Type} [Field R] [DecidableEq R]

theorem extractDiag_loop (n_size sumn : Nat) (D Dbuff : Nat → R) (m : Nat) :
    forLoop m
      (fun j (st : (Nat → R) × Nat) =>
        (Function.update st.1 (sumn + j) (D st.2), st.2 + (n_size + 1)))
      (Dbuff, 0) =
    (forLoop m (fun j acc => Function.update acc (sumn + j) (D (j + n_size * j))) Dbuff,
      m * (n_size + 1)) := by
  induction m with
  | zero => simp [forLoop]
  | succ m ih =>
    rw [forLoop_succ, ih, forLoop_succ]
    refine Prod.ext ?_ (by simp only; ring)
    simp only
    rw [show m * (n_size + 1) = m + n_size * m by ring]

theorem extractDiag_spec (n_size sumn : Nat) (D Dbuff : Nat → R) :
    (∀ j, j < n_size → extractDiag n_size sumn D Dbuff (sumn + j) = D (j + n_size * j)) ∧
    (∀ x, (x < sumn ∨ sumn + n_size ≤ x) → extractDiag n_size sumn D Dbuff x = Dbuff x) := by
  unfold extractDiag
  rw [extractDiag_loop]
  obtain ⟨h1, h2⟩ := forLoop_writes n_size (fun e => sumn + e) (fun e => D (e + n_size * e)) Dbuff
    (by intro e e2 _ _ h; simp only at h; omega)
  refine ⟨fun j hj => h1 j hj, fun x hx => h2 x ?_⟩
  intro e he
  omega

/-- What one pass of the main loop leaves behind, for a block that passes the checks. -/
theorem processBlock_ok (n k : Nat) (block : Nat → Nat) (BLk : Block R) (BDk : DiagBlock R)
    (BUTk : Block R) (st : State R)
    (h1 : BLk.Dn = BLk.J.length ∧ BLk.Dm = BLk.J.length ∧ BLk.Dnumeric = true)
    (h2 : BDk.Dn = BLk.J.length ∧ BDk.Dm = BLk.J.length ∧ BDk.Dsparse = true)
    (h3 : BUTk.Dn = BUTk.J.length ∧ BUTk.Dm = BUTk.J.length ∧ BUTk.Dnumeric = true)
    (hn : 1 ≤ BUTk.J.length) (hle : BUTk.J.length ≤ n)
    (hd : ∀ j, j < BUTk.J.length → BDk.D j ≠ 0) :
    ∃ st1, processBlock n k block BLk BDk BUTk st = Except.ok st1 ∧
      (st1.BUTinv k).L = (partI block BLk BUTk st.BLinv st.BUTinv st.BDinv
          (fun _ => 0, st.gemm_buff, st.size_gemm_buff)).1 ∧
      (st1.BLinv k).L = (partII block BLk BUTk st.BLinv st.BUTinv st.BDinv
          (fun _ => 0,
            (partI block BLk BUTk st.BLinv st.BUTinv st.BDinv
              (fun _ => 0, st.gemm_buff, st.size_gemm_buff)).2.1,
            (partI block BLk BUTk st.BLinv st.BUTinv st.BDinv
              (fun _ => 0, st.gemm_buff, st.size_gemm_buff)).2.2)).1 ∧
      (∀ (a b : Nat) (ha : a < BUTk.J.length) (hb : b < BUTk.J.length),
        (st1.BDinv k).D (a + BUTk.J.length * b) =
          exactInverse (localBlock BUTk.J.length BLk.D BDk.D BUTk.D) ⟨a, ha⟩ ⟨b, hb⟩ -
            ∑ r ∈ Finset.range BUTk.I.length,
              BUTk.L (r + BUTk.I.length * a) * (st1.BUTinv k).L (r + BUTk.I.length * b)) ∧
      localBlock BUTk.J.length BLk.D BDk.D BUTk.D *
          exactInverse (localBlock BUTk.J.length BLk.D BDk.D BUTk.D) = 1 ∧
      (∀ k2, k2 ≠ k → st1.BLinv k2 = st.BLinv k2 ∧ st1.BDinv k2 = st.BDinv k2 ∧
        st1.BUTinv k2 = st.BUTinv k2) ∧
      st1.Dbuff = extractDiag BUTk.J.length (st.sumn - BUTk.J.length) (st1.BDinv k).D st.Dbuff ∧
      st1.sumn = st.sumn - BUTk.J.length ∧
      (st1.BLinv k).I = memcpyIdx BLk.I BLk.I.length ∧
      (st1.BLinv k).J = memcpyIdx BLk.J BUTk.J.length ∧
      (st1.BUTinv k).I = memcpyIdx BUTk.I BUTk.I.length ∧
      (st1.BUTinv k).J = memcpyIdx BUTk.J BUTk.J.length ∧
      (st1.BDinv k).J = memcpyIdx BLk.J BUTk.J.length := by
  obtain ⟨hdg, hinv⟩ := dgetri_assembled BUTk.J.length n BLk.D BDk.D BUTk.D st.ipiv hn hle hd
  unfold processBlock
  rw [if_neg (by simp [h1.1, h1.2.1, h1.2.2]), if_neg (by simp [h2.1, h2.2.1, h2.2.2]),
    if_neg (by simp [h3.1, h3.2.1, h3.2.2])]
  simp only [assembleUpperRec_eq, assembleLowerRec_eq, hdg, lt_self_iff_false, gt_iff_lt,
    if_false]
  refine ⟨_, rfl, ?_, ?_, ?_, hinv, ?_, ?_, ?_, ?_, ?_, ?_, ?_, ?_⟩
  · simp only [Function.update_same]
  · simp only [Function.update_same]
  · intro a b ha hb
    simp only [Function.update_same]
    by_cases hm : BUTk.I.length = 0
    · rw [if_neg (by simpa using hm), hm, Finset.range_zero, Finset.sum_empty, sub_zero]
      exact unpack_at _ _ _ a b ha hb
    · rw [if_pos hm]
      have := dgemm_at true BUTk.J.length BUTk.J.length BUTk.I.length (-1 : R) BUTk.L 0
        BUTk.I.length
        (partI block BLk BUTk st.BLinv st.BUTinv st.BDinv
          (fun _ => 0, st.gemm_buff, st.size_gemm_buff)).1 0 BUTk.I.length 1
        (unpack BUTk.J.length BUTk.J.length
          (exactInverse (localBlock BUTk.J.length BLk.D BDk.D BUTk.D))
          (assembleLowerBase BUTk.J.length BLk.D
            (assembleUpperBase BUTk.J.length BDk.D BUTk.D (fun _ => 0) st.ipiv).1)) 0
        BUTk.J.length (by simp; omega) (by simp; omega) (by simp; omega) a b ha hb
      simp only [zero_add, if_true] at this
      rw [this, unpack_at _ _ _ a b ha hb]
      ring
  · intro k2 hk2
    simp only [Function.update_noteq hk2]
    exact ⟨trivial, trivial, trivial⟩
  · simp only [Function.update_same]
  · trivial
  · simp only [Function.update_same]
  · simp only [Function.update_same]
  · simp only [Function.update_same]
  · simp only [Function.update_same]
  · simp only [Function.update_same]

end DriverLemmas

/-! ## The last block, the main loop and the call -/

section DriverRun

variable {R : Type} [Field R] [DecidableEq R]

/-- What the base case leaves behind, for a block that passes the checks. -/
theorem baseCase_ok (n k : Nat) (BLk : Block R) (BDk : DiagBlock R) (BUTk : Block R)
    (st : State R)
    (h1 : BLk.Dn = BLk.J.length ∧ BLk.Dm = BLk.J.length ∧ BLk.Dnumeric = true)
    (h2 : BDk.Dn = BLk.J.length ∧ BDk.Dm = BLk.J.length ∧ BDk.Dsparse = true)
    (h3 : BUTk.Dn = BUTk.J.length ∧ BUTk.Dm = BUTk.J.length ∧ BUTk.Dnumeric = true)
    (hn : 1 ≤ BUTk.J.length) (hle : BUTk.J.length ≤ n)
    (hd : ∀ j, j < BUTk.J.length → BDk.D j ≠ 0) :
    ∃ st1, baseCase n k BLk BDk BUTk st = Except.ok st1 ∧
      (∀ (a b : Nat) (ha : a < BUTk.J.length) (hb : b < BUTk.J.length),
        (st1.BDinv k).D (a + BUTk.J.length * b) =
          exactInverse (localBlock BUTk.J.length BLk.D BDk.D BUTk.D) ⟨a, ha⟩ ⟨b, hb⟩) ∧
      localBlock BUTk.J.length BLk.D BDk.D BUTk.D *
          exactInverse (localBlock BUTk.J.length BLk.D BDk.D BUTk.D) = 1 ∧
      (∀ k2, k2 ≠ k → st1.BLinv k2 = st.BLinv k2 ∧ st1.BDinv k2 = st.BDinv k2 ∧
        st1.BUTinv k2 = st.BUTinv k2) ∧
      st1.Dbuff = extractDiag BUTk.J.length (n - BUTk.J.length) (st1.BDinv k).D st.Dbuff ∧
      st1.sumn = n - BUTk.J.length ∧
      ((st1.BLinv k).I = [] ∧ (st1.BLinv k).Lm = 0 ∧ (st1.BLinv k).Ln = BUTk.J.length ∧
        (st1.BLinv k).J = memcpyIdx BLk.J BUTk.J.length) ∧
      ((st1.BUTinv k).I = [] ∧ (st1.BUTinv k).Lm = 0 ∧ (st1.BUTinv k).Ln = BUTk.J.length ∧
        (st1.BUTinv k).J = memcpyIdx BUTk.J BUTk.J.length) ∧
      ((st1.BDinv k).J = memcpyIdx BLk.J BUTk.J.length ∧ (st1.BDinv k).Dm = BUTk.J.length ∧
        (st1.BDinv k).Dn = BUTk.J.length) := by
  obtain ⟨hdg, hinv⟩ := dgetri_assembled BUTk.J.length n BLk.D BDk.D BUTk.D st.ipiv hn hle hd
  unfold baseCase
  rw [if_neg (by simp [h1.1, h1.2.1, h1.2.2]), if_neg (by simp [h2.1, h2.2.1, h2.2.2]),
    if_neg (by simp [h3.1, h3.2.1, h3.2.2])]
  simp only [hdg, lt_self_iff_false, gt_iff_lt, if_false]
  refine ⟨_, rfl, ?_, hinv, ?_, ?_, ?_, ?_, ?_, ?_⟩
  · intro a b ha hb
    simp only [Function.update_same]
    exact unpack_at _ _ _ a b ha hb
  · intro k2 hk2
    simp only [Function.update_noteq hk2]
    exact ⟨trivial, trivial, trivial⟩
  · simp only [Function.update_same]
  · trivial
  · simp only [Function.update_same]
    exact ⟨trivial, trivial, trivial, trivial⟩
  · simp only [Function.update_same]
    exact ⟨trivial, trivial, trivial, trivial⟩
  · simp only [Function.update_same]
    exact ⟨trivial, trivial, trivial⟩

/-- The main loop on a valid call: it ends without an error, leaves the cells from
`K` on as they are, and every cell `k < K` is what the pass for block `k` wrote, that
pass having seen the final cells of the blocks after `k`. -/
theorem mainLoop_ok (inp : Input R) (hv : Valid inp) (block : Nat → Nat) :
    ∀ K, K ≤ inp.BL.length → ∀ st : State R,
      ∃ st2, mainLoop inp.perm.length block inp K st = Except.ok st2 ∧
        (∀ k, K ≤ k → st2.BLinv k = st.BLinv k ∧ st2.BDinv k = st.BDinv k ∧
          st2.BUTinv k = st.BUTinv k) ∧
        (∀ k, k < K → ∃ stk stk1,
          processBlock inp.perm.length k block (cellBL inp k) (cellBD inp k) (cellBUT inp k) stk =
            Except.ok stk1 ∧
          st2.BLinv k = stk1.BLinv k ∧ st2.BDinv k = stk1.BDinv k ∧
          st2.BUTinv k = stk1.BUTinv k ∧
          (∀ k2, k < k2 → stk.BLinv k2 = st2.BLinv k2 ∧ stk.BDinv k2 = st2.BDinv k2 ∧
            stk.BUTinv k2 = st2.BUTinv k2)) := by
  intro K
  induction K with
  | zero =>
    intro _ st
    exact ⟨st, rfl, fun k _ => ⟨rfl, rfl, rfl⟩, fun k hk => absurd hk (Nat.not_lt_zero k)⟩
  | succ K ih =>
    intro hK st
    obtain ⟨st1, hp, -, -, -, -, hframe, -⟩ :=
      processBlock_ok inp.perm.length K block (cellBL inp K) (cellBD inp K) (cellBUT inp K) st
        (hv.shapeBL K (by omega)) (hv.shapeBD K (by omega)) (hv.shapeBUT K (by omega))
        (hv.size_pos K (by omega)) (hv.size_le K (by omega)) (hv.diag K (by omega))
    obtain ⟨st2, hm, hge, hlt⟩ := ih (by omega) st1
    refine ⟨st2, ?_, ?_, ?_⟩
    · show (match processBlock inp.perm.length K block (cellBL inp K) (cellBD inp K)
          (cellBUT inp K) st with
        | Except.error e => Except.error e
        | Except.ok st1 => mainLoop inp.perm.length block inp K st1) = Except.ok st2
      rw [hp]
      exact hm
    · intro k hk
      obtain ⟨a1, a2, a3⟩ := hge k (by omega)
      obtain ⟨b1, b2, b3⟩ := hframe k (by omega)
      exact ⟨a1.trans b1, a2.trans b2, a3.trans b3⟩
    · intro k hk
      by_cases hkK : k = K
      · subst hkK
        obtain ⟨a1, a2, a3⟩ := hge k le_rfl
        refine ⟨st, st1, hp, a1, a2, a3, ?_⟩
        intro k2 hk2
        obtain ⟨c1, c2, c3⟩ := hge k2 (by omega)
        obtain ⟨b1, b2, b3⟩ := hframe k2 (by omega)
        exact ⟨(c1.trans b1).symm, (c2.trans b2).symm, (c3.trans b3).symm⟩
      · exact hlt k (by omega)

/-- The result of a valid call, read off the states after the base case and after
the main loop. -/
theorem selbinv_eq (inp : Input R) (hv : Valid inp) (st0 st : State R)
    (hb : baseCase inp.perm.length (inp.BL.length - 1) (cellBL inp (inp.BL.length - 1))
        (cellBD inp (inp.BL.length - 1)) (cellBUT inp (inp.BL.length - 1))
        (initState inp.perm.length) = Except.ok st0)
    (hm : mainLoop inp.perm.length (buildBlock inp.BL) inp (inp.BL.length - 1) st0 =
        Except.ok st) :
    selbinv inp = Except.ok
      { D := rescale inp.perm.length inp.Deltal inp.Deltar st.Dbuff
          (invPerm inp.perm.length inp.perm st.ipiv),
        nblocks := inp.BL.length,
        BLinv := st.BLinv, BDinv := st.BDinv, BUTinv := st.BUTinv } := by
  unfold selbinv
  rw [if_neg (by simp [hv.sizeBD]), if_neg (by simp [hv.sizeBUT]),
    if_neg (by simp [hv.sizeDeltal]), if_neg (by simp [hv.sizeDeltar]), if_neg hv.nonempty]
  unfold cellBL cellBD cellBUT at hb
  simp only [hb, hm]

/-- The cells of the result of a valid call: the last block holds the exact inverse
of its dense block and empty off-diagonal parts; every other block `k` holds what
its pass of the main loop computed from a state `stk` whose cells after `k` are the
final ones. -/
theorem selbinv_cells (inp : Input R) (hv : Valid inp) :
    ∃ out, selbinv inp = Except.ok out ∧ out.nblocks = inp.BL.length ∧
      (∀ a b : Fin (cellBUT inp (inp.BL.length - 1)).J.length,
        (out.BDinv (inp.BL.length - 1)).D
            (a.val + (cellBUT inp (inp.BL.length - 1)).J.length * b.val) =
          exactInverse (blockM inp (inp.BL.length - 1)) a b) ∧
      (∀ k, k < inp.BL.length → blockM inp k * exactInverse (blockM inp k) = 1) ∧
      (∀ k, k + 1 < inp.BL.length → ∃ stk : State R,
        (out.BUTinv k).L = (partI (buildBlock inp.BL) (cellBL inp k) (cellBUT inp k)
            stk.BLinv stk.BUTinv stk.BDinv (fun _ => 0, stk.gemm_buff, stk.size_gemm_buff)).1 ∧
        (out.BLinv k).L = (partII (buildBlock inp.BL) (cellBL inp k) (cellBUT inp k)
            stk.BLinv stk.BUTinv stk.BDinv
            (fun _ => 0,
              (partI (buildBlock inp.BL) (cellBL inp k) (cellBUT inp k)
                stk.BLinv stk.BUTinv stk.BDinv
                (fun _ => 0, stk.gemm_buff, stk.size_gemm_buff)).2.1,
              (partI (buildBlock inp.BL) (cellBL inp k) (cellBUT inp k)
                stk.BLinv stk.BUTinv stk.BDinv
                (fun _ => 0, stk.gemm_buff, stk.size_gemm_buff)).2.2)).1 ∧
        (∀ a b : Fin (cellBUT inp k).J.length,
          (out.BDinv k).D (a.val + (cellBUT inp k).J.length * b.val) =
            exactInverse (blockM inp k) a b -
              ∑ r ∈ Finset.range (cellBUT inp k).I.length,
                (cellBUT inp k).L (r + (cellBUT inp k).I.length * a.val) *
                  (out.BUTinv k).L (r + (cellBUT inp k).I.length * b.val)) ∧
        (∀ k2, k < k2 → stk.BLinv k2 = out.BLinv k2 ∧ stk.BDinv k2 = out.BDinv k2 ∧
          stk.BUTinv k2 = out.BUTinv k2)) := by
  have hnb := hv.nonempty
  obtain ⟨st0, hb, hD, hinv, -⟩ :=
    baseCase_ok inp.perm.length (inp.BL.length - 1) (cellBL inp (inp.BL.length - 1))
      (cellBD inp (inp.BL.length - 1)) (cellBUT inp (inp.BL.length - 1))
      (initState inp.perm.length)
      (hv.shapeBL _ (by omega)) (hv.shapeBD _ (by omega)) (hv.shapeBUT _ (by omega))
      (hv.size_pos _ (by omega)) (hv.size_le _ (by omega)) (hv.diag _ (by omega))
  obtain ⟨st, hm, hge, hlt⟩ :=
    mainLoop_ok inp hv (buildBlock inp.BL) (inp.BL.length - 1) (by omega) st0
  refine ⟨_, selbinv_eq inp hv st0 st hb hm, rfl, ?_, ?_, ?_⟩
  · intro a b
    show (st.BDinv (inp.BL.length - 1)).D _ = _
    rw [(hge _ le_rfl).2.1]
    exact hD a.val b.val a.isLt b.isLt
  · intro k hk
    exact (dgetri_assembled (cellBUT inp k).J.length inp.perm.length (cellBL inp k).D
      (cellBD inp k).D (cellBUT inp k).D (fun _ => 0) (hv.size_pos k hk) (hv.size_le k hk)
      (hv.diag k hk)).2
  · intro k hk
    obtain ⟨stk, stk1, hp, e1, e2, e3, hfr⟩ := hlt k (by omega)
    obtain ⟨st1, hp2, f1, f2, f3, -⟩ :=
      processBlock_ok inp.perm.length k (buildBlock inp.BL) (cellBL inp k) (cellBD inp k)
        (cellBUT inp k) stk
        (hv.shapeBL k (by omega)) (hv.shapeBD k (by omega)) (hv.shapeBUT k (by omega))
        (hv.size_pos k (by omega)) (hv.size_le k (by omega)) (hv.diag k (by omega))
    rw [hp] at hp2
    have hst : stk1 = st1 := Except.ok.inj hp2
    subst hst
    refine ⟨stk, ?_, ?_, ?_, hfr⟩
    · show (st.BUTinv k).L = _
      rw [e3, f1]
    · show (st.BLinv k).L = _
      rw [e1, f2]
    · intro a b
      show (st.BDinv k).D _ = _ - ∑ r ∈ _, _ * (st.BUTinv k).L _
      rw [e2, e3]
      exact f3 a.val b.val a.isLt b.isLt

end DriverRun

/-! ## The sample calls are valid -/

section Samples

theorem getD_two_ne_zero (x y : ℚ) (hx : x ≠ 0) (hy : y ≠ 0) (j : Nat) (hj : j < 2) :
    ([x, y] : List ℚ).getD j 0 ≠ 0 := by
  interval_cases j
  · exact hx
  · exact hy

theorem sampleTwo_valid : Valid sampleTwo where
  nonempty := by decide
  sizeBD := rfl
  sizeBUT := rfl
  sizeDeltal := rfl
  sizeDeltar := rfl
  shapeBL := by
    intro k hk
    have hk2 : k < 2 := hk
    interval_cases k <;> exact ⟨rfl, rfl, rfl⟩
  shapeBD := by
    intro k hk
    have hk2 : k < 2 := hk
    interval_cases k <;> exact ⟨rfl, rfl, rfl⟩
  shapeBUT := by
    intro k hk
    have hk2 : k < 2 := hk
    interval_cases k <;> exact ⟨rfl, rfl, rfl⟩
  size_pos := by
    intro k hk
    have hk2 : k < 2 := hk
    interval_cases k <;> decide
  size_le := by
    intro k hk
    have hk2 : k < 2 := hk
    interval_cases k <;> decide
  diag := by
    intro k hk j hj
    have hk2 : k < 2 := hk
    interval_cases k
    · exact getD_two_ne_zero 5 4 (by norm_num) (by norm_num) j hj
    · exact getD_two_ne_zero 2 3 (by norm_num) (by norm_num) j hj

theorem sampleOne_valid : Valid sampleOne where
  nonempty := by decide
  sizeBD := rfl
  sizeBUT := rfl
  sizeDeltal := rfl
  sizeDeltar := rfl
  shapeBL := by
    intro k hk
    have hk2 : k < 1 := hk
    interval_cases k
    exact ⟨rfl, rfl, rfl⟩
  shapeBD := by
    intro k hk
    have hk2 : k < 1 := hk
    interval_cases k
    exact ⟨rfl, rfl, rfl⟩
  shapeBUT := by
    intro k hk
    have hk2 : k < 1 := hk
    interval_cases k
    exact ⟨rfl, rfl, rfl⟩
  size_pos := by
    intro k hk
    have hk2 : k < 1 := hk
    interval_cases k
    decide
  size_le := by
    intro k hk
    have hk2 : k < 1 := hk
    interval_cases k
    decide
  diag := by
    intro k hk j hj
    have hk2 : k < 1 := hk
    interval_cases k
    exact getD_two_ne_zero 5 4 (by norm_num) (by norm_num) j hj

theorem sampleDiagonal_valid : Valid sampleDiagonal where
  nonempty := by decide
  sizeBD := rfl
  sizeBUT := rfl
  sizeDeltal := rfl
  sizeDeltar := rfl
  shapeBL := by
    intro k hk
    have hk2 : k < 2 := hk
    interval_cases k <;> exact ⟨rfl, rfl, rfl⟩
  shapeBD := by
    intro k hk
    have hk2 : k < 2 := hk
    interval_cases k <;> exact ⟨rfl, rfl, rfl⟩
  shapeBUT := by
    intro k hk
    have hk2 : k < 2 := hk
    interval_cases k <;> exact ⟨rfl, rfl, rfl⟩
  size_pos := by
    intro k hk
    have hk2 : k < 2 := hk
    interval_cases k <;> decide
  size_le := by
    intro k hk
    have hk2 : k < 2 := hk
    interval_cases k <;> decide
  diag := by
    intro k hk j hj
    have hk2 : k < 2 := hk
    interval_cases k
    · exact getD_two_ne_zero 5 4 (by norm_num) (by norm_num) j hj
    · exact getD_two_ne_zero 2 3 (by norm_num) (by norm_num) j hj

end Samples

/-! ## Claims about the diagonal blocks -/

section DiagonalClaims

variable {R : Type} [Field R] [DecidableEq R]

/-- C6: diagonal correction.  On a call that passes the checks of the source (sizes,
shapes, no zero diagonal entry of a `BD{k}.D`) and for every block `k < nblocks - 1`,
the call returns and the final `BDinv{k}.D` is `inv(M_k) - BUT{k}.L^T * BUTinv{k}.L`
entry by entry, where `M_k = unitLower(BL{k}.D) * diag(BD{k}.D) * unitLower(BUT{k}.D)^T`,
`inv(M_k)` is its inverse (`M_k * inv(M_k) = 1`) and `BUTinv{k}.L` is the block of the
result; when `BUT{k}.I` is empty, `BDinv{k}.D` is `inv(M_k)`. -/
theorem diagonal_correction (inp : Input R) (hv : Valid inp) (k : Nat)
    (hk : k + 1 < inp.BL.length) :
    ∃ out, selbinv inp = Except.ok out ∧
      blockM inp k * exactInverse (blockM inp k) = 1 ∧
      (∀ a b : Fin (cellBUT inp k).J.length,
        (out.BDinv k).D (a.val + (cellBUT inp k).J.length * b.val) =
          exactInverse (blockM inp k) a b -
            ∑ r ∈ Finset.range (cellBUT inp k).I.length,
              (cellBUT inp k).L (r + (cellBUT inp k).I.length * a.val) *
                (out.BUTinv k).L (r + (cellBUT inp k).I.length * b.val)) ∧
      ((cellBUT inp k).I = [] →
        asMatrix (cellBUT inp k).J.length (out.BDinv k).D = exactInverse (blockM inp k)) := by
  obtain ⟨out, hs, -, -, hinv, hc⟩ := selbinv_cells inp hv
  obtain ⟨stk, -, -, hD, -⟩ := hc k hk
  refine ⟨out, hs, hinv k (by omega), hD, ?_⟩
  intro hI
  ext a b
  simp only [asMatrix, Matrix.of_apply]
  rw [hD a b, hI, List.length_nil, Finset.range_zero, Finset.sum_empty, sub_zero]

/-- Witness of C6: block 0 of the two-block sample. -/
theorem diagonal_correction_witness :
    Valid sampleTwo ∧ 0 + 1 < sampleTwo.BL.length ∧
    ∃ out, selbinv sampleTwo = Except.ok out ∧
      blockM sampleTwo 0 * exactInverse (blockM sampleTwo 0) = 1 ∧
      (∀ a b : Fin (cellBUT sampleTwo 0).J.length,
        (out.BDinv 0).D (a.val + (cellBUT sampleTwo 0).J.length * b.val) =
          exactInverse (blockM sampleTwo 0) a b -
            ∑ r ∈ Finset.range (cellBUT sampleTwo 0).I.length,
              (cellBUT sampleTwo 0).L (r + (cellBUT sampleTwo 0).I.length * a.val) *
                (out.BUTinv 0).L (r + (cellBUT sampleTwo 0).I.length * b.val)) ∧
      ((cellBUT sampleTwo 0).I = [] →
        asMatrix (cellBUT sampleTwo 0).J.length (out.BDinv 0).D =
          exactInverse (blockM sampleTwo 0)) :=
  ⟨sampleTwo_valid, by decide, diagonal_correction sampleTwo sampleTwo_valid 0 (by decide)⟩

end DiagonalClaims

/-! ## The final reordering and rescaling -/

section Rescale

variable {R : Type} [Field R] [DecidableEq R]

theorem invPerm_id (n : Nat) (perm : List Nat) (ipiv : Nat → Nat)
    (h : ∀ i, i < n → perm.getD i 0 = i + 1) : ∀ i, i < n → invPerm n perm ipiv i = i := by
  unfold invPerm
  have key : ∀ m, m ≤ n → ∀ i, i < m →
      forLoop m (fun i ip => Function.update ip (perm.getD i 0 - 1) i) ipiv i = i := by
    intro m
    induction m with
    | zero => intro _ i hi; omega
    | succ m ih =>
      intro hm i hi
      rw [forLoop_succ, h m (by omega), Nat.add_sub_cancel]
      by_cases him : i = m
      · subst him
        rw [Function.update_same]
      · rw [Function.update_noteq him]
        exact ih (by omega) i (by omega)
  exact key n le_rfl

theorem rescale_length (n : Nat) (Deltal Deltar : List R) (Dbuff : Nat → R) (ipiv : Nat → Nat) :
    (rescale n Deltal Deltar Dbuff ipiv).length = n := by
  unfold rescale
  rw [List.length_map, List.length_range]

theorem rescale_getD (n : Nat) (Deltal Deltar : List R) (Dbuff : Nat → R) (ipiv : Nat → Nat)
    (i : Nat) (hi : i < n) :
    (rescale n Deltal Deltar Dbuff ipiv).getD i 0 =
      Deltar.getD i 0 * Dbuff (ipiv i) * Deltal.getD i 0 := by
  unfold rescale
  rw [List.getD_eq_getElem _ _ (by rw [List.length_map, List.length_range]; exact hi)]
  simp

end Rescale

section BlockClaims

variable {R : Type} [Field R] [DecidableEq R]

/-- C9: single-block case.  On a call with `nblocks = 1` that passes the checks of the
source and whose block has `n` columns, the call returns; `BLinv{0}` and `BUTinv{0}`
have an empty `I` and a `0 x n` matrix `L`; `BDinv{0}.D` is the inverse of
`M_0 = unitLower(BL{0}.D) * diag(BD{0}.D) * unitLower(BUT{0}.D)^T`; and under the identity
permutation `D` has `n` entries, `D[i] = Deltar[i] * inv(M_0)[i][i] * Deltal[i]`. -/
theorem single_block (inp : Input R) (hv : Valid inp) (h1 : inp.BL.length = 1)
    (hn : (cellBUT inp 0).J.length = inp.perm.length) :
    ∃ out, selbinv inp = Except.ok out ∧ out.nblocks = 1 ∧
      ((out.BLinv 0).I = [] ∧ (out.BLinv 0).Lm = 0 ∧ (out.BLinv 0).Ln = inp.perm.length) ∧
      ((out.BUTinv 0).I = [] ∧ (out.BUTinv 0).Lm = 0 ∧ (out.BUTinv 0).Ln = inp.perm.length) ∧
      asMatrix (cellBUT inp 0).J.length (out.BDinv 0).D = exactInverse (blockM inp 0) ∧
      blockM inp 0 * exactInverse (blockM inp 0) = 1 ∧
      ((∀ i, i < inp.perm.length → inp.perm.getD i 0 = i + 1) →
        out.D.length = inp.perm.length ∧
        ∀ i : Fin (cellBUT inp 0).J.length,
          out.D.getD i.val 0 =
            inp.Deltar.getD i.val 0 * exactInverse (blockM inp 0) i i *
              inp.Deltal.getD i.val 0) := by
  have h0 : inp.BL.length - 1 = 0 := by omega
  obtain ⟨st0, hb, hD, hinv, -, hbuf, -, hL, hU, -⟩ :=
    baseCase_ok inp.perm.length 0 (cellBL inp 0) (cellBD inp 0) (cellBUT inp 0)
      (initState inp.perm.length)
      (hv.shapeBL _ (by omega)) (hv.shapeBD _ (by omega)) (hv.shapeBUT _ (by omega))
      (hv.size_pos _ (by omega)) (hv.size_le _ (by omega)) (hv.diag _ (by omega))
  have hs := selbinv_eq inp hv st0 st0 (by rw [h0]; exact hb) (by rw [h0]; rfl)
  refine ⟨_, hs, h1, ⟨hL.1, hL.2.1, hL.2.2.1.trans hn⟩, ⟨hU.1, hU.2.1, hU.2.2.1.trans hn⟩,
    ?_, hinv, ?_⟩
  · ext a b
    simp only [asMatrix, Matrix.of_apply]
    exact hD a.val b.val a.isLt b.isLt
  · intro hperm
    refine ⟨rescale_length _ _ _ _ _, ?_⟩
    intro i
    have hi : i.val < inp.perm.length := by
      have := i.isLt
      omega
    show (rescale inp.perm.length inp.Deltal inp.Deltar st0.Dbuff
      (invPerm inp.perm.length inp.perm st0.ipiv)).getD i.val 0 = _
    rw [rescale_getD _ _ _ _ _ _ hi, invPerm_id _ _ _ hperm _ hi, hbuf]
    have hx := (extractDiag_spec (cellBUT inp 0).J.length
      (inp.perm.length - (cellBUT inp 0).J.length) (st0.BDinv 0).D
      (initState inp.perm.length).Dbuff).1 i.val i.isLt
    rw [show inp.perm.length - (cellBUT inp 0).J.length + i.val = i.val by omega] at hx
    rw [hx, hD i.val i.val i.isLt i.isLt]
    rfl

/-- Witness of C9: the one-block sample. -/
theorem single_block_witness :
    Valid sampleOne ∧ sampleOne.BL.length = 1 ∧
    (cellBUT sampleOne 0).J.length = sampleOne.perm.length ∧
    ∃ out, selbinv sampleOne = Except.ok out ∧ out.nblocks = 1 ∧
      ((out.BLinv 0).I = [] ∧ (out.BLinv 0).Lm = 0 ∧
        (out.BLinv 0).Ln = sampleOne.perm.length) ∧
      ((out.BUTinv 0).I = [] ∧ (out.BUTinv 0).Lm = 0 ∧
        (out.BUTinv 0).Ln = sampleOne.perm.length) ∧
      asMatrix (cellBUT sampleOne 0).J.length (out.BDinv 0).D =
        exactInverse (blockM sampleOne 0) ∧
      blockM sampleOne 0 * exactInverse (blockM sampleOne 0) = 1 ∧
      ((∀ i, i < sampleOne.perm.length → sampleOne.perm.getD i 0 = i + 1) →
        out.D.length = sampleOne.perm.length ∧
        ∀ i : Fin (cellBUT sampleOne 0).J.length,
          out.D.getD i.val 0 =
            sampleOne.Deltar.getD i.val 0 * exactInverse (blockM sampleOne 0) i i *
              sampleOne.Deltal.getD i.val 0) :=
  ⟨sampleOne_valid, rfl, rfl, single_block sampleOne sampleOne_valid rfl rfl⟩

/-- C10: round trip on block-diagonal-only input.  On a call that passes the checks
of the source (in particular no `BD{k}.D` has a zero diagonal entry) and in which
every `BL{k}.I` and `BUT{k}.I` is empty, the call returns and for every block `k` the
product of `M_k = unitLower(BL{k}.D) * diag(BD{k}.D) * unitLower(BUT{k}.D)^T` with the
computed `BDinv{k}.D` is the identity matrix. -/
theorem block_diagonal_round_trip (inp : Input R) (hv : Valid inp)
    (hI : ∀ k, k < inp.BL.length → (cellBL inp k).I = [] ∧ (cellBUT inp k).I = []) :
    ∃ out, selbinv inp = Except.ok out ∧
      ∀ k, k < inp.BL.length →
        blockM inp k * asMatrix (cellBUT inp k).J.length (out.BDinv k).D = 1 := by
  obtain ⟨out, hs, -, hlast, hinv, hc⟩ := selbinv_cells inp hv
  refine ⟨out, hs, ?_⟩
  intro k hk
  have hD : asMatrix (cellBUT inp k).J.length (out.BDinv k).D = exactInverse (blockM inp k) := by
    by_cases hkl : k + 1 < inp.BL.length
    · obtain ⟨stk, -, -, hD, -⟩ := hc k hkl
      ext a b
      simp only [asMatrix, Matrix.of_apply]
      rw [hD a b, (hI k hk).2, List.length_nil, Finset.range_zero, Finset.sum_empty, sub_zero]
    · have hkeq : k = inp.BL.length - 1 := by omega
      subst hkeq
      ext a b
      simp only [asMatrix, Matrix.of_apply]
      exact hlast a b
  rw [hD]
  exact hinv k hk

/-- Witness of C10: the two-block sample without off-diagonal rows. -/
theorem block_diagonal_round_trip_witness :
    Valid sampleDiagonal ∧
    (∀ k, k < sampleDiagonal.BL.length →
      (cellBL sampleDiagonal k).I = [] ∧ (cellBUT sampleDiagonal k).I = []) ∧
    ∃ out, selbinv sampleDiagonal = Except.ok out ∧
      ∀ k, k < sampleDiagonal.BL.length →
        blockM sampleDiagonal k *
          asMatrix (cellBUT sampleDiagonal k).J.length (out.BDinv k).D = 1 :=
  ⟨sampleDiagonal_valid,
    fun k hk => by
      have hk2 : k < 2 := hk
      interval_cases k <;> exact ⟨rfl, rfl⟩,
    block_diagonal_round_trip sampleDiagonal sampleDiagonal_valid
      (fun k hk => by
        have hk2 : k < 2 := hk
        interval_cases k <;> exact ⟨rfl, rfl⟩)⟩

end BlockClaims

/-! ## The two-block scenario -/

section ScenarioAlgebra

variable {R : Type} [Field R] [DecidableEq R]

theorem blockLower2_mul_neg (l : Nat → R) :
    blockLower2 l * blockLower2 (fun x => - l x) = 1 := by
  ext i j
  fin_cases i <;> fin_cases j <;>
    simp [blockLower2, Matrix.mul_apply, Fin.sum_univ_four]

theorem blockLower2_neg_mul (l : Nat → R) :
    blockLower2 (fun x => - l x) * blockLower2 l = 1 := by
  ext i j
  fin_cases i <;> fin_cases j <;>
    simp [blockLower2, Matrix.mul_apply, Fin.sum_univ_four]

theorem blockDiag2_mul (M0 M1 N0 N1 : Matrix (Fin 2) (Fin 2) R) :
    blockDiag2 M0 M1 * blockDiag2 N0 N1 = blockDiag2 (M0 * N0) (M1 * N1) := by
  ext i j
  fin_cases i <;> fin_cases j <;>
    simp [blockDiag2, Matrix.mul_apply, Fin.sum_univ_four, Fin.sum_univ_two, Matrix.vecHead,
      Matrix.vecTail]

theorem blockDiag2_one : blockDiag2 (1 : Matrix (Fin 2) (Fin 2) R) 1 = 1 := by
  ext i j
  fin_cases i <;> fin_cases j <;>
    simp [blockDiag2, Matrix.vecHead, Matrix.vecTail]

/-- The inverse of `Lt * blockdiag(M0, M1) * Ut^T`, factor by factor. -/
theorem two_block_inverse (l u : Nat → R) (M0 M1 E0 E1 : Matrix (Fin 2) (Fin 2) R)
    (h0 : M0 * E0 = 1) (h1 : M1 * E1 = 1) :
    (blockLower2 l * blockDiag2 M0 M1 * (blockLower2 u).transpose) *
      ((blockLower2 (fun x => - u x)).transpose * blockDiag2 E0 E1 *
        blockLower2 (fun x => - l x)) = 1 := by
  have hU : (blockLower2 u).transpose * (blockLower2 (fun x => - u x)).transpose = 1 := by
    rw [← Matrix.transpose_mul, blockLower2_neg_mul, Matrix.transpose_one]
  calc (blockLower2 l * blockDiag2 M0 M1 * (blockLower2 u).transpose) *
      ((blockLower2 (fun x => - u x)).transpose * blockDiag2 E0 E1 *
        blockLower2 (fun x => - l x))
      = blockLower2 l * (blockDiag2 M0 M1 *
          ((blockLower2 u).transpose * (blockLower2 (fun x => - u x)).transpose) *
          blockDiag2 E0 E1) * blockLower2 (fun x => - l x) := by
        simp only [Matrix.mul_assoc]
    _ = 1 := by
        rw [hU, Matrix.mul_one, blockDiag2_mul, h0, h1, blockDiag2_one, Matrix.mul_one,
          blockLower2_mul_neg]

/-- The diagonal of that inverse. -/
theorem two_block_inverse_diag (l u : Nat → R) (E0 E1 : Matrix (Fin 2) (Fin 2) R) :
    ((blockLower2 (fun x => - u x)).transpose * blockDiag2 E0 E1 *
        blockLower2 (fun x => - l x)) 0 0 = E0 0 0 + u 0 * E1 0 0 * l 0 ∧
    ((blockLower2 (fun x => - u x)).transpose * blockDiag2 E0 E1 *
        blockLower2 (fun x => - l x)) 1 1 = E0 1 1 + u 1 * E1 0 0 * l 1 ∧
    ((blockLower2 (fun x => - u x)).transpose * blockDiag2 E0 E1 *
        blockLower2 (fun x => - l x)) 2 2 = E1 0 0 ∧
    ((blockLower2 (fun x => - u x)).transpose * blockDiag2 E0 E1 *
        blockLower2 (fun x => - l x)) 3 3 = E1 1 1 := by
  simp [blockLower2, blockDiag2, Matrix.mul_apply, Fin.sum_univ_four, Matrix.vecHead,
    Matrix.vecTail]

end ScenarioAlgebra

section ScenarioUpdates

variable {R : Type} [CommRing R]

theorem contribNN_of_nil (TI DI : List Nat) {DJ RI : List Nat} {l j : Nat} (n_size : Nat)
    (donor src : Nat → R) (st : (Nat → R) × (Nat → R) × Nat) (hrun : DonorRun DJ RI l j)
    (hc : Consecutive DJ) (hnil : matchPairs TI DI = []) :
    (contribNN TI DI DJ RI l j n_size donor src st).1 = st.1 :=
  RowsUpd.unique (contribNN_spec TI DI n_size donor src st hrun hc)
    (nnSpec_of_nil n_size donor src st.1 (by rw [hnil]; rfl))

theorem contribTN_of_nil (SI DI : List Nat) {RI DJ : List Nat} {l j : Nat} (n_size : Nat)
    (donor src : Nat → R) (st : (Nat → R) × (Nat → R) × Nat) (hrun : DonorRun DJ RI l j)
    (hc : Consecutive DJ) (hnil : matchPairs SI DI = []) :
    (contribTN RI SI DI DJ l j n_size donor src st).1 = st.1 :=
  RowsUpd.unique (contribTN_spec SI DI n_size donor src st hrun hc)
    (tnSpec_of_nil n_size donor src st.1 (by rw [hnil]; rfl))

theorem donorLoop_single {σ : Type} (v : Nat) (block : Nat → Nat)
    (body : Nat → Nat → Nat → σ → σ) (s : σ) :
    donorLoop [v] block body 1 0 s = body 0 0 (block (v - 1)) s := by
  simp [donorLoop, runEnd]

/-- The run `[3]` in the donor's `J = [3, 4]`. -/
theorem run34 : DonorRun [3, 4] [3] 0 0 :=
  { sortedJ := by decide, sortedI := by decide, le := by decide, lt := by decide,
    sub := by intro r h1 h2; interval_cases r; decide,
    maximal := by decide, onebased := by decide }

theorem consecutive34 : Consecutive [3, 4] := by
  intro s hs
  simp only [List.length_cons, List.length_nil] at hs
  interval_cases s <;> rfl

/-- Contribution 2 in the scenario: row 0 of the target loses `donor(0,0) * src(0,:)`. -/
theorem contribNN_scenario (donor src : Nat → R) (st : (Nat → R) × (Nat → R) × Nat) (c : Nat)
    (hc : c < 2) :
    (contribNN [3] [3, 4] [3, 4] [3] 0 0 2 donor src st).1 c = st.1 c - donor 0 * src c := by
  have h := (contribNN_spec [3] [3, 4] 2 donor src st run34 consecutive34).entry_sum
    (by decide) (by decide) 0 (by decide) c hc
  simp only [List.length_cons, List.length_nil, Nat.zero_add, Nat.one_mul, Nat.reduceAdd] at h
  rw [h]
  simp [nnEntry, nnTerm, posJ, Finset.sum_range_succ]

end ScenarioUpdates

section ScenarioRun

variable {R : Type} [Field R] [DecidableEq R]

/-- Update part I for block 0 of the scenario: `BUTinv{0}.L = -BDinv{1}.D(0,0) * BL{0}.L`. -/
theorem partI_scenario (block : Nat → Nat) (hblock : block 2 = 1) (l0 bld0 u0 butd0 : Nat → R)
    (BLinv BUTinv : Nat → InvBlock R) (BDinv : Nat → DinvBlock R)
    (hUI : (BUTinv 1).I = []) (hUJ : (BUTinv 1).J = [3, 4])
    (hLI : (BLinv 1).I = []) (hLJ : (BLinv 1).J = [3, 4])
    (st : (Nat → R) × (Nat → R) × Nat) (c : Nat) (hc : c < 2) :
    (partI block (scenarioBlock [1, 2] [3] l0 bld0) (scenarioBlock [1, 2] [3] u0 butd0)
      BLinv BUTinv BDinv st).1 c = st.1 c - (BDinv 1).D 0 * l0 c := by
  unfold partI partI2 partI1
  simp only [scenarioBlock, List.length_cons, List.length_nil, Nat.zero_add]
  rw [donorLoop_single, donorLoop_single]
  simp only [show (3 : Nat) - 1 = 2 from rfl, hblock]
  unfold contrib3 contrib2 contrib1
  simp only [hUI, hUJ, hLI, hLJ, List.length_cons, List.length_nil, Nat.zero_add,
    Nat.reduceAdd]
  rw [contribTN_of_nil [3] [] 2 _ _ _ run34 consecutive34 (by decide),
    contribNN_scenario _ _ _ c hc,
    contribNN_of_nil [3] [] 2 _ _ _ run34 consecutive34 (by decide)]

theorem twoBlockInput_valid (l0 bld0 d0 u0 butd0 bld1 d1 butd1 : Nat → R)
    (hd0 : ∀ j, j < 2 → d0 j ≠ 0) (hd1 : ∀ j, j < 2 → d1 j ≠ 0) :
    Valid (twoBlockInput l0 bld0 d0 u0 butd0 bld1 d1 butd1) where
  nonempty := by simp [twoBlockInput]
  sizeBD := rfl
  sizeBUT := rfl
  sizeDeltal := rfl
  sizeDeltar := rfl
  shapeBL := by
    intro k hk
    have hk2 : k < 2 := hk
    interval_cases k <;> exact ⟨rfl, rfl, rfl⟩
  shapeBD := by
    intro k hk
    have hk2 : k < 2 := hk
    interval_cases k <;> exact ⟨rfl, rfl, rfl⟩
  shapeBUT := by
    intro k hk
    have hk2 : k < 2 := hk
    interval_cases k <;> exact ⟨rfl, rfl, rfl⟩
  size_pos := by
    intro k hk
    have hk2 : k < 2 := hk
    interval_cases k <;> exact (by decide : 1 ≤ 2)
  size_le := by
    intro k hk
    have hk2 : k < 2 := hk
    interval_cases k <;> exact (by decide : 2 ≤ 4)
  diag := by
    intro k hk j hj
    have hk2 : k < 2 := hk
    interval_cases k
    · exact hd0 j hj
    · exact hd1 j hj

theorem buildBlock_scenario (l0 bld0 d0 u0 butd0 bld1 d1 butd1 : Nat → R) :
    buildBlock (twoBlockInput l0 bld0 d0 u0 butd0 bld1 d1 butd1).BL 2 = 1 := by
  simp [buildBlock, twoBlockInput, scenarioBlock, forLoop, Function.update]

end ScenarioRun

section ScenarioClaim

variable {R : Type} [Field R] [DecidableEq R]

/-- The values of `Dbuff` and of `BDinv{1}.D` at the end of the call of the two-block
scenario, in terms of the inverses `E0`, `E1` of the two dense blocks. -/
theorem twoBlock_run (l0 bld0 d0 u0 butd0 bld1 d1 butd1 : Nat → R)
    (hd0 : ∀ j, j < 2 → d0 j ≠ 0) (hd1 : ∀ j, j < 2 → d1 j ≠ 0) :
    ∃ st1 : State R,
      selbinv (twoBlockInput l0 bld0 d0 u0 butd0 bld1 d1 butd1) = Except.ok
        { D := rescale 4 [1, 1, 1, 1] [1, 1, 1, 1] st1.Dbuff
            (invPerm 4 [1, 2, 3, 4] st1.ipiv),
          nblocks := 2, BLinv := st1.BLinv, BDinv := st1.BDinv, BUTinv := st1.BUTinv } ∧
      localBlock 2 bld0 d0 butd0 * exactInverse (localBlock 2 bld0 d0 butd0) = 1 ∧
      localBlock 2 bld1 d1 butd1 * exactInverse (localBlock 2 bld1 d1 butd1) = 1 ∧
      asMatrix 2 (st1.BDinv 1).D = exactInverse (localBlock 2 bld1 d1 butd1) ∧
      st1.Dbuff 0 = exactInverse (localBlock 2 bld0 d0 butd0) 0 0 +
        u0 0 * exactInverse (localBlock 2 bld1 d1 butd1) 0 0 * l0 0 ∧
      st1.Dbuff 1 = exactInverse (localBlock 2 bld0 d0 butd0) 1 1 +
        u0 1 * exactInverse (localBlock 2 bld1 d1 butd1) 0 0 * l0 1 ∧
      st1.Dbuff 2 = exactInverse (localBlock 2 bld1 d1 butd1) 0 0 ∧
      st1.Dbuff 3 = exactInverse (localBlock 2 bld1 d1 butd1) 1 1 := by
  have hv := twoBlockInput_valid l0 bld0 d0 u0 butd0 bld1 d1 butd1 hd0 hd1
  obtain ⟨st0, hb, hD1, hinv1, -, hbuf0, hsumn0, hL1, hU1, -⟩ :=
    baseCase_ok 4 1 (scenarioBlock [3, 4] [] (fun _ => 0) bld1) (scenarioDiag 2 d1)
      (scenarioBlock [3, 4] [] (fun _ => 0) butd1) (initState 4)
      ⟨rfl, rfl, rfl⟩ ⟨rfl, rfl, rfl⟩ ⟨rfl, rfl, rfl⟩
      (by decide : 1 ≤ 2) (by decide : 2 ≤ 4) hd1
  obtain ⟨st1, hp, f1, -, f3, hinv0, hfr1, hbuf1, -⟩ :=
    processBlock_ok 4 0 (buildBlock (twoBlockInput l0 bld0 d0 u0 butd0 bld1 d1 butd1).BL)
      (scenarioBlock [1, 2] [3] l0 bld0) (scenarioDiag 2 d0)
      (scenarioBlock [1, 2] [3] u0 butd0) st0
      ⟨rfl, rfl, rfl⟩ ⟨rfl, rfl, rfl⟩ ⟨rfl, rfl, rfl⟩
      (by decide : 1 ≤ 2) (by decide : 2 ≤ 4) hd0
  have hm : mainLoop 4 (buildBlock (twoBlockInput l0 bld0 d0 u0 butd0 bld1 d1 butd1).BL)
      (twoBlockInput l0 bld0 d0 u0 butd0 bld1 d1 butd1) 1 st0 = Except.ok st1 := by
    show (match processBlock 4 0
        (buildBlock (twoBlockInput l0 bld0 d0 u0 butd0 bld1 d1 butd1).BL)
        (scenarioBlock [1, 2] [3] l0 bld0) (scenarioDiag 2 d0)
        (scenarioBlock [1, 2] [3] u0 butd0) st0 with
      | Except.error e => Except.error e
      | Except.ok s =>
        mainLoop 4 (buildBlock (twoBlockInput l0 bld0 d0 u0 butd0 bld1 d1 butd1).BL)
          (twoBlockInput l0 bld0 d0 u0 butd0 bld1 d1 butd1) 0 s) = Except.ok st1
    rw [hp]
    rfl
  have hs := selbinv_eq (twoBlockInput l0 bld0 d0 u0 butd0 bld1 d1 butd1) hv st0 st1 hb hm
  -- the donor cells of block 1
  have hUJ : (st0.BUTinv 1).J = [3, 4] := hU1.2.2.2
  have hLJ : (st0.BLinv 1).J = [3, 4] := hL1.2.2.2
  have hE1 : ∀ a b : Fin 2, (st0.BDinv 1).D (a.val + 2 * b.val) =
      exactInverse (localBlock 2 bld1 d1 butd1) a b :=
    fun a b => hD1 a.val b.val a.isLt b.isLt
  -- the off-diagonal block of block 0
  have hLc : ∀ c, c < 2 → (st1.BUTinv 0).L c =
      0 - exactInverse (localBlock 2 bld1 d1 butd1) 0 0 * l0 c := by
    intro c hc
    rw [f1, partI_scenario _ (buildBlock_scenario l0 bld0 d0 u0 butd0 bld1 d1 butd1) l0 bld0 u0
      butd0 st0.BLinv st0.BUTinv st0.BDinv hU1.1 hUJ hL1.1 hLJ _ c hc]
    have := hE1 0 0
    simp only [Fin.val_zero, Nat.mul_zero, Nat.add_zero] at this
    rw [this]
  -- the diagonal block of block 0
  have hE0 : ∀ a : Fin 2, (st1.BDinv 0).D (a.val + 2 * a.val) =
      exactInverse (localBlock 2 bld0 d0 butd0) a a +
        u0 a.val * exactInverse (localBlock 2 bld1 d1 butd1) 0 0 * l0 a.val := by
    intro a
    have h : (st1.BDinv 0).D (a.val + 2 * a.val) =
        exactInverse (localBlock 2 bld0 d0 butd0) a a -
          ∑ r ∈ Finset.range 1, u0 (r + 1 * a.val) * (st1.BUTinv 0).L (r + 1 * a.val) :=
      f3 a.val a.val a.isLt a.isLt
    simp only [Nat.zero_add, Nat.one_mul, Finset.sum_range_one] at h
    rw [hLc a.val a.isLt] at h
    rw [h]
    ring
  -- the buffer of the diagonal
  have hb1 := extractDiag_spec 2 0 (st1.BDinv 0).D st0.Dbuff
  have hb0 := extractDiag_spec 2 2 (st0.BDinv 1).D (initState 4 : State R).Dbuff
  have hbuf1n : st1.Dbuff = extractDiag 2 0 (st1.BDinv 0).D st0.Dbuff := by
    rw [hbuf1, hsumn0]
    rfl
  have hbuf0n : st0.Dbuff = extractDiag 2 2 (st0.BDinv 1).D (initState 4 : State R).Dbuff :=
    hbuf0
  refine ⟨st1, hs, hinv0, hinv1, ?_, ?_, ?_, ?_, ?_⟩
  · ext a b
    simp only [asMatrix, Matrix.of_apply]
    rw [(hfr1 1 (by decide)).2.1]
    exact hE1 a b
  · rw [hbuf1n]
    have := hb1.1 0 (by decide)
    rw [this]
    exact hE0 0
  · rw [hbuf1n]
    have := hb1.1 1 (by decide)
    rw [this]
    exact hE0 1
  · rw [hbuf1n, hb1.2 2 (Or.inr (by decide)), hbuf0n]
    have := hb0.1 0 (by decide)
    rw [this]
    exact hE1 0 0
  · rw [hbuf1n, hb1.2 3 (Or.inr (by decide)), hbuf0n]
    have := hb0.1 1 (by decide)
    rw [this]
    exact hE1 1 1

end ScenarioClaim

section ScenarioTheorem

variable {R : Type} [Field R] [DecidableEq R]

/-- C8: end-to-end two-block scenario.  For every two-block system with `n = 4`,
`J_0 = [1, 2]`, `J_1 = [3, 4]`, `BL{1}` and `BUT{1}` with empty `I` and `L`, block 0 coupled
to block 1 through the single row `I = [3]`, nonzero `BD` diagonals, the identity
permutation and unit scalings, the call returns, the output `D` has four entries,
`D[i]` is the `i`-th diagonal entry of the inverse of
`A = Lt * blockdiag(M_0, M_1) * Ut^T` (`A * inv(A) = 1`), and `BDinv{1}.D` is the inverse
of `M_1`. -/
theorem two_block_end_to_end (l0 bld0 d0 u0 butd0 bld1 d1 butd1 : Nat → R)
    (hd0 : ∀ j, j < 2 → d0 j ≠ 0) (hd1 : ∀ j, j < 2 → d1 j ≠ 0) :
    ∃ out, selbinv (twoBlockInput l0 bld0 d0 u0 butd0 bld1 d1 butd1) = Except.ok out ∧
      twoBlockMatrix l0 bld0 d0 u0 butd0 bld1 d1 butd1 *
        exactInverse (twoBlockMatrix l0 bld0 d0 u0 butd0 bld1 d1 butd1) = 1 ∧
      out.D.length = 4 ∧
      (∀ i : Fin 4, out.D.getD i.val 0 =
        exactInverse (twoBlockMatrix l0 bld0 d0 u0 butd0 bld1 d1 butd1) i i) ∧
      localBlock 2 bld1 d1 butd1 * exactInverse (localBlock 2 bld1 d1 butd1) = 1 ∧
      asMatrix 2 (out.BDinv 1).D = exactInverse (localBlock 2 bld1 d1 butd1) := by
  obtain ⟨st1, hs, hinv0, hinv1, hD1, hB0, hB1, hB2, hB3⟩ :=
    twoBlock_run l0 bld0 d0 u0 butd0 bld1 d1 butd1 hd0 hd1
  have hY := two_block_inverse l0 u0 _ _ _ _ hinv0 hinv1
  have hYe := exactInverse_unique (twoBlockMatrix l0 bld0 d0 u0 butd0 bld1 d1 butd1) _ hY
  obtain ⟨y0, y1, y2, y3⟩ := two_block_inverse_diag l0 u0
    (exactInverse (localBlock 2 bld0 d0 butd0)) (exactInverse (localBlock 2 bld1 d1 butd1))
  have hperm : ∀ i, i < 4 → ([1, 2, 3, 4] : List Nat).getD i 0 = i + 1 := by
    intro i hi
    interval_cases i <;> rfl
  refine ⟨_, hs, ?_, rescale_length _ _ _ _ _, ?_, hinv1, hD1⟩
  · rw [← hYe]
    exact hY
  · intro i
    show (rescale 4 [1, 1, 1, 1] [1, 1, 1, 1] st1.Dbuff
      (invPerm 4 [1, 2, 3, 4] st1.ipiv)).getD i.val 0 = _
    rw [rescale_getD _ _ _ _ _ _ i.isLt, invPerm_id 4 _ _ hperm _ i.isLt, ← hYe]
    fin_cases i
    · show (1 : R) * st1.Dbuff 0 * 1 = _
      rw [hB0, one_mul, mul_one]
      exact y0.symm
    · show (1 : R) * st1.Dbuff 1 * 1 = _
      rw [hB1, one_mul, mul_one]
      exact y1.symm
    · show (1 : R) * st1.Dbuff 2 * 1 = _
      rw [hB2, one_mul, mul_one]
      exact y2.symm
    · show (1 : R) * st1.Dbuff 3 * 1 = _
      rw [hB3, one_mul, mul_one]
      exact y3.symm

end ScenarioTheorem

/-- The inverse of `M_1 = diag(2, 3)` with identity triangular parts. -/
theorem sample_inverse :
    exactInverse (localBlock 2 (fun x => ([1, 0, 0, 1] : List ℚ).getD x 0)
      (fun x => ([2, 3] : List ℚ).getD x 0) (fun x => ([1, 0, 0, 1] : List ℚ).getD x 0)) =
    !![1 / 2, 0; 0, 1 / 3] := by
  symm
  apply exactInverse_unique
  ext i j
  fin_cases i <;> fin_cases j <;>
    simp [localBlock, packedL, Matrix.mul_apply, Fin.sum_univ_two, Matrix.diagonal]

/-- Witness of C8: block 1 with `BD{1}.D = diag(2, 3)` and identity triangular parts,
for which `BDinv{1}.D = diag(1/2, 1/3)`. -/
theorem two_block_end_to_end_witness :
    (∀ j, j < 2 → ([5, 4] : List ℚ).getD j 0 ≠ 0) ∧
    (∀ j, j < 2 → ([2, 3] : List ℚ).getD j 0 ≠ 0) ∧
    ∃ out,
      selbinv (twoBlockInput (fun x => ([4, 5] : List ℚ).getD x 0)
        (fun x => ([1, 7, 0, 1] : List ℚ).getD x 0) (fun x => ([5, 4] : List ℚ).getD x 0)
        (fun x => ([6, 8] : List ℚ).getD x 0) (fun x => ([1, 9, 0, 1] : List ℚ).getD x 0)
        (fun x => ([1, 0, 0, 1] : List ℚ).getD x 0) (fun x => ([2, 3] : List ℚ).getD x 0)
        (fun x => ([1, 0, 0, 1] : List ℚ).getD x 0)) = Except.ok out ∧
      (∀ i : Fin 4, out.D.getD i.val 0 =
        exactInverse (twoBlockMatrix (fun x => ([4, 5] : List ℚ).getD x 0)
          (fun x => ([1, 7, 0, 1] : List ℚ).getD x 0) (fun x => ([5, 4] : List ℚ).getD x 0)
          (fun x => ([6, 8] : List ℚ).getD x 0) (fun x => ([1, 9, 0, 1] : List ℚ).getD x 0)
          (fun x => ([1, 0, 0, 1] : List ℚ).getD x 0) (fun x => ([2, 3] : List ℚ).getD x 0)
          (fun x => ([1, 0, 0, 1] : List ℚ).getD x 0)) i i) ∧
      asMatrix 2 (out.BDinv 1).D = !![1 / 2, 0; 0, 1 / 3] := by
  refine ⟨getD_two_ne_zero 5 4 (by norm_num) (by norm_num),
    getD_two_ne_zero 2 3 (by norm_num) (by norm_num), ?_⟩
  obtain ⟨out, hs, -, -, hD, -, hD1⟩ :=
    two_block_end_to_end (fun x => ([4, 5] : List ℚ).getD x 0)
      (fun x => ([1, 7, 0, 1] : List ℚ).getD x 0) (fun x => ([5, 4] : List ℚ).getD x 0)
      (fun x => ([6, 8] : List ℚ).getD x 0) (fun x => ([1, 9, 0, 1] : List ℚ).getD x 0)
      (fun x => ([1, 0, 0, 1] : List ℚ).getD x 0) (fun x => ([2, 3] : List ℚ).getD x 0)
      (fun x => ([1, 0, 0, 1] : List ℚ).getD x 0)
      (getD_two_ne_zero 5 4 (by norm_num) (by norm_num))
      (getD_two_ne_zero 2 3 (by norm_num) (by norm_num))
  exact ⟨out, hs, hD, hD1.trans sample_inverse⟩

/-! ## The donor scan -/

section DonorScan

theorem runEnd_spec (I : List Nat) (block : Nat → Nat) (i l : Nat) :
    ∀ fuel j, l < j → j ≤ I.length → I.length - j < fuel →
      (∀ p, l ≤ p → p < j → ownerOf block I p ≤ i) →
      j - 1 ≤ runEnd I block i fuel j ∧ runEnd I block i fuel j < I.length ∧
      (∀ p, l ≤ p → p ≤ runEnd I block i fuel j → ownerOf block I p ≤ i) ∧
      (runEnd I block i fuel j + 1 < I.length →
        i < ownerOf block I (runEnd I block i fuel j + 1)) := by
  intro fuel
  induction fuel with
  | zero => intro j _ _ h; omega
  | succ fuel ih =>
    intro j hlj hj hf hp
    unfold runEnd
    by_cases h1 : j ≥ I.length
    · rw [if_pos h1]
      refine ⟨by omega, by omega, fun p h2 h3 => hp p h2 (by omega), fun h => by omega⟩
    · rw [if_neg h1]
      by_cases h2 : block (I.getD j 0 - 1) > i
      · rw [if_pos h2]
        refine ⟨le_rfl, by omega, fun p h3 h4 => hp p h3 (by omega), fun _ => ?_⟩
        rw [show j - 1 + 1 = j by omega]
        exact h2
      · rw [if_neg h2]
        obtain ⟨a1, a2, a3, a4⟩ := ih (j + 1) (by omega) (by omega) (by omega)
          (fun p h3 h4 => by
            by_cases hpj : p = j
            · subst hpj
              exact Nat.le_of_not_lt h2
            · exact hp p h3 (by omega))
        exact ⟨by omega, a2, a3, a4⟩

theorem isRun_runEnd (I : List Nat) (block : Nat → Nat)
    (hmono : ∀ p q, p ≤ q → q < I.length → ownerOf block I p ≤ ownerOf block I q)
    (l : Nat) (hl : l < I.length) :
    IsRun block I l (runEnd I block (ownerOf block I l) I.length (l + 1)) := by
  obtain ⟨a1, a2, a3, a4⟩ := runEnd_spec I block (ownerOf block I l) l I.length (l + 1)
    (by omega) (by omega) (by omega)
    (fun p h1 h2 => by
      have : p = l := by omega
      subst this
      exact le_rfl)
  refine ⟨by omega, a2, fun p h1 h2 => ?_, a4⟩
  exact le_antisymm (a3 p h1 h2) (hmono l p h1 (by omega))

theorem donorLoop_succ {σ : Type} (I : List Nat) (block : Nat → Nat)
    (body : Nat → Nat → Nat → σ → σ) (fuel l : Nat) (s : σ) :
    donorLoop I block body (fuel + 1) l s =
      if l < I.length then
        donorLoop I block body fuel
          (runEnd I block (block (I.getD l 0 - 1)) I.length (l + 1) + 1)
          (body l (runEnd I block (block (I.getD l 0 - 1)) I.length (l + 1))
            (block (I.getD l 0 - 1)) s)
      else s := rfl

/-- A group of the donor scan is a donor run in the `J` of its owner. -/
theorem IsRun.donorRun {block : Nat → Nat} {J : Nat → List Nat} {I : List Nat} {l j : Nat}
    (h : IsRun block I l j) (hI : OwnedBy block J I) (hJ : DonorsOK J) :
    DonorRun (J (ownerOf block I l)) I l j :=
  { sortedJ := hJ.sortedJ _
    sortedI := hI.sorted
    le := h.1
    lt := h.2.1
    sub := by
      intro r h1 h2
      have := hI.owner r (by have := h.2.1; omega)
      rw [h.2.2.1 r h1 h2] at this
      exact this
    maximal := by
      intro h1 hmem
      have h2 := hI.unique (j + 1) _ h1 hmem
      have h3 := h.2.2.2 h1
      omega
    onebased := hJ.oneJ _ }

end DonorScan

section Shift

variable {R : Type} [CommRing R]

/-- A row-wise update that subtracts amounts not depending on the old entries adds to
the old array what it makes of the zero array. -/
theorem RowsUpd.shift {off ld n cnt : Nat} {row : Nat → Nat} {g : Nat → Nat → R}
    {T T2 Z : Nat → R} (h : RowsUpd off ld n cnt row (fun i c v => v - g i c) T T2)
    (hz : RowsUpd off ld n cnt row (fun i c v => v - g i c) (fun _ => 0) Z) :
    T2 = T + Z := by
  funext x
  by_cases hx : ∃ i, i < cnt ∧ ∃ c, c < n ∧ x = off + row i + ld * c
  · obtain ⟨i, hi, c, hc, rfl⟩ := hx
    rw [Pi.add_apply, h.1 i hi c hc, hz.1 i hi c hc]
    ring
  · have hx2 : ∀ i, i < cnt → ∀ c, c < n → x ≠ off + row i + ld * c := by
      intro i hi c hc heq
      exact hx ⟨i, hi, c, hc, heq⟩
    rw [Pi.add_apply, h.2 x hx2, hz.2 x hx2, add_zero]

theorem contribNN_shift (TI DI : List Nat) {DJ RI : List Nat} {l j : Nat} (n_size : Nat)
    (donor src : Nat → R) (st : (Nat → R) × (Nat → R) × Nat) (hrun : DonorRun DJ RI l j)
    (hc : Consecutive DJ) :
    (contribNN TI DI DJ RI l j n_size donor src st).1 =
      st.1 + (contribNN TI DI DJ RI l j n_size donor src (fun _ => 0, fun _ => 0, 0)).1 :=
  RowsUpd.shift (contribNN_spec TI DI n_size donor src st hrun hc)
    (contribNN_spec TI DI n_size donor src (fun _ => 0, fun _ => 0, 0) hrun hc)

theorem contribTN_shift (SI DI : List Nat) {RI DJ : List Nat} {l j : Nat} (n_size : Nat)
    (donor src : Nat → R) (st : (Nat → R) × (Nat → R) × Nat) (hrun : DonorRun DJ RI l j)
    (hc : Consecutive DJ) :
    (contribTN RI SI DI DJ l j n_size donor src st).1 =
      st.1 + (contribTN RI SI DI DJ l j n_size donor src (fun _ => 0, fun _ => 0, 0)).1 :=
  RowsUpd.shift (contribTN_spec SI DI n_size donor src st hrun hc)
    (contribTN_spec SI DI n_size donor src (fun _ => 0, fun _ => 0, 0) hrun hc)

/-- The donor scan with a body `e . body1`, where `body1` adds to the target an
amount that does not depend on the state and `e` adds the sum of `h p` over the
positions `p` of the group: the target is that of the scan with `body1` alone plus
the sum of `h p` over all positions from `l` on. -/
theorem donorLoop_shift (I : List Nat) (block : Nat → Nat)
    (hmono : ∀ p q, p ≤ q → q < I.length → ownerOf block I p ≤ ownerOf block I q)
    (body1 e : Nat → Nat → Nat → (Nat → R) × (Nat → R) × Nat → (Nat → R) × (Nat → R) × Nat)
    (δ : Nat → Nat → Nat → R) (h : Nat → Nat → R)
    (hb1 : ∀ l j, IsRun block I l j → ∀ s,
      (body1 l j (ownerOf block I l) s).1 = s.1 + δ l j)
    (he : ∀ l j, IsRun block I l j → ∀ s,
      (e l j (ownerOf block I l) s).1 = s.1 + ∑ p ∈ Finset.Ico l (j + 1), h p) :
    ∀ fuel l, I.length - l ≤ fuel → ∀ (s s2 : (Nat → R) × (Nat → R) × Nat) (acc : Nat → R),
      s2.1 = s.1 + acc →
      (donorLoop I block (fun l j i s => e l j i (body1 l j i s)) fuel l s2).1 =
        (donorLoop I block body1 fuel l s).1 + acc + ∑ p ∈ Finset.Ico l I.length, h p := by
  intro fuel
  induction fuel with
  | zero =>
    intro l hl s s2 acc hs
    rw [Finset.Ico_eq_empty (by omega), Finset.sum_empty, add_zero]
    exact hs
  | succ fuel ih =>
    intro l hl s s2 acc hs
    rw [donorLoop_succ, donorLoop_succ]
    by_cases hlt : l < I.length
    · rw [if_pos hlt, if_pos hlt]
      have hrun := isRun_runEnd I block hmono l hlt
      unfold ownerOf at hrun
      generalize runEnd I block (block (I.getD l 0 - 1)) I.length (l + 1) = j at hrun ⊢
      have hj : l ≤ j := hrun.1
      have hj2 : j < I.length := hrun.2.1
      have e1 := he l j hrun (body1 l j (block (I.getD l 0 - 1)) s2)
      have e2 := hb1 l j hrun s2
      have e3 := hb1 l j hrun s
      unfold ownerOf at e1 e2 e3
      rw [ih (j + 1) (by omega) (body1 l j (block (I.getD l 0 - 1)) s) _
        (acc + ∑ p ∈ Finset.Ico l (j + 1), h p)]
      · rw [← Finset.sum_Ico_consecutive h (show l ≤ j + 1 by omega)
          (show j + 1 ≤ I.length by omega)]
        abel
      · rw [e1, e2, e3, hs]
        abel
    · rw [if_neg hlt, if_neg hlt, Finset.Ico_eq_empty (by omega), Finset.sum_empty, add_zero]
      exact hs

end Shift

/-! ## Contribution 6 and the role-swapped contribution 2, position by position -/

section Shares

variable {R : Type} [CommRing R]

theorem contrib6_share (block : Nat → Nat) (BLk BUTk : Block R) (BUTinv : Nat → InvBlock R)
    (BDinv : Nat → DinvBlock R) (hI : OwnedBy block (fun i => (BUTinv i).J) BLk.I)
    (hJ : DonorsOK (fun i => (BUTinv i).J)) (l j : Nat) (hrun : IsRun block BLk.I l j)
    (s : (Nat → R) × (Nat → R) × Nat) :
    (contrib6 BLk BUTk (BUTinv (ownerOf block BLk.I l)) (BDinv (ownerOf block BLk.I l)) l j s).1 =
      s.1 + ∑ p ∈ Finset.Ico l (j + 1), share6 block BLk BUTk BUTinv BDinv p := by
  have hdr : DonorRun (BUTinv (ownerOf block BLk.I l)).J BLk.I l j := hrun.donorRun hI hJ
  have hspec := contribTN_spec BUTk.I (BUTinv (ownerOf block BLk.I l)).J BUTk.J.length
    (BDinv (ownerOf block BLk.I l)).D BUTk.L s hdr (hJ.consJ _)
  have hjm := hrun.2.1
  have hlj := hrun.1
  unfold contrib6
  funext x
  rw [Pi.add_apply, Finset.sum_apply]
  by_cases hx : ∃ b, b < j - l + 1 ∧ ∃ c, c < BUTk.J.length ∧ x = l + b + BLk.I.length * c
  · obtain ⟨b, hb, c, hc, rfl⟩ := hx
    have h1 := hspec.1 b hb c hc
    simp only at h1
    rw [h1, Finset.sum_eq_single (l + b)]
    · unfold share6
      have hlb : l + b < BLk.I.length := by omega
      rw [if_pos ⟨flat_lt_mul hlb hc, flat_mod hlb⟩, flat_div hlb,
        hrun.2.2.1 (l + b) (by omega) (by omega)]
      simp only [tnTerm, posJ, Nat.add_zero, sub_eq_add_neg]
    · intro p _ hp
      unfold share6
      rw [if_neg]
      intro hcond
      apply hp
      rw [← hcond.2, flat_mod (by omega)]
    · intro hmem
      exfalso
      apply hmem
      rw [Finset.mem_Ico]
      omega
  · have hx2 : ∀ b, b < j - l + 1 → ∀ c, c < BUTk.J.length →
        x ≠ l + (fun b => b) b + BLk.I.length * c := by
      intro b hb c hc heq
      exact hx ⟨b, hb, c, hc, heq⟩
    rw [hspec.2 x hx2, Finset.sum_eq_zero, add_zero]
    intro p hp
    rw [Finset.mem_Ico] at hp
    unfold share6
    rw [if_neg]
    intro hcond
    apply hx
    refine ⟨p - l, by omega, x / BLk.I.length, ?_, ?_⟩
    · exact Nat.div_lt_of_lt_mul hcond.1
    · have := Nat.mod_add_div x BLk.I.length
      rw [hcond.2] at this
      omega

theorem contrib2_share (block : Nat → Nat) (BLk BUTk : Block R) (BLinv BUTinv : Nat → InvBlock R)
    (BDinvT : Nat → DinvBlock R) (hsame : ∀ i, (BLinv i).J = (BUTinv i).J)
    (hI : OwnedBy block (fun i => (BUTinv i).J) BUTk.I) (hBL : BLk.I.Sorted (· < ·))
    (hJ : DonorsOK (fun i => (BUTinv i).J)) (hn : BLk.J.length = BUTk.J.length)
    (l j : Nat) (hrun : IsRun block BUTk.I l j) (s : (Nat → R) × (Nat → R) × Nat) :
    (contrib2 BUTk BLk (BLinv (ownerOf block BUTk.I l)) (BDinvT (ownerOf block BUTk.I l))
        l j s).1 =
      s.1 + ∑ p ∈ Finset.Ico l (j + 1), share2 block BLk BUTk BUTinv BDinvT p := by
  have hdr : DonorRun (BUTinv (ownerOf block BUTk.I l)).J BUTk.I l j := hrun.donorRun hI hJ
  have hspec := contribNN_spec BLk.I (BUTinv (ownerOf block BUTk.I l)).J BUTk.J.length
    (BDinvT (ownerOf block BUTk.I l)).D BUTk.L s hdr (hJ.consJ _)
  have hjm := hrun.2.1
  have hlj := hrun.1
  unfold contrib2
  rw [hsame, hn]
  funext x
  rw [Pi.add_apply, Finset.sum_apply]
  by_cases hx : x < BLk.I.length * BUTk.J.length
  · have hm : 0 < BLk.I.length := by
      rcases Nat.eq_zero_or_pos BLk.I.length with h0 | h0
      · rw [h0, Nat.zero_mul] at hx
        omega
      · exact h0
    have hr : x % BLk.I.length < BLk.I.length := Nat.mod_lt _ hm
    have hc : x / BLk.I.length < BUTk.J.length := Nat.div_lt_of_lt_mul hx
    have h1 := hspec.entry_sum hBL (hJ.sortedJ _) (x % BLk.I.length) hr (x / BLk.I.length) hc
    rw [Nat.mod_add_div] at h1
    rw [h1, sub_eq_add_neg]
    congr 1
    have hsh : ∀ p ∈ Finset.Ico l (j + 1), share2 block BLk BUTk BUTinv BDinvT p x =
        - ∑ q ∈ Finset.range (BUTinv (ownerOf block BUTk.I l)).J.length,
          if BLk.I.getD (x % BLk.I.length) 0 =
              (BUTinv (ownerOf block BUTk.I l)).J.getD q 0 then
            (BDinvT (ownerOf block BUTk.I l)).D
                (q + (BUTinv (ownerOf block BUTk.I l)).J.length *
                  (BUTinv (ownerOf block BUTk.I l)).J.indexOf (BUTk.I.getD p 0)) *
              BUTk.L (p + BUTk.I.length * (x / BLk.I.length))
          else 0 := by
      intro p hp
      rw [Finset.mem_Ico] at hp
      unfold share2
      rw [if_pos hx, hrun.2.2.1 p hp.1 (by omega)]
    rw [Finset.sum_congr rfl hsh, Finset.sum_neg_distrib, neg_inj, Finset.sum_comm]
    unfold nnEntry nnTerm posJ
    apply Finset.sum_congr rfl
    intro q _
    by_cases hq : BLk.I.getD (x % BLk.I.length) 0 =
        (BUTinv (ownerOf block BUTk.I l)).J.getD q 0
    · simp only [if_pos hq]
      rw [Finset.sum_Ico_eq_sum_range, show j + 1 - l = j - l + 1 by omega]
    · simp only [if_neg hq, Finset.sum_const_zero]
  · rw [hspec.frame x (by omega), Finset.sum_eq_zero, add_zero]
    intro p _
    unfold share2
    rw [if_neg hx]

end Shares

/-! ## Part II against the role-swapped part I -/

section Symmetry

variable {R : Type} [CommRing R]

theorem sum_ite_getD {J : List Nat} (hJ : J.Sorted (· < ·)) (v : Nat) (f : Nat → R) :
    ∑ q ∈ Finset.range J.length, (if v = J.getD q 0 then f q else 0) =
      if v ∈ J then f (J.indexOf v) else 0 := by
  by_cases hv : v ∈ J
  · have hlt : J.indexOf v < J.length := List.indexOf_lt_length.mpr hv
    rw [if_pos hv, Finset.sum_eq_single (J.indexOf v)]
    · rw [if_pos (getD_indexOf hv).symm]
    · intro q hq hne
      rw [if_neg]
      intro heq
      apply hne
      exact getD_inj_of_sorted hJ (Finset.mem_range.mp hq) hlt
        (by rw [← heq, getD_indexOf hv])
    · intro hmem
      exact absurd (Finset.mem_range.mpr hlt) hmem
  · rw [if_neg hv, Finset.sum_eq_zero]
    intro q hq
    rw [if_neg]
    intro heq
    apply hv
    rw [heq]
    exact getD_mem (Finset.mem_range.mp hq)

/-- Contribution 6 over all rows of `BLinv{k}.L` and the role-swapped contribution 2
over all positions of `BUT{k}.I` subtract the same array. -/
theorem share_sums (block : Nat → Nat) (BLk BUTk : Block R) (BUTinv : Nat → InvBlock R)
    (BDinv BDinvT : Nat → DinvBlock R)
    (hBL : OwnedBy block (fun i => (BUTinv i).J) BLk.I)
    (hBUT : OwnedBy block (fun i => (BUTinv i).J) BUTk.I)
    (hJ : DonorsOK (fun i => (BUTinv i).J))
    (hT : ∀ i a b, a < (BUTinv i).J.length → b < (BUTinv i).J.length →
      (BDinvT i).D (a + (BUTinv i).J.length * b) = (BDinv i).D (b + (BUTinv i).J.length * a)) :
    ∑ p ∈ Finset.Ico 0 BLk.I.length, share6 block BLk BUTk BUTinv BDinv p =
      ∑ p ∈ Finset.Ico 0 BUTk.I.length, share2 block BLk BUTk BUTinv BDinvT p := by
  funext x
  rw [Finset.sum_apply, Finset.sum_apply]
  by_cases hx : x < BLk.I.length * BUTk.J.length
  · have hm : 0 < BLk.I.length := by
      rcases Nat.eq_zero_or_pos BLk.I.length with h0 | h0
      · rw [h0, Nat.zero_mul] at hx
        omega
      · exact h0
    have hr : x % BLk.I.length < BLk.I.length := Nat.mod_lt _ hm
    rw [Finset.sum_eq_single (x % BLk.I.length)]
    · unfold share6
      rw [if_pos ⟨hx, rfl⟩]
      unfold tnTerm
      rw [sum_matchPairs hBUT.sorted (hJ.sortedJ (ownerOf block BLk.I (x % BLk.I.length)))
        (fun pq => (BDinv (ownerOf block BLk.I (x % BLk.I.length))).D
            (pq.2 + (BUTinv (ownerOf block BLk.I (x % BLk.I.length))).J.length *
              posJ (BUTinv (ownerOf block BLk.I (x % BLk.I.length))).J BLk.I
                (x % BLk.I.length) 0) *
          BUTk.L (pq.1 + BUTk.I.length * (x / BLk.I.length)))]
      rw [← Finset.sum_neg_distrib, ← Finset.range_eq_Ico]
      apply Finset.sum_congr rfl
      intro p hp
      rw [Finset.mem_range] at hp
      unfold share2
      rw [if_pos hx, neg_inj]
      simp only
      rw [sum_ite_getD (hJ.sortedJ _) (BUTk.I.getD p 0),
        sum_ite_getD (hJ.sortedJ _) (BLk.I.getD (x % BLk.I.length) 0)]
      by_cases hii : ownerOf block BUTk.I p = ownerOf block BLk.I (x % BLk.I.length)
      · have hmem1 := hBUT.owner p hp
        have hmem2 := hBL.owner (x % BLk.I.length) hr
        simp only at hmem1 hmem2
        rw [hii] at hmem1
        rw [hii, if_pos hmem1, if_pos hmem2,
          hT _ _ _ (List.indexOf_lt_length.mpr hmem2) (List.indexOf_lt_length.mpr hmem1)]
        simp only [posJ, Nat.add_zero]
      · rw [if_neg, if_neg]
        · intro hmem
          exact hii (hBL.unique _ _ hr hmem).symm
        · intro hmem
          exact hii (hBUT.unique _ _ hp hmem)
    · intro p _ hp
      unfold share6
      rw [if_neg]
      intro hcond
      exact hp hcond.2.symm
    · intro hmem
      exact absurd (Finset.mem_Ico.mpr ⟨Nat.zero_le _, hr⟩) hmem
  · rw [Finset.sum_eq_zero, Finset.sum_eq_zero]
    · intro p _
      unfold share2
      rw [if_neg hx]
    · intro p _
      unfold share6
      rw [if_neg (fun h => hx h.1)]

/-- A one-entry index array whose entry lies in the `J` of its owner only. -/
theorem ownedBy_single (block : Nat → Nat) (J : Nat → List Nat) (v : Nat)
    (hv : v ∈ J (block (v - 1))) (hu : ∀ i, v ∈ J i → block (v - 1) = i) :
    OwnedBy block J [v] :=
  { sorted := List.sorted_singleton v
    mono := by
      intro p q h1 h2
      have hq : q = 0 := by simpa using h2
      have hp : p = 0 := by omega
      rw [hp, hq]
    owner := by
      intro p hp
      have h0 : p = 0 := by simpa using hp
      subst h0
      exact hv
    unique := by
      intro p i hp hmem
      have h0 : p = 0 := by simpa using hp
      subst h0
      exact hu i hmem }

theorem gapCells_owned (v : Nat) (hv : v ∈ [3, 5, 6]) :
    OwnedBy sampleMap (fun i => (gapCells i).J) [v] := by
  have h2 : sampleMap (v - 1) = 1 := by
    simp only [List.mem_cons, List.mem_singleton, List.not_mem_nil, or_false] at hv
    rcases hv with h | h | h <;> subst h <;> rfl
  apply ownedBy_single
  · rw [h2]
    exact hv
  · intro i hi
    rw [h2]
    by_cases h1 : i = 1
    · exact h1.symm
    · simp [gapCells, h1, InvBlock.empty] at hi

theorem plainCells_owned (v : Nat) (hv : v ∈ [3, 4]) :
    OwnedBy sampleMap (fun i => (plainCells i).J) [v] := by
  have h2 : sampleMap (v - 1) = 1 := by
    simp only [List.mem_cons, List.mem_singleton, List.not_mem_nil, or_false] at hv
    rcases hv with h | h <;> subst h <;> rfl
  apply ownedBy_single
  · rw [h2]
    exact hv
  · intro i hi
    rw [h2]
    by_cases h1 : i = 1
    · exact h1.symm
    · simp [plainCells, h1, InvBlock.empty] at hi

theorem plainCells_ok : DonorsOK (fun i => (plainCells i).J) :=
  { sortedJ := by
      intro i
      by_cases h1 : i = 1
      · subst h1
        exact (by decide : ([3, 4] : List Nat).Sorted (· < ·))
      · simp [plainCells, h1, InvBlock.empty]
    consJ := by
      intro i
      by_cases h1 : i = 1
      · subst h1
        exact consecutive34
      · intro s hs
        simp [plainCells, h1, InvBlock.empty] at hs
    oneJ := by
      intro i v hv
      by_cases h1 : i = 1
      · subst h1
        have hv2 : v ∈ [3, 4] := hv
        simp only [List.mem_cons, List.mem_singleton, List.not_mem_nil, or_false] at hv2
        omega
      · simp [plainCells, h1, InvBlock.empty] at hv }

theorem plainCells_transposed (i a b : Nat) (ha : a < (plainCells i).J.length)
    (hb : b < (plainCells i).J.length) :
    (plainCellsDT i).D (a + (plainCells i).J.length * b) =
      (plainCellsD i).D (b + (plainCells i).J.length * a) := by
  by_cases h1 : i = 1
  · subst h1
    have ha2 : a < 2 := ha
    have hb2 : b < 2 := hb
    interval_cases a <;> interval_cases b <;> rfl
  · simp [plainCells, h1, InvBlock.empty] at ha

theorem gapCells_transposed (i a b : Nat) (ha : a < (gapCells i).J.length)
    (hb : b < (gapCells i).J.length) :
    (gapCellsDT i).D (a + (gapCells i).J.length * b) =
      (gapCellsD i).D (b + (gapCells i).J.length * a) := by
  by_cases h1 : i = 1
  · subst h1
    have ha2 : a < 3 := ha
    have hb2 : b < 3 := hb
    interval_cases a <;> interval_cases b <;> rfl
  · simp [gapCells, h1, InvBlock.empty] at ha

theorem gapCells_sorted (i : Nat) : (gapCells i).J.Sorted (· < ·) := by
  by_cases h1 : i = 1
  · subst h1
    exact (by decide : ([3, 5, 6] : List Nat).Sorted (· < ·))
  · simp [gapCells, h1, InvBlock.empty]

theorem gapCells_onebased (i : Nat) : ∀ v ∈ (gapCells i).J, 1 ≤ v := by
  intro v hv
  by_cases h1 : i = 1
  · subst h1
    have hv2 : v ∈ [3, 5, 6] := hv
    simp only [List.mem_cons, List.mem_singleton, List.not_mem_nil, or_false] at hv2
    omega
  · simp [gapCells, h1, InvBlock.empty] at hv

/-- C5 (amended): contributions 4, 5 and 6 are the symmetric counterparts of 1, 3
and 2.  For a block `k` whose `BL{k}` and `BUT{k}` have the same number of columns and
strictly ascending `I`, every entry of which lies in the `J` of its owner and in no
other donor's `J`, the owners ascending, and for donors with `BLinv{i}.J = BUTinv{i}.J`
a strictly ascending run of consecutive 1-based integers: the `BLinv{k}.L` produced by
part II from a target `st.1` equals the `BUTinv{k}.L` that part I produces from the
same target when `BL` and `BUT`, and the donors' `BLinv` and `BUTinv`, are exchanged
and every donor `BDinv{i}.D` is replaced by its transpose. -/
theorem part_two_symmetric (block : Nat → Nat) (BLk BUTk : Block R)
    (BLinv BUTinv : Nat → InvBlock R) (BDinv BDinvT : Nat → DinvBlock R)
    (st st2 : (Nat → R) × (Nat → R) × Nat) (hst : st2.1 = st.1)
    (hn : BLk.J.length = BUTk.J.length) (hsame : ∀ i, (BLinv i).J = (BUTinv i).J)
    (hJ : DonorsOK (fun i => (BUTinv i).J))
    (hBL : OwnedBy block (fun i => (BUTinv i).J) BLk.I)
    (hBUT : OwnedBy block (fun i => (BUTinv i).J) BUTk.I)
    (hT : ∀ i a b, a < (BUTinv i).J.length → b < (BUTinv i).J.length →
      (BDinvT i).D (a + (BUTinv i).J.length * b) = (BDinv i).D (b + (BUTinv i).J.length * a)) :
    (partII block BLk BUTk BLinv BUTinv BDinv st).1 =
      (partI block BUTk BLk BUTinv BLinv BDinvT st2).1 := by
  have h14 : (fun l j i (s : (Nat → R) × (Nat → R) × Nat) =>
      contrib2 BUTk BLk (BLinv i) (BDinvT i) l j (contrib1 BUTk BLk (BLinv i) l j s)) =
      (fun l j i s =>
        contrib2 BUTk BLk (BLinv i) (BDinvT i) l j (contrib4 BLk BUTk (BLinv i) l j s)) := by
    funext l j i s
    unfold contrib1 contrib4
    rw [hn]
  have h35 : (fun l j i (s : (Nat → R) × (Nat → R) × Nat) =>
      contrib3 BUTk BLk (BUTinv i) l j s) =
      (fun l j i s => contrib5 BLk BUTk (BUTinv i) l j s) := by
    funext l j i s
    unfold contrib3 contrib5
    rw [hn]
  have h1 := donorLoop_shift BUTk.I block hBUT.mono
    (fun l j i s => contrib4 BLk BUTk (BLinv i) l j s)
    (fun l j i s => contrib2 BUTk BLk (BLinv i) (BDinvT i) l j s)
    (fun l j => (contrib4 BLk BUTk (BLinv (ownerOf block BUTk.I l)) l j
      (fun _ => 0, fun _ => 0, 0)).1)
    (share2 block BLk BUTk BUTinv BDinvT)
    (by
      intro l j hrun s
      have hdr : DonorRun (BUTinv (ownerOf block BUTk.I l)).J BUTk.I l j :=
        hrun.donorRun hBUT hJ
      rw [← hsame] at hdr
      unfold contrib4
      exact contribNN_shift _ _ _ _ _ s hdr (by rw [hsame]; exact hJ.consJ _))
    (fun l j hrun s => contrib2_share block BLk BUTk BLinv BUTinv BDinvT hsame hBUT hBL.sorted
      hJ hn l j hrun s)
    BUTk.I.length 0 (by omega) st st2 0 (by rw [add_zero]; exact hst)
  have h2 := donorLoop_shift BLk.I block hBL.mono
    (fun l j i s => contrib5 BLk BUTk (BUTinv i) l j s)
    (fun l j i s => contrib6 BLk BUTk (BUTinv i) (BDinv i) l j s)
    (fun l j => (contrib5 BLk BUTk (BUTinv (ownerOf block BLk.I l)) l j
      (fun _ => 0, fun _ => 0, 0)).1)
    (share6 block BLk BUTk BUTinv BDinv)
    (by
      intro l j hrun s
      have hdr : DonorRun (BUTinv (ownerOf block BLk.I l)).J BLk.I l j :=
        hrun.donorRun hBL hJ
      unfold contrib5
      exact contribTN_shift _ _ _ _ _ s hdr (hJ.consJ _))
    (fun l j hrun s => contrib6_share block BLk BUTk BUTinv BDinv hBL hJ l j hrun s)
    BLk.I.length 0 (by omega)
    (donorLoop BUTk.I block
      (fun l j i s =>
        contrib2 BUTk BLk (BLinv i) (BDinvT i) l j (contrib4 BLk BUTk (BLinv i) l j s))
      BUTk.I.length 0 st2)
    (donorLoop BUTk.I block (fun l j i s => contrib4 BLk BUTk (BLinv i) l j s)
      BUTk.I.length 0 st)
    (- ∑ p ∈ Finset.Ico 0 BUTk.I.length, share2 block BLk BUTk BUTinv BDinvT p)
    (by rw [h1]; abel)
  unfold partII partI partII2 partII1 partI2 partI1
  rw [h14, h35, h2, share_sums block BLk BUTk BUTinv BDinv BDinvT hBL hBUT hJ hT]
  abel

/-- C5, as stated, fails: block `k` with `BL{k}.I = [3]`, `BUT{k}.I = [5]` and the donor
block 1 with `BLinv{1}.J = BUTinv{1}.J = [3, 5, 6]`, not a run of consecutive integers.
Part II subtracts `BDinv{1}.D(1,0) * BUT{k}.L(0,0) = 2` (contribution 6, row `5` found by
the intersection scan), the role-swapped part I subtracts the transposed entry
`D(2,0) = 3` (contribution 2, column offset `j_first = 5 - 3 = 2`). -/
theorem part_two_symmetric_counterexample :
    sampleB3.J.length = sampleBL5.J.length ∧
    (∀ i, (gapCells i).J.Sorted (· < ·)) ∧ (∀ i, ∀ v ∈ (gapCells i).J, 1 ≤ v) ∧
    OwnedBy sampleMap (fun i => (gapCells i).J) sampleB3.I ∧
    OwnedBy sampleMap (fun i => (gapCells i).J) sampleBL5.I ∧
    (∀ i a b, a < (gapCells i).J.length → b < (gapCells i).J.length →
      (gapCellsDT i).D (a + (gapCells i).J.length * b) =
        (gapCellsD i).D (b + (gapCells i).J.length * a)) ∧
    (partII sampleMap sampleB3 sampleBL5 gapCells gapCells gapCellsD
      (fun _ => 0, fun _ => 0, 0)).1 0 = -2 ∧
    (partI sampleMap sampleBL5 sampleB3 gapCells gapCells gapCellsDT
      (fun _ => 0, fun _ => 0, 0)).1 0 = -3 :=
  ⟨rfl, gapCells_sorted, gapCells_onebased, gapCells_owned 3 (by decide),
    gapCells_owned 5 (by decide), gapCells_transposed, by decide, by decide⟩

/-- Witness of C5 (amended): `BL{k}.I = [3]`, `BUT{k}.I = [4]` and the donor block 1 with
`J = [3, 4]`. -/
theorem part_two_symmetric_witness :
    sampleB3.J.length = sampleB4.J.length ∧
    DonorsOK (fun i => (plainCells i).J) ∧
    OwnedBy sampleMap (fun i => (plainCells i).J) sampleB3.I ∧
    OwnedBy sampleMap (fun i => (plainCells i).J) sampleB4.I ∧
    (partII sampleMap sampleB3 sampleB4 plainCells plainCells plainCellsD
      (fun _ => 0, fun _ => 0, 0)).1 =
    (partI sampleMap sampleB4 sampleB3 plainCells plainCells plainCellsDT
      (fun _ => 0, fun _ => 0, 0)).1 :=
  ⟨rfl, plainCells_ok, plainCells_owned 3 (by decide), plainCells_owned 4 (by decide),
    part_two_symmetric sampleMap sampleB3 sampleB4 plainCells plainCells plainCellsD plainCellsDT
      (fun _ => 0, fun _ => 0, 0) (fun _ => 0, fun _ => 0, 0) rfl rfl (fun _ => rfl)
      plainCells_ok (plainCells_owned 3 (by decide)) (plainCells_owned 4 (by decide))
      plainCells_transposed⟩

end Symmetry

/-! ## The inverse permutation -/

section InversePermutation

theorem perm_getD_mem {perm : List Nat} {n : Nat} (h : perm.Perm (List.range' 1 n)) {i : Nat}
    (hi : i < n) : 1 ≤ perm.getD i 0 ∧ perm.getD i 0 ≤ n := by
  have hlen : perm.length = n := by rw [h.length_eq, List.length_range']
  have hmem : perm.getD i 0 ∈ List.range' 1 n := h.subset (getD_mem (by omega))
  rw [List.mem_range'_1] at hmem
  omega

theorem perm_getD_inj {perm : List Nat} {n : Nat} (h : perm.Perm (List.range' 1 n)) {i j : Nat}
    (hi : i < n) (hj : j < n) (he : perm.getD i 0 = perm.getD j 0) : i = j := by
  have hlen : perm.length = n := by rw [h.length_eq, List.length_range']
  have hnd : perm.Nodup := h.nodup_iff.mpr (List.nodup_range' 1 n)
  rw [List.getD_eq_getElem perm 0 (show i < perm.length by omega),
    List.getD_eq_getElem perm 0 (show j < perm.length by omega)] at he
  exact (List.Nodup.getElem_inj_iff hnd).mp he

theorem perm_getD_surj {perm : List Nat} {n : Nat} (h : perm.Perm (List.range' 1 n)) {g : Nat}
    (hg : g < n) : ∃ i, i < n ∧ perm.getD i 0 = g + 1 := by
  have hlen : perm.length = n := by rw [h.length_eq, List.length_range']
  have hmem : g + 1 ∈ perm := h.symm.subset (by rw [List.mem_range'_1]; omega)
  obtain ⟨i, hi, he⟩ := List.getElem_of_mem hmem
  exact ⟨i, by omega, by rw [List.getD_eq_getElem perm 0 hi]; exact he⟩

theorem invPerm_loop (perm : List Nat) (n : Nat) (ipiv : Nat → Nat)
    (h : perm.Perm (List.range' 1 n)) :
    ∀ m, m ≤ n → ∀ i, i < m →
      forLoop m (fun i ip => Function.update ip (perm.getD i 0 - 1) i) ipiv
        (perm.getD i 0 - 1) = i := by
  intro m
  induction m with
  | zero => intro _ i hi; omega
  | succ m ih =>
    intro hm i hi
    rw [forLoop_succ]
    by_cases him : i = m
    · subst him
      rw [Function.update_same]
    · have hne : perm.getD i 0 - 1 ≠ perm.getD m 0 - 1 := by
        intro he
        have h1 := perm_getD_mem h (show i < n by omega)
        have h2 := perm_getD_mem h (show m < n by omega)
        exact him (perm_getD_inj h (by omega) (by omega) (by omega))
      rw [Function.update_noteq hne]
      exact ih (by omega) i (by omega)

theorem invPerm_at (perm : List Nat) (n : Nat) (ipiv : Nat → Nat)
    (h : perm.Perm (List.range' 1 n)) (i : Nat) (hi : i < n) :
    invPerm n perm ipiv (perm.getD i 0 - 1) = i :=
  invPerm_loop perm n ipiv h n le_rfl i hi

theorem invPerm_inverse (perm : List Nat) (n : Nat) (ipiv : Nat → Nat)
    (h : perm.Perm (List.range' 1 n)) (g : Nat) (hg : g < n) :
    invPerm n perm ipiv g < n ∧ perm.getD (invPerm n perm ipiv g) 0 = g + 1 := by
  obtain ⟨i, hi, he⟩ := perm_getD_surj h hg
  have h1 := invPerm_at perm n ipiv h i hi
  rw [he, Nat.add_sub_cancel] at h1
  rw [h1]
  exact ⟨hi, he⟩

/-- C20: permutation round trip.  For a permutation `perm` of `1..n` the inverse
permutation that lines 5279-5284 write into `ipiv` satisfies
`invperm[perm[i] - 1] = i` for every `i` in `0..n-1`, and `invperm[g]` is a position
below `n` with `perm[invperm[g]] - 1 = g` for every `g` in `0..n-1`; what `ipiv` held
before does not matter. -/
theorem permutation_round_trip (perm : List Nat) (n : Nat) (ipiv : Nat → Nat)
    (h : perm.Perm (List.range' 1 n)) :
    (∀ i, i < n → invPerm n perm ipiv (perm.getD i 0 - 1) = i) ∧
    (∀ g, g < n → invPerm n perm ipiv g < n ∧
      perm.getD (invPerm n perm ipiv g) 0 - 1 = g) := by
  refine ⟨fun i hi => invPerm_at perm n ipiv h i hi, fun g hg => ?_⟩
  obtain ⟨h1, h2⟩ := invPerm_inverse perm n ipiv h g hg
  exact ⟨h1, by rw [h2, Nat.add_sub_cancel]⟩

/-- Witness of C20: the permutation `(3, 1, 2)`. -/
theorem permutation_round_trip_witness :
    ([3, 1, 2] : List Nat).Perm (List.range' 1 3) ∧
    (∀ i, i < 3 → invPerm 3 [3, 1, 2] (fun _ => 0) (([3, 1, 2] : List Nat).getD i 0 - 1) = i) ∧
    (∀ g, g < 3 → invPerm 3 [3, 1, 2] (fun _ => 0) g < 3 ∧
      ([3, 1, 2] : List Nat).getD (invPerm 3 [3, 1, 2] (fun _ => 0) g) 0 - 1 = g) :=
  ⟨by decide, permutation_round_trip [3, 1, 2] 3 (fun _ => 0) (by decide)⟩

end InversePermutation

section Reorder

variable {R : Type} [Field R] [DecidableEq R]

theorem sampleSwapped_valid : Valid sampleSwapped :=
  { nonempty := sampleOne_valid.nonempty
    sizeBD := rfl
    sizeBUT := rfl
    sizeDeltal := rfl
    sizeDeltar := rfl
    shapeBL := sampleOne_valid.shapeBL
    shapeBD := sampleOne_valid.shapeBD
    shapeBUT := sampleOne_valid.shapeBUT
    size_pos := sampleOne_valid.size_pos
    size_le := sampleOne_valid.size_le
    diag := sampleOne_valid.diag }

/-- C19: final reorder and rescale.  On a call that passes the checks of the source
and whose `perm` is a permutation of `1..n`, the call returns, `D` has `n` entries and
`D[i] = Deltar[i] * Dbuff[invperm[i]] * Deltal[i]` for every `i` in `0..n-1`, where `Dbuff`
is the buffer of the state `st` that the main loop ends in and `invperm[i]` is the
position below `n` with `perm[invperm[i]] = i + 1`. -/
theorem reorder_rescale (inp : Input R) (hv : Valid inp)
    (hperm : inp.perm.Perm (List.range' 1 inp.perm.length)) :
    ∃ out st0 st,
      baseCase inp.perm.length (inp.BL.length - 1) (cellBL inp (inp.BL.length - 1))
        (cellBD inp (inp.BL.length - 1)) (cellBUT inp (inp.BL.length - 1))
        (initState inp.perm.length) = Except.ok st0 ∧
      mainLoop inp.perm.length (buildBlock inp.BL) inp (inp.BL.length - 1) st0 = Except.ok st ∧
      selbinv inp = Except.ok out ∧ out.D.length = inp.perm.length ∧
      ∀ i, i < inp.perm.length →
        out.D.getD i 0 =
          inp.Deltar.getD i 0 * st.Dbuff (invPerm inp.perm.length inp.perm st.ipiv i) *
            inp.Deltal.getD i 0 ∧
        invPerm inp.perm.length inp.perm st.ipiv i < inp.perm.length ∧
        inp.perm.getD (invPerm inp.perm.length inp.perm st.ipiv i) 0 = i + 1 := by
  have hnb := hv.nonempty
  obtain ⟨st0, hb, -⟩ :=
    baseCase_ok inp.perm.length (inp.BL.length - 1) (cellBL inp (inp.BL.length - 1))
      (cellBD inp (inp.BL.length - 1)) (cellBUT inp (inp.BL.length - 1))
      (initState inp.perm.length)
      (hv.shapeBL _ (by omega)) (hv.shapeBD _ (by omega)) (hv.shapeBUT _ (by omega))
      (hv.size_pos _ (by omega)) (hv.size_le _ (by omega)) (hv.diag _ (by omega))
  obtain ⟨st, hm, -⟩ :=
    mainLoop_ok inp hv (buildBlock inp.BL) (inp.BL.length - 1) (by omega) st0
  refine ⟨_, st0, st, hb, hm, selbinv_eq inp hv st0 st hb hm, rescale_length _ _ _ _ _, ?_⟩
  intro i hi
  exact ⟨rescale_getD _ _ _ _ _ i hi,
    invPerm_inverse inp.perm inp.perm.length st.ipiv hperm i hi⟩

end Reorder

/-- Witness of C19: the one-block sample with the permutation `(2, 1)`. -/
theorem reorder_rescale_witness :
    Valid sampleSwapped ∧ sampleSwapped.perm.Perm (List.range' 1 sampleSwapped.perm.length) ∧
    ∃ out st0 st,
      baseCase sampleSwapped.perm.length (sampleSwapped.BL.length - 1)
        (cellBL sampleSwapped (sampleSwapped.BL.length - 1))
        (cellBD sampleSwapped (sampleSwapped.BL.length - 1))
        (cellBUT sampleSwapped (sampleSwapped.BL.length - 1))
        (initState sampleSwapped.perm.length) = Except.ok st0 ∧
      mainLoop sampleSwapped.perm.length (buildBlock sampleSwapped.BL) sampleSwapped
        (sampleSwapped.BL.length - 1) st0 = Except.ok st ∧
      selbinv sampleSwapped = Except.ok out ∧ out.D.length = sampleSwapped.perm.length ∧
      ∀ i, i < sampleSwapped.perm.length →
        out.D.getD i 0 =
          sampleSwapped.Deltar.getD i 0 *
            st.Dbuff (invPerm sampleSwapped.perm.length sampleSwapped.perm st.ipiv i) *
            sampleSwapped.Deltal.getD i 0 ∧
        invPerm sampleSwapped.perm.length sampleSwapped.perm st.ipiv i <
          sampleSwapped.perm.length ∧
        sampleSwapped.perm.getD
          (invPerm sampleSwapped.perm.length sampleSwapped.perm st.ipiv i) 0 = i + 1 :=
  ⟨sampleSwapped_valid, by decide,
    reorder_rescale sampleSwapped sampleSwapped_valid (by decide)⟩

/-! ## Claims about the run `I(l:j)` against the donor's `J` -/

section RunClaims

theorem jiContLoop_keep (RI : List Nat) (l j : Nat) :
    ∀ (fuel jj : Nat) (c : Int),
      (∀ x, jj ≤ x → x ≤ j →
        (RI.getD x 0 : Int) ≤ (RI.getD l 0 : Int) + (x : Int) - (l : Int)) →
      jiContLoop RI l j fuel jj c = c := by
  intro fuel
  induction fuel with
  | zero => intro jj c _; rfl
  | succ fuel ih =>
    intro jj c h
    unfold jiContLoop
    by_cases hjj : jj ≤ j
    · rw [if_pos hjj, if_neg (by have := h jj le_rfl hjj; omega)]
      exact ih (jj + 1) c (fun x hx hxj => h x (by omega) hxj)
    · rw [if_neg hjj]

/-- C15: consecutive-values test.  For a run `I(l..j)` of a strictly increasing array
`I` (`j < |I|`), the flag `Ji_cont` of lines 948-971 is nonzero if and only if
`I[jj] = I[l] + (jj - l)` for every `jj` in `l..j`. -/
theorem consecutive_values_test (RI : List Nat) (l j : Nat) (hRI : RI.Sorted (· < ·))
    (hj : j < RI.length) :
    jiCont RI l j ≠ 0 ↔ ∀ jj, l ≤ jj → jj ≤ j → RI.getD jj 0 = RI.getD l 0 + (jj - l) := by
  constructor
  · intro h jj h1 h2
    have := jiCont_consecutive hRI hj h (jj - l) (by omega)
    rw [show l + (jj - l) = jj by omega] at this
    exact this
  · intro h
    unfold jiCont
    rw [jiContLoop_keep RI l j _ l (-1) (fun x hx hxj => by
      have := h x hx hxj
      omega)]
    decide

/-- Witness of C15: the run `I(1..2) = (4, 5)` of `I = (2, 4, 5, 9)`. -/
theorem consecutive_values_test_witness :
    ([2, 4, 5, 9] : List Nat).Sorted (· < ·) ∧ 2 < ([2, 4, 5, 9] : List Nat).length ∧
    (jiCont [2, 4, 5, 9] 1 2 ≠ 0 ↔
      ∀ jj, 1 ≤ jj → jj ≤ 2 →
        ([2, 4, 5, 9] : List Nat).getD jj 0 = ([2, 4, 5, 9] : List Nat).getD 1 0 + (jj - 1)) :=
  ⟨by decide, by decide, consecutive_values_test [2, 4, 5, 9] 1 2 (by decide) (by decide)⟩

/-- C16, as stated, fails: the ascending donor array `J_i = (3, 5, 6)` contains the run
`I(0..0) = (5)`, the flag `Ji_cont` is set, and `j_first = 5 - 3 = 2`, whereas `5` stands at
position `1` of `J_i`; `J_i[j_first] = 6`. -/
theorem start_offset_counterexample :
    ([3, 5, 6] : List Nat).Sorted (· < ·) ∧ ([5] : List Nat).Sorted (· < ·) ∧
    ([5] : List Nat).getD 0 0 ∈ ([3, 5, 6] : List Nat) ∧
    jiCont [5] 0 0 ≠ 0 ∧ jFirst [5] [3, 5, 6] 0 = 2 ∧
    ([3, 5, 6] : List Nat).indexOf (([5] : List Nat).getD 0 0) = 1 ∧
    ([3, 5, 6] : List Nat).getD (jFirst [5] [3, 5, 6] 0).toNat 0 = 6 :=
  ⟨by decide, by decide, by decide, by decide, by decide, by decide, by decide⟩

/-- C16 (amended): start offset within the donor's storage.  For a donor index array
`J_i` of consecutive integers (hence ascending) that contains all values of the run
`I(l..j)` of a strictly increasing `I`, when `Ji_cont` is set the computed `j_first` is the
position of `I[l]` inside `J_i`, and `J_i[j_first + (jj - l)] = I[jj]` for every `jj` in
`l..j`. -/
theorem start_offset (DJ RI : List Nat) (l j : Nat) (hc : Consecutive DJ)
    (hRI : RI.Sorted (· < ·)) (hlj : l ≤ j) (hj : j < RI.length)
    (hsub : ∀ r, l ≤ r → r ≤ j → RI.getD r 0 ∈ DJ) (hji : jiCont RI l j ≠ 0) :
    jFirst RI DJ l = (DJ.indexOf (RI.getD l 0) : Int) ∧
    ∀ jj, l ≤ jj → jj ≤ j →
      (jFirst RI DJ l).toNat + (jj - l) < DJ.length ∧
      DJ.getD ((jFirst RI DJ l).toNat + (jj - l)) 0 = RI.getD jj 0 := by
  have hmem := hsub l le_rfl hlj
  have hpos : DJ.indexOf (RI.getD l 0) < DJ.length := List.indexOf_lt_length.mpr hmem
  have hval := getD_indexOf hmem
  rw [hc _ hpos] at hval
  have hfirst : jFirst RI DJ l = (DJ.indexOf (RI.getD l 0) : Int) := by
    unfold jFirst
    omega
  refine ⟨hfirst, ?_⟩
  intro jj h1 h2
  have hmem2 := hsub jj h1 h2
  have hpos2 : DJ.indexOf (RI.getD jj 0) < DJ.length := List.indexOf_lt_length.mpr hmem2
  have hval2 := getD_indexOf hmem2
  rw [hc _ hpos2] at hval2
  have hcons := jiCont_consecutive hRI hj hji (jj - l) (by omega)
  rw [show l + (jj - l) = jj by omega] at hcons
  rw [hfirst, Int.toNat_ofNat]
  have hlt : DJ.indexOf (RI.getD l 0) + (jj - l) < DJ.length := by omega
  refine ⟨hlt, ?_⟩
  rw [hc _ hlt]
  omega

/-- Witness of C16 (amended): the run `I(0..1) = (4, 5)` in the donor's `J = (3, 4, 5, 6)`. -/
theorem start_offset_witness :
    Consecutive [3, 4, 5, 6] ∧ ([4, 5, 9] : List Nat).Sorted (· < ·) ∧
    (∀ r, 0 ≤ r → r ≤ 1 → ([4, 5, 9] : List Nat).getD r 0 ∈ ([3, 4, 5, 6] : List Nat)) ∧
    jiCont [4, 5, 9] 0 1 ≠ 0 ∧
    jFirst [4, 5, 9] [3, 4, 5, 6] 0 =
      (([3, 4, 5, 6] : List Nat).indexOf (([4, 5, 9] : List Nat).getD 0 0) : Int) ∧
    ∀ jj, 0 ≤ jj → jj ≤ 1 →
      (jFirst [4, 5, 9] [3, 4, 5, 6] 0).toNat + (jj - 0) < ([3, 4, 5, 6] : List Nat).length ∧
      ([3, 4, 5, 6] : List Nat).getD ((jFirst [4, 5, 9] [3, 4, 5, 6] 0).toNat + (jj - 0)) 0 =
        ([4, 5, 9] : List Nat).getD jj 0 :=
  have hc : Consecutive [3, 4, 5, 6] := by
    intro s hs
    simp only [List.length_cons, List.length_nil] at hs
    interval_cases s <;> rfl
  have hsub : ∀ r, 0 ≤ r → r ≤ 1 →
      ([4, 5, 9] : List Nat).getD r 0 ∈ ([3, 4, 5, 6] : List Nat) := by
    intro r _ h2
    interval_cases r <;> decide
  ⟨hc, by decide, hsub, by decide,
    start_offset [3, 4, 5, 6] [4, 5, 9] 0 1 hc (by decide) (by decide) (by decide) hsub
      (by decide)⟩

end RunClaims

/-! ## Claims about the intersection scan -/

section IntersectionClaims

theorem mem_bruteForce (A B : List Nat) (x : Nat × Nat) :
    x ∈ bruteForce A B ↔ x.1 < A.length ∧ x.2 < B.length ∧ A.getD x.1 0 = B.getD x.2 0 := by
  unfold bruteForce
  simp only [List.mem_flatMap, List.mem_range, List.mem_map, List.mem_filter, decide_eq_true_eq]
  constructor
  · rintro ⟨p, hp, q, ⟨hq, he⟩, rfl⟩
    exact ⟨hp, hq, he⟩
  · rintro ⟨hp, hq, he⟩
    exact ⟨x.1, hp, x.2, ⟨hq, he⟩, rfl⟩

theorem bruteForce_sorted (A B : List Nat) : (bruteForce A B).Sorted loopOrder := by
  unfold bruteForce
  apply List.pairwise_flatMap.mpr
  constructor
  · intro p _
    apply List.pairwise_map.mpr
    refine ((List.pairwise_lt_range B.length).filter _).imp ?_
    intro q1 q2 h
    exact Or.inr ⟨rfl, h⟩
  · refine (List.pairwise_lt_range A.length).imp ?_
    intro p1 p2 h x hx y hy
    simp only [List.mem_map, List.mem_filter] at hx hy
    obtain ⟨q1, _, rfl⟩ := hx
    obtain ⟨q2, _, rfl⟩ := hy
    exact Or.inl h

theorem loopOrder_irrefl (x : Nat × Nat) : ¬ loopOrder x x := by
  unfold loopOrder
  omega

theorem loopOrder_antisymm (x y : Nat × Nat) (h1 : loopOrder x y) (h2 : loopOrder y x) :
    x = y := by
  unfold loopOrder at h1 h2
  omega

theorem matchPairs_sorted (A B : List Nat) : (matchPairs A B).Sorted loopOrder :=
  (matchPairs_pairwise A B).imp (fun h => Or.inl h.1)

theorem matchPairs_eq_bruteForce {A B : List Nat} (hA : A.Sorted (· < ·))
    (hB : B.Sorted (· < ·)) : matchPairs A B = bruteForce A B := by
  haveI : IsAntisymm (Nat × Nat) loopOrder := ⟨loopOrder_antisymm⟩
  have hd : (bruteForce A B).Nodup := by
    refine List.Pairwise.imp ?_ (bruteForce_sorted A B)
    intro x y h he
    rw [he] at h
    exact loopOrder_irrefl _ h
  have hp : (matchPairs A B).Perm (bruteForce A B) :=
    (List.perm_ext_iff_of_nodup (matchPairs_nodup A B) hd).mpr
      (fun x => by rw [mem_matchPairs_iff hA hB, mem_bruteForce])
  exact List.eq_of_perm_of_sorted hp (matchPairs_sorted A B) (bruteForce_sorted A B)

theorem matchPairs_card {A B : List Nat} (hA : A.Sorted (· < ·)) (hB : B.Sorted (· < ·)) :
    (matchPairs A B).length = (A.toFinset ∩ B.toFinset).card := by
  have himg : (matchPairs A B).toFinset.image (fun x => A.getD x.1 0) =
      A.toFinset ∩ B.toFinset := by
    ext v
    simp only [Finset.mem_image, List.mem_toFinset, Finset.mem_inter]
    constructor
    · rintro ⟨x, hx, rfl⟩
      obtain ⟨h1, h2, h3⟩ := (mem_matchPairs_iff hA hB x).mp hx
      exact ⟨getD_mem h1, h3 ▸ getD_mem h2⟩
    · rintro ⟨hvA, hvB⟩
      refine ⟨(A.indexOf v, B.indexOf v), ?_, getD_indexOf hvA⟩
      rw [mem_matchPairs_iff hA hB]
      exact ⟨List.indexOf_lt_length.mpr hvA, List.indexOf_lt_length.mpr hvB,
        by rw [getD_indexOf hvA, getD_indexOf hvB]⟩
  rw [← himg, Finset.card_image_of_injOn, List.toFinset_card_of_nodup (matchPairs_nodup A B)]
  intro x hx y hy he
  have hx2 := (mem_matchPairs_iff hA hB x).mp (List.mem_toFinset.mp hx)
  have hy2 := (mem_matchPairs_iff hA hB y).mp (List.mem_toFinset.mp hy)
  simp only at he
  have h1 : x.1 = y.1 := getD_inj_of_sorted hA hx2.1 hy2.1 he
  have h2 : x.2 = y.2 :=
    getD_inj_of_sorted hB hx2.2.1 hy2.2.1 (by rw [← hx2.2.2, ← hy2.2.2, he])
  exact Prod.ext h1 h2

/-- C11: intersection count.  For strictly increasing index arrays `A` and `B` the
two-pointer scan runs its match branch at the pairs of the list `matchPairs A B`, in
that order; this list lists the pairs `(p, q)` with `A[p] = B[q]` with both positions
increasing, it is the list of the brute-force nested-loop intersection, and the count
`t` is its length, the number of values common to `A` and `B`. -/
theorem intersection_count (A B : List Nat) (hA : A.Sorted (· < ·)) (hB : B.Sorted (· < ·)) :
    (∀ (σ : Type) (body : Nat → Nat → σ → σ) (s : σ),
      mergeLoop A B body (A.length + B.length) 0 0 s =
        (matchPairs A B).foldl (fun acc pq => body pq.1 pq.2 acc) s) ∧
    (∀ p q, (p, q) ∈ matchPairs A B ↔ p < A.length ∧ q < B.length ∧ A.getD p 0 = B.getD q 0) ∧
    (matchPairs A B).Pairwise (fun x y => x.1 < y.1 ∧ x.2 < y.2) ∧
    matchPairs A B = bruteForce A B ∧
    (intersect A B).t = (bruteForce A B).length ∧
    (intersect A B).t = (A.toFinset ∩ B.toFinset).card := by
  have ht := (intersect_spec A B).1
  refine ⟨fun σ body s => mergeLoop_eq_foldl A B body _ 0 0 s,
    fun p q => mem_matchPairs_iff hA hB (p, q), matchPairs_pairwise A B,
    matchPairs_eq_bruteForce hA hB, ?_, ?_⟩
  · rw [ht, matchPairs_eq_bruteForce hA hB]
  · rw [ht, matchPairs_card hA hB]

/-- Witness of C11: `A = (2, 4, 5, 9)` against `B = (1, 4, 9, 10)`. -/
theorem intersection_count_witness :
    ([2, 4, 5, 9] : List Nat).Sorted (· < ·) ∧ ([1, 4, 9, 10] : List Nat).Sorted (· < ·) ∧
    matchPairs [2, 4, 5, 9] [1, 4, 9, 10] = bruteForce [2, 4, 5, 9] [1, 4, 9, 10] ∧
    (intersect [2, 4, 5, 9] [1, 4, 9, 10]).t = (bruteForce [2, 4, 5, 9] [1, 4, 9, 10]).length :=
  ⟨by decide, by decide,
    (intersection_count [2, 4, 5, 9] [1, 4, 9, 10] (by decide) (by decide)).2.2.2.1,
    (intersection_count [2, 4, 5, 9] [1, 4, 9, 10] (by decide) (by decide)).2.2.2.2.1⟩

end IntersectionClaims

/-! ## The contiguity flags and the start offsets -/

section FlagClaims

theorem getD_take_lt {α : Type} (l : List α) (d : α) (a i : Nat) (hi : i < a) :
    (l.take a).getD i d = l.getD i d := by
  simp [List.getD_eq_getElem?_getD, List.getElem?_take, hi]

theorem isectBody_nonneg (p q : Nat) (s : Isect) :
    0 ≤ (isectBody p q s).Ik_cont ∧ 0 ≤ (isectBody p q s).Ii_cont := by
  unfold isectBody
  by_cases h : s.Ik_cont = -1
  · rw [if_pos h]
    simp only
    omega
  · rw [if_neg h]
    simp only
    constructor <;> split_ifs <;> omega

theorem isect_foldl_nonneg :
    ∀ (ms : List (Nat × Nat)) (s : Isect), 0 ≤ s.Ik_cont → 0 ≤ s.Ii_cont →
      0 ≤ (ms.foldl (fun acc pq => isectBody pq.1 pq.2 acc) s).Ik_cont ∧
      0 ≤ (ms.foldl (fun acc pq => isectBody pq.1 pq.2 acc) s).Ii_cont := by
  intro ms
  induction ms with
  | nil => intro s h1 h2; exact ⟨h1, h2⟩
  | cons x rest ih =>
    intro s _ _
    simp only [List.foldl_cons]
    exact ih _ (isectBody_nonneg x.1 x.2 s).1 (isectBody_nonneg x.1 x.2 s).2

/-- A flag that is set stays set, and grows by one per match, as long as the matched
positions continue the run. -/
theorem isect_foldl_grow :
    ∀ (ms : List (Nat × Nat)) (s : Isect), 0 ≤ s.Ik_cont → 0 ≤ s.Ii_cont →
      (s.Ik_cont ≠ 0 →
        (∀ a < ms.length, ((ms.getD a (0, 0)).1 : Int) = s.Ik_cont + a) →
        (ms.foldl (fun acc pq => isectBody pq.1 pq.2 acc) s).Ik_cont = s.Ik_cont + ms.length) ∧
      (s.Ii_cont ≠ 0 →
        (∀ a < ms.length, ((ms.getD a (0, 0)).2 : Int) = s.Ii_cont + a) →
        (ms.foldl (fun acc pq => isectBody pq.1 pq.2 acc) s).Ii_cont = s.Ii_cont + ms.length) := by
  intro ms
  induction ms with
  | nil =>
    intro s _ _
    simp
  | cons x rest ih =>
    intro s hk hi
    have hne : s.Ik_cont ≠ -1 := by omega
    have hbody : isectBody x.1 x.2 s =
        { t := s.t + 1, k_first := s.k_first, i_first := s.i_first,
          Ik_cont := if (x.1 : Int) = s.Ik_cont then (x.1 : Int) + 1 else 0,
          Ii_cont := if (x.2 : Int) = s.Ii_cont then (x.2 : Int) + 1 else 0 } := by
      unfold isectBody
      rw [if_neg hne]
    obtain ⟨ih1, ih2⟩ := ih (isectBody x.1 x.2 s) (isectBody_nonneg x.1 x.2 s).1
      (isectBody_nonneg x.1 x.2 s).2
    simp only [List.foldl_cons, List.length_cons]
    constructor
    · intro h0 hall
      have hx : (x.1 : Int) = s.Ik_cont := by
        have := hall 0 (by simp)
        simpa using this
      have hnew : (isectBody x.1 x.2 s).Ik_cont = s.Ik_cont + 1 := by
        rw [hbody]
        simp only
        rw [if_pos hx, hx]
      rw [ih1 (by rw [hnew]; omega) (fun a ha => by
        have := hall (a + 1) (by omega)
        simp only [List.getD_cons_succ] at this
        rw [this, hnew]
        push_cast
        omega), hnew]
      push_cast
      omega
    · intro h0 hall
      have hx : (x.2 : Int) = s.Ii_cont := by
        have := hall 0 (by simp)
        simpa using this
      have hnew : (isectBody x.1 x.2 s).Ii_cont = s.Ii_cont + 1 := by
        rw [hbody]
        simp only
        rw [if_pos hx, hx]
      rw [ih2 (by rw [hnew]; omega) (fun a ha => by
        have := hall (a + 1) (by omega)
        simp only [List.getD_cons_succ] at this
        rw [this, hnew]
        push_cast
        omega), hnew]
      push_cast
      omega

/-- The scan over a nonempty list of matches with increasing positions: the count,
the start offsets and the two flags. -/
theorem isect_foldl_list (ms : List (Nat × Nat))
    (hpw : ms.Pairwise (fun x y => x.1 < y.1 ∧ x.2 < y.2)) (hne : ms ≠ []) :
    (ms.foldl (fun acc pq => isectBody pq.1 pq.2 acc) isectInit).t = ms.length ∧
    (ms.foldl (fun acc pq => isectBody pq.1 pq.2 acc) isectInit).k_first =
      (ms.getD 0 (0, 0)).1 ∧
    (ms.foldl (fun acc pq => isectBody pq.1 pq.2 acc) isectInit).i_first =
      (ms.getD 0 (0, 0)).2 ∧
    ((ms.foldl (fun acc pq => isectBody pq.1 pq.2 acc) isectInit).Ik_cont ≠ 0 ↔
      ∀ a < ms.length, (ms.getD a (0, 0)).1 = (ms.getD 0 (0, 0)).1 + a) ∧
    ((ms.foldl (fun acc pq => isectBody pq.1 pq.2 acc) isectInit).Ii_cont ≠ 0 ↔
      ∀ a < ms.length, (ms.getD a (0, 0)).2 = (ms.getD 0 (0, 0)).2 + a) := by
  cases ms with
  | nil => exact absurd rfl hne
  | cons x rest =>
    have hrest : ∀ y ∈ rest, 1 ≤ y.1 ∧ 1 ≤ y.2 := by
      intro y hy
      have := (List.pairwise_cons.mp hpw).1 y hy
      omega
    have hbody : isectBody x.1 x.2 isectInit =
        { t := 1, k_first := x.1, i_first := x.2,
          Ik_cont := (x.1 : Int) + 1, Ii_cont := (x.2 : Int) + 1 } := by
      simp [isectBody, isectInit]
    obtain ⟨h1, h2, h3, h4, h5⟩ :=
      isect_foldl_started rest (isectBody x.1 x.2 isectInit)
        (by rw [hbody]; simp only; omega) (by rw [hbody]; simp only; omega) hrest
    obtain ⟨g1, g2⟩ :=
      isect_foldl_grow rest (isectBody x.1 x.2 isectInit)
        (by rw [hbody]; simp only; omega) (by rw [hbody]; simp only; omega)
    simp only [List.foldl_cons, List.length_cons, List.getD_cons_zero]
    rw [hbody] at h1 h2 h3 h4 h5 g1 g2 ⊢
    simp only at h1 h2 h3 h4 h5 g1 g2
    refine ⟨by omega, h2, h3, ⟨?_, ?_⟩, ⟨?_, ?_⟩⟩
    · intro hfin a ha
      obtain ⟨_, h7⟩ := h4 hfin
      cases a with
      | zero => simp
      | succ a =>
        have := h7 a (by omega)
        simp only [List.getD_cons_succ]
        omega
    · intro hall
      have := g1 (by omega) (fun a ha => by
        have := hall (a + 1) (by omega)
        simp only [List.getD_cons_succ] at this
        rw [this]
        push_cast
        omega)
      rw [this]
      omega
    · intro hfin a ha
      obtain ⟨_, h7⟩ := h5 hfin
      cases a with
      | zero => simp
      | succ a =>
        have := h7 a (by omega)
        simp only [List.getD_cons_succ]
        omega
    · intro hall
      have := g2 (by omega) (fun a ha => by
        have := hall (a + 1) (by omega)
        simp only [List.getD_cons_succ] at this
        rw [this]
        push_cast
        omega)
      rw [this]
      omega

/-- Positions that start at `f 0` and grow by one are the positions whose successive
differences are one. -/
theorem consecutive_iff_steps (f : Nat → Nat) (n : Nat) :
    (∀ a < n, f a = f 0 + a) ↔ ∀ a, a + 1 < n → f (a + 1) = f a + 1 := by
  constructor
  · intro h a ha
    rw [h (a + 1) ha, h a (by omega)]
    omega
  · intro h a
    induction a with
    | zero => intro _; rfl
    | succ a ih =>
      intro ha
      rw [h a ha, ih (by omega)]
      omega

theorem isectAfter_all (A B : List Nat) :
    isectAfter A B (matchPairs A B).length = intersect A B := by
  unfold isectAfter
  rw [List.take_length, intersect_eq_foldl]

/-- A flag that is zero after `a >= 1` matches is zero after every later match. -/
theorem isectAfter_cleared (A B : List Nat) (a b : Nat) (ha : 1 ≤ a) (hab : a ≤ b) :
    ((isectAfter A B a).Ik_cont = 0 → (isectAfter A B b).Ik_cont = 0) ∧
    ((isectAfter A B a).Ii_cont = 0 → (isectAfter A B b).Ii_cont = 0) := by
  by_cases hnil : matchPairs A B = []
  · unfold isectAfter
    rw [hnil]
    simp [isectInit]
  · have hlen : 0 < (matchPairs A B).length := List.length_pos.mpr hnil
    have hpw := matchPairs_pairwise A B
    have hna : (matchPairs A B).take a ≠ [] := by
      intro h
      have := congrArg List.length h
      rw [List.length_take] at this
      simp only [List.length_nil] at this
      omega
    have hnb : (matchPairs A B).take b ≠ [] := by
      intro h
      have := congrArg List.length h
      rw [List.length_take] at this
      simp only [List.length_nil] at this
      omega
    obtain ⟨-, -, -, a4, a5⟩ := isect_foldl_list _
      (hpw.sublist (List.take_sublist a _)) hna
    obtain ⟨-, -, -, b4, b5⟩ := isect_foldl_list _
      (hpw.sublist (List.take_sublist b _)) hnb
    unfold isectAfter
    constructor
    · intro h0
      by_contra hb
      have hall := b4.mp hb
      refine a4.mpr (fun i hi => ?_) h0
      rw [List.length_take] at hi
      have := hall i (by rw [List.length_take]; omega)
      rw [getD_take_lt _ _ _ _ (by omega), getD_take_lt _ _ _ _ (by omega)] at this
      rw [getD_take_lt _ _ _ _ (by omega), getD_take_lt _ _ _ _ (by omega)]
      exact this
    · intro h0
      by_contra hb
      have hall := b5.mp hb
      refine a5.mpr (fun i hi => ?_) h0
      rw [List.length_take] at hi
      have := hall i (by rw [List.length_take]; omega)
      rw [getD_take_lt _ _ _ _ (by omega), getD_take_lt _ _ _ _ (by omega)] at this
      rw [getD_take_lt _ _ _ _ (by omega), getD_take_lt _ _ _ _ (by omega)]
      exact this

end FlagClaims

section FlagTheorems

theorem matchPairs_ne_nil_of_common {A B : List Nat} (hA : A.Sorted (· < ·))
    (hB : B.Sorted (· < ·))
    (h : ∃ p q, p < A.length ∧ q < B.length ∧ A.getD p 0 = B.getD q 0) :
    matchPairs A B ≠ [] := by
  obtain ⟨p, q, hp, hq, he⟩ := h
  have hmem : (p, q) ∈ matchPairs A B := (mem_matchPairs_iff hA hB (p, q)).mpr ⟨hp, hq, he⟩
  intro hnil
  rw [hnil] at hmem
  exact absurd hmem (List.not_mem_nil _)

/-- C12: contiguity flags.  For strictly increasing arrays `A` and `B` with at least
one common value, the scan counts at least one match; the flag `Ik_cont` is nonzero
after the scan if and only if the positions in `A` of successive matches differ by
exactly `1`, and likewise `Ii_cont` for the positions in `B`; and a flag that is zero
after `a >= 1` matches is zero after every later match, the state after all matches
being the result of the scan. -/
theorem contiguity_flags (A B : List Nat) (hA : A.Sorted (· < ·)) (hB : B.Sorted (· < ·))
    (hcommon : ∃ p q, p < A.length ∧ q < B.length ∧ A.getD p 0 = B.getD q 0) :
    0 < (intersect A B).t ∧
    ((intersect A B).Ik_cont ≠ 0 ↔
      ∀ a, a + 1 < (matchPairs A B).length →
        ((matchPairs A B).getD (a + 1) (0, 0)).1 = ((matchPairs A B).getD a (0, 0)).1 + 1) ∧
    ((intersect A B).Ii_cont ≠ 0 ↔
      ∀ a, a + 1 < (matchPairs A B).length →
        ((matchPairs A B).getD (a + 1) (0, 0)).2 = ((matchPairs A B).getD a (0, 0)).2 + 1) ∧
    isectAfter A B (matchPairs A B).length = intersect A B ∧
    (∀ a b, 1 ≤ a → a ≤ b → (isectAfter A B a).Ik_cont = 0 → (isectAfter A B b).Ik_cont = 0) ∧
    (∀ a b, 1 ≤ a → a ≤ b → (isectAfter A B a).Ii_cont = 0 → (isectAfter A B b).Ii_cont = 0) := by
  have hne := matchPairs_ne_nil_of_common hA hB hcommon
  obtain ⟨h1, -, -, h4, h5⟩ := isect_foldl_list (matchPairs A B) (matchPairs_pairwise A B) hne
  rw [← intersect_eq_foldl] at h1 h4 h5
  refine ⟨?_, ?_, ?_, isectAfter_all A B,
    fun a b ha hab => (isectAfter_cleared A B a b ha hab).1,
    fun a b ha hab => (isectAfter_cleared A B a b ha hab).2⟩
  · rw [h1]
    exact List.length_pos.mpr hne
  · rw [h4]
    exact consecutive_iff_steps (fun a => ((matchPairs A B).getD a (0, 0)).1) _
  · rw [h5]
    exact consecutive_iff_steps (fun a => ((matchPairs A B).getD a (0, 0)).2) _

/-- Witness of C12: `A = (2, 4, 5, 9)` against `B = (1, 4, 9, 10)`; the matches are at the
positions `1, 3` of `A`, not contiguous, and `1, 2` of `B`, contiguous. -/
theorem contiguity_flags_witness :
    ([2, 4, 5, 9] : List Nat).Sorted (· < ·) ∧ ([1, 4, 9, 10] : List Nat).Sorted (· < ·) ∧
    (∃ p q, p < ([2, 4, 5, 9] : List Nat).length ∧ q < ([1, 4, 9, 10] : List Nat).length ∧
      ([2, 4, 5, 9] : List Nat).getD p 0 = ([1, 4, 9, 10] : List Nat).getD q 0) ∧
    0 < (intersect [2, 4, 5, 9] [1, 4, 9, 10]).t ∧
    (intersect [2, 4, 5, 9] [1, 4, 9, 10]).Ik_cont = 0 ∧
    (intersect [2, 4, 5, 9] [1, 4, 9, 10]).Ii_cont ≠ 0 :=
  ⟨by decide, by decide, ⟨1, 1, by decide, by decide, by decide⟩,
    (contiguity_flags [2, 4, 5, 9] [1, 4, 9, 10] (by decide) (by decide)
      ⟨1, 1, by decide, by decide, by decide⟩).1,
    by decide, by decide⟩

/-- C13: start offsets.  For strictly increasing `A` and `B` with `t >= 1`, `k_first` is
the position in `A` and `i_first` the position in `B` of the smallest common value;
and whenever `Ik_cont` (`Ii_cont`) is set, the positions of `A` (of `B`) that hold a
common value are exactly `k_first .. k_first + t - 1` (`i_first .. i_first + t - 1`). -/
theorem start_offsets (A B : List Nat) (hA : A.Sorted (· < ·)) (hB : B.Sorted (· < ·))
    (ht : 1 ≤ (intersect A B).t) :
    (intersect A B).k_first < A.length ∧ (intersect A B).i_first < B.length ∧
    A.getD (intersect A B).k_first 0 = B.getD (intersect A B).i_first 0 ∧
    (∀ p q, p < A.length → q < B.length → A.getD p 0 = B.getD q 0 →
      A.getD (intersect A B).k_first 0 ≤ A.getD p 0) ∧
    ((intersect A B).Ik_cont ≠ 0 → ∀ p, p < A.length →
      ((∃ q, q < B.length ∧ A.getD p 0 = B.getD q 0) ↔
        (intersect A B).k_first ≤ p ∧ p < (intersect A B).k_first + (intersect A B).t)) ∧
    ((intersect A B).Ii_cont ≠ 0 → ∀ q, q < B.length →
      ((∃ p, p < A.length ∧ A.getD p 0 = B.getD q 0) ↔
        (intersect A B).i_first ≤ q ∧ q < (intersect A B).i_first + (intersect A B).t)) := by
  obtain ⟨htl, hk, hi⟩ := intersect_spec A B
  have hlen : 0 < (matchPairs A B).length := by omega
  have hne : matchPairs A B ≠ [] := List.length_pos.mp hlen
  obtain ⟨-, h2, h3, -, -⟩ := isect_foldl_list (matchPairs A B) (matchPairs_pairwise A B) hne
  rw [← intersect_eq_foldl] at h2 h3
  have h0 := (mem_matchPairs_iff hA hB _).mp (matchPairs_getD_mem A B hlen)
  rw [← h2, ← h3] at h0
  refine ⟨h0.1, h0.2.1, h0.2.2, ?_, ?_, ?_⟩
  · intro p q hp hq he
    obtain ⟨a, ha, hae⟩ := matchPairs_exists_index
      ((mem_matchPairs_iff hA hB (p, q)).mpr ⟨hp, hq, he⟩)
    have hle : (intersect A B).k_first ≤ p := by
      rcases Nat.eq_zero_or_pos a with h | h
      · subst h
        rw [h2, hae]
      · have := matchPairs_fst_lt A B h ha
        rw [hae, ← h2] at this
        exact le_of_lt this
    exact getD_le_of_sorted hA hle hp
  · intro hflag p hp
    constructor
    · rintro ⟨q, hq, he⟩
      obtain ⟨a, ha, hae⟩ := matchPairs_exists_index
        ((mem_matchPairs_iff hA hB (p, q)).mpr ⟨hp, hq, he⟩)
      have := hk hflag a ha
      rw [hae] at this
      simp only at this
      omega
    · rintro ⟨h1, h3⟩
      have ha : p - (intersect A B).k_first < (matchPairs A B).length := by omega
      have hpos := hk hflag _ ha
      have hm := (mem_matchPairs_iff hA hB _).mp (matchPairs_getD_mem A B ha)
      rw [hpos, show (intersect A B).k_first + (p - (intersect A B).k_first) = p by omega] at hm
      exact ⟨_, hm.2.1, hm.2.2⟩
  · intro hflag q hq
    constructor
    · rintro ⟨p, hp, he⟩
      obtain ⟨a, ha, hae⟩ := matchPairs_exists_index
        ((mem_matchPairs_iff hA hB (p, q)).mpr ⟨hp, hq, he⟩)
      have := hi hflag a ha
      rw [hae] at this
      simp only at this
      omega
    · rintro ⟨h1, h3⟩
      have ha : q - (intersect A B).i_first < (matchPairs A B).length := by omega
      have hpos := hi hflag _ ha
      have hm := (mem_matchPairs_iff hA hB _).mp (matchPairs_getD_mem A B ha)
      rw [hpos, show (intersect A B).i_first + (q - (intersect A B).i_first) = q by omega] at hm
      exact ⟨_, hm.1, hm.2.2⟩

/-- Witness of C13: `A = (2, 4, 5, 9)` against `B = (1, 4, 9, 10)`, `t = 2`. -/
theorem start_offsets_witness :
    ([2, 4, 5, 9] : List Nat).Sorted (· < ·) ∧ ([1, 4, 9, 10] : List Nat).Sorted (· < ·) ∧
    1 ≤ (intersect [2, 4, 5, 9] [1, 4, 9, 10]).t ∧
    (intersect [2, 4, 5, 9] [1, 4, 9, 10]).k_first = 1 ∧
    (intersect [2, 4, 5, 9] [1, 4, 9, 10]).i_first = 1 ∧
    ([2, 4, 5, 9] : List Nat).getD (intersect [2, 4, 5, 9] [1, 4, 9, 10]).k_first 0 =
      ([1, 4, 9, 10] : List Nat).getD (intersect [2, 4, 5, 9] [1, 4, 9, 10]).i_first 0 :=
  ⟨by decide, by decide, by decide, by decide, by decide,
    (start_offsets [2, 4, 5, 9] [1, 4, 9, 10] (by decide) (by decide) (by decide)).2.2.1⟩

end FlagTheorems

/-! ## Claims about the three-way branch -/

section BranchClaims

variable {R : Type} [CommRing R]

theorem intersect_of_t_zero (A B : List Nat) (h : (intersect A B).t = 0) :
    intersect A B = isectInit := by
  have hlen := (intersect_spec A B).1
  rw [h] at hlen
  have hnil : matchPairs A B = [] := List.length_eq_zero.mp hlen.symm
  rw [intersect_eq_foldl, hnil]
  rfl

theorem contribNN_path (TI DI DJ RI : List Nat) (l j n_size : Nat) (donor src : Nat → R)
    (st : (Nat → R) × (Nat → R) × Nat) :
    contribNN TI DI DJ RI l j n_size donor src st =
      branchNN (pathOf (intersect TI DI) (jiCont RI l j) l j n_size) TI DI DJ RI l j n_size
        donor src st := by
  unfold contribNN pathOf
  split_ifs <;> rfl

theorem contribTN_path (RI SI DI DJ : List Nat) (l j n_size : Nat) (donor src : Nat → R)
    (st : (Nat → R) × (Nat → R) × Nat) :
    contribTN RI SI DI DJ l j n_size donor src st =
      branchTN (pathOf (intersect SI DI) (jiCont RI l j) l j n_size) RI SI DI DJ l j n_size
        donor src st := by
  unfold contribTN pathOf
  split_ifs <;> rfl

theorem contribNN_of_t_zero (TI DI DJ RI : List Nat) (l j n_size : Nat) (donor src : Nat → R)
    (st : (Nat → R) × (Nat → R) × Nat) (h : (intersect TI DI).t = 0) :
    contribNN TI DI DJ RI l j n_size donor src st = st := by
  unfold contribNN nnZeroCopy
  rw [h]
  split_ifs <;> first | rfl | (exfalso; omega)

theorem contribTN_of_t_zero (RI SI DI DJ : List Nat) (l j n_size : Nat) (donor src : Nat → R)
    (st : (Nat → R) × (Nat → R) × Nat) (h : (intersect SI DI).t = 0) :
    contribTN RI SI DI DJ l j n_size donor src st = st := by
  unfold contribTN tnZeroCopy
  rw [h]
  split_ifs <;> first | rfl | (exfalso; omega)

/-- C14: an empty intersection contributes nothing.  For each of the six
contributions, if the count of its intersection (`t`, or `tt` for the contributions 2
and 6 from the diagonal block) is `0`, the contribution leaves the target block, the
buffer `gemm_buff` and `size_gemm_buff` exactly as they are. -/
theorem empty_intersection (BLk BUTk : Block R) (BLinvi BUTinvi : InvBlock R)
    (BDinvi : DinvBlock R) (l j : Nat) (st : (Nat → R) × (Nat → R) × Nat) :
    ((intersect BUTk.I BUTinvi.I).t = 0 → contrib1 BLk BUTk BUTinvi l j st = st) ∧
    ((intersect BUTk.I BUTinvi.J).t = 0 → contrib2 BLk BUTk BUTinvi BDinvi l j st = st) ∧
    ((intersect BLk.I BLinvi.I).t = 0 → contrib3 BLk BUTk BLinvi l j st = st) ∧
    ((intersect BLk.I BLinvi.I).t = 0 → contrib4 BLk BUTk BLinvi l j st = st) ∧
    ((intersect BUTk.I BUTinvi.I).t = 0 → contrib5 BLk BUTk BUTinvi l j st = st) ∧
    ((intersect BUTk.I BUTinvi.J).t = 0 → contrib6 BLk BUTk BUTinvi BDinvi l j st = st) :=
  ⟨fun h => contribNN_of_t_zero _ _ _ _ _ _ _ _ _ st h,
    fun h => contribNN_of_t_zero _ _ _ _ _ _ _ _ _ st h,
    fun h => contribTN_of_t_zero _ _ _ _ _ _ _ _ _ st h,
    fun h => contribNN_of_t_zero _ _ _ _ _ _ _ _ _ st h,
    fun h => contribTN_of_t_zero _ _ _ _ _ _ _ _ _ st h,
    fun h => contribTN_of_t_zero _ _ _ _ _ _ _ _ _ st h⟩

/-- Witness of C14: the row `4` of block `sampleB4` meets no row of a donor without
rows, and the contribution 1 from that donor leaves the state as it is. -/
theorem empty_intersection_witness :
    (intersect sampleB4.I (plainCells 1).I).t = 0 ∧
    contrib1 sampleB4 sampleB4 (plainCells 1) 0 0 (fun _ => 0, fun _ => 0, 0) =
      (fun _ => 0, fun _ => 0, 0) :=
  ⟨by decide,
    (empty_intersection sampleB4 sampleB4 (plainCells 1) (plainCells 1) (plainCellsD 1) 0 0
      (fun _ => 0, fun _ => 0, 0)).1 (by decide)⟩

end BranchClaims

section DecisionClaim

variable {R : Type} [CommRing R]

theorem pathOf_zeroCopy (is : Isect) (Ji_cont : Int) (l j n_size : Nat) :
    pathOf is Ji_cont l j n_size = Path.zeroCopy ↔
      is.Ii_cont ≠ 0 ∧ is.Ik_cont ≠ 0 ∧ Ji_cont ≠ 0 := by
  unfold pathOf
  by_cases h1 : is.Ii_cont ≠ 0 ∧ is.Ik_cont ≠ 0 ∧ Ji_cont ≠ 0
  · rw [if_pos h1]
    exact ⟨fun _ => h1, fun _ => rfl⟩
  · rw [if_neg h1]
    refine ⟨fun h => ?_, fun h => absurd h h1⟩
    split_ifs at h

theorem level3_iff (is : Isect) (Ji_cont : Int) (l j n_size : Nat) :
    level3 is Ji_cont l j n_size = true ↔
      (if is.Ii_cont = 0 ∨ Ji_cont = 0 then is.t * (j - l + 1) else 0) +
          (if is.Ik_cont = 0 then is.t * n_size else 0) <
        is.t * (j - l + 1) * n_size := by
  unfold level3 copyCnt
  exact decide_eq_true_iff

theorem pathOf_gather (is : Isect) (Ji_cont : Int) (l j n_size : Nat)
    (hflags : ¬ (is.Ii_cont ≠ 0 ∧ is.Ik_cont ≠ 0 ∧ Ji_cont ≠ 0)) :
    pathOf is Ji_cont l j n_size = Path.gather ↔
      0 < is.t ∧
      (if is.Ii_cont = 0 ∨ Ji_cont = 0 then is.t * (j - l + 1) else 0) +
          (if is.Ik_cont = 0 then is.t * n_size else 0) <
        is.t * (j - l + 1) * n_size := by
  have hl := level3_iff is Ji_cont l j n_size
  unfold pathOf
  rw [if_neg hflags]
  by_cases h2 : level3 is Ji_cont l j n_size = true ∧ is.t ≠ 0
  · rw [if_pos h2]
    exact ⟨fun _ => ⟨Nat.pos_of_ne_zero h2.2, hl.mp h2.1⟩, fun _ => rfl⟩
  · rw [if_neg h2]
    refine ⟨fun h => ?_, fun h => absurd ⟨hl.mpr h.2, Nat.pos_iff_ne_zero.mp h.1⟩ h2⟩
    split_ifs at h

theorem pathOf_scalar (is : Isect) (Ji_cont : Int) (l j n_size : Nat)
    (hflags : ¬ (is.Ii_cont ≠ 0 ∧ is.Ik_cont ≠ 0 ∧ Ji_cont ≠ 0)) :
    pathOf is Ji_cont l j n_size = Path.scalar ↔
      0 < is.t ∧
      is.t * (j - l + 1) * n_size ≤
        (if is.Ii_cont = 0 ∨ Ji_cont = 0 then is.t * (j - l + 1) else 0) +
          (if is.Ik_cont = 0 then is.t * n_size else 0) := by
  have hl := level3_iff is Ji_cont l j n_size
  unfold pathOf
  rw [if_neg hflags]
  by_cases h2 : level3 is Ji_cont l j n_size = true ∧ is.t ≠ 0
  · rw [if_pos h2]
    refine ⟨fun h => ?_, fun h => absurd (hl.mp h2.1) (Nat.not_lt.mpr h.2)⟩
    cases h
  · rw [if_neg h2]
    by_cases h3 : is.t ≠ 0
    · rw [if_pos h3]
      refine ⟨fun _ => ⟨Nat.pos_of_ne_zero h3, ?_⟩, fun _ => rfl⟩
      apply Nat.le_of_not_lt
      intro hlt
      exact h2 ⟨hl.mpr hlt, h3⟩
    · rw [if_neg h3]
      refine ⟨fun h => ?_, fun h => absurd (Nat.pos_iff_ne_zero.mp h.1) h3⟩
      cases h

/-- C17: cost-based three-way decision.  With `w = j - l + 1` and
`copy_cnt = (t * w if Ii_cont or Ji_cont is cleared, else 0) +
(t * n_size if Ik_cont is cleared, else 0)`: the zero-copy branch is entered exactly
when all three flags are set; otherwise the gather-and-multiply branch exactly when
`t > 0` and `copy_cnt < t * w * n_size`; otherwise the hand-coded loop exactly when `t > 0`
and `copy_cnt >= t * w * n_size`; and each of the six contributions does what the branch
chosen by this rule does, with the count and the flags of its own intersection
(`tt`, `Jit_cont`, `Ikt_cont` for the contributions 2 and 6).  `Ik_cont` is the flag of the
rows of block `k` in the intersection: the target rows in the contributions 1, 2, 4,
the rows of `BL{k}.L` or `BUT{k}.L` in the contributions 3, 5, 6. -/
theorem three_way_decision (is : Isect) (Ji_cont : Int) (l j n_size : Nat)
    (BLk BUTk : Block R) (BLinvi BUTinvi : InvBlock R) (BDinvi : DinvBlock R)
    (st : (Nat → R) × (Nat → R) × Nat) :
    (pathOf is Ji_cont l j n_size = Path.zeroCopy ↔
      is.Ii_cont ≠ 0 ∧ is.Ik_cont ≠ 0 ∧ Ji_cont ≠ 0) ∧
    (¬ (is.Ii_cont ≠ 0 ∧ is.Ik_cont ≠ 0 ∧ Ji_cont ≠ 0) →
      (pathOf is Ji_cont l j n_size = Path.gather ↔
        0 < is.t ∧
        (if is.Ii_cont = 0 ∨ Ji_cont = 0 then is.t * (j - l + 1) else 0) +
            (if is.Ik_cont = 0 then is.t * n_size else 0) <
          is.t * (j - l + 1) * n_size)) ∧
    (¬ (is.Ii_cont ≠ 0 ∧ is.Ik_cont ≠ 0 ∧ Ji_cont ≠ 0) →
      (pathOf is Ji_cont l j n_size = Path.scalar ↔
        0 < is.t ∧
        is.t * (j - l + 1) * n_size ≤
          (if is.Ii_cont = 0 ∨ Ji_cont = 0 then is.t * (j - l + 1) else 0) +
            (if is.Ik_cont = 0 then is.t * n_size else 0))) ∧
    contrib1 BLk BUTk BUTinvi l j st =
      branchNN (pathOf (intersect BUTk.I BUTinvi.I) (jiCont BLk.I l j) l j BUTk.J.length)
        BUTk.I BUTinvi.I BUTinvi.J BLk.I l j BUTk.J.length BUTinvi.L BLk.L st ∧
    contrib2 BLk BUTk BUTinvi BDinvi l j st =
      branchNN (pathOf (intersect BUTk.I BUTinvi.J) (jiCont BLk.I l j) l j BUTk.J.length)
        BUTk.I BUTinvi.J BUTinvi.J BLk.I l j BUTk.J.length BDinvi.D BLk.L st ∧
    contrib3 BLk BUTk BLinvi l j st =
      branchTN (pathOf (intersect BLk.I BLinvi.I) (jiCont BUTk.I l j) l j BUTk.J.length)
        BUTk.I BLk.I BLinvi.I BLinvi.J l j BUTk.J.length BLinvi.L BLk.L st ∧
    contrib4 BLk BUTk BLinvi l j st =
      branchNN (pathOf (intersect BLk.I BLinvi.I) (jiCont BUTk.I l j) l j BUTk.J.length)
        BLk.I BLinvi.I BLinvi.J BUTk.I l j BUTk.J.length BLinvi.L BUTk.L st ∧
    contrib5 BLk BUTk BUTinvi l j st =
      branchTN (pathOf (intersect BUTk.I BUTinvi.I) (jiCont BLk.I l j) l j BUTk.J.length)
        BLk.I BUTk.I BUTinvi.I BUTinvi.J l j BUTk.J.length BUTinvi.L BUTk.L st ∧
    contrib6 BLk BUTk BUTinvi BDinvi l j st =
      branchTN (pathOf (intersect BUTk.I BUTinvi.J) (jiCont BLk.I l j) l j BUTk.J.length)
        BLk.I BUTk.I BUTinvi.J BUTinvi.J l j BUTk.J.length BDinvi.D BUTk.L st :=
  ⟨pathOf_zeroCopy is Ji_cont l j n_size, pathOf_gather is Ji_cont l j n_size,
    pathOf_scalar is Ji_cont l j n_size,
    contribNN_path _ _ _ _ _ _ _ _ _ st, contribNN_path _ _ _ _ _ _ _ _ _ st,
    contribTN_path _ _ _ _ _ _ _ _ _ st, contribNN_path _ _ _ _ _ _ _ _ _ st,
    contribTN_path _ _ _ _ _ _ _ _ _ st, contribTN_path _ _ _ _ _ _ _ _ _ st⟩

end DecisionClaim

/-! ## Claim about the donor scan -/

section GroupingClaim

theorem donorLoop_eq_foldl {σ : Type} (I : List Nat) (block : Nat → Nat)
    (body : Nat → Nat → Nat → σ → σ) :
    ∀ (fuel l : Nat) (s : σ),
      donorLoop I block body fuel l s =
        (runsFrom I block fuel l).foldl (fun acc g => body g.1 g.2.1 g.2.2 acc) s := by
  intro fuel
  induction fuel with
  | zero => intro l s; rfl
  | succ fuel ih =>
    intro l s
    rw [donorLoop_succ]
    unfold runsFrom
    by_cases hl : l < I.length
    · rw [if_pos hl, if_pos hl, List.foldl_cons]
      exact ih _ _
    · rw [if_neg hl, if_neg hl]
      rfl

theorem donorRuns_eq (I : List Nat) (block : Nat → Nat) :
    donorRuns I block = runsFrom I block I.length 0 := by
  unfold donorRuns
  rw [donorLoop_eq_foldl]
  have key : ∀ (gs : List (Nat × Nat × Nat)) (acc : List (Nat × Nat × Nat)),
      gs.foldl (fun acc g => (g.1, g.2.1, g.2.2) :: acc) acc = gs.reverse ++ acc := by
    intro gs
    induction gs with
    | nil => intro acc; rfl
    | cons g rest ih =>
      intro acc
      rw [List.foldl_cons, ih, List.reverse_cons, List.append_assoc]
      rfl
  rw [key, List.append_nil, List.reverse_reverse]

theorem runsFrom_grouping (I : List Nat) (block : Nat → Nat)
    (hmono : ∀ p q, p ≤ q → q < I.length → ownerOf block I p ≤ ownerOf block I q) :
    ∀ fuel l, l ≤ I.length → I.length - l ≤ fuel →
      Grouping block I l (runsFrom I block fuel l) := by
  intro fuel
  induction fuel with
  | zero =>
    intro l h1 h2
    show l = I.length
    omega
  | succ fuel ih =>
    intro l h1 h2
    unfold runsFrom
    by_cases hl : l < I.length
    · rw [if_pos hl]
      have hrun := isRun_runEnd I block hmono l hl
      unfold ownerOf at hrun
      have hj : l ≤ runEnd I block (block (I.getD l 0 - 1)) I.length (l + 1) := hrun.1
      have hj2 : runEnd I block (block (I.getD l 0 - 1)) I.length (l + 1) < I.length :=
        hrun.2.1
      have hrest := ih (runEnd I block (block (I.getD l 0 - 1)) I.length (l + 1) + 1)
        (by omega) (by omega)
      exact ⟨rfl, hrun, rfl, hrest⟩
    · rw [if_neg hl]
      show l = I.length
      omega

theorem isRun_end_unique {block : Nat → Nat} {I : List Nat} {l j j2 : Nat}
    (h : IsRun block I l j) (h2 : IsRun block I l j2) : j = j2 := by
  rcases Nat.lt_trichotomy j j2 with hlt | heq | hgt
  · have h3 := h.2.2.2 (by have := h2.2.1; omega)
    have h4 := h2.2.2.1 (j + 1) (by have := h.1; omega) (by omega)
    omega
  · exact heq
  · have h3 := h2.2.2.2 (by have := h.2.1; omega)
    have h4 := h.2.2.1 (j2 + 1) (by have := h2.1; omega) (by omega)
    omega

theorem grouping_unique {block : Nat → Nat} {I : List Nat} :
    ∀ (gs gs2 : List (Nat × Nat × Nat)) (l : Nat),
      Grouping block I l gs → Grouping block I l gs2 → gs = gs2 := by
  intro gs
  induction gs with
  | nil =>
    intro gs2 l h h2
    cases gs2 with
    | nil => rfl
    | cons g2 rest2 =>
      have hl : l = I.length := h
      have hrun : IsRun block I l g2.2.1 := h2.2.1
      have := hrun.1
      have := hrun.2.1
      omega
  | cons g rest ih =>
    intro gs2 l h h2
    cases gs2 with
    | nil =>
      have hl : l = I.length := h2
      have hrun : IsRun block I l g.2.1 := h.2.1
      have := hrun.1
      have := hrun.2.1
      omega
    | cons g2 rest2 =>
      obtain ⟨a1, a2, a3, a4⟩ := h
      obtain ⟨b1, b2, b3, b4⟩ := h2
      have hj : g.2.1 = g2.2.1 := isRun_end_unique a2 b2
      have hg : g = g2 := by
        apply Prod.ext
        · rw [a1, b1]
        · apply Prod.ext
          · exact hj
          · rw [a3, b3]
      rw [hj] at a4
      rw [hg, ih rest2 _ a4 b4]

/-- C18: donor run-grouping.  The scan of an array `I` runs its body on the groups of
the list `donorRuns I block`, in order; and if the owners `block[I[p] - 1]` are
non-decreasing along `I`, this list splits the positions `0 .. |I| - 1` into successive
maximal runs of equal owner, each tagged with that owner, and it is the only list
that does. -/
theorem donor_run_grouping (I : List Nat) (block : Nat → Nat)
    (hmono : ∀ p q, p ≤ q → q < I.length → ownerOf block I p ≤ ownerOf block I q) :
    (∀ (σ : Type) (body : Nat → Nat → Nat → σ → σ) (s : σ),
      donorLoop I block body I.length 0 s =
        (donorRuns I block).foldl (fun acc g => body g.1 g.2.1 g.2.2 acc) s) ∧
    Grouping block I 0 (donorRuns I block) ∧
    ∀ gs, Grouping block I 0 gs → gs = donorRuns I block := by
  have hg : Grouping block I 0 (donorRuns I block) := by
    rw [donorRuns_eq]
    exact runsFrom_grouping I block hmono I.length 0 (Nat.zero_le _) (by omega)
  refine ⟨fun σ body s => ?_, hg, fun gs h => grouping_unique gs _ 0 h hg⟩
  rw [donorRuns_eq]
  exact donorLoop_eq_foldl I block body I.length 0 s

/-- Witness of C18: the owners `2, 2, 2, 5, 5, 7` give exactly the groups `[0..2] -> 2`,
`[3..4] -> 5`, `[5..5] -> 7`. -/
theorem donor_run_grouping_witness :
    (∀ p q, p ≤ q → q < sampleOwnersI.length →
      ownerOf sampleOwners sampleOwnersI p ≤ ownerOf sampleOwners sampleOwnersI q) ∧
    donorRuns sampleOwnersI sampleOwners = [(0, 2, 2), (3, 4, 5), (5, 5, 7)] ∧
    Grouping sampleOwners sampleOwnersI 0 (donorRuns sampleOwnersI sampleOwners) :=
  have hmono : ∀ p q, p ≤ q → q < sampleOwnersI.length →
      ownerOf sampleOwners sampleOwnersI p ≤ ownerOf sampleOwners sampleOwnersI q := by
    intro p q h1 h2
    have h3 : q < 6 := h2
    interval_cases q <;> interval_cases p <;> decide
  ⟨hmono, by decide, (donor_run_grouping sampleOwnersI sampleOwners hmono).2.1⟩

end GroupingClaim

/-! ## The run of the call, block by block -/

section AssemblyIndep

variable {R : Type} [CommRing R]

theorem assembleUpper_fst_indep (n : Nat) (bdd butd D0 : Nat → R) (ipiv0 ipiv1 : Nat → Nat) :
    (assembleUpperBase n bdd butd D0 ipiv0).1 = (assembleUpperBase n bdd butd D0 ipiv1).1 := by
  funext x
  unfold assembleUpperBase
  rw [(assembleUpper_inv n bdd butd D0 ipiv0 n le_rfl).2.2.2 x,
    (assembleUpper_inv n bdd butd D0 ipiv1 n le_rfl).2.2.2 x]

end AssemblyIndep

section RunLemmas

variable {R : Type} [Field R] [DecidableEq R]

theorem dgetri_status_ipiv (n : Nat) (a : Nat → R) (lda : Nat) (ipiv ipiv2 : Nat → Nat)
    (lwork : Nat) : (dgetri n a lda ipiv lwork).1 = (dgetri n a lda ipiv2 lwork).1 := by
  unfold dgetri
  split_ifs
  · rfl
  · rfl
  · cases (List.range n).find? (fun j => decide (a (j + lda * j) = 0)) <;> rfl

/-- The status of the call of `dgetri_` in a pass does not depend on the state. -/
theorem status_eq (n : Nat) (BLk : Block R) (BDk : DiagBlock R) (BUTk : Block R)
    (ipiv0 : Nat → Nat) :
    (dgetri BUTk.J.length
      (assembleLowerBase BUTk.J.length BLk.D
        (assembleUpperBase BUTk.J.length BDk.D BUTk.D (fun _ => 0) ipiv0).1)
      BUTk.J.length (assembleUpperBase BUTk.J.length BDk.D BUTk.D (fun _ => 0) ipiv0).2.1
      n).1 = statusOf n BLk BDk BUTk := by
  unfold statusOf
  rw [assembleUpper_fst_indep BUTk.J.length BDk.D BUTk.D (fun _ => 0) ipiv0 (fun _ => 0)]
  exact dgetri_status_ipiv _ _ _ _ _ _

end RunLemmas

section RunInversion

variable {R : Type} [Field R] [DecidableEq R]

/-- What a pass of the main loop that ends without an error has checked and written. -/
theorem processBlock_inv (n k : Nat) (block : Nat → Nat) (BLk : Block R) (BDk : DiagBlock R)
    (BUTk : Block R) (st st1 : State R)
    (h : processBlock n k block BLk BDk BUTk st = Except.ok st1) :
    (BLk.Dn = BLk.J.length ∧ BLk.Dm = BLk.J.length ∧ BLk.Dnumeric = true) ∧
    (BDk.Dn = BLk.J.length ∧ BDk.Dm = BLk.J.length ∧ BDk.Dsparse = true) ∧
    (BUTk.Dn = BUTk.J.length ∧ BUTk.Dm = BUTk.J.length ∧ BUTk.Dnumeric = true) ∧
    statusOf n BLk BDk BUTk = 0 ∧
    (∀ k2, k2 ≠ k → st1.BLinv k2 = st.BLinv k2 ∧ st1.BDinv k2 = st.BDinv k2 ∧
      st1.BUTinv k2 = st.BUTinv k2) ∧
    st1.Dbuff = extractDiag BUTk.J.length (st.sumn - BUTk.J.length) (st1.BDinv k).D st.Dbuff ∧
    st1.sumn = st.sumn - BUTk.J.length ∧
    ((st1.BLinv k).J = memcpyIdx BLk.J BUTk.J.length ∧
      (st1.BLinv k).I = memcpyIdx BLk.I BLk.I.length ∧
      (st1.BLinv k).Lm = BLk.I.length ∧ (st1.BLinv k).Ln = BUTk.J.length ∧
      (st1.BLinv k).Dm = BUTk.J.length ∧ (st1.BLinv k).Dn = BUTk.J.length ∧
      (st1.BLinv k).Dnz = 0) ∧
    ((st1.BUTinv k).J = memcpyIdx BUTk.J BUTk.J.length ∧
      (st1.BUTinv k).I = memcpyIdx BUTk.I BUTk.I.length ∧
      (st1.BUTinv k).Lm = BUTk.I.length ∧ (st1.BUTinv k).Ln = BUTk.J.length ∧
      (st1.BUTinv k).Dm = BUTk.J.length ∧ (st1.BUTinv k).Dn = BUTk.J.length ∧
      (st1.BUTinv k).Dnz = 0) ∧
    ((st1.BDinv k).J = memcpyIdx BLk.J BUTk.J.length ∧ (st1.BDinv k).Dm = BUTk.J.length ∧
      (st1.BDinv k).Dn = BUTk.J.length) := by
  have hs := status_eq n BLk BDk BUTk st.ipiv
  unfold processBlock at h
  simp only [assembleUpperRec_eq, assembleLowerRec_eq, hs] at h
  split_ifs at h with c1 c2 c3 c4 c5
  all_goals
    have e := Except.ok.inj h
    subst e
    refine ⟨by simpa using c1, by simpa using c2, by simpa using c3, by omega, ?_, ?_, rfl,
      ?_, ?_, ?_⟩
    · intro k2 hk2
      simp only [Function.update_noteq hk2]
      exact ⟨trivial, trivial, trivial⟩
    · simp only [Function.update_same]
    · simp only [Function.update_same]
      exact ⟨trivial, trivial, trivial, trivial, trivial, trivial, trivial⟩
    · simp only [Function.update_same]
      exact ⟨trivial, trivial, trivial, trivial, trivial, trivial, trivial⟩
    · simp only [Function.update_same]
      exact ⟨trivial, trivial, trivial⟩

/-- What a base case that ends without an error has checked and written. -/
theorem baseCase_inv (n k : Nat) (BLk : Block R) (BDk : DiagBlock R) (BUTk : Block R)
    (st st1 : State R) (h : baseCase n k BLk BDk BUTk st = Except.ok st1) :
    (BLk.Dn = BLk.J.length ∧ BLk.Dm = BLk.J.length ∧ BLk.Dnumeric = true) ∧
    (BDk.Dn = BLk.J.length ∧ BDk.Dm = BLk.J.length ∧ BDk.Dsparse = true) ∧
    (BUTk.Dn = BUTk.J.length ∧ BUTk.Dm = BUTk.J.length ∧ BUTk.Dnumeric = true) ∧
    statusOf n BLk BDk BUTk = 0 ∧
    (∀ k2, k2 ≠ k → st1.BLinv k2 = st.BLinv k2 ∧ st1.BDinv k2 = st.BDinv k2 ∧
      st1.BUTinv k2 = st.BUTinv k2) ∧
    st1.Dbuff = extractDiag BUTk.J.length (n - BUTk.J.length) (st1.BDinv k).D st.Dbuff ∧
    st1.sumn = n - BUTk.J.length ∧
    ((st1.BLinv k).J = memcpyIdx BLk.J BUTk.J.length ∧ (st1.BLinv k).I = [] ∧
      (st1.BLinv k).Lm = 0 ∧ (st1.BLinv k).Ln = BUTk.J.length ∧
      (st1.BLinv k).Dm = BUTk.J.length ∧ (st1.BLinv k).Dn = BUTk.J.length ∧
      (st1.BLinv k).Dnz = 0) ∧
    ((st1.BUTinv k).J = memcpyIdx BUTk.J BUTk.J.length ∧ (st1.BUTinv k).I = [] ∧
      (st1.BUTinv k).Lm = 0 ∧ (st1.BUTinv k).Ln = BUTk.J.length ∧
      (st1.BUTinv k).Dm = BUTk.J.length ∧ (st1.BUTinv k).Dn = BUTk.J.length ∧
      (st1.BUTinv k).Dnz = 0) ∧
    ((st1.BDinv k).J = memcpyIdx BLk.J BUTk.J.length ∧ (st1.BDinv k).Dm = BUTk.J.length ∧
      (st1.BDinv k).Dn = BUTk.J.length) := by
  have hs := status_eq n BLk BDk BUTk st.ipiv
  unfold baseCase at h
  simp only [hs] at h
  split_ifs at h with c1 c2 c3 c4 c5
  have e := Except.ok.inj h
  subst e
  refine ⟨?_, ?_, ?_, by omega, ?_, ?_, rfl, ?_, ?_, ?_⟩
  · simpa using c1
  · simpa using c2
  · simpa using c3
  · intro k2 hk2
    simp only [Function.update_noteq hk2]
    exact ⟨trivial, trivial, trivial⟩
  · simp only [Function.update_same]
  · simp only [Function.update_same]
    exact ⟨trivial, trivial, trivial, trivial, trivial, trivial, trivial⟩
  · simp only [Function.update_same]
    exact ⟨trivial, trivial, trivial, trivial, trivial, trivial, trivial⟩
  · simp only [Function.update_same]
    exact ⟨trivial, trivial, trivial⟩

end RunInversion

section RunSteps

variable {R : Type} [Field R] [DecidableEq R]

/-- A pass on a block that passes the checks ends as the status of `dgetri_` says. -/
theorem processBlock_status (n k : Nat) (block : Nat → Nat) (BLk : Block R) (BDk : DiagBlock R)
    (BUTk : Block R) (st : State R)
    (h1 : BLk.Dn = BLk.J.length ∧ BLk.Dm = BLk.J.length ∧ BLk.Dnumeric = true)
    (h2 : BDk.Dn = BLk.J.length ∧ BDk.Dm = BLk.J.length ∧ BDk.Dsparse = true)
    (h3 : BUTk.Dn = BUTk.J.length ∧ BUTk.Dm = BUTk.J.length ∧ BUTk.Dnumeric = true) :
    (statusOf n BLk BDk BUTk ≠ 0 →
      processBlock n k block BLk BDk BUTk st =
        Except.error (statusErr k (statusOf n BLk BDk BUTk))) ∧
    (statusOf n BLk BDk BUTk = 0 → ∃ st1, processBlock n k block BLk BDk BUTk st = Except.ok st1) := by
  have hs := status_eq n BLk BDk BUTk st.ipiv
  unfold processBlock
  rw [if_neg (by simp [h1.1, h1.2.1, h1.2.2]), if_neg (by simp [h2.1, h2.2.1, h2.2.2]),
    if_neg (by simp [h3.1, h3.2.1, h3.2.2])]
  simp only [assembleUpperRec_eq, assembleLowerRec_eq, hs]
  constructor
  · intro hne
    unfold statusErr
    by_cases hlt : statusOf n BLk BDk BUTk < 0
    · rw [if_pos hlt, if_pos hlt]
    · rw [if_neg hlt, if_neg hlt, if_pos (by omega)]
  · intro h0
    rw [h0]
    exact ⟨_, rfl⟩

/-- A base case on a block that passes the checks ends as the status of `dgetri_` says. -/
theorem baseCase_status (n k : Nat) (BLk : Block R) (BDk : DiagBlock R) (BUTk : Block R)
    (st : State R)
    (h1 : BLk.Dn = BLk.J.length ∧ BLk.Dm = BLk.J.length ∧ BLk.Dnumeric = true)
    (h2 : BDk.Dn = BLk.J.length ∧ BDk.Dm = BLk.J.length ∧ BDk.Dsparse = true)
    (h3 : BUTk.Dn = BUTk.J.length ∧ BUTk.Dm = BUTk.J.length ∧ BUTk.Dnumeric = true) :
    (statusOf n BLk BDk BUTk ≠ 0 →
      baseCase n k BLk BDk BUTk st = Except.error (statusErr k (statusOf n BLk BDk BUTk))) ∧
    (statusOf n BLk BDk BUTk = 0 → ∃ st1, baseCase n k BLk BDk BUTk st = Except.ok st1) := by
  have hs := status_eq n BLk BDk BUTk st.ipiv
  unfold baseCase
  rw [if_neg (by simp [h1.1, h1.2.1, h1.2.2]), if_neg (by simp [h2.1, h2.2.1, h2.2.2]),
    if_neg (by simp [h3.1, h3.2.1, h3.2.2])]
  simp only [hs]
  constructor
  · intro hne
    unfold statusErr
    by_cases hlt : statusOf n BLk BDk BUTk < 0
    · rw [if_pos hlt, if_pos hlt]
    · rw [if_neg hlt, if_neg hlt, if_pos (by omega)]
  · intro h0
    rw [h0]
    exact ⟨_, rfl⟩

/-- A pass on a block that does not pass the checks ends with the error of the first
check that fails. -/
theorem processBlock_bad (n k : Nat) (block : Nat → Nat) (BLk : Block R) (BDk : DiagBlock R)
    (BUTk : Block R) (st : State R)
    (h : ¬ ((BLk.Dn = BLk.J.length ∧ BLk.Dm = BLk.J.length ∧ BLk.Dnumeric = true) ∧
      (BDk.Dn = BLk.J.length ∧ BDk.Dm = BLk.J.length ∧ BDk.Dsparse = true) ∧
      (BUTk.Dn = BUTk.J.length ∧ BUTk.Dm = BUTk.J.length ∧ BUTk.Dnumeric = true))) :
    processBlock n k block BLk BDk BUTk st = Except.error (Err.shapeBLD k) ∨
    processBlock n k block BLk BDk BUTk st = Except.error (Err.shapeBDD k) ∨
    processBlock n k block BLk BDk BUTk st = Except.error (Err.shapeBUTD k) := by
  unfold processBlock
  by_cases c1 : BLk.Dn ≠ BLk.J.length ∨ BLk.Dm ≠ BLk.J.length ∨ BLk.Dnumeric = false
  · left
    rw [if_pos c1]
  · rw [if_neg c1]
    by_cases c2 : BDk.Dn ≠ BLk.J.length ∨ BDk.Dm ≠ BLk.J.length ∨ BDk.Dsparse = false
    · right; left
      rw [if_pos c2]
    · rw [if_neg c2]
      by_cases c3 : BUTk.Dn ≠ BUTk.J.length ∨ BUTk.Dm ≠ BUTk.J.length ∨ BUTk.Dnumeric = false
      · right; right
        rw [if_pos c3]
      · exfalso
        apply h
        refine ⟨?_, ?_, ?_⟩
        · simpa using c1
        · simpa using c2
        · simpa using c3

/-- A base case on a block that does not pass the checks ends with the error of the
first check that fails. -/
theorem baseCase_bad (n k : Nat) (BLk : Block R) (BDk : DiagBlock R) (BUTk : Block R)
    (st : State R)
    (h : ¬ ((BLk.Dn = BLk.J.length ∧ BLk.Dm = BLk.J.length ∧ BLk.Dnumeric = true) ∧
      (BDk.Dn = BLk.J.length ∧ BDk.Dm = BLk.J.length ∧ BDk.Dsparse = true) ∧
      (BUTk.Dn = BUTk.J.length ∧ BUTk.Dm = BUTk.J.length ∧ BUTk.Dnumeric = true))) :
    baseCase n k BLk BDk BUTk st = Except.error (Err.shapeBLD k) ∨
    baseCase n k BLk BDk BUTk st = Except.error (Err.shapeBDD k) ∨
    baseCase n k BLk BDk BUTk st = Except.error (Err.shapeBUTD k) := by
  unfold baseCase
  by_cases c1 : BLk.Dn ≠ BLk.J.length ∨ BLk.Dm ≠ BLk.J.length ∨ BLk.Dnumeric = false
  · left
    rw [if_pos c1]
  · rw [if_neg c1]
    by_cases c2 : BDk.Dn ≠ BLk.J.length ∨ BDk.Dm ≠ BLk.J.length ∨ BDk.Dsparse = false
    · right; left
      rw [if_pos c2]
    · rw [if_neg c2]
      by_cases c3 : BUTk.Dn ≠ BUTk.J.length ∨ BUTk.Dm ≠ BUTk.J.length ∨ BUTk.Dnumeric = false
      · right; right
        rw [if_pos c3]
      · exfalso
        apply h
        refine ⟨?_, ?_, ?_⟩
        · simpa using c1
        · simpa using c2
        · simpa using c3

theorem mainLoop_succ (n : Nat) (block : Nat → Nat) (inp : Input R) (K : Nat) (st : State R) :
    mainLoop n block inp (K + 1) st =
      match processBlock n K block (cellBL inp K) (cellBD inp K) (cellBUT inp K) st with
      | Except.error e => Except.error e
      | Except.ok st1 => mainLoop n block inp K st1 := rfl

/-- The states of a main loop that ends without an error: `tr k` is the state after
the pass for block `k`, and `tr K` the state at the start. -/
theorem mainLoop_trace (n : Nat) (block : Nat → Nat) (inp : Input R) :
    ∀ (K : Nat) (st st2 : State R), mainLoop n block inp K st = Except.ok st2 →
      ∃ tr : Nat → State R, tr K = st ∧ tr 0 = st2 ∧
        ∀ k, k < K →
          processBlock n k block (cellBL inp k) (cellBD inp k) (cellBUT inp k) (tr (k + 1)) =
            Except.ok (tr k) := by
  intro K
  induction K with
  | zero =>
    intro st st2 h
    have e : st = st2 := Except.ok.inj h
    exact ⟨fun _ => st, rfl, e, fun k hk => absurd hk (Nat.not_lt_zero k)⟩
  | succ K ih =>
    intro st st2 h
    rw [mainLoop_succ] at h
    cases hp : processBlock n K block (cellBL inp K) (cellBD inp K) (cellBUT inp K) st with
    | error e =>
      rw [hp] at h
      cases h
    | ok st1 =>
      rw [hp] at h
      obtain ⟨tr, h1, h2, h3⟩ := ih st1 st2 h
      refine ⟨fun k => if k = K + 1 then st else tr k, ?_, ?_, ?_⟩
      · simp
      · simp only [show (0 : Nat) ≠ K + 1 by omega, if_false]
        exact h2
      · intro k hk
        simp only [show k ≠ K + 1 by omega, if_false]
        by_cases hkK : k = K
        · subst hkK
          simp only [if_true]
          rw [h1]
          exact hp
        · simp only [show k + 1 ≠ K + 1 by omega, if_false]
          exact h3 k (by omega)

/-- The states of a call that ends without an error: the argument checks pass,
`tr (nblocks - 1)` is the state after the base case, `tr k` the state after the pass for
block `k`, and the results are read off `tr 0`. -/
theorem selbinv_trace (inp : Input R) (out : Output R) (h : selbinv inp = Except.ok out) :
    inp.BL.length ≠ 0 ∧ inp.BD.length = inp.BL.length ∧ inp.BUT.length = inp.BL.length ∧
    inp.Deltal.length = inp.perm.length ∧ inp.Deltar.length = inp.perm.length ∧
    ∃ tr : Nat → State R,
      baseCase inp.perm.length (inp.BL.length - 1) (cellBL inp (inp.BL.length - 1))
        (cellBD inp (inp.BL.length - 1)) (cellBUT inp (inp.BL.length - 1))
        (initState inp.perm.length) = Except.ok (tr (inp.BL.length - 1)) ∧
      (∀ k, k + 1 < inp.BL.length →
        processBlock inp.perm.length k (buildBlock inp.BL) (cellBL inp k) (cellBD inp k)
          (cellBUT inp k) (tr (k + 1)) = Except.ok (tr k)) ∧
      out.D = rescale inp.perm.length inp.Deltal inp.Deltar (tr 0).Dbuff
        (invPerm inp.perm.length inp.perm (tr 0).ipiv) ∧
      out.nblocks = inp.BL.length ∧ out.BLinv = (tr 0).BLinv ∧ out.BDinv = (tr 0).BDinv ∧
      out.BUTinv = (tr 0).BUTinv := by
  unfold selbinv at h
  split_ifs at h with c1 c2 c3 c4 c5
  refine ⟨c5, by simpa using c1, by simpa using c2, by simpa using c3, by simpa using c4, ?_⟩
  cases hb : baseCase inp.perm.length (inp.BL.length - 1)
      (inp.BL.getD (inp.BL.length - 1) (Block.empty R))
      (inp.BD.getD (inp.BL.length - 1) (DiagBlock.empty R))
      (inp.BUT.getD (inp.BL.length - 1) (Block.empty R)) (initState inp.perm.length) with
  | error e =>
    rw [hb] at h
    cases h
  | ok st0 =>
    rw [hb] at h
    simp only at h
    cases hm : mainLoop inp.perm.length (buildBlock inp.BL) inp (inp.BL.length - 1) st0 with
    | error e =>
      rw [hm] at h
      cases h
    | ok st =>
      rw [hm] at h
      obtain ⟨tr, h1, h2, h3⟩ := mainLoop_trace _ _ _ _ _ _ hm
      have e := Except.ok.inj h
      subst e
      refine ⟨tr, ?_, fun k hk => h3 k (by omega), ?_, rfl, ?_, ?_, ?_⟩
      · rw [h1]
        exact hb
      · rw [h2]
      · rw [h2]
      · rw [h2]
      · rw [h2]

end RunSteps

/-! ## Claims about the argument checks -/

section ArgumentChecks

variable {R : Type} [Field R] [DecidableEq R]

/-- The result of a call whose cell arrays and scaling vectors have matching sizes. -/
theorem selbinv_of_sizes (inp : Input R) (h0 : inp.BL.length ≠ 0)
    (h1 : inp.BD.length = inp.BL.length) (h2 : inp.BUT.length = inp.BL.length)
    (h3 : inp.Deltal.length = inp.perm.length) (h4 : inp.Deltar.length = inp.perm.length) :
    selbinv inp =
      match baseCase inp.perm.length (inp.BL.length - 1) (cellBL inp (inp.BL.length - 1))
          (cellBD inp (inp.BL.length - 1)) (cellBUT inp (inp.BL.length - 1))
          (initState inp.perm.length) with
      | Except.error e => Except.error e
      | Except.ok st0 =>
        match mainLoop inp.perm.length (buildBlock inp.BL) inp (inp.BL.length - 1) st0 with
        | Except.error e => Except.error e
        | Except.ok st =>
          Except.ok
            { D := rescale inp.perm.length inp.Deltal inp.Deltar st.Dbuff
                (invPerm inp.perm.length inp.perm st.ipiv),
              nblocks := inp.BL.length,
              BLinv := st.BLinv, BDinv := st.BDinv, BUTinv := st.BUTinv } := by
  unfold selbinv
  rw [if_neg (by simp [h1]), if_neg (by simp [h2]), if_neg (by simp [h3]),
    if_neg (by simp [h4]), if_neg h0]
  rfl

theorem sampleLong_valid : Valid sampleLong where
  nonempty := by decide
  sizeBD := rfl
  sizeBUT := rfl
  sizeDeltal := rfl
  sizeDeltar := rfl
  shapeBL := by
    intro k hk
    have hk2 : k < 1 := hk
    interval_cases k
    exact ⟨rfl, rfl, rfl⟩
  shapeBD := by
    intro k hk
    have hk2 : k < 1 := hk
    interval_cases k
    exact ⟨rfl, rfl, rfl⟩
  shapeBUT := by
    intro k hk
    have hk2 : k < 1 := hk
    interval_cases k
    exact ⟨rfl, rfl, rfl⟩
  size_pos := by
    intro k hk
    have hk2 : k < 1 := hk
    interval_cases k
    decide
  size_le := by
    intro k hk
    have hk2 : k < 1 := hk
    interval_cases k
    decide
  diag := by
    intro k hk
    have hk2 : k < 1 := hk
    interval_cases k
    intro j _
    show (2 : ℚ) ≠ 0
    norm_num

/-- C27: block-count validation.  A call in which `BD` or `BUT` does not have as many
blocks as `BL` ends with the error of that check, an error of the argument checks;
the outcome is the same for every call with these three block counts, whatever the
blocks and the other arguments hold, so no block has been processed. -/
theorem block_count_validation (inp : Input R)
    (h : inp.BD.length ≠ inp.BL.length ∨ inp.BUT.length ≠ inp.BL.length) :
    (inp.BD.length ≠ inp.BL.length → selbinv inp = Except.error Err.sizeBD) ∧
    (inp.BD.length = inp.BL.length → selbinv inp = Except.error Err.sizeBUT) ∧
    (∃ e, selbinv inp = Except.error e ∧ e.isInvalidInput = true) ∧
    ∀ inp2 : Input R, inp2.BL.length = inp.BL.length → inp2.BD.length = inp.BD.length →
      inp2.BUT.length = inp.BUT.length → selbinv inp2 = selbinv inp := by
  have key : ∀ i : Input R,
      (i.BD.length ≠ i.BL.length → selbinv i = Except.error Err.sizeBD) ∧
      (i.BD.length = i.BL.length → i.BUT.length ≠ i.BL.length →
        selbinv i = Except.error Err.sizeBUT) := by
    intro i
    constructor
    · intro h1
      unfold selbinv
      rw [if_pos h1]
    · intro h1 h2
      unfold selbinv
      rw [if_neg (by simp [h1]), if_pos h2]
  refine ⟨(key inp).1, ?_, ?_, ?_⟩
  · intro h1
    rcases h with h | h
    · exact absurd h1 h
    · exact (key inp).2 h1 h
  · by_cases h1 : inp.BD.length = inp.BL.length
    · rcases h with h | h
      · exact absurd h1 h
      · exact ⟨_, (key inp).2 h1 h, rfl⟩
    · exact ⟨_, (key inp).1 h1, rfl⟩
  · intro inp2 e1 e2 e3
    by_cases h1 : inp.BD.length = inp.BL.length
    · rcases h with h | h
      · exact absurd h1 h
      · rw [(key inp).2 h1 h, (key inp2).2 (by omega) (by omega)]
    · rw [(key inp).1 h1, (key inp2).1 (by omega)]

/-- Witness of C27: the one-block sample without any block in `BD`. -/
theorem block_count_validation_witness :
    sampleNoBD.BD.length ≠ sampleNoBD.BL.length ∧
    selbinv sampleNoBD = Except.error Err.sizeBD :=
  ⟨by decide, (block_count_validation sampleNoBD (Or.inl (by decide))).1 (by decide)⟩

/-- C26, as stated, fails: the blocks of the call hold one index in all,
the vectors `perm`, `Deltal`, `Deltar` have the length `2`, and the call returns a
result `D` of length `2`. -/
theorem vector_length_counterexample :
    totalJ sampleLong = 1 ∧ sampleLong.perm.length = 2 ∧ sampleLong.Deltal.length = 2 ∧
    sampleLong.Deltar.length = 2 ∧
    ∃ out, selbinv sampleLong = Except.ok out ∧ out.D.length = 2 := by
  refine ⟨by decide, by decide, by decide, by decide, ?_⟩
  obtain ⟨out, h, -⟩ := selbinv_cells sampleLong sampleLong_valid
  refine ⟨out, h, ?_⟩
  obtain ⟨-, -, -, -, -, tr, -, -, hD, -⟩ := selbinv_trace sampleLong out h
  rw [hD, rescale_length]
  rfl

/-- C26 (amended): vector-length validation against the length of `perm`.  A call in
which the length of `Deltal` or of `Deltar` differs from `n`, the length of `perm`, ends
with an error of the argument checks and so without a result: the error of the
check on `Deltal` or on `Deltar` when the block counts agree. -/
theorem vector_length_validation (inp : Input R)
    (h : inp.Deltal.length ≠ inp.perm.length ∨ inp.Deltar.length ≠ inp.perm.length) :
    (∃ e, selbinv inp = Except.error e ∧ e.isInvalidInput = true) ∧
    (inp.BD.length = inp.BL.length → inp.BUT.length = inp.BL.length →
      inp.Deltal.length ≠ inp.perm.length → selbinv inp = Except.error Err.sizeDeltal) ∧
    (inp.BD.length = inp.BL.length → inp.BUT.length = inp.BL.length →
      inp.Deltal.length = inp.perm.length → selbinv inp = Except.error Err.sizeDeltar) := by
  have k1 : inp.BD.length = inp.BL.length → inp.BUT.length = inp.BL.length →
      inp.Deltal.length ≠ inp.perm.length → selbinv inp = Except.error Err.sizeDeltal := by
    intro h1 h2 h3
    unfold selbinv
    rw [if_neg (by simp [h1]), if_neg (by simp [h2]), if_pos h3]
  have k2 : inp.BD.length = inp.BL.length → inp.BUT.length = inp.BL.length →
      inp.Deltal.length = inp.perm.length → selbinv inp = Except.error Err.sizeDeltar := by
    intro h1 h2 h3
    rcases h with h | h
    · exact absurd h3 h
    · unfold selbinv
      rw [if_neg (by simp [h1]), if_neg (by simp [h2]), if_neg (by simp [h3]), if_pos h]
  refine ⟨?_, k1, k2⟩
  by_cases h1 : inp.BD.length = inp.BL.length
  · by_cases h2 : inp.BUT.length = inp.BL.length
    · by_cases h3 : inp.Deltal.length = inp.perm.length
      · exact ⟨_, k2 h1 h2 h3, rfl⟩
      · exact ⟨_, k1 h1 h2 h3, rfl⟩
    · refine ⟨Err.sizeBUT, ?_, rfl⟩
      unfold selbinv
      rw [if_neg (by simp [h1]), if_pos h2]
  · refine ⟨Err.sizeBD, ?_, rfl⟩
    unfold selbinv
    rw [if_pos h1]

/-- Witness of C26 (amended): the one-block sample with a vector `Deltal` of length `1`. -/
theorem vector_length_validation_witness :
    sampleShortDeltal.Deltal.length ≠ sampleShortDeltal.perm.length ∧
    selbinv sampleShortDeltal = Except.error Err.sizeDeltal :=
  ⟨by decide,
    (vector_length_validation sampleShortDeltal (Or.inl (by decide))).2.1 (by decide)
      (by decide) (by decide)⟩

end ArgumentChecks

/-! ## How far the run of a call gets -/

section RunOutcome

variable {R : Type} [Field R] [DecidableEq R]

/-- The main loop passes the blocks `k, ..., K - 1` if they pass the checks and
`dgetri_` reports the status `0` for them. -/
theorem mainLoop_skip (inp : Input R) (block : Nat → Nat) (k : Nat) :
    ∀ K, k ≤ K → (∀ i, k ≤ i → i < K → ShapeOK inp i ∧ statusAt inp i = 0) →
      ∀ st : State R, ∃ st2 : State R,
        mainLoop inp.perm.length block inp K st = mainLoop inp.perm.length block inp k st2 := by
  intro K
  induction K with
  | zero =>
    intro hk _ st
    have : k = 0 := by omega
    subst this
    exact ⟨st, rfl⟩
  | succ K ih =>
    intro hk hg st
    by_cases hkK : k = K + 1
    · subst hkK
      exact ⟨st, rfl⟩
    · obtain ⟨⟨h1, h2, h3⟩, h0⟩ := hg K (by omega) (by omega)
      obtain ⟨st1, hp⟩ :=
        (processBlock_status inp.perm.length K block (cellBL inp K) (cellBD inp K)
          (cellBUT inp K) st h1 h2 h3).2 h0
      obtain ⟨st2, h⟩ := ih (by omega) (fun i hi hiK => hg i hi (by omega)) st1
      refine ⟨st2, ?_⟩
      rw [mainLoop_succ, hp]
      exact h

/-- The run of a call with matching sizes reaches block `k` if the blocks after `k`
pass the checks and `dgetri_` reports the status `0` for them; what the pass for block
`k` and the rest of the main loop make of it decides the outcome. -/
theorem selbinv_reach (inp : Input R) (h0 : inp.BL.length ≠ 0)
    (h1 : inp.BD.length = inp.BL.length) (h2 : inp.BUT.length = inp.BL.length)
    (h3 : inp.Deltal.length = inp.perm.length) (h4 : inp.Deltar.length = inp.perm.length)
    (k : Nat) (hk : k < inp.BL.length)
    (hg : ∀ i, k < i → i < inp.BL.length → ShapeOK inp i ∧ statusAt inp i = 0) :
    ∃ stk : State R,
      (∀ e,
        (if k + 1 = inp.BL.length then
            baseCase inp.perm.length k (cellBL inp k) (cellBD inp k) (cellBUT inp k) stk
          else
            processBlock inp.perm.length k (buildBlock inp.BL) (cellBL inp k) (cellBD inp k)
              (cellBUT inp k) stk) = Except.error e →
        selbinv inp = Except.error e) ∧
      (∀ st1,
        (if k + 1 = inp.BL.length then
            baseCase inp.perm.length k (cellBL inp k) (cellBD inp k) (cellBUT inp k) stk
          else
            processBlock inp.perm.length k (buildBlock inp.BL) (cellBL inp k) (cellBD inp k)
              (cellBUT inp k) stk) = Except.ok st1 →
        (∀ e, mainLoop inp.perm.length (buildBlock inp.BL) inp k st1 = Except.error e →
          selbinv inp = Except.error e) ∧
        (∀ st, mainLoop inp.perm.length (buildBlock inp.BL) inp k st1 = Except.ok st →
          ∃ out, selbinv inp = Except.ok out)) := by
  rw [selbinv_of_sizes inp h0 h1 h2 h3 h4]
  by_cases hlast : k + 1 = inp.BL.length
  · have hk2 : inp.BL.length - 1 = k := by omega
    rw [hk2]
    refine ⟨initState inp.perm.length, ?_, ?_⟩
    · intro e he
      rw [if_pos hlast] at he
      rw [he]
    · intro st1 he
      rw [if_pos hlast] at he
      rw [he]
      refine ⟨fun e hm => ?_, fun st hm => ?_⟩
      · simp only [hm]
      · simp only [hm]
        exact ⟨_, rfl⟩
  · obtain ⟨⟨a1, a2, a3⟩, a0⟩ := hg (inp.BL.length - 1) (by omega) (by omega)
    obtain ⟨st0, hb⟩ :=
      (baseCase_status inp.perm.length (inp.BL.length - 1) (cellBL inp (inp.BL.length - 1))
        (cellBD inp (inp.BL.length - 1)) (cellBUT inp (inp.BL.length - 1))
        (initState inp.perm.length) a1 a2 a3).2 a0
    obtain ⟨st2, hs⟩ := mainLoop_skip inp (buildBlock inp.BL) (k + 1) (inp.BL.length - 1)
      (by omega) (fun i hi hiK => hg i (by omega) (by omega)) st0
    rw [hb]
    simp only
    rw [hs, mainLoop_succ]
    refine ⟨st2, ?_, ?_⟩
    · intro e he
      rw [if_neg hlast] at he
      rw [he]
    · intro st1 he
      rw [if_neg hlast] at he
      rw [he]
      refine ⟨fun e hm => ?_, fun st hm => ?_⟩
      · simp only [hm]
      · simp only [hm]
        exact ⟨_, rfl⟩

/-- The last index below `N` at which a property holds, if it holds somewhere. -/
theorem exists_last (P : Nat → Prop) :
    ∀ N, (∃ k, k < N ∧ P k) → ∃ k, k < N ∧ P k ∧ ∀ i, k < i → i < N → ¬ P i := by
  intro N
  induction N with
  | zero =>
    rintro ⟨k, hk, -⟩
    exact absurd hk (Nat.not_lt_zero k)
  | succ N ih =>
    rintro ⟨k, hk, hP⟩
    by_cases hN : P N
    · exact ⟨N, by omega, hN, fun i h1 h2 => by omega⟩
    · have hkN : k ≠ N := fun e => hN (e ▸ hP)
      obtain ⟨k2, hk2, hP2, hl⟩ := ih ⟨k, by omega, hP⟩
      refine ⟨k2, by omega, hP2, fun i h1 h2 => ?_⟩
      by_cases hiN : i = N
      · rw [hiN]
        exact hN
      · exact hl i h1 (by omega)

/-- A call that passes the argument checks and for whose blocks `dgetri_` reports the
status `0` returns a result. -/
theorem run_ok (inp : Input R) (hc : Checked inp)
    (hs : ∀ k, k < inp.BL.length → statusAt inp k = 0) : ∃ out, selbinv inp = Except.ok out := by
  have hnb := hc.nonempty
  obtain ⟨stk, -, h⟩ := selbinv_reach inp hc.nonempty hc.sizeBD hc.sizeBUT hc.sizeDeltal
    hc.sizeDeltar 0 (by omega) (fun i _ hi => ⟨hc.shape i hi, hs i hi⟩)
  obtain ⟨b1, b2, b3⟩ := hc.shape 0 (by omega)
  by_cases hlast : 0 + 1 = inp.BL.length
  · obtain ⟨st1, hb⟩ := (baseCase_status inp.perm.length 0 (cellBL inp 0) (cellBD inp 0)
      (cellBUT inp 0) stk b1 b2 b3).2 (hs 0 (by omega))
    exact (h st1 (by rw [if_pos hlast]; exact hb)).2 st1 rfl
  · obtain ⟨st1, hb⟩ := (processBlock_status inp.perm.length 0 (buildBlock inp.BL)
      (cellBL inp 0) (cellBD inp 0) (cellBUT inp 0) stk b1 b2 b3).2 (hs 0 (by omega))
    exact (h st1 (by rw [if_neg hlast]; exact hb)).2 st1 rfl

/-- A call with matching sizes ends with the failure of `dgetri_` for block `k`, if the
blocks from `k` on pass the checks and `k` is the last block for which `dgetri_` reports a
nonzero status. -/
theorem run_status (inp : Input R) (h0 : inp.BL.length ≠ 0)
    (h1 : inp.BD.length = inp.BL.length) (h2 : inp.BUT.length = inp.BL.length)
    (h3 : inp.Deltal.length = inp.perm.length) (h4 : inp.Deltar.length = inp.perm.length)
    (k : Nat) (hk : k < inp.BL.length) (hshape : ShapeOK inp k)
    (hne : statusAt inp k ≠ 0)
    (hg : ∀ i, k < i → i < inp.BL.length → ShapeOK inp i ∧ statusAt inp i = 0) :
    selbinv inp = Except.error (statusErr k (statusAt inp k)) := by
  obtain ⟨stk, h, -⟩ := selbinv_reach inp h0 h1 h2 h3 h4 k hk hg
  obtain ⟨b1, b2, b3⟩ := hshape
  apply h
  by_cases hlast : k + 1 = inp.BL.length
  · rw [if_pos hlast]
    exact (baseCase_status inp.perm.length k (cellBL inp k) (cellBD inp k)
      (cellBUT inp k) stk b1 b2 b3).1 hne
  · rw [if_neg hlast]
    exact (processBlock_status inp.perm.length k (buildBlock inp.BL)
      (cellBL inp k) (cellBD inp k) (cellBUT inp k) stk b1 b2 b3).1 hne

/-- A call with matching sizes ends with the error of a check on the fields `D` of
block `k`, if that block does not pass them and the blocks after it are inverted. -/
theorem run_bad (inp : Input R) (h0 : inp.BL.length ≠ 0)
    (h1 : inp.BD.length = inp.BL.length) (h2 : inp.BUT.length = inp.BL.length)
    (h3 : inp.Deltal.length = inp.perm.length) (h4 : inp.Deltar.length = inp.perm.length)
    (k : Nat) (hk : k < inp.BL.length) (hbad : ¬ ShapeOK inp k)
    (hg : ∀ i, k < i → i < inp.BL.length → ShapeOK inp i ∧ statusAt inp i = 0) :
    selbinv inp = Except.error (Err.shapeBLD k) ∨ selbinv inp = Except.error (Err.shapeBDD k) ∨
      selbinv inp = Except.error (Err.shapeBUTD k) := by
  obtain ⟨stk, h, -⟩ := selbinv_reach inp h0 h1 h2 h3 h4 k hk hg
  by_cases hlast : k + 1 = inp.BL.length
  · rw [if_pos hlast] at h
    rcases baseCase_bad inp.perm.length k (cellBL inp k) (cellBD inp k) (cellBUT inp k) stk hbad
      with hb | hb | hb
    · exact Or.inl (h _ hb)
    · exact Or.inr (Or.inl (h _ hb))
    · exact Or.inr (Or.inr (h _ hb))
  · rw [if_neg hlast] at h
    rcases processBlock_bad inp.perm.length k (buildBlock inp.BL) (cellBL inp k) (cellBD inp k)
      (cellBUT inp k) stk hbad with hb | hb | hb
    · exact Or.inl (h _ hb)
    · exact Or.inr (Or.inl (h _ hb))
    · exact Or.inr (Or.inr (h _ hb))

/-- Every block of a call that returns a result has passed the checks, and `dgetri_`
has reported the status `0` for it. -/
theorem selbinv_ok_blocks (inp : Input R) (out : Output R) (h : selbinv inp = Except.ok out) :
    ∀ k, k < inp.BL.length → ShapeOK inp k ∧ statusAt inp k = 0 := by
  obtain ⟨h0, -, -, -, -, tr, hb, hp, -⟩ := selbinv_trace inp out h
  intro k hk
  by_cases hlast : k + 1 = inp.BL.length
  · have hk2 : inp.BL.length - 1 = k := by omega
    rw [hk2] at hb
    obtain ⟨a1, a2, a3, a4, -⟩ := baseCase_inv _ _ _ _ _ _ _ hb
    exact ⟨⟨a1, a2, a3⟩, a4⟩
  · obtain ⟨a1, a2, a3, a4, -⟩ := processBlock_inv _ _ _ _ _ _ _ _ (hp k (by omega))
    exact ⟨⟨a1, a2, a3⟩, a4⟩

end RunOutcome

/-! ## The status of `dgetri_` in terms of the block -/

section StatusValue

variable {R : Type} [Field R] [DecidableEq R]

theorem find_congr_on {α : Type} (p q : α → Bool) :
    ∀ l : List α, (∀ x, x ∈ l → p x = q x) → l.find? p = l.find? q := by
  intro l
  induction l with
  | nil => intro _; rfl
  | cons a l ih =>
    intro h
    rw [List.find?_cons, List.find?_cons, h a (List.mem_cons_self a l),
      ih (fun x hx => h x (List.mem_cons_of_mem a hx))]

/-- The status of `dgetri_` for a block: `-3` for a block without columns, `-6` for a
block with more than `n` columns, the 1-based position of the first zero among the
stored entries of `BD{k}.D` if there is one, and `0` otherwise. -/
theorem statusOf_eq (n : Nat) (BLk : Block R) (BDk : DiagBlock R) (BUTk : Block R) :
    statusOf n BLk BDk BUTk =
      if BUTk.J.length = 0 then -3
      else if n < BUTk.J.length then -6
      else
        match (List.range BUTk.J.length).find? (fun j => decide (BDk.D j = 0)) with
        | some j => (j : Int) + 1
        | none => 0 := by
  have hf : (List.range BUTk.J.length).find?
      (fun j => decide (assembleLowerBase BUTk.J.length BLk.D
        (assembleUpperBase BUTk.J.length BDk.D BUTk.D (fun _ => 0) (fun _ => 0)).1
        (j + BUTk.J.length * j) = 0)) =
      (List.range BUTk.J.length).find? (fun j => decide (BDk.D j = 0)) := by
    apply find_congr_on
    intro j hj
    have hj2 := List.mem_range.mp hj
    rw [(assembleBase_entries BUTk.J.length BDk.D BUTk.D BLk.D (fun _ => 0)).1 j j hj2 hj2,
      if_pos rfl]
  unfold statusOf dgetri
  rw [hf]
  by_cases hz : BUTk.J.length = 0
  · rw [if_pos hz, if_pos (by omega)]
  · rw [if_neg hz, if_neg (by omega)]
    by_cases hn : n < BUTk.J.length
    · rw [if_pos hn, if_pos (by omega)]
    · rw [if_neg hn, if_neg (by omega)]
      cases (List.range BUTk.J.length).find? (fun j => decide (BDk.D j = 0)) <;> rfl

end StatusValue

/-! ## Claims about failures -/

section FailureClaims

variable {R : Type} [Field R] [DecidableEq R]

theorem sampleSingular_checked : Checked sampleSingular where
  nonempty := by decide
  sizeBD := rfl
  sizeBUT := rfl
  sizeDeltal := rfl
  sizeDeltar := rfl
  shape := by
    intro k hk
    have hk2 : k < 1 := hk
    interval_cases k
    exact ⟨⟨rfl, rfl, rfl⟩, ⟨rfl, rfl, rfl⟩, ⟨rfl, rfl, rfl⟩⟩

theorem sampleSingular_status : statusAt sampleSingular 0 = 1 := by
  unfold statusAt
  rw [statusOf_eq]
  rfl

theorem sampleBadShape_status : statusAt sampleBadShape 1 = 1 := by
  unfold statusAt
  rw [statusOf_eq]
  rfl

theorem sampleBadOnly_status : statusAt sampleBadOnly 1 = 0 := by
  unfold statusAt
  rw [statusOf_eq]
  have h : (List.range (cellBUT sampleBadOnly 1).J.length).find?
      (fun j => decide ((cellBD sampleBadOnly 1).D j = 0)) = none := by
    rw [List.find?_eq_none]
    intro j hj
    have hj2 : j < 2 := List.mem_range.mp hj
    interval_cases j <;> simp [cellBD, sampleBadOnly, twoBD1]
  rw [h]
  rfl

theorem sampleBadOnly_status0 : statusAt sampleBadOnly 0 = 0 := by
  unfold statusAt
  rw [statusOf_eq]
  have h : (List.range (cellBUT sampleBadOnly 0).J.length).find?
      (fun j => decide ((cellBD sampleBadOnly 0).D j = 0)) = none := by
    rw [List.find?_eq_none]
    intro j hj
    have hj2 : j < 2 := List.mem_range.mp hj
    interval_cases j <;> simp [cellBD, sampleBadOnly, twoBD0]
  rw [h]
  rfl

/-- C24, as stated, fails: `dgetri_` reports the status `0` for both blocks of
the call, and the call ends with a failure all the same: after block 1 has been
inverted, the check of the shape of `BL{0}.D` fails in the main loop. -/
theorem failure_propagation_counterexample :
    (∀ k, k < sampleBadOnly.BL.length → statusAt sampleBadOnly k = 0) ∧
    selbinv sampleBadOnly = Except.error (Err.shapeBLD 0) := by
  constructor
  · intro k hk
    have hk2 : k < 2 := hk
    interval_cases k
    · exact sampleBadOnly_status0
    · exact sampleBadOnly_status
  · obtain ⟨stk, h, -⟩ := selbinv_reach sampleBadOnly (by decide) rfl rfl rfl rfl 0 (by decide)
      (fun i h1 hi => by
        have hi2 : i < 2 := hi
        have hi1 : i = 1 := by omega
        subst hi1
        exact ⟨⟨⟨rfl, rfl, rfl⟩, ⟨rfl, rfl, rfl⟩, ⟨rfl, rfl, rfl⟩⟩, sampleBadOnly_status⟩)
    apply h
    rw [if_neg (by decide)]
    unfold processBlock
    rw [if_pos (Or.inr (Or.inl (by decide)))]

/-- C24 (amended): failure propagation from the inverse primitive.  A call that passes
the argument checks (matching sizes, and the class and shape of every field `D`) ends
with a failure if and only if `dgetri_` reports a nonzero status for some block; the
failure is that of the last such block, the first one that the run reaches: an
illegal argument for a status below `0`, a singular block for a status above `0`; the
call then ends with this error in place of a result, and otherwise it returns a
result. -/
theorem failure_propagation (inp : Input R) (hc : Checked inp) :
    ((∃ e, selbinv inp = Except.error e) ↔ ∃ k, k < inp.BL.length ∧ statusAt inp k ≠ 0) ∧
    (∀ k, k < inp.BL.length → statusAt inp k ≠ 0 →
      (∀ i, k < i → i < inp.BL.length → statusAt inp i = 0) →
      selbinv inp = Except.error (statusErr k (statusAt inp k)) ∧
      statusErr k (statusAt inp k) =
        (if statusAt inp k < 0 then Err.illegalArg k (-statusAt inp k).toNat
          else Err.singular k (statusAt inp k).toNat)) ∧
    ((∀ k, k < inp.BL.length → statusAt inp k = 0) → ∃ out, selbinv inp = Except.ok out) := by
  have hstat : ∀ k, k < inp.BL.length → statusAt inp k ≠ 0 →
      (∀ i, k < i → i < inp.BL.length → statusAt inp i = 0) →
      selbinv inp = Except.error (statusErr k (statusAt inp k)) := by
    intro k hk hne hl
    exact run_status inp hc.nonempty hc.sizeBD hc.sizeBUT hc.sizeDeltal hc.sizeDeltar k hk
      (hc.shape k hk) hne (fun i h1 hi => ⟨hc.shape i hi, hl i h1 hi⟩)
  refine ⟨⟨?_, ?_⟩, fun k hk hne hl => ⟨hstat k hk hne hl, rfl⟩, run_ok inp hc⟩
  · rintro ⟨e, he⟩
    by_contra hno
    obtain ⟨out, ho⟩ := run_ok inp hc (fun k hk => by
      by_contra hne
      exact hno ⟨k, hk, hne⟩)
    rw [ho] at he
    cases he
  · intro hex
    obtain ⟨k, hk, hne, hl⟩ := exists_last (fun k => statusAt inp k ≠ 0) inp.BL.length hex
    exact ⟨_, hstat k hk hne (fun i h1 hi => not_not.mp (hl i h1 hi))⟩

/-- Witness of C24 (amended): the one-block sample with a singular diagonal block ends
with the failure of `dgetri_`, which reports the status `1`. -/
theorem failure_propagation_witness :
    Checked sampleSingular ∧ statusAt sampleSingular 0 = 1 ∧
    selbinv sampleSingular = Except.error (statusErr 0 (statusAt sampleSingular 0)) :=
  ⟨sampleSingular_checked, sampleSingular_status,
    ((failure_propagation sampleSingular sampleSingular_checked).2.1 0 (by decide)
      (by rw [sampleSingular_status]; decide)
      (fun i h1 hi => absurd (show i < 1 from hi) (by omega))).1⟩

theorem sampleBadShape_bad : ¬ ShapeOK sampleBadShape 0 := by
  intro h
  have h2 : (3 : Nat) = 2 := h.1.2.1
  omega

theorem sampleBadOnly_bad : ¬ ShapeOK sampleBadOnly 0 := by
  intro h
  have h2 : (3 : Nat) = 2 := h.1.2.1
  omega

/-- C25, as stated, fails: block 0 of the call has a field `BL{0}.D` of the
wrong shape, and the call ends with the failure of `dgetri_` for block 1, a singular
block, not with an error of the argument checks. -/
theorem invalid_input_counterexample :
    ¬ ShapeOK sampleBadShape 0 ∧
    selbinv sampleBadShape = Except.error (Err.singular 1 1) ∧
    (Err.singular 1 1).isInvalidInput = false := by
  refine ⟨sampleBadShape_bad, ?_, rfl⟩
  have h := run_status sampleBadShape (by decide) rfl rfl rfl rfl 1 (by decide)
    ⟨⟨rfl, rfl, rfl⟩, ⟨rfl, rfl, rfl⟩, ⟨rfl, rfl, rfl⟩⟩
    (by rw [sampleBadShape_status]; decide)
    (fun i h1 hi => absurd (show i < 2 from hi) (by omega))
  rw [sampleBadShape_status] at h
  exact h

/-- C25 (amended): invalid input is reported when the run reaches its block.  A call
in which some block `k` has a field `BL{k}.D`, `BD{k}.D` or `BUT{k}.D` of the wrong shape
or class ends with an error and without a result.  If every block after `k` passes
these checks and is inverted, the error is one of the argument checks, whatever the
blocks before `k` hold, and for matching sizes it is the error of a check of block
`k`.  The blocks after `k` are inverted first: if they pass the checks and `dgetri_`
reports a nonzero status for one of them, the call ends with that failure. -/
theorem invalid_input_reported (inp : Input R) (k : Nat) (hk : k < inp.BL.length)
    (hbad : ¬ ShapeOK inp k) :
    (∃ e, selbinv inp = Except.error e) ∧
    ((∀ i, k < i → i < inp.BL.length → ShapeOK inp i ∧ statusAt inp i = 0) →
      (∃ e, selbinv inp = Except.error e ∧ e.isInvalidInput = true) ∧
      (inp.BD.length = inp.BL.length → inp.BUT.length = inp.BL.length →
        inp.Deltal.length = inp.perm.length → inp.Deltar.length = inp.perm.length →
        selbinv inp = Except.error (Err.shapeBLD k) ∨
        selbinv inp = Except.error (Err.shapeBDD k) ∨
        selbinv inp = Except.error (Err.shapeBUTD k))) ∧
    (inp.BD.length = inp.BL.length → inp.BUT.length = inp.BL.length →
      inp.Deltal.length = inp.perm.length → inp.Deltar.length = inp.perm.length →
      ∀ i, k < i → i < inp.BL.length → ShapeOK inp i → statusAt inp i ≠ 0 →
        (∀ m, i < m → m < inp.BL.length → ShapeOK inp m ∧ statusAt inp m = 0) →
        selbinv inp = Except.error (statusErr i (statusAt inp i))) := by
  have h0 : inp.BL.length ≠ 0 := by omega
  refine ⟨?_, fun hg => ⟨?_, fun h1 h2 h3 h4 => run_bad inp h0 h1 h2 h3 h4 k hk hbad hg⟩,
    fun h1 h2 h3 h4 i _ hi hs hne hl => run_status inp h0 h1 h2 h3 h4 i hi hs hne hl⟩
  · cases h : selbinv inp with
    | error e => exact ⟨e, rfl⟩
    | ok out => exact absurd (selbinv_ok_blocks inp out h k hk).1 hbad
  · by_cases h1 : inp.BD.length = inp.BL.length
    · by_cases h2 : inp.BUT.length = inp.BL.length
      · by_cases h3 : inp.Deltal.length = inp.perm.length
        · by_cases h4 : inp.Deltar.length = inp.perm.length
          · rcases run_bad inp h0 h1 h2 h3 h4 k hk hbad hg with h | h | h
            · exact ⟨_, h, rfl⟩
            · exact ⟨_, h, rfl⟩
            · exact ⟨_, h, rfl⟩
          · refine ⟨Err.sizeDeltar, ?_, rfl⟩
            unfold selbinv
            rw [if_neg (by simp [h1]), if_neg (by simp [h2]), if_neg (by simp [h3]), if_pos h4]
        · refine ⟨Err.sizeDeltal, ?_, rfl⟩
          unfold selbinv
          rw [if_neg (by simp [h1]), if_neg (by simp [h2]), if_pos h3]
      · refine ⟨Err.sizeBUT, ?_, rfl⟩
        unfold selbinv
        rw [if_neg (by simp [h1]), if_pos h2]
    · refine ⟨Err.sizeBD, ?_, rfl⟩
      unfold selbinv
      rw [if_pos h1]

/-- Witness of C25 (amended): block 0 of the call has a field `BL{0}.D` of the wrong
shape, block 1 is inverted, and the call ends with an error of the argument checks. -/
theorem invalid_input_reported_witness :
    ¬ ShapeOK sampleBadOnly 0 ∧
    ∃ e, selbinv sampleBadOnly = Except.error e ∧ e.isInvalidInput = true :=
  ⟨sampleBadOnly_bad,
    ((invalid_input_reported sampleBadOnly 0 (by decide) sampleBadOnly_bad).2.1
      (fun i h1 hi => by
        have hi2 : i < 2 := hi
        have hi1 : i = 1 := by omega
        subst hi1
        exact ⟨⟨⟨rfl, rfl, rfl⟩, ⟨rfl, rfl, rfl⟩, ⟨rfl, rfl, rfl⟩⟩, sampleBadOnly_status⟩)).1⟩

end FailureClaims

/-! ## Claim about the final pass with unit scalings -/

section UnitScalings

variable {R : Type} [Field R] [DecidableEq R]

/-- The positions that the inverse permutation takes on `0..n-1` are `0..n-1` again. -/
theorem invPerm_range (perm : List Nat) (n : Nat) (ipiv : Nat → Nat)
    (h : perm.Perm (List.range' 1 n)) :
    ((List.range n).map (invPerm n perm ipiv)).Perm (List.range n) := by
  rw [List.perm_ext_iff_of_nodup _ (List.nodup_range n)]
  · intro a
    rw [List.mem_map, List.mem_range]
    constructor
    · rintro ⟨g, hg, rfl⟩
      exact (invPerm_inverse perm n ipiv h g (List.mem_range.mp hg)).1
    · intro ha
      have hm := perm_getD_mem h ha
      refine ⟨perm.getD a 0 - 1, List.mem_range.mpr (by omega), invPerm_at perm n ipiv h a ha⟩
  · apply List.Nodup.map_on _ (List.nodup_range n)
    intro x hx y hy hxy
    have h1 := (invPerm_inverse perm n ipiv h x (List.mem_range.mp hx)).2
    have h2 := (invPerm_inverse perm n ipiv h y (List.mem_range.mp hy)).2
    rw [hxy] at h1
    omega

/-- The final pass with unit scalings on any buffer. -/
theorem rescale_unit (n : Nat) (perm : List Nat) (Deltal Deltar : List R) (Dbuff : Nat → R)
    (ipiv : Nat → Nat) (h : perm.Perm (List.range' 1 n))
    (hl : ∀ i, i < n → Deltal.getD i 0 = 1) (hr : ∀ i, i < n → Deltar.getD i 0 = 1) :
    (∀ i, i < n →
      (rescale n Deltal Deltar Dbuff (invPerm n perm ipiv)).getD (perm.getD i 0 - 1) 0 =
        Dbuff i) ∧
    (rescale n Deltal Deltar Dbuff (invPerm n perm ipiv)).Perm ((List.range n).map Dbuff) := by
  constructor
  · intro i hi
    have hm := perm_getD_mem h hi
    rw [rescale_getD _ _ _ _ _ _ (by omega), invPerm_at perm n ipiv h i hi,
      hl _ (by omega), hr _ (by omega), one_mul, mul_one]
  · have he : rescale n Deltal Deltar Dbuff (invPerm n perm ipiv) =
        ((List.range n).map (invPerm n perm ipiv)).map Dbuff := by
      unfold rescale
      rw [List.map_map]
      apply List.map_congr_left
      intro i hi
      have hi2 := List.mem_range.mp hi
      rw [hl i hi2, hr i hi2, one_mul, mul_one]
      rfl
    rw [he]
    exact (invPerm_range perm n ipiv h).map Dbuff

theorem sampleUnitSwapped_valid : Valid sampleUnitSwapped :=
  { nonempty := sampleOne_valid.nonempty
    sizeBD := rfl
    sizeBUT := rfl
    sizeDeltal := rfl
    sizeDeltar := rfl
    shapeBL := sampleOne_valid.shapeBL
    shapeBD := sampleOne_valid.shapeBD
    shapeBUT := sampleOne_valid.shapeBUT
    size_pos := sampleOne_valid.size_pos
    size_le := sampleOne_valid.size_le
    diag := sampleOne_valid.diag }

/-- C21: unit scalings reduce the final pass to a pure permutation.  On a call that
passes the checks of the source, whose `perm` is a permutation of `1..n` and whose
`Deltal` and `Deltar` hold ones, the call returns and `D[perm[i] - 1] = Dbuff[i]` for
every `i` in `0..n-1`, where `Dbuff` is the buffer of the state `st` that the main loop
ends in; `D` is a rearrangement of `Dbuff[0], ..., Dbuff[n-1]`, with the same values the
same number of times. -/
theorem unit_scalings (inp : Input R) (hv : Valid inp)
    (hperm : inp.perm.Perm (List.range' 1 inp.perm.length))
    (hl : ∀ i, i < inp.perm.length → inp.Deltal.getD i 0 = 1)
    (hr : ∀ i, i < inp.perm.length → inp.Deltar.getD i 0 = 1) :
    ∃ out st0 st,
      baseCase inp.perm.length (inp.BL.length - 1) (cellBL inp (inp.BL.length - 1))
        (cellBD inp (inp.BL.length - 1)) (cellBUT inp (inp.BL.length - 1))
        (initState inp.perm.length) = Except.ok st0 ∧
      mainLoop inp.perm.length (buildBlock inp.BL) inp (inp.BL.length - 1) st0 = Except.ok st ∧
      selbinv inp = Except.ok out ∧ out.D.length = inp.perm.length ∧
      (∀ i, i < inp.perm.length → out.D.getD (inp.perm.getD i 0 - 1) 0 = st.Dbuff i) ∧
      out.D.Perm ((List.range inp.perm.length).map st.Dbuff) := by
  have hnb := hv.nonempty
  obtain ⟨st0, hb, -⟩ :=
    baseCase_ok inp.perm.length (inp.BL.length - 1) (cellBL inp (inp.BL.length - 1))
      (cellBD inp (inp.BL.length - 1)) (cellBUT inp (inp.BL.length - 1))
      (initState inp.perm.length)
      (hv.shapeBL _ (by omega)) (hv.shapeBD _ (by omega)) (hv.shapeBUT _ (by omega))
      (hv.size_pos _ (by omega)) (hv.size_le _ (by omega)) (hv.diag _ (by omega))
  obtain ⟨st, hm, -⟩ :=
    mainLoop_ok inp hv (buildBlock inp.BL) (inp.BL.length - 1) (by omega) st0
  obtain ⟨h1, h2⟩ := rescale_unit inp.perm.length inp.perm inp.Deltal inp.Deltar st.Dbuff
    st.ipiv hperm hl hr
  exact ⟨_, st0, st, hb, hm, selbinv_eq inp hv st0 st hb hm, rescale_length _ _ _ _ _, h1, h2⟩

/-- Witness of C21: the one-block sample with the permutation `(2, 1)` and unit
scalings; `D[1] = Dbuff[0]` and `D[0] = Dbuff[1]`. -/
theorem unit_scalings_witness :
    Valid sampleUnitSwapped ∧
    sampleUnitSwapped.perm.Perm (List.range' 1 sampleUnitSwapped.perm.length) ∧
    ∃ out st0 st,
      baseCase sampleUnitSwapped.perm.length (sampleUnitSwapped.BL.length - 1)
        (cellBL sampleUnitSwapped (sampleUnitSwapped.BL.length - 1))
        (cellBD sampleUnitSwapped (sampleUnitSwapped.BL.length - 1))
        (cellBUT sampleUnitSwapped (sampleUnitSwapped.BL.length - 1))
        (initState sampleUnitSwapped.perm.length) = Except.ok st0 ∧
      mainLoop sampleUnitSwapped.perm.length (buildBlock sampleUnitSwapped.BL)
        sampleUnitSwapped (sampleUnitSwapped.BL.length - 1) st0 = Except.ok st ∧
      selbinv sampleUnitSwapped = Except.ok out ∧
      out.D.length = sampleUnitSwapped.perm.length ∧
      (∀ i, i < sampleUnitSwapped.perm.length →
        out.D.getD (sampleUnitSwapped.perm.getD i 0 - 1) 0 = st.Dbuff i) ∧
      out.D.Perm ((List.range sampleUnitSwapped.perm.length).map st.Dbuff) :=
  ⟨sampleUnitSwapped_valid, by decide,
    unit_scalings sampleUnitSwapped sampleUnitSwapped_valid (by decide)
      (fun i hi => by
        have hi2 : i < 2 := hi
        interval_cases i <;> rfl)
      (fun i hi => by
        have hi2 : i < 2 := hi
        interval_cases i <;> rfl)⟩

end UnitScalings

/-! ## The block map -/

section BlockMap

variable {R : Type} [CommRing R]

/-- The inner loop of the scan: the entries `J[e] - 1` get the value `i`. -/
theorem fill_spec (J : List Nat) (i : Nat) (b : Nat → Nat) :
    ∀ m x, forLoop m (fun k b1 => Function.update b1 (J.getD k 0 - 1) i) b x =
      if ∃ k, k < m ∧ J.getD k 0 - 1 = x then i else b x := by
  intro m
  induction m with
  | zero =>
    intro x
    rw [forLoop_zero, if_neg]
    rintro ⟨k, hk, -⟩
    omega
  | succ m ih =>
    intro x
    rw [forLoop_succ]
    by_cases hx : J.getD m 0 - 1 = x
    · rw [hx, Function.update_same, if_pos ⟨m, by omega, hx⟩]
    · rw [Function.update_noteq (fun h => hx h.symm), ih]
      by_cases hex : ∃ k, k < m ∧ J.getD k 0 - 1 = x
      · obtain ⟨k, hk, hk2⟩ := hex
        rw [if_pos ⟨k, hk, hk2⟩, if_pos ⟨k, by omega, hk2⟩]
      · rw [if_neg hex, if_neg]
        rintro ⟨k, hk, hk2⟩
        by_cases hkm : k = m
        · subst hkm
          exact hx hk2
        · exact hex ⟨k, by omega, hk2⟩

/-- The scan after `m` blocks: an entry holds the last block below `m` that writes it,
and `0` if there is none. -/
theorem buildBlock_loop (BL : List (Block R)) (x : Nat) :
    ∀ m,
      (∀ i, i < m → Hits BL i x → (∀ i2, i < i2 → i2 < m → ¬ Hits BL i2 x) →
        forLoop m
          (fun i b => forLoop (BL.getD i (Block.empty R)).J.length
            (fun k b1 => Function.update b1 ((BL.getD i (Block.empty R)).J.getD k 0 - 1) i) b)
          (fun _ => 0) x = i) ∧
      ((∀ i, i < m → ¬ Hits BL i x) →
        forLoop m
          (fun i b => forLoop (BL.getD i (Block.empty R)).J.length
            (fun k b1 => Function.update b1 ((BL.getD i (Block.empty R)).J.getD k 0 - 1) i) b)
          (fun _ => 0) x = 0) := by
  intro m
  induction m with
  | zero =>
    exact ⟨fun i hi => absurd hi (Nat.not_lt_zero i), fun _ => rfl⟩
  | succ m ih =>
    obtain ⟨ih1, ih2⟩ := ih
    constructor
    · intro i hi hh hl
      rw [forLoop_succ, fill_spec]
      by_cases him : i = m
      · subst him
        have hh2 : ∃ k, k < (BL.getD i (Block.empty R)).J.length ∧
            (BL.getD i (Block.empty R)).J.getD k 0 - 1 = x := hh
        rw [if_pos hh2]
      · have hnm : ¬ ∃ k, k < (BL.getD m (Block.empty R)).J.length ∧
            (BL.getD m (Block.empty R)).J.getD k 0 - 1 = x := hl m (by omega) (by omega)
        rw [if_neg hnm]
        exact ih1 i (by omega) hh (fun i2 h1 h2 => hl i2 h1 (by omega))
    · intro hno
      have hnm : ¬ ∃ k, k < (BL.getD m (Block.empty R)).J.length ∧
          (BL.getD m (Block.empty R)).J.getD k 0 - 1 = x := hno m (by omega)
      rw [forLoop_succ, fill_spec, if_neg hnm]
      exact ih2 (fun i hi => hno i (by omega))

/-- The map holds at `x` the last block that writes `x`. -/
theorem buildBlock_last (BL : List (Block R)) (x i : Nat) (hi : i < BL.length)
    (hh : Hits BL i x) (hl : ∀ i2, i < i2 → i2 < BL.length → ¬ Hits BL i2 x) :
    buildBlock BL x = i :=
  (buildBlock_loop BL x BL.length).1 i hi hh hl

/-- The map holds at `x` a block that writes `x`, not before any other block that
writes `x`, if there is one. -/
theorem buildBlock_hit (BL : List (Block R)) (x i : Nat) (hi : i < BL.length)
    (hh : Hits BL i x) :
    i ≤ buildBlock BL x ∧ buildBlock BL x < BL.length ∧ Hits BL (buildBlock BL x) x := by
  obtain ⟨i2, h1, h2, h3⟩ := exists_last (fun k => Hits BL k x) BL.length ⟨i, hi, hh⟩
  have he := buildBlock_last BL x i2 h1 h2 h3
  rw [he]
  refine ⟨?_, h1, h2⟩
  by_contra hlt
  exact h3 i (by omega) hi hh

/-- The arrays `J` of a partition: their entries are in `1..n`, and an entry of one is
no entry of another. -/
theorem partition_facts (BL : List (Block R)) (n : Nat)
    (hpart : (BL.map (fun b => b.J)).flatten.Perm (List.range' 1 n)) :
    (∀ k, k < BL.length → ∀ idx, idx ∈ (BL.getD k (Block.empty R)).J → 1 ≤ idx ∧ idx ≤ n) ∧
    (∀ k k2, k < BL.length → k2 < BL.length → ∀ idx, idx ∈ (BL.getD k (Block.empty R)).J →
      idx ∈ (BL.getD k2 (Block.empty R)).J → k = k2) ∧
    (∀ idx, 1 ≤ idx → idx ≤ n → ∃ k, k < BL.length ∧ idx ∈ (BL.getD k (Block.empty R)).J) := by
  have hmemL : ∀ k, k < BL.length →
      (BL.getD k (Block.empty R)).J ∈ BL.map (fun b => b.J) := by
    intro k hk
    rw [List.getD_eq_getElem _ _ hk]
    exact List.mem_map.mpr ⟨BL[k], List.getElem_mem hk, rfl⟩
  have hnd : (BL.map (fun b => b.J)).flatten.Nodup :=
    hpart.nodup_iff.mpr (List.nodup_range' 1 n)
  have hpw := (List.nodup_flatten.mp hnd).2
  rw [List.pairwise_iff_getElem] at hpw
  have hdis : ∀ k k2, k < k2 → k2 < BL.length → ∀ idx,
      idx ∈ (BL.getD k (Block.empty R)).J → idx ∈ (BL.getD k2 (Block.empty R)).J → False := by
    intro k k2 hlt hk2 idx h1 h2
    have hk : k < BL.length := by omega
    have hd := hpw k k2 (by rw [List.length_map]; exact hk) (by rw [List.length_map]; exact hk2)
      hlt
    rw [List.getElem_map, List.getElem_map] at hd
    rw [List.getD_eq_getElem _ _ hk] at h1
    rw [List.getD_eq_getElem _ _ hk2] at h2
    exact hd h1 h2
  refine ⟨?_, ?_, ?_⟩
  · intro k hk idx hidx
    have hm : idx ∈ (BL.map (fun b => b.J)).flatten :=
      List.mem_flatten.mpr ⟨_, hmemL k hk, hidx⟩
    have hm2 := hpart.subset hm
    rw [List.mem_range'_1] at hm2
    omega
  · intro k k2 hk hk2 idx h1 h2
    rcases Nat.lt_trichotomy k k2 with h | h | h
    · exact absurd h2 (fun h2 => hdis k k2 h hk2 idx h1 h2)
    · exact h
    · exact absurd h1 (fun h1 => hdis k2 k h hk idx h2 h1)
  · intro idx h1 h2
    have hm : idx ∈ (BL.map (fun b => b.J)).flatten :=
      hpart.symm.subset (by rw [List.mem_range'_1]; omega)
    obtain ⟨l, hl, hidx⟩ := List.mem_flatten.mp hm
    obtain ⟨b, hb, rfl⟩ := List.mem_map.mp hl
    obtain ⟨k, hk, rfl⟩ := List.getElem_of_mem hb
    refine ⟨k, hk, ?_⟩
    rw [List.getD_eq_getElem _ _ hk]
    exact hidx

/-- The map of a partition. -/
theorem buildBlock_partition (BL : List (Block R)) (n : Nat)
    (hpart : (BL.map (fun b => b.J)).flatten.Perm (List.range' 1 n)) (k : Nat)
    (hk : k < BL.length) (idx : Nat) (hidx : idx ∈ (BL.getD k (Block.empty R)).J) :
    buildBlock BL (idx - 1) = k := by
  obtain ⟨hr, hd, -⟩ := partition_facts BL n hpart
  have h1 := hr k hk idx hidx
  obtain ⟨e, he, hee⟩ := List.getElem_of_mem hidx
  apply buildBlock_last BL (idx - 1) k hk
  · exact ⟨e, he, by rw [List.getD_eq_getElem _ _ he, hee]⟩
  · rintro i2 hlt hi2 ⟨e2, he2, hee2⟩
    have hm : (BL.getD i2 (Block.empty R)).J.getD e2 0 ∈ (BL.getD i2 (Block.empty R)).J :=
      getD_mem he2
    have h2 := hr i2 hi2 _ hm
    have heq : (BL.getD i2 (Block.empty R)).J.getD e2 0 = idx := by omega
    rw [heq] at hm
    have := hd k i2 hk hi2 idx hidx hm
    omega

end BlockMap

/-! ## Claim about the block map -/

section BlockMapClaim

variable {R : Type} [Field R] [DecidableEq R]

/-- C22: block-ownership map.  If the arrays `BL{k}.J`, `k = 0..nblocks-1`, partition
`1..n` (their concatenation is a rearrangement of `1, ..., n`), the scan leaves
`block[idx - 1] = k` for every `k` and every `idx` in `BL{k}.J`, so that every entry
`block[x]`, `x < n`, is the block whose `J` holds `x + 1`; and every pass of a call that
returns is run with this map, which no pass changes. -/
theorem block_ownership (inp : Input R) (n : Nat)
    (hpart : (inp.BL.map (fun b => b.J)).flatten.Perm (List.range' 1 n)) :
    (∀ k, k < inp.BL.length → ∀ idx, idx ∈ (cellBL inp k).J →
      buildBlock inp.BL (idx - 1) = k) ∧
    (∀ x, x < n → buildBlock inp.BL x < inp.BL.length ∧
      x + 1 ∈ (cellBL inp (buildBlock inp.BL x)).J) ∧
    (∀ out, selbinv inp = Except.ok out →
      ∃ tr : Nat → State R,
        baseCase inp.perm.length (inp.BL.length - 1) (cellBL inp (inp.BL.length - 1))
          (cellBD inp (inp.BL.length - 1)) (cellBUT inp (inp.BL.length - 1))
          (initState inp.perm.length) = Except.ok (tr (inp.BL.length - 1)) ∧
        ∀ k, k + 1 < inp.BL.length →
          processBlock inp.perm.length k (buildBlock inp.BL) (cellBL inp k) (cellBD inp k)
            (cellBUT inp k) (tr (k + 1)) = Except.ok (tr k)) := by
  refine ⟨fun k hk idx hidx => buildBlock_partition inp.BL n hpart k hk idx hidx, ?_, ?_⟩
  · intro x hx
    obtain ⟨k, hk, hmem⟩ := (partition_facts inp.BL n hpart).2.2 (x + 1) (by omega) (by omega)
    have he := buildBlock_partition inp.BL n hpart k hk (x + 1) hmem
    rw [Nat.add_sub_cancel] at he
    rw [he]
    exact ⟨hk, hmem⟩
  · intro out hout
    obtain ⟨-, -, -, -, -, tr, hb, hp, -⟩ := selbinv_trace inp out hout
    exact ⟨tr, hb, hp⟩

/-- Witness of C22: the two-block sample with `J = (1, 2)` and `J = (3, 4)`; the map is
`0, 0, 1, 1`. -/
theorem block_ownership_witness :
    (sampleTwo.BL.map (fun b => b.J)).flatten.Perm (List.range' 1 4) ∧
    (∀ k, k < sampleTwo.BL.length → ∀ idx, idx ∈ (cellBL sampleTwo k).J →
      buildBlock sampleTwo.BL (idx - 1) = k) ∧
    (List.range 4).map (buildBlock sampleTwo.BL) = [0, 0, 1, 1] :=
  ⟨by decide, (block_ownership sampleTwo 4 (by decide)).1, by
    simp [buildBlock, sampleTwo, twoBL0, twoBL1, forLoop, Function.update, List.range,
      List.range.loop]⟩

end BlockMapClaim

/-! ## The cells of the result -/

section Cells

variable {R : Type} [Field R] [DecidableEq R]

theorem memcpyIdx_self (src : List Nat) : memcpyIdx src src.length = src := by
  unfold memcpyIdx
  apply List.ext_getElem
  · rw [List.length_map, List.length_range]
  · intro i h1 h2
    rw [List.getElem_map, List.getElem_range, List.getD_eq_getElem _ _ h2]

theorem memcpyIdx_length (src : List Nat) (n : Nat) : (memcpyIdx src n).length = n := by
  unfold memcpyIdx
  rw [List.length_map, List.length_range]

/-- A pass of the main loop leaves the cells of the blocks after it as they are: in
the states `tr j` after the passes `j <= k` the cells of block `k` are those of `tr k`. -/
theorem trace_cells (inp : Input R) (n : Nat) (block : Nat → Nat) (tr : Nat → State R)
    (N : Nat)
    (hp : ∀ k, k < N →
      processBlock n k block (cellBL inp k) (cellBD inp k) (cellBUT inp k) (tr (k + 1)) =
        Except.ok (tr k))
    (k : Nat) (hk : k ≤ N) :
    ∀ d, d ≤ k → (tr (k - d)).BLinv k = (tr k).BLinv k ∧
      (tr (k - d)).BDinv k = (tr k).BDinv k ∧ (tr (k - d)).BUTinv k = (tr k).BUTinv k := by
  intro d
  induction d with
  | zero => intro _; exact ⟨rfl, rfl, rfl⟩
  | succ d ih =>
    intro hd
    obtain ⟨a1, a2, a3⟩ := ih (by omega)
    have hpass := hp (k - (d + 1)) (by omega)
    rw [show k - (d + 1) + 1 = k - d by omega] at hpass
    obtain ⟨-, -, -, -, hfr, -⟩ := processBlock_inv _ _ _ _ _ _ _ _ hpass
    obtain ⟨b1, b2, b3⟩ := hfr k (by omega)
    exact ⟨b1.trans a1, b2.trans a2, b3.trans a3⟩

/-- The cells of the states of a trace: the state before the pass for block `k` and
the final state hold, for every block `i > k`, the cells that the pass for block `i`
left behind. -/
theorem trace_final (inp : Input R) (n : Nat) (block : Nat → Nat) (tr : Nat → State R)
    (N : Nat)
    (hp : ∀ k, k < N →
      processBlock n k block (cellBL inp k) (cellBD inp k) (cellBUT inp k) (tr (k + 1)) =
        Except.ok (tr k))
    (i : Nat) (hi : i ≤ N) (j : Nat) (hj : j ≤ i) :
    (tr j).BLinv i = (tr 0).BLinv i ∧ (tr j).BDinv i = (tr 0).BDinv i ∧
      (tr j).BUTinv i = (tr 0).BUTinv i := by
  obtain ⟨a1, a2, a3⟩ := trace_cells inp n block tr N hp i hi (i - j) (by omega)
  obtain ⟨b1, b2, b3⟩ := trace_cells inp n block tr N hp i hi i le_rfl
  rw [show i - (i - j) = j by omega] at a1 a2 a3
  rw [Nat.sub_self] at b1 b2 b3
  exact ⟨a1.trans b1.symm, a2.trans b2.symm, a3.trans b3.symm⟩

/-- The cells of block `k` of a result: what the base case (last block) or the pass
for block `k` has set up. -/
theorem selbinv_cell (inp : Input R) (out : Output R) (h : selbinv inp = Except.ok out)
    (k : Nat) (hk : k < inp.BL.length) :
    ((out.BLinv k).J = memcpyIdx (cellBL inp k).J (cellBUT inp k).J.length ∧
      (out.BLinv k).Ln = (cellBUT inp k).J.length ∧
      (out.BLinv k).Dm = (cellBUT inp k).J.length ∧
      (out.BLinv k).Dn = (cellBUT inp k).J.length ∧ (out.BLinv k).Dnz = 0) ∧
    ((out.BUTinv k).J = memcpyIdx (cellBUT inp k).J (cellBUT inp k).J.length ∧
      (out.BUTinv k).Ln = (cellBUT inp k).J.length ∧
      (out.BUTinv k).Dm = (cellBUT inp k).J.length ∧
      (out.BUTinv k).Dn = (cellBUT inp k).J.length ∧ (out.BUTinv k).Dnz = 0) ∧
    ((out.BDinv k).J = memcpyIdx (cellBL inp k).J (cellBUT inp k).J.length ∧
      (out.BDinv k).Dm = (cellBUT inp k).J.length ∧
      (out.BDinv k).Dn = (cellBUT inp k).J.length) ∧
    (k + 1 = inp.BL.length →
      ((out.BLinv k).I = [] ∧ (out.BLinv k).Lm = 0) ∧
      ((out.BUTinv k).I = [] ∧ (out.BUTinv k).Lm = 0)) ∧
    (k + 1 < inp.BL.length →
      ((out.BLinv k).I = memcpyIdx (cellBL inp k).I (cellBL inp k).I.length ∧
        (out.BLinv k).Lm = (cellBL inp k).I.length) ∧
      ((out.BUTinv k).I = memcpyIdx (cellBUT inp k).I (cellBUT inp k).I.length ∧
        (out.BUTinv k).Lm = (cellBUT inp k).I.length)) := by
  obtain ⟨h0, -, -, -, -, tr, hb, hp, -, -, e1, e2, e3⟩ := selbinv_trace inp out h
  have hp2 : ∀ k, k < inp.BL.length - 1 →
      processBlock inp.perm.length k (buildBlock inp.BL) (cellBL inp k) (cellBD inp k)
        (cellBUT inp k) (tr (k + 1)) = Except.ok (tr k) := fun k hk => hp k (by omega)
  obtain ⟨c1, c2, c3⟩ := trace_final inp _ _ tr (inp.BL.length - 1) hp2 k (by omega) k le_rfl
  rw [e1, e2, e3, ← c1, ← c2, ← c3]
  by_cases hlast : k + 1 = inp.BL.length
  · have hk2 : inp.BL.length - 1 = k := by omega
    rw [hk2] at hb
    obtain ⟨-, -, -, -, -, -, -, ⟨a1, a2, a3, a4, a5, a6, a7⟩, ⟨b1, b2, b3, b4, b5, b6, b7⟩,
      d1, d2, d3⟩ := baseCase_inv _ _ _ _ _ _ _ hb
    exact ⟨⟨a1, a4, a5, a6, a7⟩, ⟨b1, b4, b5, b6, b7⟩, ⟨d1, d2, d3⟩,
      fun _ => ⟨⟨a2, a3⟩, ⟨b2, b3⟩⟩, fun hlt => absurd hlast (by omega)⟩
  · obtain ⟨-, -, -, -, -, -, -, ⟨a1, a2, a3, a4, a5, a6, a7⟩, ⟨b1, b2, b3, b4, b5, b6, b7⟩,
      d1, d2, d3⟩ := processBlock_inv _ _ _ _ _ _ _ _ (hp k (by omega))
    exact ⟨⟨a1, a4, a5, a6, a7⟩, ⟨b1, b4, b5, b6, b7⟩, ⟨d1, d2, d3⟩,
      fun hl => absurd hl hlast, fun _ => ⟨⟨a2, a3⟩, ⟨b2, b3⟩⟩⟩

end Cells

/-! ## Claims about the structure of the result -/

section StructureClaims

variable {R : Type} [Field R] [DecidableEq R]

/-- C28: output structure.  The source asks that `BUT{k}.J` be identical to `BL{k}.J`
(line 684), and `|J|` is their common length.  On a call that returns and whose
`BL{k}.J` and `BUT{k}.J` have the same length for every `k`: the cell arrays have
`nblocks` cells; for every block `k`, `BLinv{k}.J = BL{k}.J`, `BUTinv{k}.J = BUT{k}.J` and
`BDinv{k}.J = BL{k}.J`, the fields `D` of `BLinv{k}` and `BUTinv{k}` are sparse `|J| x |J|`
matrices without stored entries, `BDinv{k}.D` is a dense `|J| x |J|` matrix, and `L` has
`|J|` columns; for every `k < nblocks - 1`, `BLinv{k}.I = BL{k}.I` and
`BUTinv{k}.I = BUT{k}.I`, and `L` has `|I|` rows.  Whatever the lengths are, `BLinv{k}.J`
and `BDinv{k}.J` hold the first `|BUT{k}.J|` entries of `BL{k}.J`. -/
theorem output_structure (inp : Input R) (out : Output R) (hok : selbinv inp = Except.ok out)
    (hJ : ∀ k, k < inp.BL.length → (cellBL inp k).J.length = (cellBUT inp k).J.length) :
    out.nblocks = inp.BL.length ∧
    (∀ k, k < inp.BL.length →
      ((out.BLinv k).J = (cellBL inp k).J ∧ (out.BUTinv k).J = (cellBUT inp k).J ∧
        (out.BDinv k).J = (cellBL inp k).J) ∧
      ((out.BLinv k).Dm = (out.BLinv k).J.length ∧ (out.BLinv k).Dn = (out.BLinv k).J.length ∧
        (out.BLinv k).Dnz = 0) ∧
      ((out.BUTinv k).Dm = (out.BUTinv k).J.length ∧
        (out.BUTinv k).Dn = (out.BUTinv k).J.length ∧ (out.BUTinv k).Dnz = 0) ∧
      ((out.BDinv k).Dm = (out.BDinv k).J.length ∧ (out.BDinv k).Dn = (out.BDinv k).J.length) ∧
      ((out.BLinv k).Lm = (out.BLinv k).I.length ∧ (out.BLinv k).Ln = (out.BLinv k).J.length) ∧
      ((out.BUTinv k).Lm = (out.BUTinv k).I.length ∧
        (out.BUTinv k).Ln = (out.BUTinv k).J.length)) ∧
    (∀ k, k + 1 < inp.BL.length →
      (out.BLinv k).I = (cellBL inp k).I ∧ (out.BUTinv k).I = (cellBUT inp k).I) ∧
    (∀ k, k < inp.BL.length →
      (out.BLinv k).J = memcpyIdx (cellBL inp k).J (cellBUT inp k).J.length ∧
      (out.BDinv k).J = memcpyIdx (cellBL inp k).J (cellBUT inp k).J.length) := by
  obtain ⟨-, -, -, -, -, tr, -, -, -, hnb, -⟩ := selbinv_trace inp out hok
  refine ⟨hnb, ?_, ?_, ?_⟩
  · intro k hk
    obtain ⟨⟨a1, a2, a3, a4, a5⟩, ⟨b1, b2, b3, b4, b5⟩, ⟨d1, d2, d3⟩, hl, hr⟩ :=
      selbinv_cell inp out hok k hk
    have eL : (out.BLinv k).J = (cellBL inp k).J := by
      rw [a1, ← hJ k hk, memcpyIdx_self]
    have eU : (out.BUTinv k).J = (cellBUT inp k).J := by
      rw [b1, memcpyIdx_self]
    have eD : (out.BDinv k).J = (cellBL inp k).J := by
      rw [d1, ← hJ k hk, memcpyIdx_self]
    have hI : (out.BLinv k).Lm = (out.BLinv k).I.length ∧
        (out.BUTinv k).Lm = (out.BUTinv k).I.length := by
      by_cases hlast : k + 1 = inp.BL.length
      · obtain ⟨⟨p1, p2⟩, ⟨q1, q2⟩⟩ := hl hlast
        rw [p1, p2, q1, q2]
        exact ⟨rfl, rfl⟩
      · obtain ⟨⟨p1, p2⟩, ⟨q1, q2⟩⟩ := hr (by omega)
        rw [p1, p2, q1, q2, memcpyIdx_length, memcpyIdx_length]
        exact ⟨rfl, rfl⟩
    refine ⟨⟨eL, eU, eD⟩, ⟨?_, ?_, a5⟩, ⟨?_, ?_, b5⟩, ⟨?_, ?_⟩, ⟨hI.1, ?_⟩, ⟨hI.2, ?_⟩⟩
    · rw [a3, eL, hJ k hk]
    · rw [a4, eL, hJ k hk]
    · rw [b3, eU]
    · rw [b4, eU]
    · rw [d2, eD, hJ k hk]
    · rw [d3, eD, hJ k hk]
    · rw [a2, eL, hJ k hk]
    · rw [b2, eU]
  · intro k hk
    obtain ⟨-, -, -, -, hr⟩ := selbinv_cell inp out hok k (by omega)
    obtain ⟨⟨p1, -⟩, ⟨q1, -⟩⟩ := hr hk
    rw [p1, q1, memcpyIdx_self, memcpyIdx_self]
    exact ⟨rfl, rfl⟩
  · intro k hk
    obtain ⟨⟨a1, -⟩, -, ⟨d1, -⟩, -⟩ := selbinv_cell inp out hok k hk
    exact ⟨a1, d1⟩

/-- Witness of C28: the two-block sample returns a result with `BLinv{0}.J = (1, 2)` and
`BLinv{0}.I = (3)`. -/
theorem output_structure_witness :
    ∃ out, selbinv sampleTwo = Except.ok out ∧ out.nblocks = 2 ∧
      (out.BLinv 0).J = [1, 2] ∧ (out.BLinv 0).I = [3] :=
  (selbinv_cells sampleTwo sampleTwo_valid).elim fun out h =>
    have hs := output_structure sampleTwo out h.1 (fun k hk => by
      have hk2 : k < 2 := hk
      interval_cases k <;> rfl)
    ⟨out, h.1, hs.1, (hs.2.1 0 (by decide)).1.1, (hs.2.2.1 0 (by decide)).1⟩

theorem sampleLastRows_valid : Valid sampleLastRows where
  nonempty := by decide
  sizeBD := rfl
  sizeBUT := rfl
  sizeDeltal := rfl
  sizeDeltar := rfl
  shapeBL := by
    intro k hk
    have hk2 : k < 1 := hk
    interval_cases k
    exact ⟨rfl, rfl, rfl⟩
  shapeBD := by
    intro k hk
    have hk2 : k < 1 := hk
    interval_cases k
    exact ⟨rfl, rfl, rfl⟩
  shapeBUT := by
    intro k hk
    have hk2 : k < 1 := hk
    interval_cases k
    exact ⟨rfl, rfl, rfl⟩
  size_pos := by
    intro k hk
    have hk2 : k < 1 := hk
    interval_cases k
    decide
  size_le := by
    intro k hk
    have hk2 : k < 1 := hk
    interval_cases k
    decide
  diag := by
    intro k hk j hj
    have hk2 : k < 1 := hk
    interval_cases k
    exact getD_two_ne_zero 5 4 (by norm_num) (by norm_num) j hj

/-- C29: the base case has no off-diagonal part.  On a call that returns and whose
last block `k = nblocks - 1` has arrays `BL{k}.J` and `BUT{k}.J` of the same length `|J_k|`,
`BLinv{k}` and `BUTinv{k}` have an `I` of length `0` and an `L` of shape `0 x |J_k|`, and their
`J` are those of `BL{k}` and `BUT{k}`; the base case is the same function of the block
whatever `BL{k}.I`, `BL{k}.L`, `BUT{k}.I` and `BUT{k}.L` hold. -/
theorem base_case_empty (inp : Input R) (out : Output R) (hok : selbinv inp = Except.ok out)
    (hJ : (cellBL inp (inp.BL.length - 1)).J.length =
      (cellBUT inp (inp.BL.length - 1)).J.length) :
    ((out.BLinv (inp.BL.length - 1)).I = [] ∧ (out.BLinv (inp.BL.length - 1)).I.length = 0 ∧
      (out.BLinv (inp.BL.length - 1)).Lm = 0 ∧
      (out.BLinv (inp.BL.length - 1)).Ln = (cellBL inp (inp.BL.length - 1)).J.length ∧
      (out.BLinv (inp.BL.length - 1)).J = (cellBL inp (inp.BL.length - 1)).J) ∧
    ((out.BUTinv (inp.BL.length - 1)).I = [] ∧
      (out.BUTinv (inp.BL.length - 1)).I.length = 0 ∧
      (out.BUTinv (inp.BL.length - 1)).Lm = 0 ∧
      (out.BUTinv (inp.BL.length - 1)).Ln = (cellBUT inp (inp.BL.length - 1)).J.length ∧
      (out.BUTinv (inp.BL.length - 1)).J = (cellBUT inp (inp.BL.length - 1)).J) ∧
    (∀ (n k : Nat) (BLk BUTk : Block R) (BDk : DiagBlock R) (st : State R)
      (I2 I3 : List Nat) (L2 L3 : Nat → R),
      baseCase n k { BLk with I := I2, L := L2 } BDk { BUTk with I := I3, L := L3 } st =
        baseCase n k BLk BDk BUTk st) := by
  obtain ⟨h0, -⟩ := selbinv_trace inp out hok
  obtain ⟨⟨a1, a2, -⟩, ⟨b1, b2, -⟩, -, hl, -⟩ :=
    selbinv_cell inp out hok (inp.BL.length - 1) (by omega)
  obtain ⟨⟨p1, p2⟩, ⟨q1, q2⟩⟩ := hl (by omega)
  refine ⟨⟨p1, by rw [p1]; rfl, p2, by rw [a2, hJ], by rw [a1, ← hJ, memcpyIdx_self]⟩,
    ⟨q1, by rw [q1]; rfl, q2, b2, by rw [b1, memcpyIdx_self]⟩, ?_⟩
  intro n k BLk BUTk BDk st I2 I3 L2 L3
  rfl

/-- Witness of C29: a single block with the row `I = (7)` and the values `9` in `L`; the
result has no row. -/
theorem base_case_empty_witness :
    ∃ out, selbinv sampleLastRows = Except.ok out ∧
      (cellBL sampleLastRows 0).I = [7] ∧ (out.BLinv 0).I = [] ∧ (out.BLinv 0).Lm = 0 ∧
      (out.BLinv 0).Ln = 2 ∧ (out.BLinv 0).J = [1, 2] :=
  (selbinv_cells sampleLastRows sampleLastRows_valid).elim fun out h =>
    have hs := (base_case_empty sampleLastRows out h.1 rfl).1
    ⟨out, h.1, rfl, hs.1, hs.2.2.1, hs.2.2.2.1, hs.2.2.2.2⟩

end StructureClaims

/-! ## The offsets of the diagonal fill -/

section Offsets

/-- A counter that starts at `n - size N` and is lowered by `size k` for
`k = N - 1, ..., 0` is `n` less the sizes from `k` on. -/
theorem sumn_chain (s size : Nat → Nat) (n N : Nat) (hN : s N = n - size N)
    (hstep : ∀ k, k < N → s k = s (k + 1) - size k) :
    ∀ d, d ≤ N → s (N - d) = n - ∑ i ∈ Finset.Ico (N - d) (N + 1), size i := by
  intro d
  induction d with
  | zero =>
    intro _
    rw [Nat.sub_zero, Nat.Ico_succ_singleton, Finset.sum_singleton]
    exact hN
  | succ d ih =>
    intro hd
    rw [hstep (N - (d + 1)) (by omega), show N - (d + 1) + 1 = N - d by omega, ih (by omega),
      Finset.sum_eq_sum_Ico_succ_bot (show N - (d + 1) < N + 1 by omega) size,
      show N - (d + 1) + 1 = N - d by omega]
    omega

/-- The prefix sums of the sizes grow. -/
theorem prefix_mono (size : Nat → Nat) {a b : Nat} (h : a ≤ b) :
    ∑ i ∈ Finset.range a, size i ≤ ∑ i ∈ Finset.range b, size i :=
  Finset.sum_le_sum_of_subset (Finset.range_mono h)

/-- Every position below the sum of the sizes is `start of block k + j` for exactly one
block `k` and one `j` below its size. -/
theorem prefix_partition (size : Nat → Nat) :
    ∀ M x, x < ∑ i ∈ Finset.range M, size i →
      ∃! kj : Nat × Nat, kj.1 < M ∧ kj.2 < size kj.1 ∧
        (∑ i ∈ Finset.range kj.1, size i) + kj.2 = x := by
  intro M
  induction M with
  | zero =>
    intro x hx
    rw [Finset.range_zero, Finset.sum_empty] at hx
    omega
  | succ M ih =>
    intro x hx
    rw [Finset.sum_range_succ] at hx
    by_cases hlt : x < ∑ i ∈ Finset.range M, size i
    · obtain ⟨kj, ⟨h1, h2, h3⟩, hu⟩ := ih x hlt
      refine ⟨kj, ⟨by omega, h2, h3⟩, ?_⟩
      rintro ⟨k2, e2⟩ ⟨g1, g2, g3⟩
      simp only at g1 g2 g3
      by_cases hk2 : k2 = M
      · subst hk2
        omega
      · exact hu (k2, e2) ⟨by omega, g2, g3⟩
    · refine ⟨(M, x - ∑ i ∈ Finset.range M, size i), ⟨by simp, by simp only; omega,
        by simp only; omega⟩, ?_⟩
      rintro ⟨k2, e2⟩ ⟨g1, g2, g3⟩
      simp only at g1 g2 g3
      by_cases hk2 : k2 = M
      · subst hk2
        have : e2 = x - ∑ i ∈ Finset.range k2, size i := by omega
        rw [this]
      · exfalso
        have h1 := prefix_mono size (show k2 + 1 ≤ M by omega)
        rw [Finset.sum_range_succ] at h1
        omega

end Offsets

/-! ## Claim about the diagonal fill -/

section DiagonalFill

variable {R : Type} [Field R] [DecidableEq R]

/-- The sizes and the buffer along a trace: `sumn` after the pass for block `k`, and
what that pass writes. -/
theorem trace_fill (inp : Input R) (tr : Nat → State R)
    (hb : baseCase inp.perm.length (inp.BL.length - 1) (cellBL inp (inp.BL.length - 1))
      (cellBD inp (inp.BL.length - 1)) (cellBUT inp (inp.BL.length - 1))
      (initState inp.perm.length) = Except.ok (tr (inp.BL.length - 1)))
    (hp : ∀ k, k + 1 < inp.BL.length →
      processBlock inp.perm.length k (buildBlock inp.BL) (cellBL inp k) (cellBD inp k)
        (cellBUT inp k) (tr (k + 1)) = Except.ok (tr k)) :
    (∀ k, k < inp.BL.length →
      (tr k).sumn = inp.perm.length -
        ∑ i ∈ Finset.Ico k inp.BL.length, (cellBUT inp i).J.length) ∧
    (∀ k, k < inp.BL.length →
      (tr k).Dbuff = extractDiag (cellBUT inp k).J.length (tr k).sumn ((tr k).BDinv k).D
        (if k + 1 = inp.BL.length then (initState inp.perm.length).Dbuff
          else (tr (k + 1)).Dbuff)) := by
  obtain ⟨-, -, -, -, -, hbD, hbs, -⟩ := baseCase_inv _ _ _ _ _ _ _ hb
  constructor
  · intro k hk
    have hc := sumn_chain (fun k => (tr k).sumn) (fun k => (cellBUT inp k).J.length)
      inp.perm.length (inp.BL.length - 1) hbs
      (fun k hk => by
        obtain ⟨-, -, -, -, -, -, hs, -⟩ := processBlock_inv _ _ _ _ _ _ _ _ (hp k (by omega))
        exact hs)
      (inp.BL.length - 1 - k) (by omega)
    simp only at hc
    rw [show inp.BL.length - 1 - (inp.BL.length - 1 - k) = k by omega,
      show inp.BL.length - 1 + 1 = inp.BL.length by omega] at hc
    exact hc
  · intro k hk
    by_cases hlast : k + 1 = inp.BL.length
    · have hk2 : inp.BL.length - 1 = k := by omega
      rw [hk2] at hbD hbs
      rw [if_pos hlast, hbs]
      exact hbD
    · obtain ⟨-, -, -, -, -, hD, hs, -⟩ := processBlock_inv _ _ _ _ _ _ _ _ (hp k (by omega))
      rw [if_neg hlast, hs]
      exact hD

/-- C23: back-to-front diagonal fill.  On a call that passes the checks of the source
and whose block sizes `|J_k|` (the lengths of the `BUT{k}.J`, the `n_size` of the source) sum
to `n`, the call returns, and with `tr k` the state after block `k` has been processed:
`sumn = n - sum over i >= k of |J_i|`; the pass for block `k` writes the entries
`Dbuff[sumn + j]`, `j < |J_k|`, and no other; from then on `Dbuff[sumn + j]` is the entry
`(j, j)` of the final `BDinv{k}.D`; every position below `n` is `sumn + j` for exactly one
block `k` and one `j < |J_k|`, so every entry of `Dbuff` is written exactly once; and
`sumn = 0` after block `0`. -/
theorem diagonal_fill (inp : Input R) (hv : Valid inp)
    (hsum : ∑ k ∈ Finset.range inp.BL.length, (cellBUT inp k).J.length = inp.perm.length) :
    ∃ (out : Output R) (tr : Nat → State R),
      selbinv inp = Except.ok out ∧
      baseCase inp.perm.length (inp.BL.length - 1) (cellBL inp (inp.BL.length - 1))
        (cellBD inp (inp.BL.length - 1)) (cellBUT inp (inp.BL.length - 1))
        (initState inp.perm.length) = Except.ok (tr (inp.BL.length - 1)) ∧
      (∀ k, k + 1 < inp.BL.length →
        processBlock inp.perm.length k (buildBlock inp.BL) (cellBL inp k) (cellBD inp k)
          (cellBUT inp k) (tr (k + 1)) = Except.ok (tr k)) ∧
      (∀ k, k < inp.BL.length →
        (tr k).sumn = inp.perm.length -
          ∑ i ∈ Finset.Ico k inp.BL.length, (cellBUT inp i).J.length) ∧
      (∀ k, k < inp.BL.length →
        (tr k).Dbuff = extractDiag (cellBUT inp k).J.length (tr k).sumn (out.BDinv k).D
          (if k + 1 = inp.BL.length then (initState inp.perm.length).Dbuff
            else (tr (k + 1)).Dbuff)) ∧
      (∀ k, k < inp.BL.length → ∀ j, j < (cellBUT inp k).J.length → ∀ m, m ≤ k →
        (tr m).Dbuff ((tr k).sumn + j) =
          (out.BDinv k).D (j + (cellBUT inp k).J.length * j)) ∧
      (∀ x, x < inp.perm.length →
        ∃! kj : Nat × Nat, kj.1 < inp.BL.length ∧ kj.2 < (cellBUT inp kj.1).J.length ∧
          (tr kj.1).sumn + kj.2 = x) ∧
      (tr 0).sumn = 0 := by
  obtain ⟨out, hok, -⟩ := selbinv_cells inp hv
  obtain ⟨h0, -, -, -, -, tr, hb, hp, -, -, -, e2, -⟩ := selbinv_trace inp out hok
  obtain ⟨hs, hD⟩ := trace_fill inp tr hb hp
  have hp2 : ∀ k, k < inp.BL.length - 1 →
      processBlock inp.perm.length k (buildBlock inp.BL) (cellBL inp k) (cellBD inp k)
        (cellBUT inp k) (tr (k + 1)) = Except.ok (tr k) := fun k hk => hp k (by omega)
  have hcell : ∀ k, k < inp.BL.length → ((tr k).BDinv k).D = (out.BDinv k).D := by
    intro k hk
    rw [e2, (trace_final inp _ _ tr (inp.BL.length - 1) hp2 k (by omega) k le_rfl).2.1]
  -- with the sizes summing to `n`, `sumn` after block `k` is the sum of the sizes before `k`
  have hpre : ∀ k, k < inp.BL.length →
      (tr k).sumn = ∑ i ∈ Finset.range k, (cellBUT inp i).J.length := by
    intro k hk
    rw [hs k hk]
    have := Finset.sum_range_add_sum_Ico (fun i => (cellBUT inp i).J.length)
      (show k ≤ inp.BL.length by omega)
    simp only at this
    omega
  have hkeep : ∀ k, k < inp.BL.length → ∀ j, j < (cellBUT inp k).J.length → ∀ d, d ≤ k →
      (tr (k - d)).Dbuff ((tr k).sumn + j) = (tr k).Dbuff ((tr k).sumn + j) := by
    intro k hk j hj d
    induction d with
    | zero => intro _; rfl
    | succ d ih =>
      intro hd
      have hm : k - (d + 1) < inp.BL.length := by omega
      rw [hD (k - (d + 1)) hm, if_neg (by omega),
        (extractDiag_spec _ _ _ _).2 _ (Or.inr ?_),
        show k - (d + 1) + 1 = k - d by omega]
      · exact ih (by omega)
      · rw [hpre _ hm, hpre k hk]
        have h1 := prefix_mono (fun i => (cellBUT inp i).J.length)
          (show k - (d + 1) + 1 ≤ k by omega)
        rw [Finset.sum_range_succ] at h1
        simp only at h1
        omega
  refine ⟨out, tr, hok, hb, hp, hs, ?_, ?_, ?_, ?_⟩
  · intro k hk
    rw [← hcell k hk]
    exact hD k hk
  · intro k hk j hj m hm
    have h1 := hkeep k hk j hj (k - m) (by omega)
    rw [show k - (k - m) = m by omega] at h1
    rw [h1, hD k hk, (extractDiag_spec _ _ _ _).1 j hj, hcell k hk]
  · intro x hx
    rw [← hsum] at hx
    obtain ⟨kj, ⟨a1, a2, a3⟩, hu⟩ :=
      prefix_partition (fun i => (cellBUT inp i).J.length) inp.BL.length x hx
    refine ⟨kj, ⟨a1, a2, by rw [hpre _ a1]; exact a3⟩, ?_⟩
    rintro kj2 ⟨b1, b2, b3⟩
    exact hu kj2 ⟨b1, b2, by rw [← hpre _ b1]; exact b3⟩
  · rw [hpre 0 (by omega), Finset.range_zero, Finset.sum_empty]

/-- Witness of C23: the two-block sample with blocks of two columns and `n = 4`. -/
theorem diagonal_fill_witness :
    Valid sampleTwo ∧
    ∑ k ∈ Finset.range sampleTwo.BL.length, (cellBUT sampleTwo k).J.length =
      sampleTwo.perm.length ∧
    ∃ (out : Output ℚ) (tr : Nat → State ℚ),
      selbinv sampleTwo = Except.ok out ∧ (tr 1).sumn = 2 ∧ (tr 0).sumn = 0 ∧
      (tr 0).Dbuff 2 = (out.BDinv 1).D 0 ∧ (tr 0).Dbuff 3 = (out.BDinv 1).D 3 :=
  ⟨sampleTwo_valid, by decide,
    (diagonal_fill sampleTwo sampleTwo_valid (by decide)).elim fun out h =>
      h.elim fun tr h2 =>
        ⟨out, tr, h2.1, h2.2.2.2.1 1 (by decide), h2.2.2.2.2.2.2.2,
          by
            have h3 := h2.2.2.2.2.2.1 1 (by decide) 0 (by decide) 0 (by decide)
            rw [h2.2.2.2.1 1 (by decide)] at h3
            exact h3,
          by
            have h3 := h2.2.2.2.2.2.1 1 (by decide) 1 (by decide) 0 (by decide)
            rw [h2.2.2.2.1 1 (by decide)] at h3
            exact h3⟩⟩

end DiagonalFill

/-! ## Claim about the donors of a pass -/

section DonorOrder

variable {R : Type} [CommRing R]

/-- Every group of the donor scan starts inside the array and is tagged with the
owner of its first entry. -/
theorem runsFrom_tag (I : List Nat) (block : Nat → Nat) :
    ∀ fuel l g, g ∈ runsFrom I block fuel l →
      g.1 < I.length ∧ g.2.2 = block (I.getD g.1 0 - 1) := by
  intro fuel
  induction fuel with
  | zero =>
    intro l g hg
    simp [runsFrom] at hg
  | succ fuel ih =>
    intro l g hg
    unfold runsFrom at hg
    by_cases hl : l < I.length
    · rw [if_pos hl] at hg
      rcases List.mem_cons.mp hg with h | h
      · rw [h]
        exact ⟨hl, rfl⟩
      · exact ih _ g h
    · rw [if_neg hl] at hg
      simp at hg

/-- The owner of an index that lies in the `J` of a block after `k` is a block after
`k`. -/
theorem owner_after (BL : List (Block R)) (k idx : Nat)
    (h : ∃ i, k < i ∧ i < BL.length ∧ idx ∈ (BL.getD i (Block.empty R)).J) :
    k < buildBlock BL (idx - 1) ∧ buildBlock BL (idx - 1) ≤ BL.length - 1 := by
  obtain ⟨i, hki, hi, hmem⟩ := h
  obtain ⟨e, he, hee⟩ := List.getElem_of_mem hmem
  obtain ⟨h1, h2, -⟩ := buildBlock_hit BL (idx - 1) i hi
    ⟨e, he, by rw [List.getD_eq_getElem _ _ he, hee]⟩
  omega

end DonorOrder

section DonorClaim

variable {R : Type} [Field R] [DecidableEq R]

/-- C30: donors are finalized before they are read.  If every entry of `BL{k}.I` and of
`BUT{k}.I`, `k < nblocks - 1`, lies in the array `J` of some block after `k`, then every
donor `i` that the scans of the pass for block `k` look up (the tag of a group of
`BL{k}.I` or of `BUT{k}.I`) satisfies `k < i <= nblocks - 1`, and the scans call their
bodies with these donors and no other; and on a call that returns, with `tr m` the
state after the pass for block `m`, the pass for block `k` starts from `tr (k + 1)`, and
the cells `BLinv{i}`, `BDinv{i}`, `BUTinv{i}` of every block `i` are the same in every
state from `tr i` on, the state in which block `i` was finished: they are the cells of
the result. -/
theorem donors_finalized (inp : Input R)
    (hpre : ∀ k, k + 1 < inp.BL.length → ∀ idx,
      (idx ∈ (cellBL inp k).I ∨ idx ∈ (cellBUT inp k).I) →
        ∃ i, k < i ∧ i < inp.BL.length ∧ idx ∈ (cellBL inp i).J) :
    (∀ k, k + 1 < inp.BL.length → ∀ g,
      (g ∈ donorRuns (cellBL inp k).I (buildBlock inp.BL) ∨
        g ∈ donorRuns (cellBUT inp k).I (buildBlock inp.BL)) →
      k < g.2.2 ∧ g.2.2 ≤ inp.BL.length - 1) ∧
    (∀ k (σ : Type) (body : Nat → Nat → Nat → σ → σ) (s : σ),
      donorLoop (cellBL inp k).I (buildBlock inp.BL) body (cellBL inp k).I.length 0 s =
        (donorRuns (cellBL inp k).I (buildBlock inp.BL)).foldl
          (fun acc g => body g.1 g.2.1 g.2.2 acc) s ∧
      donorLoop (cellBUT inp k).I (buildBlock inp.BL) body (cellBUT inp k).I.length 0 s =
        (donorRuns (cellBUT inp k).I (buildBlock inp.BL)).foldl
          (fun acc g => body g.1 g.2.1 g.2.2 acc) s) ∧
    (∀ out, selbinv inp = Except.ok out →
      ∃ tr : Nat → State R,
        baseCase inp.perm.length (inp.BL.length - 1) (cellBL inp (inp.BL.length - 1))
          (cellBD inp (inp.BL.length - 1)) (cellBUT inp (inp.BL.length - 1))
          (initState inp.perm.length) = Except.ok (tr (inp.BL.length - 1)) ∧
        (∀ k, k + 1 < inp.BL.length →
          processBlock inp.perm.length k (buildBlock inp.BL) (cellBL inp k) (cellBD inp k)
            (cellBUT inp k) (tr (k + 1)) = Except.ok (tr k)) ∧
        (∀ i, i < inp.BL.length → ∀ m, m ≤ i →
          (tr m).BLinv i = (tr i).BLinv i ∧ (tr m).BDinv i = (tr i).BDinv i ∧
          (tr m).BUTinv i = (tr i).BUTinv i ∧
          (tr m).BLinv i = out.BLinv i ∧ (tr m).BDinv i = out.BDinv i ∧
          (tr m).BUTinv i = out.BUTinv i)) := by
  refine ⟨?_, ?_, ?_⟩
  · intro k hk g hg
    rcases hg with hg | hg
    · rw [donorRuns_eq] at hg
      obtain ⟨h1, h2⟩ := runsFrom_tag _ _ _ _ g hg
      rw [h2]
      exact owner_after inp.BL k _ (hpre k hk _ (Or.inl (getD_mem h1)))
    · rw [donorRuns_eq] at hg
      obtain ⟨h1, h2⟩ := runsFrom_tag _ _ _ _ g hg
      rw [h2]
      exact owner_after inp.BL k _ (hpre k hk _ (Or.inr (getD_mem h1)))
  · intro k σ body s
    rw [donorRuns_eq, donorRuns_eq]
    exact ⟨donorLoop_eq_foldl _ _ _ _ _ _, donorLoop_eq_foldl _ _ _ _ _ _⟩
  · intro out hok
    obtain ⟨h0, -, -, -, -, tr, hb, hp, -, -, e1, e2, e3⟩ := selbinv_trace inp out hok
    have hp2 : ∀ k, k < inp.BL.length - 1 →
        processBlock inp.perm.length k (buildBlock inp.BL) (cellBL inp k) (cellBD inp k)
          (cellBUT inp k) (tr (k + 1)) = Except.ok (tr k) := fun k hk => hp k (by omega)
    refine ⟨tr, hb, hp, ?_⟩
    intro i hi m hm
    obtain ⟨a1, a2, a3⟩ := trace_final inp _ _ tr (inp.BL.length - 1) hp2 i (by omega) m hm
    obtain ⟨b1, b2, b3⟩ := trace_final inp _ _ tr (inp.BL.length - 1) hp2 i (by omega) i le_rfl
    rw [e1, e2, e3]
    exact ⟨a1.trans b1.symm, a2.trans b2.symm, a3.trans b3.symm, a1, a2, a3⟩

/-- Witness of C30: in the two-block sample the row `3` of block 0 lies in the `J` of
block 1, and block 1 is the only donor of block 0. -/
theorem donors_finalized_witness :
    (∀ k, k + 1 < sampleTwo.BL.length → ∀ idx,
      (idx ∈ (cellBL sampleTwo k).I ∨ idx ∈ (cellBUT sampleTwo k).I) →
        ∃ i, k < i ∧ i < sampleTwo.BL.length ∧ idx ∈ (cellBL sampleTwo i).J) ∧
    donorRuns (cellBL sampleTwo 0).I (buildBlock sampleTwo.BL) = [(0, 0, 1)] ∧
    ∀ g, (g ∈ donorRuns (cellBL sampleTwo 0).I (buildBlock sampleTwo.BL) ∨
        g ∈ donorRuns (cellBUT sampleTwo 0).I (buildBlock sampleTwo.BL)) →
      0 < g.2.2 ∧ g.2.2 ≤ sampleTwo.BL.length - 1 :=
  have hpre : ∀ k, k + 1 < sampleTwo.BL.length → ∀ idx,
      (idx ∈ (cellBL sampleTwo k).I ∨ idx ∈ (cellBUT sampleTwo k).I) →
        ∃ i, k < i ∧ i < sampleTwo.BL.length ∧ idx ∈ (cellBL sampleTwo i).J := by
    intro k hk idx hidx
    have hk2 : k + 1 < 2 := hk
    have hk0 : k = 0 := by omega
    subst hk0
    have h3 : idx = 3 := by
      rcases hidx with h | h
      · simpa [cellBL, sampleTwo, twoBL0] using h
      · simpa [cellBUT, sampleTwo, twoBUT0] using h
    subst h3
    exact ⟨1, by decide, by decide, by simp [cellBL, sampleTwo, twoBL1]⟩
  ⟨hpre, by
    simp [donorRuns, donorLoop, runEnd, buildBlock, cellBL, sampleTwo, twoBL0, twoBL1, forLoop,
      Function.update],
    (donors_finalized sampleTwo hpre).1 0 (by decide)⟩

end DonorClaim

/-! ## Claims about the groups of the donor scan -/

section ScanClaims

/-- The inner loop has ended once the fuel exceeds the positions left. -/
theorem runEnd_fuel (I : List Nat) (block : Nat → Nat) (i : Nat) :
    ∀ fuel fuel2 j, I.length - j < fuel → I.length - j < fuel2 →
      runEnd I block i fuel j = runEnd I block i fuel2 j := by
  intro fuel
  induction fuel with
  | zero => intro fuel2 j h; omega
  | succ fuel ih =>
    intro fuel2 j h1 h2
    cases fuel2 with
    | zero => omega
    | succ fuel2 =>
      unfold runEnd
      by_cases c1 : j ≥ I.length
      · rw [if_pos c1, if_pos c1]
      · rw [if_neg c1, if_neg c1]
        by_cases c2 : block (I.getD j 0 - 1) > i
        · rw [if_pos c2, if_pos c2]
        · rw [if_neg c2, if_neg c2]
          exact ih fuel2 (j + 1) (by omega) (by omega)

/-- The groups from position `l` on are non-empty, adjacent and end at the last
position. -/
theorem runsFrom_adjacent (I : List Nat) (block : Nat → Nat) :
    ∀ fuel l, l ≤ I.length → I.length - l ≤ fuel →
      Adjacent I l (runsFrom I block fuel l) := by
  intro fuel
  induction fuel with
  | zero =>
    intro l h1 h2
    show l = I.length
    omega
  | succ fuel ih =>
    intro l h1 h2
    unfold runsFrom
    by_cases hl : l < I.length
    · rw [if_pos hl]
      obtain ⟨a1, a2, -⟩ := runEnd_spec I block (block (I.getD l 0 - 1)) l I.length (l + 1)
        (by omega) (by omega) (by omega)
        (fun p h3 h4 => by
          have : p = l := by omega
          subst this
          exact le_rfl)
      have hrest := ih (runEnd I block (block (I.getD l 0 - 1)) I.length (l + 1) + 1)
        (by omega) (by omega)
      have a0 : l ≤ runEnd I block (block (I.getD l 0 - 1)) I.length (l + 1) := by omega
      exact ⟨rfl, a0, a2, hrest⟩
    · rw [if_neg hl]
      show l = I.length
      omega

/-- The outer loop has ended once the fuel reaches the positions left. -/
theorem runsFrom_fuel (I : List Nat) (block : Nat → Nat) :
    ∀ fuel fuel2 l, I.length - l ≤ fuel → I.length - l ≤ fuel2 →
      runsFrom I block fuel l = runsFrom I block fuel2 l := by
  intro fuel
  induction fuel with
  | zero =>
    intro fuel2 l h1 h2
    cases fuel2 with
    | zero => rfl
    | succ fuel2 =>
      unfold runsFrom
      rw [if_neg (by omega)]
  | succ fuel ih =>
    intro fuel2 l h1 h2
    cases fuel2 with
    | zero =>
      unfold runsFrom
      rw [if_neg (by omega)]
    | succ fuel2 =>
      unfold runsFrom
      by_cases hl : l < I.length
      · rw [if_pos hl, if_pos hl]
        obtain ⟨a1, -⟩ := runEnd_spec I block (block (I.getD l 0 - 1)) l I.length (l + 1)
          (by omega) (by omega) (by omega)
          (fun p h3 h4 => by
            have : p = l := by omega
            subst this
            exact le_rfl)
        rw [ih fuel2 _ (by omega) (by omega)]
      · rw [if_neg hl, if_neg hl]

/-- Adjacent groups cover the positions from `l` on, each once and in order. -/
theorem adjacent_cover (I : List Nat) :
    ∀ (gs : List (Nat × Nat × Nat)) (l : Nat), l ≤ I.length → Adjacent I l gs →
      gs.flatMap (fun g => List.range' g.1 (g.2.1 + 1 - g.1)) =
        List.range' l (I.length - l) := by
  intro gs
  induction gs with
  | nil =>
    intro l _ h
    have hl : l = I.length := h
    rw [hl, Nat.sub_self]
    rfl
  | cons g rest ih =>
    intro l hl h
    obtain ⟨h1, h2, h3, h4⟩ := h
    rw [List.flatMap_cons, ih (g.2.1 + 1) (by omega) h4, h1]
    have h5 := List.range'_append_1 l (g.2.1 + 1 - l) (I.length - (g.2.1 + 1))
    rw [show l + (g.2.1 + 1 - l) = g.2.1 + 1 by omega,
      show I.length - (g.2.1 + 1) + (g.2.1 + 1 - l) = I.length - l by omega] at h5
    exact h5

/-- Adjacent groups are no more than the positions they cover. -/
theorem adjacent_length (I : List Nat) :
    ∀ (gs : List (Nat × Nat × Nat)) (l : Nat), l ≤ I.length → Adjacent I l gs →
      gs.length ≤ I.length - l := by
  intro gs
  induction gs with
  | nil => intro l _ _; exact Nat.zero_le _
  | cons g rest ih =>
    intro l hl h
    obtain ⟨h1, h2, h3, h4⟩ := h
    have := ih (g.2.1 + 1) (by omega) h4
    rw [List.length_cons]
    omega

/-- Every group of the scan is tagged with the owner of its first entry, holds no
entry with a larger owner, and is followed by an entry with a larger owner. -/
theorem runsFrom_owner (I : List Nat) (block : Nat → Nat) :
    ∀ fuel l g, g ∈ runsFrom I block fuel l →
      g.2.2 = ownerOf block I g.1 ∧
      (∀ p, g.1 ≤ p → p ≤ g.2.1 → ownerOf block I p ≤ g.2.2) ∧
      (g.2.1 + 1 < I.length → g.2.2 < ownerOf block I (g.2.1 + 1)) := by
  intro fuel
  induction fuel with
  | zero =>
    intro l g hg
    simp [runsFrom] at hg
  | succ fuel ih =>
    intro l g hg
    unfold runsFrom at hg
    by_cases hl : l < I.length
    · rw [if_pos hl] at hg
      rcases List.mem_cons.mp hg with h | h
      · obtain ⟨-, -, a3, a4⟩ := runEnd_spec I block (block (I.getD l 0 - 1)) l I.length
          (l + 1) (by omega) (by omega) (by omega)
          (fun p h3 h4 => by
            have : p = l := by omega
            subst this
            exact le_rfl)
        rw [h]
        exact ⟨rfl, a3, a4⟩
      · exact ih _ g h
    · rw [if_neg hl] at hg
      simp at hg

/-- C39: the donor scan terminates and partitions the index array.  For every index
array `I` of length `m` and every block map: the groups `(l, j, i)` of the scan are
non-empty intervals `l <= j <= m - 1`, the first one starts at `0`, each next one at
`j + 1`, the last one ends at `m - 1`, so that the intervals `l..j` put one after the
other are `0, 1, ..., m - 1`; there are at most `m` groups and none for `m = 0`; and both
loops end: the inner loop gives the same `j`, and the outer loop the same result for
every body, whatever number of iterations from `m` on they are allowed. -/
theorem donor_scan_partition (I : List Nat) (block : Nat → Nat) :
    Adjacent I 0 (donorRuns I block) ∧
    (donorRuns I block).flatMap (fun g => List.range' g.1 (g.2.1 + 1 - g.1)) =
      List.range I.length ∧
    (donorRuns I block).length ≤ I.length ∧
    (I.length = 0 → donorRuns I block = []) ∧
    (∀ (i l fuel : Nat), l < I.length → I.length ≤ fuel →
      runEnd I block i fuel (l + 1) = runEnd I block i I.length (l + 1)) ∧
    (∀ (fuel : Nat), I.length ≤ fuel → ∀ (σ : Type) (body : Nat → Nat → Nat → σ → σ) (s : σ),
      donorLoop I block body fuel 0 s = donorLoop I block body I.length 0 s) := by
  have hadj : Adjacent I 0 (donorRuns I block) := by
    rw [donorRuns_eq]
    exact runsFrom_adjacent I block I.length 0 (Nat.zero_le _) (by omega)
  have hcov := adjacent_cover I (donorRuns I block) 0 (Nat.zero_le _) hadj
  rw [Nat.sub_zero, ← List.range_eq_range'] at hcov
  refine ⟨hadj, hcov, ?_, ?_, ?_, ?_⟩
  · have := adjacent_length I (donorRuns I block) 0 (Nat.zero_le _) hadj
    omega
  · intro h0
    rw [donorRuns_eq, h0]
    rfl
  · intro i l fuel hl hf
    exact runEnd_fuel I block i fuel I.length (l + 1) (by omega) (by omega)
  · intro fuel hf σ body s
    rw [donorLoop_eq_foldl, donorLoop_eq_foldl,
      runsFrom_fuel I block fuel I.length 0 (by omega) (by omega)]

/-- C33, as stated, fails: the owners `5, 2, 5` give the single group `0..2` tagged with
the owner `5`, and the entry at position `1` of this group has the owner `2`. -/
theorem groups_share_owner_counterexample :
    donorRuns sampleMixedI sampleMixed = [(0, 2, 5)] ∧
    ownerOf sampleMixed sampleMixedI 1 = 2 := by
  constructor <;> decide

/-- C33 (amended): groups share one owner.  Every group `(l, j, i)` of the donor scan is
tagged with the owner `i` of its first entry and holds no entry with an owner above
`i` (the cursor advances while the owner of the next entry is not above `i`); if the
owners are non-decreasing along `I`, every entry of the group has the owner `i`. -/
theorem groups_share_owner (I : List Nat) (block : Nat → Nat)
    (hmono : ∀ p q, p ≤ q → q < I.length → ownerOf block I p ≤ ownerOf block I q) :
    ∀ g, g ∈ donorRuns I block →
      g.1 ≤ g.2.1 ∧ g.2.1 < I.length ∧ g.2.2 = ownerOf block I g.1 ∧
      (∀ p, g.1 ≤ p → p ≤ g.2.1 → ownerOf block I p ≤ g.2.2) ∧
      (∀ p, g.1 ≤ p → p ≤ g.2.1 → ownerOf block I p = g.2.2) := by
  intro g hg
  rw [donorRuns_eq] at hg
  obtain ⟨h1, h2, -⟩ := runsFrom_owner I block _ _ g hg
  have hadj := runsFrom_adjacent I block I.length 0 (Nat.zero_le _) (by omega)
  have hmem : ∀ (gs : List (Nat × Nat × Nat)) (l : Nat), Adjacent I l gs → g ∈ gs →
      g.1 ≤ g.2.1 ∧ g.2.1 < I.length := by
    intro gs
    induction gs with
    | nil => intro l _ h; simp at h
    | cons x rest ih =>
      intro l h hx
      obtain ⟨a1, a2, a3, a4⟩ := h
      rcases List.mem_cons.mp hx with e | e
      · rw [e]
        omega
      · exact ih _ a4 e
  obtain ⟨b1, b2⟩ := hmem _ 0 hadj hg
  refine ⟨b1, b2, h1, h2, fun p hp1 hp2 => ?_⟩
  apply le_antisymm (h2 p hp1 hp2)
  rw [h1]
  exact hmono g.1 p hp1 (by omega)

/-- Witness of C33 (amended): the owners `2, 2, 2, 5, 5, 7`; the group `3..4` is tagged
with `5`, the owner of its two entries. -/
theorem groups_share_owner_witness :
    (3, 4, 5) ∈ donorRuns sampleOwnersI sampleOwners ∧
    ownerOf sampleOwners sampleOwnersI 3 = 5 ∧ ownerOf sampleOwners sampleOwnersI 4 = 5 :=
  have hmono : ∀ p q, p ≤ q → q < sampleOwnersI.length →
      ownerOf sampleOwners sampleOwnersI p ≤ ownerOf sampleOwners sampleOwnersI q := by
    intro p q h1 h2
    have h3 : q < 6 := h2
    interval_cases q <;> interval_cases p <;> decide
  have hg : (3, 4, 5) ∈ donorRuns sampleOwnersI sampleOwners := by decide
  ⟨hg, (groups_share_owner sampleOwnersI sampleOwners hmono (3, 4, 5) hg).2.2.2.2 3
      (by decide) (by decide),
    (groups_share_owner sampleOwnersI sampleOwners hmono (3, 4, 5) hg).2.2.2.2 4
      (by decide) (by decide)⟩

end ScanClaims

/-! ## Claim about the two copies of the assembly -/

section AssemblyClaim

variable {R : Type} [Field R] [DecidableEq R]

/-- C34: the base-case and the recursive-case assembly of the diagonal block are the
same function.  For every size `n`, all values of `BD{k}.D`, `BUT{k}.D`, `BL{k}.D`, and
every initial content of the `n x n` buffer and of the pivot vector: the loop bodies
of the two copies agree, the upper part, the pivot vector and the final offsets built
by lines 5128-5148 equal those built by lines 489-509, the complete matrix after the
lower part of lines 5150-5160 equals that after lines 511-521, and `dgetri_` is
handed the same arguments, so that it returns the same inverse and status. -/
theorem assembly_same_function (n : Nat) (bdd butd bld D0 : Nat → R) (ipiv0 : Nat → Nat) :
    (∀ j st, upperStepRec n bdd butd j st = upperStepBase n bdd butd j st) ∧
    (∀ j st, lowerStepRec n bld j st = lowerStepBase n bld j st) ∧
    assembleUpperRec n bdd butd D0 ipiv0 = assembleUpperBase n bdd butd D0 ipiv0 ∧
    assembleLowerRec n bld (assembleUpperRec n bdd butd D0 ipiv0).1 =
      assembleLowerBase n bld (assembleUpperBase n bdd butd D0 ipiv0).1 ∧
    (assembleUpperRec n bdd butd D0 ipiv0).2.1 =
      (assembleUpperBase n bdd butd D0 ipiv0).2.1 ∧
    (∀ lwork,
      dgetri n (assembleLowerRec n bld (assembleUpperRec n bdd butd D0 ipiv0).1) n
          (assembleUpperRec n bdd butd D0 ipiv0).2.1 lwork =
        dgetri n (assembleLowerBase n bld (assembleUpperBase n bdd butd D0 ipiv0).1) n
          (assembleUpperBase n bdd butd D0 ipiv0).2.1 lwork) := by
  refine ⟨fun _ _ => rfl, fun _ _ => rfl, ?_, ?_, ?_, fun _ => ?_⟩
  · rw [assembleUpperRec_eq]
  · rw [assembleUpperRec_eq, assembleLowerRec_eq]
  · rw [assembleUpperRec_eq]
  · rw [assembleUpperRec_eq, assembleLowerRec_eq]

end AssemblyClaim

/-! ## Claim about the shapes that reach the hand-coded loop -/

section FallbackClaim

/-- The buffer count is at most `t * w + t * n_size`. -/
theorem copyCnt_le (is : Isect) (Ji_cont : Int) (l j n_size : Nat) :
    copyCnt is Ji_cont l j n_size ≤ is.t * (j - l + 1) + is.t * n_size := by
  unfold copyCnt
  split_ifs <;> omega

/-- The shapes with `w * n <= w + n`. -/
theorem small_shapes (w n : Nat) (hw : 1 ≤ w) (hn : 1 ≤ n) (h : w * n ≤ w + n) :
    w = 1 ∨ n = 1 ∨ (w = 2 ∧ n = 2) := by
  by_cases h1 : w = 1
  · exact Or.inl h1
  by_cases h2 : n = 1
  · exact Or.inr (Or.inl h2)
  obtain ⟨a, rfl⟩ : ∃ a, w = a + 2 := ⟨w - 2, by omega⟩
  obtain ⟨b, rfl⟩ : ∃ b, n = b + 2 := ⟨n - 2, by omega⟩
  have h3 : (a + 2) * (b + 2) = a * b + 2 * a + 2 * b + 4 := by ring
  rw [h3] at h
  have h4 : 0 ≤ a * b := Nat.zero_le _
  refine Or.inr (Or.inr ⟨?_, ?_⟩) <;> omega

/-- C36: when the hand-coded loop can be chosen.  For `t >= 1`, `w = j - l + 1 >= 1` and
`n_size >= 1` with at least one of the three flags cleared: `copy_cnt >= t * w * n_size`
holds only if `w = 1` (that is `j = l`) or `n_size = 1` or `w = n_size = 2` (that is
`j = l + 1` and `n_size = 2`); the hand-coded loop is entered only for these shapes; for
every other shape the gather-and-multiply branch is entered; and one of these two
branches is entered in any case. -/
theorem scalar_fallback_shapes (is : Isect) (Ji_cont : Int) (l j n_size : Nat)
    (ht : 1 ≤ is.t) (hw : l ≤ j) (hn : 1 ≤ n_size)
    (hflags : is.Ii_cont = 0 ∨ is.Ik_cont = 0 ∨ Ji_cont = 0) :
    (is.t * (j - l + 1) * n_size ≤ copyCnt is Ji_cont l j n_size →
      j = l ∨ n_size = 1 ∨ (j = l + 1 ∧ n_size = 2)) ∧
    (pathOf is Ji_cont l j n_size = Path.scalar →
      j = l ∨ n_size = 1 ∨ (j = l + 1 ∧ n_size = 2)) ∧
    (¬ (j = l ∨ n_size = 1 ∨ (j = l + 1 ∧ n_size = 2)) →
      pathOf is Ji_cont l j n_size = Path.gather) ∧
    (pathOf is Ji_cont l j n_size = Path.scalar ∨
      pathOf is Ji_cont l j n_size = Path.gather) := by
  have hnf : ¬ (is.Ii_cont ≠ 0 ∧ is.Ik_cont ≠ 0 ∧ Ji_cont ≠ 0) := by
    rintro ⟨a, b, c⟩
    rcases hflags with h | h | h
    · exact a h
    · exact b h
    · exact c h
  have hkey : is.t * (j - l + 1) * n_size ≤ copyCnt is Ji_cont l j n_size →
      j = l ∨ n_size = 1 ∨ (j = l + 1 ∧ n_size = 2) := by
    intro h
    have h1 := copyCnt_le is Ji_cont l j n_size
    have h2 : is.t * ((j - l + 1) * n_size) ≤ is.t * ((j - l + 1) + n_size) := by
      have e1 : is.t * ((j - l + 1) * n_size) = is.t * (j - l + 1) * n_size :=
        (Nat.mul_assoc _ _ _).symm
      have e2 : is.t * ((j - l + 1) + n_size) = is.t * (j - l + 1) + is.t * n_size :=
        Nat.mul_add _ _ _
      rw [e1, e2]
      exact le_trans h h1
    rcases small_shapes _ _ (by omega) hn (Nat.le_of_mul_le_mul_left h2 (by omega)) with
      c | c | c
    · exact Or.inl (by omega)
    · exact Or.inr (Or.inl c)
    · exact Or.inr (Or.inr ⟨by omega, c.2⟩)
  have hsc := pathOf_scalar is Ji_cont l j n_size hnf
  have hga := pathOf_gather is Ji_cont l j n_size hnf
  have hcases : is.t * (j - l + 1) * n_size ≤ copyCnt is Ji_cont l j n_size ∨
      copyCnt is Ji_cont l j n_size < is.t * (j - l + 1) * n_size := by omega
  refine ⟨hkey, fun h => hkey (hsc.mp h).2, fun h => ?_, ?_⟩
  · rcases hcases with c | c
    · exact absurd (hkey c) h
    · exact hga.mpr ⟨by omega, c⟩
  · rcases hcases with c | c
    · exact Or.inl (hsc.mpr ⟨by omega, c⟩)
    · exact Or.inr (hga.mpr ⟨by omega, c⟩)

/-- Witness of C36: the rows `1, 3` of the target against the rows `1, 2, 3` of the donor
(`t = 2`, the donor rows not contiguous), a run of `w = 3` entries and `n_size = 2`
columns: the gather-and-multiply branch is entered. -/
theorem scalar_fallback_shapes_witness :
    (intersect [1, 3] [1, 2, 3]).t = 2 ∧ (intersect [1, 3] [1, 2, 3]).Ii_cont = 0 ∧
    pathOf (intersect [1, 3] [1, 2, 3]) (-1) 0 2 2 = Path.gather :=
  ⟨by decide, by decide,
    (scalar_fallback_shapes (intersect [1, 3] [1, 2, 3]) (-1) 0 2 2 (by decide) (by decide)
      (by decide) (Or.inl (by decide))).2.2.1 (by decide)⟩

end FallbackClaim

/-! ## Claim about singular blocks -/

section SingularClaim

variable {R : Type} [Field R] [DecidableEq R]

/-- The first position below `N` at which a test holds. -/
theorem find_range_spec (p : Nat → Bool) :
    ∀ N, (∀ j, (List.range N).find? p = some j ↔
        (j < N ∧ p j = true ∧ ∀ i, i < j → p i = false)) ∧
      ((List.range N).find? p = none ↔ ∀ i, i < N → p i = false) := by
  have hnone : ∀ N, (List.range N).find? p = none ↔ ∀ i, i < N → p i = false := by
    intro N
    rw [List.find?_eq_none]
    constructor
    · intro h i hi
      have := h i (List.mem_range.mpr hi)
      simpa using this
    · intro h i hi
      rw [h i (List.mem_range.mp hi)]
      simp
  intro N
  refine ⟨?_, hnone N⟩
  induction N with
  | zero =>
    intro j
    simp
  | succ N ih =>
    intro j
    rw [List.range_succ, List.find?_append]
    cases hf : (List.range N).find? p with
    | some j0 =>
      obtain ⟨a1, a2, a3⟩ := (ih j0).mp hf
      show some j0 = some j ↔ _
      constructor
      · intro h
        have e : j0 = j := Option.some.inj h
        subst e
        exact ⟨by omega, a2, a3⟩
      · rintro ⟨b1, b2, b3⟩
        have e : j0 = j := by
          rcases Nat.lt_trichotomy j0 j with c | c | c
          · have := b3 j0 c
            rw [a2] at this
            cases this
          · exact c
          · have := a3 j c
            rw [b2] at this
            cases this
        rw [e]
    | none =>
      have hn := (hnone N).mp hf
      show List.find? p [N] = some j ↔ _
      by_cases hp : p N = true
      · rw [List.find?_cons_of_pos _ hp]
        constructor
        · intro h
          have e : N = j := Option.some.inj h
          subst e
          exact ⟨by omega, hp, hn⟩
        · rintro ⟨b1, b2, b3⟩
          have e : N = j := by
            by_contra hne
            have := hn j (by omega)
            rw [b2] at this
            cases this
          rw [e]
      · rw [List.find?_cons_of_neg _ hp]
        constructor
        · intro h
          cases h
        · rintro ⟨b1, b2, b3⟩
          exfalso
          by_cases e : j = N
          · exact hp (e ▸ b2)
          · have := hn j (by omega)
            rw [b2] at this
            cases this

/-- The first index below `N` at which a property holds, if it holds somewhere. -/
theorem exists_first (P : Nat → Prop) (N : Nat) (h : ∃ k, k < N ∧ P k) :
    ∃ k, k < N ∧ P k ∧ ∀ i, i < k → ¬ P i := by
  classical
  obtain ⟨k, hk, hP⟩ := h
  have hex : ∃ k, P k := ⟨k, hP⟩
  refine ⟨Nat.find hex, ?_, Nat.find_spec hex, fun i hi => Nat.find_min hex hi⟩
  exact lt_of_le_of_lt (Nat.find_min' hex hP) hk

/-- The status of `dgetri_` for a block with at least one and at most `n` columns: `0` if
no stored entry of `BD{k}.D` is zero, and `j + 1` for the first zero entry `j`. -/
theorem statusAt_cases (inp : Input R) (k : Nat) (h1 : 1 ≤ (cellBUT inp k).J.length)
    (h2 : (cellBUT inp k).J.length ≤ inp.perm.length) :
    (statusAt inp k = 0 ↔ ∀ j, j < (cellBUT inp k).J.length → (cellBD inp k).D j ≠ 0) ∧
    (∀ j : Nat, statusAt inp k = (j : Int) + 1 ↔
      (j < (cellBUT inp k).J.length ∧ (cellBD inp k).D j = 0 ∧
        ∀ i, i < j → (cellBD inp k).D i ≠ 0)) ∧
    0 ≤ statusAt inp k := by
  obtain ⟨hs, hn⟩ := find_range_spec (fun j => decide ((cellBD inp k).D j = 0))
    (cellBUT inp k).J.length
  unfold statusAt
  rw [statusOf_eq, if_neg (by omega), if_neg (by omega)]
  cases hf : (List.range (cellBUT inp k).J.length).find?
      (fun j => decide ((cellBD inp k).D j = 0)) with
  | none =>
    have hall := hn.mp hf
    refine ⟨⟨fun _ j hj => ?_, fun _ => rfl⟩, fun j => ⟨fun h => ?_, ?_⟩, le_rfl⟩
    · simpa using hall j hj
    · have h3 : (0 : Int) = (j : Int) + 1 := h
      omega
    · rintro ⟨b1, b2, -⟩
      have := hall j b1
      simp [b2] at this
  | some j0 =>
    obtain ⟨a1, a2, a3⟩ := (hs j0).mp hf
    have a2b : (cellBD inp k).D j0 = 0 := by simpa using a2
    refine ⟨⟨fun h => ?_, fun h => absurd a2b (h j0 a1)⟩, fun j => ⟨fun h => ?_, ?_⟩, ?_⟩
    · have h3 : (j0 : Int) + 1 = 0 := h
      omega
    · have h3 : (j0 : Int) + 1 = (j : Int) + 1 := h
      have e : j0 = j := by omega
      subst e
      exact ⟨a1, a2b, fun i hi => by simpa using a3 i hi⟩
    · rintro ⟨b1, b2, b3⟩
      have e : j0 = j := by
        rcases Nat.lt_trichotomy j0 j with c | c | c
        · exact absurd a2b (b3 j0 c)
        · exact c
        · have := a3 j c
          simp [b2] at this
      show (j0 : Int) + 1 = (j : Int) + 1
      rw [e]
    · show (0 : Int) ≤ (j0 : Int) + 1
      omega

/-- A call that passes the argument checks and whose blocks have legal sizes ends
with the singular-block error `(k, j)` exactly when `k` is the last block for which
`dgetri_` reports a nonzero status, and `j` is that status. -/
theorem singular_char (inp : Input R) (hc : Checked inp)
    (hsz : ∀ k, k < inp.BL.length →
      1 ≤ (cellBUT inp k).J.length ∧ (cellBUT inp k).J.length ≤ inp.perm.length)
    (k j : Nat) :
    selbinv inp = Except.error (Err.singular k j) ↔
      (k < inp.BL.length ∧ statusAt inp k = (j : Int) ∧ 1 ≤ j ∧
        ∀ i, k < i → i < inp.BL.length → statusAt inp i = 0) := by
  have hstat : ∀ k, k < inp.BL.length → statusAt inp k ≠ 0 →
      (∀ i, k < i → i < inp.BL.length → statusAt inp i = 0) →
      selbinv inp = Except.error (Err.singular k (statusAt inp k).toNat) := by
    intro k hk hne hl
    have h := run_status inp hc.nonempty hc.sizeBD hc.sizeBUT hc.sizeDeltal hc.sizeDeltar k hk
      (hc.shape k hk) hne (fun i h1 hi => ⟨hc.shape i hi, hl i h1 hi⟩)
    have hpos := (statusAt_cases inp k (hsz k hk).1 (hsz k hk).2).2.2
    unfold statusErr at h
    rw [if_neg (by omega)] at h
    exact h
  constructor
  · intro he
    have hex : ∃ k, k < inp.BL.length ∧ statusAt inp k ≠ 0 := by
      by_contra hno
      obtain ⟨out, ho⟩ := run_ok inp hc (fun k hk => by
        by_contra hne
        exact hno ⟨k, hk, hne⟩)
      rw [ho] at he
      cases he
    obtain ⟨k0, hk0, hne, hl⟩ := exists_last (fun k => statusAt inp k ≠ 0) inp.BL.length hex
    have hl2 : ∀ i, k0 < i → i < inp.BL.length → statusAt inp i = 0 :=
      fun i h1 hi => not_not.mp (hl i h1 hi)
    have h := hstat k0 hk0 hne hl2
    rw [he] at h
    have hpos := (statusAt_cases inp k0 (hsz k0 hk0).1 (hsz k0 hk0).2).2.2
    injection h with h
    injection h with e1 e2
    subst e1
    refine ⟨hk0, ?_, ?_, hl2⟩
    · rw [e2]
      omega
    · rw [e2]
      omega
  · rintro ⟨hk, hs, hj, hl⟩
    have h := hstat k hk (by rw [hs]; omega) hl
    rw [hs] at h
    exact h

/-- The singular-block error of a call that passes the argument checks and whose
blocks have legal sizes, in terms of the stored entries of the blocks `BD{k}.D`. -/
theorem singular_char_BD (inp : Input R) (hc : Checked inp)
    (hJ : ∀ k, k < inp.BL.length → (cellBUT inp k).J.length = (cellBL inp k).J.length)
    (hsz : ∀ k, k < inp.BL.length →
      1 ≤ (cellBD inp k).Dn ∧ (cellBD inp k).Dn ≤ inp.perm.length)
    (k j : Nat) :
    selbinv inp = Except.error (Err.singular k j) ↔
      (k < inp.BD.length ∧ 1 ≤ j ∧ j ≤ (cellBD inp k).Dn ∧ (cellBD inp k).D (j - 1) = 0 ∧
        (∀ i, i < j - 1 → (cellBD inp k).D i ≠ 0) ∧
        ∀ m, k < m → m < inp.BD.length → ∀ i, i < (cellBD inp m).Dn → (cellBD inp m).D i ≠ 0) := by
  have hn : ∀ k, k < inp.BL.length → (cellBUT inp k).J.length = (cellBD inp k).Dn := by
    intro k hk
    rw [hJ k hk, (hc.shape k hk).2.1.1]
  have hsz2 : ∀ k, k < inp.BL.length →
      1 ≤ (cellBUT inp k).J.length ∧ (cellBUT inp k).J.length ≤ inp.perm.length := by
    intro k hk
    rw [hn k hk]
    exact hsz k hk
  rw [singular_char inp hc hsz2 k j, hc.sizeBD]
  constructor
  · rintro ⟨hk, hs, hj, hl⟩
    have hs2 : statusAt inp k = ((j - 1 : Nat) : Int) + 1 := by
      rw [hs]
      omega
    obtain ⟨a1, a2, a3⟩ :=
      ((statusAt_cases inp k (hsz2 k hk).1 (hsz2 k hk).2).2.1 (j - 1)).mp hs2
    rw [hn k hk] at a1
    refine ⟨hk, hj, by omega, a2, a3, fun m hm hmn i hi => ?_⟩
    have h0 := (statusAt_cases inp m (hsz2 m hmn).1 (hsz2 m hmn).2).1.mp (hl m hm hmn)
    exact h0 i (by rw [hn m hmn]; exact hi)
  · rintro ⟨hk, hj, hjn, hz, hfirst, hl⟩
    have hs2 := ((statusAt_cases inp k (hsz2 k hk).1 (hsz2 k hk).2).2.1 (j - 1)).mpr
      ⟨by rw [hn k hk]; omega, hz, hfirst⟩
    refine ⟨hk, by rw [hs2]; omega, hj, fun m hm hmn => ?_⟩
    apply (statusAt_cases inp m (hsz2 m hmn).1 (hsz2 m hmn).2).1.mpr
    intro i hi
    exact hl m hm hmn i (by rw [← hn m hmn]; exact hi)

theorem sampleBothSingular_checked : Checked sampleBothSingular where
  nonempty := by decide
  sizeBD := rfl
  sizeBUT := rfl
  sizeDeltal := rfl
  sizeDeltar := rfl
  shape := by
    intro k hk
    have hk2 : k < 2 := hk
    interval_cases k
    · exact ⟨⟨rfl, rfl, rfl⟩, ⟨rfl, rfl, rfl⟩, ⟨rfl, rfl, rfl⟩⟩
    · exact ⟨⟨rfl, rfl, rfl⟩, ⟨rfl, rfl, rfl⟩, ⟨rfl, rfl, rfl⟩⟩

/-- C35, as stated, fails: in both calls `BD{0}.D` has a zero diagonal entry, and neither
call ends with the singular-block error.  In the first call the check of the shape of
`BL{1}.D` fails for the last block, which the run reaches first.  The second call
passes every argument check; its last block has no columns, `dgetri_` is called for it
with the leading dimension `0` and reports its third argument as illegal. -/
theorem singular_iff_zero_diagonal_counterexample :
    ((cellBD sampleShapeLast 0).D 0 = 0 ∧
      selbinv sampleShapeLast = Except.error (Err.shapeBLD 1)) ∧
    ((cellBD sampleEmptyLast 0).D 0 = 0 ∧
      (∀ k, k < sampleEmptyLast.BL.length → ShapeOK sampleEmptyLast k) ∧
      selbinv sampleEmptyLast = Except.error (Err.illegalArg 1 3)) := by
  refine ⟨⟨rfl, ?_⟩, rfl, ?_, ?_⟩
  · obtain ⟨stk, h, -⟩ := selbinv_reach sampleShapeLast (by decide) rfl rfl rfl rfl 1
      (by decide) (fun i h1 hi => absurd (show i < 2 from hi) (by omega))
    apply h
    rw [if_pos (by decide)]
    unfold baseCase
    rw [if_pos (Or.inr (Or.inl (by decide)))]
  · intro k hk
    have hk2 : k < 2 := hk
    interval_cases k
    · exact ⟨⟨rfl, rfl, rfl⟩, ⟨rfl, rfl, rfl⟩, ⟨rfl, rfl, rfl⟩⟩
    · exact ⟨⟨rfl, rfl, rfl⟩, ⟨rfl, rfl, rfl⟩, ⟨rfl, rfl, rfl⟩⟩
  · have hs : statusAt sampleEmptyLast 1 = -3 := by
      unfold statusAt
      rw [statusOf_eq]
      rfl
    have h := run_status sampleEmptyLast (by decide) rfl rfl rfl rfl 1 (by decide)
      ⟨⟨rfl, rfl, rfl⟩, ⟨rfl, rfl, rfl⟩, ⟨rfl, rfl, rfl⟩⟩
      (by rw [hs]; decide)
      (fun i h1 hi => absurd (show i < 2 from hi) (by omega))
    rw [hs] at h
    exact h

/-- C35 (amended): singularity depends only on `BD`.  For a call that passes the
argument checks and in which every block has the same number of columns in `BL{k}`,
`BD{k}` and `BUT{k}`, at least one and at most `n`: the call ends with the singular-block
error if and only if some `BD{k}.D` has a zero diagonal entry; the error names the
highest-indexed such block `k` and the 1-based position `j` of its first zero diagonal
entry; and any other such call with the same cell array `BD`, whatever its `BL`, `BUT`,
`perm`, `Deltal` and `Deltar`, ends with the same singular-block error or with none. -/
theorem singular_iff_zero_diagonal (inp : Input R) (hc : Checked inp)
    (hJ : ∀ k, k < inp.BL.length → (cellBUT inp k).J.length = (cellBL inp k).J.length)
    (hsz : ∀ k, k < inp.BL.length →
      1 ≤ (cellBD inp k).Dn ∧ (cellBD inp k).Dn ≤ inp.perm.length) :
    ((∃ k j, selbinv inp = Except.error (Err.singular k j)) ↔
      ∃ k, k < inp.BD.length ∧ ∃ i, i < (cellBD inp k).Dn ∧ (cellBD inp k).D i = 0) ∧
    (∀ k j, selbinv inp = Except.error (Err.singular k j) ↔
      (k < inp.BD.length ∧ 1 ≤ j ∧ j ≤ (cellBD inp k).Dn ∧ (cellBD inp k).D (j - 1) = 0 ∧
        (∀ i, i < j - 1 → (cellBD inp k).D i ≠ 0) ∧
        ∀ m, k < m → m < inp.BD.length →
          ∀ i, i < (cellBD inp m).Dn → (cellBD inp m).D i ≠ 0)) ∧
    (∀ inp2 : Input R, Checked inp2 → inp2.BD = inp.BD →
      (∀ k, k < inp2.BL.length → (cellBUT inp2 k).J.length = (cellBL inp2 k).J.length) →
      (∀ k, k < inp.BD.length → (cellBD inp k).Dn ≤ inp2.perm.length) →
      ∀ k j, selbinv inp2 = Except.error (Err.singular k j) ↔
        selbinv inp = Except.error (Err.singular k j)) := by
  have hchar := singular_char_BD inp hc hJ hsz
  refine ⟨⟨?_, ?_⟩, hchar, ?_⟩
  · rintro ⟨k, j, h⟩
    obtain ⟨a1, a2, a3, a4, -⟩ := (hchar k j).mp h
    exact ⟨k, a1, j - 1, by omega, a4⟩
  · intro hex
    have hex2 : ∃ k, k < inp.BD.length ∧
        ¬ (∀ i, i < (cellBD inp k).Dn → (cellBD inp k).D i ≠ 0) := by
      obtain ⟨k, hk, i, hi, hz⟩ := hex
      exact ⟨k, hk, fun h => h i hi hz⟩
    obtain ⟨k, hk, hz, hl⟩ := exists_last
      (fun k => ¬ (∀ i, i < (cellBD inp k).Dn → (cellBD inp k).D i ≠ 0)) inp.BD.length hex2
    have hz2 : ∃ i, i < (cellBD inp k).Dn ∧ (cellBD inp k).D i = 0 := by
      by_contra hno
      exact hz (fun i hi h0 => hno ⟨i, hi, h0⟩)
    obtain ⟨i, hi, hzero, hfirst⟩ := exists_first
      (fun i => (cellBD inp k).D i = 0) (cellBD inp k).Dn hz2
    refine ⟨k, i + 1, (hchar k (i + 1)).mpr ⟨hk, by omega, by omega, hzero, ?_, ?_⟩⟩
    · intro i2 hi2
      exact hfirst i2 (by omega)
    · intro m hm hmn
      exact not_not.mp (hl m hm hmn)
  · intro inp2 hc2 hBD hJ2 hsz2 k j
    have hcell : ∀ k, cellBD inp2 k = cellBD inp k := by
      intro k
      unfold cellBD
      rw [hBD]
    have hnb : inp2.BL.length = inp.BL.length := by
      rw [← hc2.sizeBD, hBD, hc.sizeBD]
    have h2 := singular_char_BD inp2 hc2 hJ2 (fun k hk => by
      rw [hcell k]
      refine ⟨(hsz k (by omega)).1, hsz2 k ?_⟩
      rw [hc.sizeBD]
      omega) k j
    rw [h2, hchar k j, hBD]
    simp only [hcell]

/-- Witness of C35 (amended): both blocks of the call have the diagonal block `diag(0, 0)`;
the call ends with the singular-block error for block 1 and the position 1. -/
theorem singular_iff_zero_diagonal_witness :
    Checked sampleBothSingular ∧ (cellBD sampleBothSingular 0).D 0 = 0 ∧
    (cellBD sampleBothSingular 1).D 0 = 0 ∧
    selbinv sampleBothSingular = Except.error (Err.singular 1 1) :=
  ⟨sampleBothSingular_checked, rfl, rfl,
    ((singular_iff_zero_diagonal sampleBothSingular sampleBothSingular_checked
      (fun k hk => by
        have hk2 : k < 2 := hk
        interval_cases k <;> rfl)
      (fun k hk => by
        have hk2 : k < 2 := hk
        interval_cases k <;> decide)).2.1 1 1).mpr
      ⟨by decide, by decide, by decide, rfl, fun i hi => absurd hi (Nat.not_lt_zero i),
        fun m h1 hm => absurd (show m < 2 from hm) (by omega)⟩⟩

end SingularClaim

/-! ## Claim about the addresses of the zero-copy call -/

section BoundsClaim

/-- An index that lies in an array of consecutive integers, by its position. -/
theorem consecutive_pos {DJ : List Nat} (hc : Consecutive DJ) {v : Nat} (hv : v ∈ DJ) :
    ∃ s, s < DJ.length ∧ v = DJ.getD 0 0 + s := by
  obtain ⟨s, hs, he⟩ := List.getElem_of_mem hv
  refine ⟨s, hs, ?_⟩
  rw [← he, ← List.getD_eq_getElem DJ 0 hs]
  exact hc s hs

/-- Along a strictly ascending run every step adds at least one. -/
theorem ascending_run {RI : List Nat} {l j : Nat}
    (hasc : ∀ r, l ≤ r → r < j → RI.getD r 0 < RI.getD (r + 1) 0) :
    ∀ b, l + b ≤ j → RI.getD l 0 + b ≤ RI.getD (l + b) 0 := by
  intro b
  induction b with
  | zero => intro _; exact le_rfl
  | succ b ih =>
    intro hb
    have h1 := ih (by omega)
    have h2 := hasc (l + b) (by omega) (by omega)
    rw [show l + (b + 1) = l + b + 1 by omega]
    omega

/-- A flat column-major address with an in-range row and column. -/
theorem flat_lt {ld cols r c : Nat} (hr : r < ld) (hc : c < cols) : r + ld * c < ld * cols := by
  have h1 : ld * (c + 1) ≤ ld * cols := Nat.mul_le_mul_left ld hc
  rw [Nat.mul_add, Nat.mul_one] at h1
  omega

/-- C37: zero-copy sub-views stay in bounds.  For the intersection of the row index
arrays `TI` (block `k`) and `DI` (donor) with both flags set and `t >= 1`:
`k_first + t <= |TI|` and `i_first + t <= |DI|`.  If moreover the donor's `J` holds consecutive
integers and contains the entries of the strictly ascending run `I(l..j)`, `j < |I|`:
`0 <= j_first` and `j_first + (j - l + 1) <= |J_i|`; if `Ji_cont` is set as well, column
`j_first + b` of the donor is the column of the index `I(l + b)`; and every address of
the call lies inside its block: `offset + a + |DI| * e` (`a < t`, `e < j - l + 1`) inside
the `|DI| x |J_i|` donor, `l + e + |I| * c` (`c < n_size`) inside the `|I| x n_size` block
of the run, and `k_first + a + |TI| * c` inside the `|TI| x n_size` block of `TI`. -/
theorem zero_copy_in_bounds (TI DI DJ RI : List Nat) (l j n_size : Nat)
    (hK : (intersect TI DI).Ik_cont ≠ 0) (hI : (intersect TI DI).Ii_cont ≠ 0)
    (ht : 1 ≤ (intersect TI DI).t) :
    (intersect TI DI).k_first + (intersect TI DI).t ≤ TI.length ∧
    (intersect TI DI).i_first + (intersect TI DI).t ≤ DI.length ∧
    (∀ a c, a < (intersect TI DI).t → c < n_size →
      (intersect TI DI).k_first + a + TI.length * c < TI.length * n_size) ∧
    (Consecutive DJ → (∀ r, l ≤ r → r ≤ j → RI.getD r 0 ∈ DJ) →
      (∀ r, l ≤ r → r < j → RI.getD r 0 < RI.getD (r + 1) 0) → l ≤ j → j < RI.length →
      0 ≤ jFirst RI DJ l ∧ jFirst RI DJ l + ((j - l + 1 : Nat) : Int) ≤ (DJ.length : Int) ∧
      (jiCont RI l j ≠ 0 → ∀ b, l + b ≤ j →
        DJ.getD ((jFirst RI DJ l).toNat + b) 0 = RI.getD (l + b) 0) ∧
      (∀ a e, a < (intersect TI DI).t → e < j - l + 1 →
        donorOffset (intersect TI DI).i_first DI.length (jFirst RI DJ l) + a + DI.length * e <
          DI.length * DJ.length) ∧
      (∀ e c, e < j - l + 1 → c < n_size → l + e + RI.length * c < RI.length * n_size)) := by
  obtain ⟨htl, hk, hi⟩ := intersect_spec TI DI
  have hlast : (intersect TI DI).t - 1 < (matchPairs TI DI).length := by omega
  have hb := matchPairs_bound TI DI _ (matchPairs_getD_mem TI DI hlast)
  have hk1 := hk hK _ hlast
  have hi1 := hi hI _ hlast
  rw [hk1, hi1] at hb
  have hkt : (intersect TI DI).k_first + (intersect TI DI).t ≤ TI.length := by omega
  have hit : (intersect TI DI).i_first + (intersect TI DI).t ≤ DI.length := by omega
  refine ⟨hkt, hit, fun a c ha hc => ?_, ?_⟩
  · have := flat_lt (show (intersect TI DI).k_first + a < TI.length by omega) hc
    omega
  · intro hcons hsub hasc hlj hj
    obtain ⟨s, hs, hse⟩ := consecutive_pos hcons (hsub l le_rfl hlj)
    obtain ⟨s2, hs2, hse2⟩ := consecutive_pos hcons (hsub j hlj le_rfl)
    have hrun := ascending_run hasc (j - l) (by omega)
    rw [show l + (j - l) = j by omega] at hrun
    have hjf : jFirst RI DJ l = (s : Int) := by
      unfold jFirst
      rw [hse]
      push_cast
      omega
    have hsw : s + (j - l + 1) ≤ DJ.length := by omega
    refine ⟨by rw [hjf]; omega, by rw [hjf]; omega, fun hJi b hb2 => ?_,
      fun a e ha he => ?_, fun e c he hc => ?_⟩
    · have h1 := jiContLoop_ne_zero RI l j (j + 1 - l) l (-1) le_rfl hJi (l + b) (by omega) hb2
      have h2 := ascending_run hasc b hb2
      push_cast at h1
      have h3 : RI.getD (l + b) 0 = RI.getD l 0 + b := by omega
      rw [hjf, Int.toNat_ofNat, hcons (s + b) (by omega), h3, hse]
      omega
    · have hoff : donorOffset (intersect TI DI).i_first DI.length (jFirst RI DJ l) =
          (intersect TI DI).i_first + DI.length * s := by
        unfold donorOffset
        rw [hjf]
        have : ((intersect TI DI).i_first : Int) + (DI.length : Int) * (s : Int) =
            (((intersect TI DI).i_first + DI.length * s : Nat) : Int) := by push_cast; rfl
        rw [this, Int.toNat_ofNat]
      rw [hoff]
      have := flat_lt (show (intersect TI DI).i_first + a < DI.length by omega)
        (show s + e < DJ.length by omega)
      rw [Nat.mul_add] at this
      omega
    · have := flat_lt (show l + e < RI.length by omega) hc
      omega

/-- Witness of C37: the rows `3, 5, 6` of block `k` against the rows `5, 6, 9` of the donor
(`t = 2`, `k_first = 1`, `i_first = 0`, both flags set), and the run `I(1..2) = (4, 5)` inside
the donor's `J = (3, 4, 5, 6)`: `j_first = 1`. -/
theorem zero_copy_in_bounds_witness :
    (intersect [3, 5, 6] [5, 6, 9]).k_first + (intersect [3, 5, 6] [5, 6, 9]).t ≤ 3 ∧
    (intersect [3, 5, 6] [5, 6, 9]).i_first + (intersect [3, 5, 6] [5, 6, 9]).t ≤ 3 ∧
    0 ≤ jFirst [2, 4, 5] [3, 4, 5, 6] 1 ∧
    jFirst [2, 4, 5] [3, 4, 5, 6] 1 + 2 ≤ 4 :=
  have h := zero_copy_in_bounds [3, 5, 6] [5, 6, 9] [3, 4, 5, 6] [2, 4, 5] 1 2 2
    (by decide) (by decide) (by decide)
  have h2 := h.2.2.2
    (by
      intro s hs
      have hs2 : s < 4 := hs
      interval_cases s <;> rfl)
    (by
      intro r h1 h2
      have h3 : r = 1 ∨ r = 2 := by omega
      rcases h3 with e | e <;> subst e <;> decide)
    (by
      intro r h1 h2
      have h3 : r = 1 := by omega
      subst h3
      decide)
    (by decide) (by decide)
  ⟨h.1, h.2.1, h2.1, h2.2.1⟩

end BoundsClaim

/-! ## Claim about the positions of `Dbuff` -/

section DbuffClaim

variable {R : Type} [Field R] [DecidableEq R]

/-- The buffer `Dbuff` at the end of a call that returns and whose block sizes sum to
`n`: the entry at the start of block `k` plus `j` is the entry `(j, j)` of `BDinv{k}.D`. -/
theorem final_dbuff (inp : Input R) (out : Output R) (hok : selbinv inp = Except.ok out)
    (hsum : ∑ k ∈ Finset.range inp.BL.length, (cellBUT inp k).J.length = inp.perm.length) :
    ∃ (Dbuff : Nat → R) (ipiv : Nat → Nat),
      out.D = rescale inp.perm.length inp.Deltal inp.Deltar Dbuff
        (invPerm inp.perm.length inp.perm ipiv) ∧
      ∀ k, k < inp.BL.length → ∀ j, j < (cellBUT inp k).J.length →
        Dbuff ((∑ i ∈ Finset.range k, (cellBUT inp i).J.length) + j) =
          (out.BDinv k).D (j + (cellBUT inp k).J.length * j) := by
  obtain ⟨h0, -, -, -, -, tr, hb, hp, eD, -, -, e2, -⟩ := selbinv_trace inp out hok
  obtain ⟨hs, hD⟩ := trace_fill inp tr hb hp
  have hp2 : ∀ k, k < inp.BL.length - 1 →
      processBlock inp.perm.length k (buildBlock inp.BL) (cellBL inp k) (cellBD inp k)
        (cellBUT inp k) (tr (k + 1)) = Except.ok (tr k) := fun k hk => hp k (by omega)
  have hcell : ∀ k, k < inp.BL.length → ((tr k).BDinv k).D = (out.BDinv k).D := by
    intro k hk
    rw [e2, (trace_final inp _ _ tr (inp.BL.length - 1) hp2 k (by omega) k le_rfl).2.1]
  have hpre : ∀ k, k < inp.BL.length →
      (tr k).sumn = ∑ i ∈ Finset.range k, (cellBUT inp i).J.length := by
    intro k hk
    rw [hs k hk]
    have := Finset.sum_range_add_sum_Ico (fun i => (cellBUT inp i).J.length)
      (show k ≤ inp.BL.length by omega)
    simp only at this
    omega
  have hkeep : ∀ k, k < inp.BL.length → ∀ j, j < (cellBUT inp k).J.length → ∀ d, d ≤ k →
      (tr (k - d)).Dbuff ((tr k).sumn + j) = (tr k).Dbuff ((tr k).sumn + j) := by
    intro k hk j hj d
    induction d with
    | zero => intro _; rfl
    | succ d ih =>
      intro hd
      have hm : k - (d + 1) < inp.BL.length := by omega
      rw [hD (k - (d + 1)) hm, if_neg (by omega),
        (extractDiag_spec _ _ _ _).2 _ (Or.inr ?_),
        show k - (d + 1) + 1 = k - d by omega]
      · exact ih (by omega)
      · rw [hpre _ hm, hpre k hk]
        have h1 := prefix_mono (fun i => (cellBUT inp i).J.length)
          (show k - (d + 1) + 1 ≤ k by omega)
        rw [Finset.sum_range_succ] at h1
        simp only at h1
        omega
  refine ⟨(tr 0).Dbuff, (tr 0).ipiv, eD, fun k hk j hj => ?_⟩
  have h1 := hkeep k hk j hj k le_rfl
  rw [Nat.sub_self] at h1
  rw [← hpre k hk, h1, hD k hk, (extractDiag_spec _ _ _ _).1 j hj, hcell k hk]

/-- C38: `Dbuff` is addressed by block position, not by the values of `J`.  On a call that
passes the checks of the source and whose block sizes `|J_k|` sum to `n`, with `s_k` the
sum of the `|J_i|` over `i < k`: the call returns, and the buffer `Dbuff` of the final pass
holds at `s_k + j` the entry `(j, j)` of `BDinv{k}.D`.  Every `g` in `1..n` is `s_k + j + 1` for
exactly one block position `(k, j)`, and `Dbuff[g - 1]` is the entry of that position.  If
each `J_k` is the range `s_k + 1 .. s_k + |J_k|`, then `Dbuff[g - 1]` is the entry of the column
with the global index `g = J_k[j]`; and the position whose entry `Dbuff[J_k[j] - 1]` holds is
`(k, j)` only if `J_k[j] = s_k + j + 1`.  The final `D[i]` is `Deltar[i] * e * Deltal[i]` with `e` the
entry of the block position `s_k + j = invperm[i]`, that is of the position `x` with
`perm[x] = i + 1` for a permutation `perm`. -/
theorem dbuff_block_position (inp : Input R) (hv : Valid inp)
    (hsum : ∑ k ∈ Finset.range inp.BL.length, (cellBUT inp k).J.length = inp.perm.length) :
    ∃ (out : Output R) (Dbuff : Nat → R) (ipiv : Nat → Nat),
      selbinv inp = Except.ok out ∧
      out.D = rescale inp.perm.length inp.Deltal inp.Deltar Dbuff
        (invPerm inp.perm.length inp.perm ipiv) ∧
      (∀ k, k < inp.BL.length → ∀ j, j < (cellBUT inp k).J.length →
        Dbuff ((∑ i ∈ Finset.range k, (cellBUT inp i).J.length) + j) =
          (out.BDinv k).D (j + (cellBUT inp k).J.length * j)) ∧
      (∀ g, 1 ≤ g → g ≤ inp.perm.length →
        ∃ kj : Nat × Nat,
          (kj.1 < inp.BL.length ∧ kj.2 < (cellBUT inp kj.1).J.length ∧
            (∑ i ∈ Finset.range kj.1, (cellBUT inp i).J.length) + kj.2 + 1 = g ∧
            Dbuff (g - 1) = (out.BDinv kj.1).D (kj.2 + (cellBUT inp kj.1).J.length * kj.2)) ∧
          ∀ kj2 : Nat × Nat, kj2.1 < inp.BL.length → kj2.2 < (cellBUT inp kj2.1).J.length →
            (∑ i ∈ Finset.range kj2.1, (cellBUT inp i).J.length) + kj2.2 + 1 = g → kj2 = kj) ∧
      ((∀ k, k < inp.BL.length → (out.BDinv k).J =
          List.range' ((∑ i ∈ Finset.range k, (cellBUT inp i).J.length) + 1)
            (cellBUT inp k).J.length) →
        ∀ k, k < inp.BL.length → ∀ j, j < (cellBUT inp k).J.length →
          Dbuff ((out.BDinv k).J.getD j 0 - 1) =
            (out.BDinv k).D (j + (cellBUT inp k).J.length * j)) ∧
      (∀ k, k < inp.BL.length → ∀ j, j < (cellBUT inp k).J.length →
        ∀ kj : Nat × Nat, kj.1 < inp.BL.length → kj.2 < (cellBUT inp kj.1).J.length →
          (∑ i ∈ Finset.range kj.1, (cellBUT inp i).J.length) + kj.2 + 1 =
            (out.BDinv k).J.getD j 0 →
          (kj = (k, j) ↔
            (out.BDinv k).J.getD j 0 =
              (∑ i ∈ Finset.range k, (cellBUT inp i).J.length) + j + 1)) ∧
      (∀ k, k < inp.BL.length → ∀ j, j < (cellBUT inp k).J.length →
        ∀ i, i < inp.perm.length →
          invPerm inp.perm.length inp.perm ipiv i =
            (∑ i ∈ Finset.range k, (cellBUT inp i).J.length) + j →
          out.D.getD i 0 =
            inp.Deltar.getD i 0 * (out.BDinv k).D (j + (cellBUT inp k).J.length * j) *
              inp.Deltal.getD i 0) ∧
      (inp.perm.Perm (List.range' 1 inp.perm.length) →
        ∀ i x, i < inp.perm.length → x < inp.perm.length →
          (invPerm inp.perm.length inp.perm ipiv i = x ↔ inp.perm.getD x 0 = i + 1)) := by
  obtain ⟨out, hok, -⟩ := selbinv_cells inp hv
  obtain ⟨Dbuff, ipiv, hD, hpos⟩ := final_dbuff inp out hok hsum
  have huniq : ∀ x, x < inp.perm.length →
      ∃! kj : Nat × Nat, kj.1 < inp.BL.length ∧ kj.2 < (cellBUT inp kj.1).J.length ∧
        (∑ i ∈ Finset.range kj.1, (cellBUT inp i).J.length) + kj.2 = x := by
    intro x hx
    rw [← hsum] at hx
    exact prefix_partition (fun i => (cellBUT inp i).J.length) inp.BL.length x hx
  refine ⟨out, Dbuff, ipiv, hok, hD, hpos, ?_, ?_, ?_, ?_, ?_⟩
  · intro g hg1 hgn
    obtain ⟨kj, ⟨a1, a2, a3⟩, hu⟩ := huniq (g - 1) (by omega)
    refine ⟨kj, ⟨a1, a2, by omega, ?_⟩, fun kj2 b1 b2 b3 => hu kj2 ⟨b1, b2, by omega⟩⟩
    rw [← a3]
    exact hpos kj.1 a1 kj.2 a2
  · intro hJ k hk j hj
    rw [hJ k hk, List.getD_eq_getElem _ _ (by rw [List.length_range']; exact hj),
      List.getElem_range', Nat.one_mul,
      show (∑ i ∈ Finset.range k, (cellBUT inp i).J.length) + 1 + j - 1 =
        (∑ i ∈ Finset.range k, (cellBUT inp i).J.length) + j by omega]
    exact hpos k hk j hj
  · intro k hk j hj kj a1 a2 a3
    constructor
    · intro e
      rw [e] at a3
      exact a3.symm
    · intro e
      have hx : (∑ i ∈ Finset.range k, (cellBUT inp i).J.length) + j < inp.perm.length := by
        have h1 := prefix_mono (fun i => (cellBUT inp i).J.length)
          (show k + 1 ≤ inp.BL.length by omega)
        rw [Finset.sum_range_succ] at h1
        simp only at h1
        omega
      obtain ⟨kj0, -, hu⟩ := huniq _ hx
      rw [hu kj ⟨a1, a2, by omega⟩, hu (k, j) ⟨hk, hj, rfl⟩]
  · intro k hk j hj i hi hinv
    rw [hD, rescale_getD _ _ _ _ _ _ hi, hinv, hpos k hk j hj]
  · intro hperm i x hi hx
    constructor
    · intro e
      rw [← e]
      exact (invPerm_inverse inp.perm inp.perm.length ipiv hperm i hi).2
    · intro e
      have := invPerm_at inp.perm inp.perm.length ipiv hperm x hx
      rw [e, Nat.add_sub_cancel] at this
      exact this

theorem sampleCrossed_valid : Valid sampleCrossed where
  nonempty := by decide
  sizeBD := rfl
  sizeBUT := rfl
  sizeDeltal := rfl
  sizeDeltar := rfl
  shapeBL := by
    intro k hk
    have hk2 : k < 2 := hk
    interval_cases k <;> exact ⟨rfl, rfl, rfl⟩
  shapeBD := by
    intro k hk
    have hk2 : k < 2 := hk
    interval_cases k <;> exact ⟨rfl, rfl, rfl⟩
  shapeBUT := by
    intro k hk
    have hk2 : k < 2 := hk
    interval_cases k <;> exact ⟨rfl, rfl, rfl⟩
  size_pos := by
    intro k hk
    have hk2 : k < 2 := hk
    interval_cases k <;> decide
  size_le := by
    intro k hk
    have hk2 : k < 2 := hk
    interval_cases k <;> decide
  diag := by
    intro k hk
    have hk2 : k < 2 := hk
    interval_cases k <;>
    · intro j _
      show (2 : ℚ) ≠ 0
      norm_num

/-- Witness of C38: two blocks of one column with `J_0 = [2]` and `J_1 = [1]`, the identity
permutation and unit scalings: `Dbuff[0]` and the final `D[0]` hold the entry of block 0,
whose column has the global index `2`. -/
theorem dbuff_block_position_witness :
    Valid sampleCrossed ∧
    ∑ k ∈ Finset.range sampleCrossed.BL.length, (cellBUT sampleCrossed k).J.length =
      sampleCrossed.perm.length ∧
    ∃ (out : Output ℚ) (Dbuff : Nat → ℚ),
      selbinv sampleCrossed = Except.ok out ∧ (out.BDinv 0).J = [2] ∧
      Dbuff 0 = (out.BDinv 0).D 0 ∧ out.D.getD 0 0 = (out.BDinv 0).D 0 := by
  refine ⟨sampleCrossed_valid, by decide, ?_⟩
  obtain ⟨out, Dbuff, ipiv, hok, -, hpos, -, -, -, hfin, hinv⟩ :=
    dbuff_block_position sampleCrossed sampleCrossed_valid (by decide)
  have hJ := (selbinv_cell sampleCrossed out hok 0 (by decide)).2.2.1.1
  have h0 := hpos 0 (by decide) 0 (by decide)
  have hi : invPerm sampleCrossed.perm.length sampleCrossed.perm ipiv 0 = 0 :=
    (hinv (by decide) 0 0 (by decide) (by decide)).mpr rfl
  have h1 := hfin 0 (by decide) 0 (by decide) 0 (by decide)
    (by rw [hi]; rfl)
  refine ⟨out, Dbuff, hok, hJ, ?_, ?_⟩
  · simpa using h0
  · rw [h1]
    show (1 : ℚ) * (out.BDinv 0).D (0 + (cellBUT sampleCrossed 0).J.length * 0) * 1 = _
    rw [one_mul, mul_one]
    rfl

end DbuffClaim

/-! ## The scratch buffer of the gather-and-multiply path -/

section BufferCore

variable {R : Type} [CommRing R]

/-- What a `dgemm_` call with `beta = 1` adds to `C` depends on the addressed entries of
its operands only. -/
theorem dgemm_delta (transA : Bool) (m n k : Nat) (alpha : R) (A A2 : Nat → R) (aOff lda : Nat)
    (B B2 : Nat → R) (bOff ldb : Nat) (C C2 : Nat → R) (cOff ldc : Nat)
    (hA : ∀ r, r < m → ∀ e, e < k →
      (if transA then A (aOff + e + lda * r) else A (aOff + r + lda * e)) =
        (if transA then A2 (aOff + e + lda * r) else A2 (aOff + r + lda * e)))
    (hB : ∀ e, e < k → ∀ c, c < n → B (bOff + e + ldb * c) = B2 (bOff + e + ldb * c))
    (x : Nat) :
    dgemm transA m n k alpha A aOff lda B bOff ldb 1 C cOff ldc x - C x =
      dgemm transA m n k alpha A2 aOff lda B2 bOff ldb 1 C2 cOff ldc x - C2 x := by
  unfold dgemm
  by_cases hg : lda < max 1 (if transA then k else m) ∨ ldb < max 1 k ∨ ldc < max 1 m
  · rw [if_pos hg, if_pos hg, sub_self, sub_self]
  · rw [if_neg hg, if_neg hg]
    by_cases h2 : cOff ≤ x ∧ (x - cOff) % ldc < m ∧ (x - cOff) / ldc < n
    · simp only [if_pos h2]
      have hs : ∑ e ∈ Finset.range k,
            (if transA then A (aOff + e + lda * ((x - cOff) % ldc))
              else A (aOff + (x - cOff) % ldc + lda * e)) *
            B (bOff + e + ldb * ((x - cOff) / ldc)) =
          ∑ e ∈ Finset.range k,
            (if transA then A2 (aOff + e + lda * ((x - cOff) % ldc))
              else A2 (aOff + (x - cOff) % ldc + lda * e)) *
            B2 (bOff + e + ldb * ((x - cOff) / ldc)) :=
        Finset.sum_congr rfl (fun e he => by
          rw [hA _ h2.2.1 e (Finset.mem_range.mp he), hB e (Finset.mem_range.mp he) _ h2.2.2])
      rw [hs]
      ring
    · simp only [if_neg h2, sub_self]

/-- The result of a `dgemm_` call with `beta = 0` at a position where the arrays `C` agree
depends on the addressed entries of its operands only. -/
theorem dgemm_zero_congr (transA : Bool) (m n k : Nat) (alpha : R) (A A2 : Nat → R)
    (aOff lda : Nat) (B B2 : Nat → R) (bOff ldb : Nat) (C C2 : Nat → R) (cOff ldc : Nat)
    (hA : ∀ r, r < m → ∀ e, e < k →
      (if transA then A (aOff + e + lda * r) else A (aOff + r + lda * e)) =
        (if transA then A2 (aOff + e + lda * r) else A2 (aOff + r + lda * e)))
    (hB : ∀ e, e < k → ∀ c, c < n → B (bOff + e + ldb * c) = B2 (bOff + e + ldb * c))
    (x : Nat) (hC : C x = C2 x) :
    dgemm transA m n k alpha A aOff lda B bOff ldb 0 C cOff ldc x =
      dgemm transA m n k alpha A2 aOff lda B2 bOff ldb 0 C2 cOff ldc x := by
  unfold dgemm
  by_cases hg : lda < max 1 (if transA then k else m) ∨ ldb < max 1 k ∨ ldc < max 1 m
  · rw [if_pos hg, if_pos hg, hC]
  · rw [if_neg hg, if_neg hg]
    by_cases h2 : cOff ≤ x ∧ (x - cOff) % ldc < m ∧ (x - cOff) / ldc < n
    · simp only [if_pos h2]
      have hs : ∑ e ∈ Finset.range k,
            (if transA then A (aOff + e + lda * ((x - cOff) % ldc))
              else A (aOff + (x - cOff) % ldc + lda * e)) *
            B (bOff + e + ldb * ((x - cOff) / ldc)) =
          ∑ e ∈ Finset.range k,
            (if transA then A2 (aOff + e + lda * ((x - cOff) % ldc))
              else A2 (aOff + (x - cOff) % ldc + lda * e)) *
            B2 (bOff + e + ldb * ((x - cOff) / ldc)) :=
        Finset.sum_congr rfl (fun e he => by
          rw [hA _ h2.2.1 e (Finset.mem_range.mp he), hB e (Finset.mem_range.mp he) _ h2.2.2])
      rw [hs, zero_mul, zero_mul]
    · simp only [if_neg h2, hC]

/-- A position below `t * w` is `a + t * b` with `a < t` and `b < w`. -/
theorem flat_decomp {t w x : Nat} (hx : x < t * w) :
    ∃ a b, a < t ∧ b < w ∧ x = a + t * b := by
  have ht : 0 < t := by
    rcases Nat.eq_zero_or_pos t with h | h
    · rw [h, Nat.zero_mul] at hx
      omega
    · exact h
  refine ⟨x % t, x / t, Nat.mod_lt x ht, ?_, (Nat.mod_add_div x t).symm⟩
  exact (Nat.div_lt_iff_lt_mul ht).mpr (by rw [Nat.mul_comm]; exact hx)

/-- Two row-wise updates that subtract the same amounts change every entry by the
same amount. -/
theorem rowsUpd_delta {off ld n cnt : Nat} {row : Nat → Nat} {g : Nat → Nat → R}
    {T T2 U U2 : Nat → R} (h : RowsUpd off ld n cnt row (fun i c v => v - g i c) T T2)
    (h2 : RowsUpd off ld n cnt row (fun i c v => v - g i c) U U2) (x : Nat) :
    T2 x - T x = U2 x - U x := by
  by_cases hx : ∃ i, i < cnt ∧ ∃ c, c < n ∧ x = off + row i + ld * c
  · obtain ⟨i, hi, c, hc, rfl⟩ := hx
    rw [h.1 i hi c hc, h2.1 i hi c hc]
    ring
  · have hx2 : ∀ i, i < cnt → ∀ c, c < n → x ≠ off + row i + ld * c := by
      intro i hi c hc heq
      exact hx ⟨i, hi, c, hc, heq⟩
    rw [h.2 x hx2, h2.2 x hx2, sub_self, sub_self]

/-- The copy of the donor block fills the first `t * w` entries of the buffer: what it
leaves there does not depend on the buffer it finds. -/
theorem gatherA_indep (TI DI : List Nat) {DJ RI : List Nat} {l j : Nat} (donor buf buf2 : Nat → R)
    (hrun : DonorRun DJ RI l j) (x : Nat) (hx : x < (matchPairs TI DI).length * (j - l + 1)) :
    gatherA TI DI DJ RI l (matchPairs TI DI).length donor buf x =
      gatherA TI DI DJ RI l (matchPairs TI DI).length donor buf2 x := by
  obtain ⟨a, b, ha, hb, rfl⟩ := flat_decomp hx
  have h1 := (gatherA_spec TI DI donor buf hrun).1 a ha b hb
  have h2 := (gatherA_spec TI DI donor buf2 hrun).1 a ha b hb
  simp only [Nat.zero_add] at h1 h2
  rw [h1, h2]

/-- The copy of the donor block writes the first `t * w` entries of the buffer only. -/
theorem gatherA_frame (TI DI : List Nat) {DJ RI : List Nat} {l j : Nat} (donor buf : Nat → R)
    (hrun : DonorRun DJ RI l j) (x : Nat) (hx : (matchPairs TI DI).length * (j - l + 1) ≤ x) :
    gatherA TI DI DJ RI l (matchPairs TI DI).length donor buf x = buf x := by
  apply (gatherA_spec TI DI donor buf hrun).2
  intro i hi c hc heq
  have := flat_lt_mul hi hc
  simp only at heq
  omega

/-- The copy of the rows of `src` fills the `t * n_size` entries from `cOff` on: what it
leaves there does not depend on the buffer it finds. -/
theorem gatherB_indep (SI DI : List Nat) (n_size cOff : Nat) (src buf buf2 : Nat → R) (x : Nat)
    (h1 : cOff ≤ x) (h2 : x < cOff + (matchPairs SI DI).length * n_size) :
    gatherB SI DI n_size (matchPairs SI DI).length cOff src buf x =
      gatherB SI DI n_size (matchPairs SI DI).length cOff src buf2 x := by
  obtain ⟨a, c, ha, hc, he⟩ := flat_decomp (show x - cOff < (matchPairs SI DI).length * n_size
    by omega)
  have hx : x = cOff + a + (matchPairs SI DI).length * c := by omega
  rw [hx, (gatherB_spec SI DI n_size cOff src buf).1 a ha c hc,
    (gatherB_spec SI DI n_size cOff src buf2).1 a ha c hc]

/-- The copy of the rows of `src` writes the `t * n_size` entries from `cOff` on only. -/
theorem gatherB_frame (SI DI : List Nat) (n_size cOff : Nat) (src buf : Nat → R) (x : Nat)
    (hx : x < cOff ∨ cOff + (matchPairs SI DI).length * n_size ≤ x) :
    gatherB SI DI n_size (matchPairs SI DI).length cOff src buf x = buf x := by
  apply (gatherB_spec SI DI n_size cOff src buf).2
  intro i hi c hc heq
  have := flat_lt_mul hi hc
  simp only at heq
  omega

end BufferCore
section GatherBuffer

variable {R : Type} [CommRing R]

/-- The gather-and-multiply path of a contribution `target(Ik,:) -= donor(Ii,Ji) * src(l:j,:)`
on two states: the target changes by the same amounts, the first `copy_cnt` entries of
the buffer end up the same, and the entries from `copy_cnt` on are not written. -/
theorem nnGather_frame {TI DI DJ RI : List Nat} {l j : Nat} (n_size : Nat)
    (donor src : Nat → R) (hrun : DonorRun DJ RI l j) (h0 : (matchPairs TI DI).length ≠ 0)
    (tgt tgt2 buf buf2 : Nat → R) :
    (∀ x,
      (nnGather TI DI DJ RI l j n_size (intersect TI DI) (jiCont RI l j) (jFirst RI DJ l)
        donor src tgt buf).1 x - tgt x =
      (nnGather TI DI DJ RI l j n_size (intersect TI DI) (jiCont RI l j) (jFirst RI DJ l)
        donor src tgt2 buf2).1 x - tgt2 x) ∧
    (∀ x, x < copyCnt (intersect TI DI) (jiCont RI l j) l j n_size →
      (nnGather TI DI DJ RI l j n_size (intersect TI DI) (jiCont RI l j) (jFirst RI DJ l)
        donor src tgt buf).2 x =
      (nnGather TI DI DJ RI l j n_size (intersect TI DI) (jiCont RI l j) (jFirst RI DJ l)
        donor src tgt2 buf2).2 x) ∧
    (∀ x, copyCnt (intersect TI DI) (jiCont RI l j) l j n_size ≤ x →
      (nnGather TI DI DJ RI l j n_size (intersect TI DI) (jiCont RI l j) (jFirst RI DJ l)
        donor src tgt buf).2 x = buf x) := by
  obtain ⟨ht, -, -⟩ := intersect_spec TI DI
  have hw : j - l + 1 ≠ 0 := by omega
  unfold nnGather copyCnt
  simp only [ht, ne_eq, h0, not_false_eq_true, hw, and_self, if_true]
  by_cases hg : (intersect TI DI).Ii_cont = 0 ∨ jiCont RI l j = 0
  · simp only [hg, decide_True, if_true]
    have hAval : ∀ (b1 b2 : Nat → R) (r : Nat), r < (matchPairs TI DI).length →
        ∀ e, e < j - l + 1 →
        gatherA TI DI DJ RI l (matchPairs TI DI).length donor b1
            (0 + r + (matchPairs TI DI).length * e) =
          gatherA TI DI DJ RI l (matchPairs TI DI).length donor b2
            (0 + r + (matchPairs TI DI).length * e) := by
      intro b1 b2 r hr e he
      apply gatherA_indep TI DI donor b1 b2 hrun
      have := flat_lt_mul hr he
      omega
    by_cases hIk : (intersect TI DI).Ik_cont = 0
    · simp only [hIk, if_true]
      have hz : ∀ (b1 b2 : Nat → R) (x : Nat),
          x < (matchPairs TI DI).length * (j - l + 1) + (matchPairs TI DI).length * n_size →
          zeroFill ((matchPairs TI DI).length * n_size)
              ((matchPairs TI DI).length * (j - l + 1))
              (gatherA TI DI DJ RI l (matchPairs TI DI).length donor b1) x =
            zeroFill ((matchPairs TI DI).length * n_size)
              ((matchPairs TI DI).length * (j - l + 1))
              (gatherA TI DI DJ RI l (matchPairs TI DI).length donor b2) x := by
        intro b1 b2 x hx
        by_cases hlt : x < (matchPairs TI DI).length * (j - l + 1)
        · rw [(zeroFill_spec _ _ _).2 x (Or.inl hlt), (zeroFill_spec _ _ _).2 x (Or.inl hlt)]
          exact gatherA_indep TI DI donor b1 b2 hrun x hlt
        · rw [(zeroFill_spec _ _ _).1 x (by omega) hx, (zeroFill_spec _ _ _).1 x (by omega) hx]
      have hprod : ∀ (b1 b2 : Nat → R) (x : Nat),
          x < (matchPairs TI DI).length * (j - l + 1) + (matchPairs TI DI).length * n_size →
          dgemm false (matchPairs TI DI).length n_size (j - l + 1) 1
              (zeroFill ((matchPairs TI DI).length * n_size)
                ((matchPairs TI DI).length * (j - l + 1))
                (gatherA TI DI DJ RI l (matchPairs TI DI).length donor b1)) 0
              (matchPairs TI DI).length src l RI.length 0
              (zeroFill ((matchPairs TI DI).length * n_size)
                ((matchPairs TI DI).length * (j - l + 1))
                (gatherA TI DI DJ RI l (matchPairs TI DI).length donor b1))
              ((matchPairs TI DI).length * (j - l + 1)) (matchPairs TI DI).length x =
            dgemm false (matchPairs TI DI).length n_size (j - l + 1) 1
              (zeroFill ((matchPairs TI DI).length * n_size)
                ((matchPairs TI DI).length * (j - l + 1))
                (gatherA TI DI DJ RI l (matchPairs TI DI).length donor b2)) 0
              (matchPairs TI DI).length src l RI.length 0
              (zeroFill ((matchPairs TI DI).length * n_size)
                ((matchPairs TI DI).length * (j - l + 1))
                (gatherA TI DI DJ RI l (matchPairs TI DI).length donor b2))
              ((matchPairs TI DI).length * (j - l + 1)) (matchPairs TI DI).length x := by
        intro b1 b2 x hx
        apply dgemm_zero_congr
        · intro r hr e he
          simp only [Bool.false_eq_true, if_false]
          apply hz
          have := flat_lt_mul hr he
          omega
        · intro e _ c _
          rfl
        · exact hz b1 b2 x hx
      refine ⟨fun x => ?_, fun x hx => hprod buf buf2 x hx, fun x hx => ?_⟩
      · refine rowsUpd_delta
          ((scatterC_spec TI DI n_size (matchPairs TI DI).length
            ((matchPairs TI DI).length * (j - l + 1)) _ tgt).congr (fun i hi c hc v => ?_))
          (scatterC_spec TI DI n_size (matchPairs TI DI).length
            ((matchPairs TI DI).length * (j - l + 1)) _ tgt2) x
        rw [hprod buf buf2 _ (by
          have := flat_lt_mul hi hc
          omega)]
      · rw [dgemm_other _ _ _ _ _ _ _ _ _ _ _ _ _ _ _ x (by
          intro i hi c hc heq
          have := flat_lt_mul hi hc
          omega), (zeroFill_spec _ _ _).2 x (Or.inr (by omega))]
        exact gatherA_frame TI DI donor buf hrun x (by omega)
    · simp only [hIk, if_false, Nat.add_zero]
      refine ⟨fun x => ?_, fun x hx => gatherA_indep TI DI donor buf buf2 hrun x hx,
        fun x hx => gatherA_frame TI DI donor buf hrun x hx⟩
      apply dgemm_delta
      · intro r hr e he
        simp only [Bool.false_eq_true, if_false]
        exact hAval buf buf2 r hr e he
      · intro e _ c _
        rfl
  · simp only [hg, decide_False, if_false, Bool.false_eq_true, Nat.zero_add]
    by_cases hIk : (intersect TI DI).Ik_cont = 0
    · simp only [hIk, if_true]
      have hprod : ∀ (b1 b2 : Nat → R) (x : Nat), x < (matchPairs TI DI).length * n_size →
          dgemm false (matchPairs TI DI).length n_size (j - l + 1) 1 donor
              (donorOffset (intersect TI DI).i_first DI.length (jFirst RI DJ l)) DI.length
              src l RI.length 0
              (zeroFill ((matchPairs TI DI).length * n_size) 0 b1) 0
              (matchPairs TI DI).length x =
            dgemm false (matchPairs TI DI).length n_size (j - l + 1) 1 donor
              (donorOffset (intersect TI DI).i_first DI.length (jFirst RI DJ l)) DI.length
              src l RI.length 0
              (zeroFill ((matchPairs TI DI).length * n_size) 0 b2) 0
              (matchPairs TI DI).length x := by
        intro b1 b2 x hx
        apply dgemm_zero_congr
        · intro r _ e _
          rfl
        · intro e _ c _
          rfl
        · rw [(zeroFill_spec _ _ _).1 x (Nat.zero_le _) (by omega),
            (zeroFill_spec _ _ _).1 x (Nat.zero_le _) (by omega)]
      refine ⟨fun x => ?_, fun x hx => hprod buf buf2 x hx, fun x hx => ?_⟩
      · refine rowsUpd_delta
          ((scatterC_spec TI DI n_size (matchPairs TI DI).length 0 _ tgt).congr
            (fun i hi c hc v => ?_))
          (scatterC_spec TI DI n_size (matchPairs TI DI).length 0 _ tgt2) x
        rw [hprod buf buf2 _ (by
          have := flat_lt_mul hi hc
          omega)]
      · rw [dgemm_other _ _ _ _ _ _ _ _ _ _ _ _ _ _ _ x (by
          intro i hi c hc heq
          have := flat_lt_mul hi hc
          omega), (zeroFill_spec _ _ _).2 x (Or.inr (by omega))]
    · simp only [hIk, if_false]
      refine ⟨fun x => ?_, ?_, ?_⟩
      · apply dgemm_delta
        · intro r _ e _
          rfl
        · intro e _ c _
          rfl
      · simp
      · simp

/-- The gather-and-multiply path of a contribution `target(l:j,:) -= donor(Ii,Ji)^T * src(Ik,:)`
on two states: the target changes by the same amounts, the first `copy_cnt` entries of
the buffer end up the same, and the entries from `copy_cnt` on are not written. -/
theorem tnGather_frame {RI SI DI DJ : List Nat} {l j : Nat} (n_size : Nat)
    (donor src : Nat → R) (hrun : DonorRun DJ RI l j) (h0 : (matchPairs SI DI).length ≠ 0)
    (tgt tgt2 buf buf2 : Nat → R) :
    (∀ x,
      (tnGather RI SI DI DJ l j n_size (intersect SI DI) (jiCont RI l j) (jFirst RI DJ l)
        donor src tgt buf).1 x - tgt x =
      (tnGather RI SI DI DJ l j n_size (intersect SI DI) (jiCont RI l j) (jFirst RI DJ l)
        donor src tgt2 buf2).1 x - tgt2 x) ∧
    (∀ x, x < copyCnt (intersect SI DI) (jiCont RI l j) l j n_size →
      (tnGather RI SI DI DJ l j n_size (intersect SI DI) (jiCont RI l j) (jFirst RI DJ l)
        donor src tgt buf).2 x =
      (tnGather RI SI DI DJ l j n_size (intersect SI DI) (jiCont RI l j) (jFirst RI DJ l)
        donor src tgt2 buf2).2 x) ∧
    (∀ x, copyCnt (intersect SI DI) (jiCont RI l j) l j n_size ≤ x →
      (tnGather RI SI DI DJ l j n_size (intersect SI DI) (jiCont RI l j) (jFirst RI DJ l)
        donor src tgt buf).2 x = buf x) := by
  obtain ⟨ht, -, -⟩ := intersect_spec SI DI
  have hw : j - l + 1 ≠ 0 := by omega
  unfold tnGather copyCnt
  simp only [ht, ne_eq, h0, not_false_eq_true, hw, and_self, if_true]
  by_cases hg : (intersect SI DI).Ii_cont = 0 ∨ jiCont RI l j = 0
  · simp only [hg, decide_True, if_true]
    by_cases hIk : (intersect SI DI).Ik_cont = 0
    · simp only [hIk, if_true]
      have hboth : ∀ (b1 b2 : Nat → R) (x : Nat),
          x < (matchPairs SI DI).length * (j - l + 1) + (matchPairs SI DI).length * n_size →
          gatherB SI DI n_size (matchPairs SI DI).length
              ((matchPairs SI DI).length * (j - l + 1)) src
              (gatherA SI DI DJ RI l (matchPairs SI DI).length donor b1) x =
            gatherB SI DI n_size (matchPairs SI DI).length
              ((matchPairs SI DI).length * (j - l + 1)) src
              (gatherA SI DI DJ RI l (matchPairs SI DI).length donor b2) x := by
        intro b1 b2 x hx
        by_cases hlt : x < (matchPairs SI DI).length * (j - l + 1)
        · rw [gatherB_frame SI DI n_size _ src _ x (Or.inl hlt),
            gatherB_frame SI DI n_size _ src _ x (Or.inl hlt)]
          exact gatherA_indep SI DI donor b1 b2 hrun x hlt
        · exact gatherB_indep SI DI n_size _ src _ _ x (by omega) hx
      refine ⟨fun x => ?_, fun x hx => hboth buf buf2 x hx, fun x hx => ?_⟩
      · apply dgemm_delta
        · intro r hr e he
          simp only [if_true]
          apply hboth
          have := flat_lt_mul he hr
          omega
        · intro e he c hc
          apply hboth
          have := flat_lt_mul he hc
          omega
      · rw [gatherB_frame SI DI n_size _ src _ x (Or.inr hx)]
        exact gatherA_frame SI DI donor buf hrun x (by omega)
    · simp only [hIk, if_false, Nat.add_zero]
      refine ⟨fun x => ?_, fun x hx => gatherA_indep SI DI donor buf buf2 hrun x hx,
        fun x hx => gatherA_frame SI DI donor buf hrun x hx⟩
      apply dgemm_delta
      · intro r hr e he
        simp only [if_true]
        apply gatherA_indep SI DI donor buf buf2 hrun
        have := flat_lt_mul he hr
        omega
      · intro e _ c _
        rfl
  · simp only [hg, decide_False, if_false, Bool.false_eq_true, Nat.zero_add]
    by_cases hIk : (intersect SI DI).Ik_cont = 0
    · simp only [hIk, if_true]
      refine ⟨fun x => ?_,
        fun x hx => gatherB_indep SI DI n_size 0 src buf buf2 x (Nat.zero_le _) (by omega),
        fun x hx => gatherB_frame SI DI n_size 0 src buf x (Or.inr (by omega))⟩
      apply dgemm_delta
      · intro r _ e _
        rfl
      · intro e he c hc
        apply gatherB_indep SI DI n_size 0 src buf buf2 _ (Nat.zero_le _)
        have := flat_lt_mul he hc
        omega
    · simp only [hIk, if_false]
      refine ⟨fun x => ?_, ?_, ?_⟩
      · apply dgemm_delta
        · intro r _ e _
          rfl
        · intro e _ c _
          rfl
      · simp
      · simp

end GatherBuffer
section ContribBuffer

variable {R : Type} [CommRing R]

/-- A contribution `target(Ik,:) -= donor(Ii,Ji) * src(l:j,:)` changes the target by amounts
that depend neither on the target nor on the buffer. -/
theorem contribNN_indep (TI DI : List Nat) {DJ RI : List Nat} {l j : Nat} (n_size : Nat)
    (donor src : Nat → R) (hrun : DonorRun DJ RI l j) :
    StateIndependent (contribNN TI DI DJ RI l j n_size donor src) := by
  intro st st2 x
  have ht := (intersect_spec TI DI).1
  unfold contribNN
  split_ifs with h1 h2 h3
  · show nnZeroCopy TI DI RI l j n_size (intersect TI DI) (jFirst RI DJ l) donor src st.1 x -
        st.1 x =
      nnZeroCopy TI DI RI l j n_size (intersect TI DI) (jFirst RI DJ l) donor src st2.1 x -
        st2.1 x
    unfold nnZeroCopy
    split_ifs
    · exact dgemm_delta _ _ _ _ _ _ _ _ _ _ _ _ _ _ _ _ _ (fun _ _ _ _ => rfl)
        (fun _ _ _ _ => rfl) x
    · rw [sub_self, sub_self]
  · exact (nnGather_frame n_size donor src hrun (by omega) st.1 st2.1 st.2.1 st2.2.1).1 x
  · exact rowsUpd_delta (nnScalar_spec TI DI n_size donor src st.1 hrun)
      (nnScalar_spec TI DI n_size donor src st2.1 hrun) x
  · rw [sub_self, sub_self]

/-- A contribution `target(l:j,:) -= donor(Ii,Ji)^T * src(Ik,:)` changes the target by amounts
that depend neither on the target nor on the buffer. -/
theorem contribTN_indep (SI DI : List Nat) {RI DJ : List Nat} {l j : Nat} (n_size : Nat)
    (donor src : Nat → R) (hrun : DonorRun DJ RI l j) :
    StateIndependent (contribTN RI SI DI DJ l j n_size donor src) := by
  intro st st2 x
  have ht := (intersect_spec SI DI).1
  unfold contribTN
  split_ifs with h1 h2 h3
  · show tnZeroCopy RI SI DI l j n_size (intersect SI DI) (jFirst RI DJ l) donor src st.1 x -
        st.1 x =
      tnZeroCopy RI SI DI l j n_size (intersect SI DI) (jFirst RI DJ l) donor src st2.1 x -
        st2.1 x
    unfold tnZeroCopy
    split_ifs
    · exact dgemm_delta _ _ _ _ _ _ _ _ _ _ _ _ _ _ _ _ _ (fun _ _ _ _ => rfl)
        (fun _ _ _ _ => rfl) x
    · rw [sub_self, sub_self]
  · exact (tnGather_frame n_size donor src hrun (by omega) st.1 st2.1 st.2.1 st2.2.1).1 x
  · exact rowsUpd_delta (tnScalar_spec SI DI n_size donor src st.1 hrun)
      (tnScalar_spec SI DI n_size donor src st2.1 hrun) x
  · rw [sub_self, sub_self]

/-- Two steps that change the target by amounts independent of the state give the same
target in either order. -/
theorem independent_comm
    {f g : (Nat → R) × (Nat → R) × Nat → (Nat → R) × (Nat → R) × Nat}
    (hf : StateIndependent f) (hg : StateIndependent g) (st : (Nat → R) × (Nat → R) × Nat) :
    (f (g st)).1 = (g (f st)).1 := by
  funext x
  have h1 := hf (g st) st x
  have h2 := hg (f st) st x
  have e1 : (f (g st)).1 x = (g st).1 x + ((f st).1 x - st.1 x) := by rw [← h1]; ring
  have e2 : (g (f st)).1 x = (f st).1 x + ((g st).1 x - st.1 x) := by rw [← h2]; ring
  rw [e1, e2]
  ring

/-- One step after another: the amounts add up. -/
theorem independent_comp
    {f g : (Nat → R) × (Nat → R) × Nat → (Nat → R) × (Nat → R) × Nat}
    (hf : StateIndependent f) (hg : StateIndependent g) :
    StateIndependent (fun st => f (g st)) := by
  intro st st2 x
  have h1 := hf (g st) (g st2) x
  have h2 := hg st st2 x
  have e1 : (f (g st)).1 x - st.1 x = ((f (g st)).1 x - (g st).1 x) + ((g st).1 x - st.1 x) := by
    ring
  have e2 : (f (g st2)).1 x - st2.1 x =
      ((f (g st2)).1 x - (g st2).1 x) + ((g st2).1 x - st2.1 x) := by ring
  show (f (g st)).1 x - st.1 x = (f (g st2)).1 x - st2.1 x
  rw [e1, e2, h1, h2]

/-- The size of the buffer does not shrink in a contribution. -/
theorem contribNN_size (TI DI DJ RI : List Nat) (l j n_size : Nat) (donor src : Nat → R)
    (st : (Nat → R) × (Nat → R) × Nat) :
    st.2.2 ≤ (contribNN TI DI DJ RI l j n_size donor src st).2.2 := by
  unfold contribNN
  split_ifs
  · exact le_rfl
  · exact le_max_left _ _
  · exact le_rfl
  · exact le_rfl

/-- The size of the buffer does not shrink in a contribution. -/
theorem contribTN_size (RI SI DI DJ : List Nat) (l j n_size : Nat) (donor src : Nat → R)
    (st : (Nat → R) × (Nat → R) × Nat) :
    st.2.2 ≤ (contribTN RI SI DI DJ l j n_size donor src st).2.2 := by
  unfold contribTN
  split_ifs
  · exact le_rfl
  · exact le_max_left _ _
  · exact le_rfl
  · exact le_rfl

/-- A property of the state that every body of the donor scan keeps is kept by the
scan. -/
theorem donorLoop_keeps {σ : Type} (I : List Nat) (block : Nat → Nat)
    (body : Nat → Nat → Nat → σ → σ) (P : σ → Prop)
    (hbody : ∀ l j i s, P s → P (body l j i s)) :
    ∀ (fuel l : Nat) (s : σ), P s → P (donorLoop I block body fuel l s) := by
  intro fuel
  induction fuel with
  | zero => intro l s hs; exact hs
  | succ fuel ih =>
    intro l s hs
    rw [donorLoop_succ]
    split_ifs
    · exact ih _ _ (hbody _ _ _ _ hs)
    · exact hs

/-- The size of the buffer does not shrink in part I. -/
theorem partI_size (block : Nat → Nat) (BLk BUTk : Block R) (BLinv BUTinv : Nat → InvBlock R)
    (BDinv : Nat → DinvBlock R) (st : (Nat → R) × (Nat → R) × Nat) :
    st.2.2 ≤ (partI block BLk BUTk BLinv BUTinv BDinv st).2.2 := by
  unfold partI partI2 partI1
  refine donorLoop_keeps _ _ _ (fun s : (Nat → R) × (Nat → R) × Nat => st.2.2 ≤ s.2.2)
    (fun l j i s hs => ?_) _ _ _
    (donorLoop_keeps _ _ _ (fun s : (Nat → R) × (Nat → R) × Nat => st.2.2 ≤ s.2.2)
      (fun l j i s hs => ?_) _ _ _ le_rfl)
  · exact le_trans hs (contribTN_size _ _ _ _ _ _ _ _ _ _)
  · exact le_trans hs (le_trans (contribNN_size _ _ _ _ _ _ _ _ _ _)
      (contribNN_size _ _ _ _ _ _ _ _ _ _))

/-- The size of the buffer does not shrink in part II. -/
theorem partII_size (block : Nat → Nat) (BLk BUTk : Block R) (BLinv BUTinv : Nat → InvBlock R)
    (BDinv : Nat → DinvBlock R) (st : (Nat → R) × (Nat → R) × Nat) :
    st.2.2 ≤ (partII block BLk BUTk BLinv BUTinv BDinv st).2.2 := by
  unfold partII partII2 partII1
  refine donorLoop_keeps _ _ _ (fun s : (Nat → R) × (Nat → R) × Nat => st.2.2 ≤ s.2.2)
    (fun l j i s hs => ?_) _ _ _
    (donorLoop_keeps _ _ _ (fun s : (Nat → R) × (Nat → R) × Nat => st.2.2 ≤ s.2.2)
      (fun l j i s hs => ?_) _ _ _ le_rfl)
  · exact le_trans hs (le_trans (contribTN_size _ _ _ _ _ _ _ _ _ _)
      (contribTN_size _ _ _ _ _ _ _ _ _ _))
  · exact le_trans hs (contribNN_size _ _ _ _ _ _ _ _ _ _)

end ContribBuffer
/-! ## Claim about the order of the contributions -/

section OrderClaim

variable {R : Type} [CommRing R]

/-- C32: donor contributions are independent.  For block `k`, two donors `a` and `b`, a
donor run of `BL{k}.I` and one of `BUT{k}.I` for each of them: every contribution of
part I (types 1, 2, 3, into `BUTinv{k}.L`) and of part II (types 4, 5, 6, into `BLinv{k}.L`)
changes each entry of its target by an amount that is the same for every state in
which it starts, so that it depends on `BL{k}`, `BUT{k}` and the donor blocks only, not
on the current value of the target nor on what `gemm_buff` holds; hence any two
contributions into the same target, of any two types and any two donors, give the
same target in either order, and so do the bodies of the donor scan for two runs. -/
theorem contributions_commute (BLk BUTk : Block R) (Ua La Ub Lb : InvBlock R)
    (Da Db : DinvBlock R) (l j m e l2 j2 m2 e2 : Nat)
    (h1 : DonorRun Ua.J BLk.I l j) (h2 : DonorRun La.J BUTk.I m e)
    (h3 : DonorRun Ub.J BLk.I l2 j2) (h4 : DonorRun Lb.J BUTk.I m2 e2) :
    (∀ f ∈ [contrib1 BLk BUTk Ua l j, contrib2 BLk BUTk Ua Da l j, contrib3 BLk BUTk La m e,
        contrib1 BLk BUTk Ub l2 j2, contrib2 BLk BUTk Ub Db l2 j2, contrib3 BLk BUTk Lb m2 e2],
      StateIndependent f) ∧
    (∀ f ∈ [contrib4 BLk BUTk La m e, contrib5 BLk BUTk Ua l j, contrib6 BLk BUTk Ua Da l j,
        contrib4 BLk BUTk Lb m2 e2, contrib5 BLk BUTk Ub l2 j2, contrib6 BLk BUTk Ub Db l2 j2],
      StateIndependent f) ∧
    (∀ f ∈ [contrib1 BLk BUTk Ua l j, contrib2 BLk BUTk Ua Da l j, contrib3 BLk BUTk La m e,
        contrib1 BLk BUTk Ub l2 j2, contrib2 BLk BUTk Ub Db l2 j2, contrib3 BLk BUTk Lb m2 e2],
      ∀ g ∈ [contrib1 BLk BUTk Ua l j, contrib2 BLk BUTk Ua Da l j, contrib3 BLk BUTk La m e,
        contrib1 BLk BUTk Ub l2 j2, contrib2 BLk BUTk Ub Db l2 j2, contrib3 BLk BUTk Lb m2 e2],
      ∀ st, (f (g st)).1 = (g (f st)).1) ∧
    (∀ f ∈ [contrib4 BLk BUTk La m e, contrib5 BLk BUTk Ua l j, contrib6 BLk BUTk Ua Da l j,
        contrib4 BLk BUTk Lb m2 e2, contrib5 BLk BUTk Ub l2 j2, contrib6 BLk BUTk Ub Db l2 j2],
      ∀ g ∈ [contrib4 BLk BUTk La m e, contrib5 BLk BUTk Ua l j, contrib6 BLk BUTk Ua Da l j,
        contrib4 BLk BUTk Lb m2 e2, contrib5 BLk BUTk Ub l2 j2, contrib6 BLk BUTk Ub Db l2 j2],
      ∀ st, (f (g st)).1 = (g (f st)).1) ∧
    (∀ st,
      (contrib2 BLk BUTk Ua Da l j (contrib1 BLk BUTk Ua l j
        (contrib2 BLk BUTk Ub Db l2 j2 (contrib1 BLk BUTk Ub l2 j2 st)))).1 =
      (contrib2 BLk BUTk Ub Db l2 j2 (contrib1 BLk BUTk Ub l2 j2
        (contrib2 BLk BUTk Ua Da l j (contrib1 BLk BUTk Ua l j st)))).1) ∧
    (∀ st,
      (contrib6 BLk BUTk Ua Da l j (contrib5 BLk BUTk Ua l j
        (contrib6 BLk BUTk Ub Db l2 j2 (contrib5 BLk BUTk Ub l2 j2 st)))).1 =
      (contrib6 BLk BUTk Ub Db l2 j2 (contrib5 BLk BUTk Ub l2 j2
        (contrib6 BLk BUTk Ua Da l j (contrib5 BLk BUTk Ua l j st)))).1) := by
  have c1a : StateIndependent (contrib1 BLk BUTk Ua l j) := contribNN_indep _ _ _ _ _ h1
  have c2a : StateIndependent (contrib2 BLk BUTk Ua Da l j) := contribNN_indep _ _ _ _ _ h1
  have c3a : StateIndependent (contrib3 BLk BUTk La m e) := contribTN_indep _ _ _ _ _ h2
  have c4a : StateIndependent (contrib4 BLk BUTk La m e) := contribNN_indep _ _ _ _ _ h2
  have c5a : StateIndependent (contrib5 BLk BUTk Ua l j) := contribTN_indep _ _ _ _ _ h1
  have c6a : StateIndependent (contrib6 BLk BUTk Ua Da l j) := contribTN_indep _ _ _ _ _ h1
  have c1b : StateIndependent (contrib1 BLk BUTk Ub l2 j2) := contribNN_indep _ _ _ _ _ h3
  have c2b : StateIndependent (contrib2 BLk BUTk Ub Db l2 j2) := contribNN_indep _ _ _ _ _ h3
  have c3b : StateIndependent (contrib3 BLk BUTk Lb m2 e2) := contribTN_indep _ _ _ _ _ h4
  have c4b : StateIndependent (contrib4 BLk BUTk Lb m2 e2) := contribNN_indep _ _ _ _ _ h4
  have c5b : StateIndependent (contrib5 BLk BUTk Ub l2 j2) := contribTN_indep _ _ _ _ _ h3
  have c6b : StateIndependent (contrib6 BLk BUTk Ub Db l2 j2) := contribTN_indep _ _ _ _ _ h3
  have hI : ∀ f ∈ [contrib1 BLk BUTk Ua l j, contrib2 BLk BUTk Ua Da l j,
      contrib3 BLk BUTk La m e, contrib1 BLk BUTk Ub l2 j2, contrib2 BLk BUTk Ub Db l2 j2,
      contrib3 BLk BUTk Lb m2 e2], StateIndependent f := by
    intro f hf
    simp only [List.mem_cons, List.mem_singleton, List.not_mem_nil, or_false] at hf
    rcases hf with rfl | rfl | rfl | rfl | rfl | rfl
    · exact c1a
    · exact c2a
    · exact c3a
    · exact c1b
    · exact c2b
    · exact c3b
  have hII : ∀ f ∈ [contrib4 BLk BUTk La m e, contrib5 BLk BUTk Ua l j,
      contrib6 BLk BUTk Ua Da l j, contrib4 BLk BUTk Lb m2 e2, contrib5 BLk BUTk Ub l2 j2,
      contrib6 BLk BUTk Ub Db l2 j2], StateIndependent f := by
    intro f hf
    simp only [List.mem_cons, List.mem_singleton, List.not_mem_nil, or_false] at hf
    rcases hf with rfl | rfl | rfl | rfl | rfl | rfl
    · exact c4a
    · exact c5a
    · exact c6a
    · exact c4b
    · exact c5b
    · exact c6b
  refine ⟨hI, hII, fun f hf g hg st => independent_comm (hI f hf) (hI g hg) st,
    fun f hf g hg st => independent_comm (hII f hf) (hII g hg) st, fun st => ?_, fun st => ?_⟩
  · exact independent_comm (independent_comp c2a c1a) (independent_comp c2b c1b) st
  · exact independent_comm (independent_comp c6a c5a) (independent_comp c6b c5b) st

theorem laterRun : DonorRun laterDonor.J sampleB58.I 0 0 :=
  { sortedJ := by decide, sortedI := by decide, le := by decide, lt := by decide,
    sub := by intro r h1 h2; interval_cases r; decide,
    maximal := by decide, onebased := by decide }

/-- Witness of C32: block `k` with `BL{k}.I = (3, 4)` and `BUT{k}.I = (5, 8)`, the donor with
`J = (3, 4)` for the run `0..1` of `BL{k}.I` and the donor with `J = (5, 6)` for the run `0..0`
of `BUT{k}.I`: the contributions 1 and 3 into `BUTinv{k}.L` give the same target in either
order. -/
theorem contributions_commute_witness :
    DonorRun plainDonor.J sampleBL34.I 0 1 ∧ DonorRun laterDonor.J sampleB58.I 0 0 ∧
    (contrib1 sampleBL34 sampleB58 plainDonor 0 1
      (contrib3 sampleBL34 sampleB58 laterDonor 0 0 (fun _ => 0, fun _ => 0, 0))).1 =
    (contrib3 sampleBL34 sampleB58 laterDonor 0 0
      (contrib1 sampleBL34 sampleB58 plainDonor 0 1 (fun _ => 0, fun _ => 0, 0))).1 :=
  ⟨plainRun, laterRun,
    (contributions_commute sampleBL34 sampleB58 plainDonor laterDonor plainDonor laterDonor
      plainDonorD plainDonorD 0 1 0 0 0 1 0 0 plainRun laterRun plainRun laterRun).2.2.1
      _ (List.mem_cons_self _ _) _
      (List.mem_cons_of_mem _ (List.mem_cons_of_mem _ (List.mem_cons_self _ _))) _⟩

end OrderClaim
section BufferLayout

variable {R : Type} [CommRing R]

/-- What the gather-and-multiply path of a contribution `target(Ik,:) -= donor(Ii,Ji) * src(l:j,:)`
leaves in the buffer: the copy of the donor block in the first `t * w` entries, if it
is made, and the rows of the product, which the matched rows of the target lose, in
the `t * n_size` entries from `cOff` on, if `Ik_cont` is cleared. -/
theorem nnGather_layout {TI DI DJ RI : List Nat} {l j : Nat} (n_size : Nat)
    (donor src : Nat → R) (hrun : DonorRun DJ RI l j) (h0 : (matchPairs TI DI).length ≠ 0)
    (tgt buf : Nat → R) :
    ((intersect TI DI).Ii_cont = 0 ∨ jiCont RI l j = 0 →
      ∀ a, a < (matchPairs TI DI).length → ∀ b, b < j - l + 1 →
        (nnGather TI DI DJ RI l j n_size (intersect TI DI) (jiCont RI l j) (jFirst RI DJ l)
          donor src tgt buf).2 (a + (matchPairs TI DI).length * b) =
        donor (((matchPairs TI DI).getD a (0, 0)).2 + DI.length * posJ DJ RI l b)) ∧
    ((intersect TI DI).Ik_cont = 0 →
      ∀ a, a < (matchPairs TI DI).length → ∀ c, c < n_size →
        (nnGather TI DI DJ RI l j n_size (intersect TI DI) (jiCont RI l j) (jFirst RI DJ l)
          donor src tgt buf).1 (((matchPairs TI DI).getD a (0, 0)).1 + TI.length * c) =
        tgt (((matchPairs TI DI).getD a (0, 0)).1 + TI.length * c) -
          (nnGather TI DI DJ RI l j n_size (intersect TI DI) (jiCont RI l j) (jFirst RI DJ l)
            donor src tgt buf).2
            ((if (intersect TI DI).Ii_cont = 0 ∨ jiCont RI l j = 0 then
                (matchPairs TI DI).length * (j - l + 1) else 0) +
              a + (matchPairs TI DI).length * c)) := by
  obtain ⟨ht, -, -⟩ := intersect_spec TI DI
  have hw : j - l + 1 ≠ 0 := by omega
  unfold nnGather
  simp only [ht, ne_eq, h0, not_false_eq_true, hw, and_self, if_true]
  constructor
  · intro hg a ha b hb
    have hval := (gatherA_spec TI DI donor buf hrun).1 a ha b hb
    simp only [Nat.zero_add] at hval
    have hlt := flat_lt_mul ha hb
    simp only [hg, decide_True, if_true]
    by_cases hIk : (intersect TI DI).Ik_cont = 0
    · simp only [hIk, if_true]
      rw [dgemm_other _ _ _ _ _ _ _ _ _ _ _ _ _ _ _ _ (by
        intro i hi c hc heq
        omega), (zeroFill_spec _ _ _).2 _ (Or.inl hlt)]
      exact hval
    · simp only [hIk, if_false]
      exact hval
  · intro hIk a ha c hc
    simp only [hIk, if_true]
    by_cases hg : (intersect TI DI).Ii_cont = 0 ∨ jiCont RI l j = 0
    · simp only [hg, decide_True, if_true]
      have := (scatterC_spec TI DI n_size (matchPairs TI DI).length
        ((matchPairs TI DI).length * (j - l + 1))
        (dgemm false (matchPairs TI DI).length n_size (j - l + 1) 1
          (zeroFill ((matchPairs TI DI).length * n_size)
            ((matchPairs TI DI).length * (j - l + 1))
            (gatherA TI DI DJ RI l (matchPairs TI DI).length donor buf)) 0
          (matchPairs TI DI).length src l RI.length 0
          (zeroFill ((matchPairs TI DI).length * n_size)
            ((matchPairs TI DI).length * (j - l + 1))
            (gatherA TI DI DJ RI l (matchPairs TI DI).length donor buf))
          ((matchPairs TI DI).length * (j - l + 1)) (matchPairs TI DI).length) tgt).1 a ha c hc
      simp only [Nat.zero_add] at this
      exact this
    · simp only [hg, decide_False, if_false, Bool.false_eq_true, Nat.zero_add]
      have := (scatterC_spec TI DI n_size (matchPairs TI DI).length 0
        (dgemm false (matchPairs TI DI).length n_size (j - l + 1) 1 donor
          (donorOffset (intersect TI DI).i_first DI.length (jFirst RI DJ l)) DI.length
          src l RI.length 0
          (zeroFill ((matchPairs TI DI).length * n_size) 0 buf) 0
          (matchPairs TI DI).length) tgt).1 a ha c hc
      simp only [Nat.zero_add] at this
      exact this

/-- What the gather-and-multiply path of a contribution `target(l:j,:) -= donor(Ii,Ji)^T * src(Ik,:)`
leaves in the buffer: the copy of the donor block in the first `t * w` entries, if it
is made, and the copy of the matched rows of `src` in the `t * n_size` entries from `cOff`
on, if `Ik_cont` is cleared. -/
theorem tnGather_layout {RI SI DI DJ : List Nat} {l j : Nat} (n_size : Nat)
    (donor src : Nat → R) (hrun : DonorRun DJ RI l j) (tgt buf : Nat → R) :
    ((intersect SI DI).Ii_cont = 0 ∨ jiCont RI l j = 0 →
      ∀ a, a < (matchPairs SI DI).length → ∀ b, b < j - l + 1 →
        (tnGather RI SI DI DJ l j n_size (intersect SI DI) (jiCont RI l j) (jFirst RI DJ l)
          donor src tgt buf).2 (a + (matchPairs SI DI).length * b) =
        donor (((matchPairs SI DI).getD a (0, 0)).2 + DI.length * posJ DJ RI l b)) ∧
    ((intersect SI DI).Ik_cont = 0 →
      ∀ a, a < (matchPairs SI DI).length → ∀ c, c < n_size →
        (tnGather RI SI DI DJ l j n_size (intersect SI DI) (jiCont RI l j) (jFirst RI DJ l)
          donor src tgt buf).2
          ((if (intersect SI DI).Ii_cont = 0 ∨ jiCont RI l j = 0 then
              (matchPairs SI DI).length * (j - l + 1) else 0) +
            a + (matchPairs SI DI).length * c) =
        src (((matchPairs SI DI).getD a (0, 0)).1 + SI.length * c)) := by
  obtain ⟨ht, -, -⟩ := intersect_spec SI DI
  unfold tnGather
  simp only [ht]
  constructor
  · intro hg a ha b hb
    have hval := (gatherA_spec SI DI donor buf hrun).1 a ha b hb
    simp only [Nat.zero_add] at hval
    have hlt := flat_lt_mul ha hb
    simp only [hg, decide_True, if_true]
    by_cases hIk : (intersect SI DI).Ik_cont = 0
    · simp only [hIk, if_true]
      rw [gatherB_frame SI DI n_size _ src _ _ (Or.inl hlt)]
      exact hval
    · simp only [hIk, if_false]
      exact hval
  · intro hIk a ha c hc
    simp only [hIk, if_true]
    by_cases hg : (intersect SI DI).Ii_cont = 0 ∨ jiCont RI l j = 0
    · simp only [hg, decide_True, if_true]
      exact (gatherB_spec SI DI n_size _ src _).1 a ha c hc
    · simp only [hg, decide_False, if_false, Bool.false_eq_true]
      exact (gatherB_spec SI DI n_size 0 src buf).1 a ha c hc

/-- The branch taken is the gather-and-multiply path only if there is a match. -/
theorem pathOf_gather_pos {is : Isect} {Ji_cont : Int} {l j n_size : Nat}
    (h : pathOf is Ji_cont l j n_size = Path.gather) : is.t ≠ 0 := by
  unfold pathOf at h
  split_ifs at h with c1 c2
  exact c2.2

end BufferLayout
/-! ## Claim about the scratch buffer -/

section ArenaClaim

variable {R : Type} [Field R] [DecidableEq R]

/-- The size of the buffer does not shrink in a pass of the main loop. -/
theorem processBlock_size (n k : Nat) (block : Nat → Nat) (BLk : Block R) (BDk : DiagBlock R)
    (BUTk : Block R) (st st1 : State R)
    (h : processBlock n k block BLk BDk BUTk st = Except.ok st1) :
    st.size_gemm_buff ≤ st1.size_gemm_buff := by
  unfold processBlock at h
  simp only at h
  split_ifs at h
  all_goals
    have e := Except.ok.inj h
    subst e
    exact le_trans (partI_size block BLk BUTk st.BLinv st.BUTinv st.BDinv
        (fun _ => 0, st.gemm_buff, st.size_gemm_buff))
      (partII_size block BLk BUTk st.BLinv st.BUTinv st.BDinv (fun _ => 0, _, _))

/-- The last block leaves the buffer and its size as they are. -/
theorem baseCase_size (n k : Nat) (BLk : Block R) (BDk : DiagBlock R) (BUTk : Block R)
    (st st1 : State R) (h : baseCase n k BLk BDk BUTk st = Except.ok st1) :
    st1.size_gemm_buff = st.size_gemm_buff ∧ st1.gemm_buff = st.gemm_buff := by
  unfold baseCase at h
  simp only at h
  split_ifs at h
  have e := Except.ok.inj h
  subst e
  exact ⟨rfl, rfl⟩

/-- Along the run of a call that returns, the size of the buffer starts at `n` and does
not shrink. -/
theorem trace_size (inp : Input R) (tr : Nat → State R)
    (hb : baseCase inp.perm.length (inp.BL.length - 1) (cellBL inp (inp.BL.length - 1))
      (cellBD inp (inp.BL.length - 1)) (cellBUT inp (inp.BL.length - 1))
      (initState inp.perm.length) = Except.ok (tr (inp.BL.length - 1)))
    (hp : ∀ k, k + 1 < inp.BL.length →
      processBlock inp.perm.length k (buildBlock inp.BL) (cellBL inp k) (cellBD inp k)
        (cellBUT inp k) (tr (k + 1)) = Except.ok (tr k)) :
    (tr (inp.BL.length - 1)).size_gemm_buff = inp.perm.length ∧
    (∀ k, k + 1 < inp.BL.length → (tr (k + 1)).size_gemm_buff ≤ (tr k).size_gemm_buff) ∧
    (∀ k, k < inp.BL.length → inp.perm.length ≤ (tr k).size_gemm_buff) := by
  have h1 : (tr (inp.BL.length - 1)).size_gemm_buff = inp.perm.length :=
    (baseCase_size _ _ _ _ _ _ _ hb).1
  have h2 : ∀ k, k + 1 < inp.BL.length →
      (tr (k + 1)).size_gemm_buff ≤ (tr k).size_gemm_buff :=
    fun k hk => processBlock_size _ _ _ _ _ _ _ _ (hp k hk)
  refine ⟨h1, h2, ?_⟩
  have h3 : ∀ d, d < inp.BL.length →
      inp.perm.length ≤ (tr (inp.BL.length - 1 - d)).size_gemm_buff := by
    intro d
    induction d with
    | zero =>
      intro _
      rw [Nat.sub_zero, h1]
    | succ d ih =>
      intro hd
      have := h2 (inp.BL.length - 1 - (d + 1)) (by omega)
      rw [show inp.BL.length - 1 - (d + 1) + 1 = inp.BL.length - 1 - d by omega] at this
      exact le_trans (ih (by omega)) this
  intro k hk
  have := h3 (inp.BL.length - 1 - k) (by omega)
  rw [show inp.BL.length - 1 - (inp.BL.length - 1 - k) = k by omega] at this
  exact this

/-- C31: the scratch buffer is grow-only and large enough.  `size_gemm_buff` starts at `n`;
no contribution, no part of the update and no pass of the main loop lowers it, so that
along the run of a call that returns it never decreases and never falls below `n`.
For a donor run `l..j` and the intersection of the row index arrays `TI` and `DI` with
`t` matches, `w = j - l + 1`: when the gather-and-multiply branch is entered,
`size_gemm_buff` becomes `max(size_gemm_buff, copy_cnt)`, hence at least `copy_cnt`, before
the gather; the branch leaves every buffer entry from `copy_cnt` on as it was, what it
leaves in the entries below `copy_cnt` and what it subtracts from the target is the same
whatever the buffer held before, so that no entry from `copy_cnt` on is read or written
and none is read before it is written; the copy of the donor block, if made, is in the
first `t * w` entries, and the `t * n_size` entries behind it (from `0` on if no copy of the
donor block is made) hold the rows of the product that the matched target rows lose,
or the copy of the matched rows of the second operand.  Every other branch leaves the
buffer and its size as they are. -/
theorem scratch_arena (TI DI DJ RI : List Nat) (l j n_size : Nat) (donor src : Nat → R)
    (hrun : DonorRun DJ RI l j) :
    (∀ n, (initState n : State R).size_gemm_buff = n) ∧
    (∀ st : (Nat → R) × (Nat → R) × Nat,
      st.2.2 ≤ (contribNN TI DI DJ RI l j n_size donor src st).2.2 ∧
      st.2.2 ≤ (contribTN RI TI DI DJ l j n_size donor src st).2.2) ∧
    (∀ (block : Nat → Nat) (BLk BUTk : Block R) (BLinv BUTinv : Nat → InvBlock R)
        (BDinv : Nat → DinvBlock R) (st : (Nat → R) × (Nat → R) × Nat),
      st.2.2 ≤ (partI block BLk BUTk BLinv BUTinv BDinv st).2.2 ∧
      st.2.2 ≤ (partII block BLk BUTk BLinv BUTinv BDinv st).2.2) ∧
    (∀ (inp : Input R) (out : Output R), selbinv inp = Except.ok out →
      ∃ tr : Nat → State R,
        baseCase inp.perm.length (inp.BL.length - 1) (cellBL inp (inp.BL.length - 1))
          (cellBD inp (inp.BL.length - 1)) (cellBUT inp (inp.BL.length - 1))
          (initState inp.perm.length) = Except.ok (tr (inp.BL.length - 1)) ∧
        (∀ k, k + 1 < inp.BL.length →
          processBlock inp.perm.length k (buildBlock inp.BL) (cellBL inp k) (cellBD inp k)
            (cellBUT inp k) (tr (k + 1)) = Except.ok (tr k)) ∧
        (tr (inp.BL.length - 1)).size_gemm_buff = inp.perm.length ∧
        (∀ k, k + 1 < inp.BL.length →
          (tr (k + 1)).size_gemm_buff ≤ (tr k).size_gemm_buff) ∧
        (∀ k, k < inp.BL.length → inp.perm.length ≤ (tr k).size_gemm_buff)) ∧
    (pathOf (intersect TI DI) (jiCont RI l j) l j n_size = Path.gather →
      ∀ st st2 : (Nat → R) × (Nat → R) × Nat,
        ((contribNN TI DI DJ RI l j n_size donor src st).2.2 =
            max st.2.2 (copyCnt (intersect TI DI) (jiCont RI l j) l j n_size) ∧
          copyCnt (intersect TI DI) (jiCont RI l j) l j n_size ≤
            (contribNN TI DI DJ RI l j n_size donor src st).2.2 ∧
          (∀ x, copyCnt (intersect TI DI) (jiCont RI l j) l j n_size ≤ x →
            (contribNN TI DI DJ RI l j n_size donor src st).2.1 x = st.2.1 x) ∧
          (∀ x, x < copyCnt (intersect TI DI) (jiCont RI l j) l j n_size →
            (contribNN TI DI DJ RI l j n_size donor src st).2.1 x =
              (contribNN TI DI DJ RI l j n_size donor src st2).2.1 x) ∧
          (∀ x, (contribNN TI DI DJ RI l j n_size donor src st).1 x - st.1 x =
            (contribNN TI DI DJ RI l j n_size donor src st2).1 x - st2.1 x)) ∧
        ((contribTN RI TI DI DJ l j n_size donor src st).2.2 =
            max st.2.2 (copyCnt (intersect TI DI) (jiCont RI l j) l j n_size) ∧
          copyCnt (intersect TI DI) (jiCont RI l j) l j n_size ≤
            (contribTN RI TI DI DJ l j n_size donor src st).2.2 ∧
          (∀ x, copyCnt (intersect TI DI) (jiCont RI l j) l j n_size ≤ x →
            (contribTN RI TI DI DJ l j n_size donor src st).2.1 x = st.2.1 x) ∧
          (∀ x, x < copyCnt (intersect TI DI) (jiCont RI l j) l j n_size →
            (contribTN RI TI DI DJ l j n_size donor src st).2.1 x =
              (contribTN RI TI DI DJ l j n_size donor src st2).2.1 x) ∧
          (∀ x, (contribTN RI TI DI DJ l j n_size donor src st).1 x - st.1 x =
            (contribTN RI TI DI DJ l j n_size donor src st2).1 x - st2.1 x))) ∧
    (pathOf (intersect TI DI) (jiCont RI l j) l j n_size = Path.gather →
      ∀ st : (Nat → R) × (Nat → R) × Nat,
        copyCnt (intersect TI DI) (jiCont RI l j) l j n_size =
          (if (intersect TI DI).Ii_cont = 0 ∨ jiCont RI l j = 0 then
              (intersect TI DI).t * (j - l + 1) else 0) +
            (if (intersect TI DI).Ik_cont = 0 then (intersect TI DI).t * n_size else 0) ∧
        ((intersect TI DI).Ii_cont = 0 ∨ jiCont RI l j = 0 →
          ∀ a, a < (intersect TI DI).t → ∀ b, b < j - l + 1 →
            (contribNN TI DI DJ RI l j n_size donor src st).2.1
                (a + (intersect TI DI).t * b) =
              donor (((matchPairs TI DI).getD a (0, 0)).2 + DI.length * posJ DJ RI l b) ∧
            (contribTN RI TI DI DJ l j n_size donor src st).2.1
                (a + (intersect TI DI).t * b) =
              donor (((matchPairs TI DI).getD a (0, 0)).2 + DI.length * posJ DJ RI l b)) ∧
        ((intersect TI DI).Ik_cont = 0 →
          ∀ a, a < (intersect TI DI).t → ∀ c, c < n_size →
            (contribNN TI DI DJ RI l j n_size donor src st).1
                (((matchPairs TI DI).getD a (0, 0)).1 + TI.length * c) =
              st.1 (((matchPairs TI DI).getD a (0, 0)).1 + TI.length * c) -
                (contribNN TI DI DJ RI l j n_size donor src st).2.1
                  ((if (intersect TI DI).Ii_cont = 0 ∨ jiCont RI l j = 0 then
                      (intersect TI DI).t * (j - l + 1) else 0) +
                    a + (intersect TI DI).t * c) ∧
            (contribTN RI TI DI DJ l j n_size donor src st).2.1
                ((if (intersect TI DI).Ii_cont = 0 ∨ jiCont RI l j = 0 then
                    (intersect TI DI).t * (j - l + 1) else 0) +
                  a + (intersect TI DI).t * c) =
              src (((matchPairs TI DI).getD a (0, 0)).1 + TI.length * c))) ∧
    (pathOf (intersect TI DI) (jiCont RI l j) l j n_size ≠ Path.gather →
      ∀ st : (Nat → R) × (Nat → R) × Nat,
        (contribNN TI DI DJ RI l j n_size donor src st).2 = st.2 ∧
        (contribTN RI TI DI DJ l j n_size donor src st).2 = st.2) := by
  have ht := (intersect_spec TI DI).1
  refine ⟨fun n => rfl,
    fun st => ⟨contribNN_size _ _ _ _ _ _ _ _ _ st, contribTN_size _ _ _ _ _ _ _ _ _ st⟩,
    fun block BLk BUTk BLinv BUTinv BDinv st =>
      ⟨partI_size block BLk BUTk BLinv BUTinv BDinv st,
        partII_size block BLk BUTk BLinv BUTinv BDinv st⟩,
    ?_, ?_, ?_, ?_⟩
  · intro inp out hok
    obtain ⟨-, -, -, -, -, tr, hb, hp, -⟩ := selbinv_trace inp out hok
    obtain ⟨a1, a2, a3⟩ := trace_size inp tr hb hp
    exact ⟨tr, hb, hp, a1, a2, a3⟩
  · intro hpath st st2
    have h0 : (matchPairs TI DI).length ≠ 0 := by
      have := pathOf_gather_pos hpath
      omega
    obtain ⟨n1, n2, n3⟩ := nnGather_frame n_size donor src hrun h0 st.1 st2.1 st.2.1 st2.2.1
    obtain ⟨t1, t2, t3⟩ := tnGather_frame n_size donor src hrun h0 st.1 st2.1 st.2.1 st2.2.1
    simp only [contribNN_path, contribTN_path, hpath, branchNN, branchTN]
    exact ⟨⟨trivial, le_max_right _ _, n3, n2, n1⟩, ⟨trivial, le_max_right _ _, t3, t2, t1⟩⟩
  · intro hpath st
    have h0 : (matchPairs TI DI).length ≠ 0 := by
      have := pathOf_gather_pos hpath
      omega
    obtain ⟨n1, n2⟩ := nnGather_layout n_size donor src hrun h0 st.1 st.2.1
    obtain ⟨t1, t2⟩ := @tnGather_layout R _ RI TI DI DJ l j n_size donor src hrun st.1 st.2.1
    simp only [contribNN_path, contribTN_path, hpath, branchNN, branchTN, ht]
    refine ⟨?_, fun hg a ha b hb => ⟨n1 hg a ha b hb, t1 hg a ha b hb⟩,
      fun hIk a ha c hc => ⟨n2 hIk a ha c hc, t2 hIk a ha c hc⟩⟩
    unfold copyCnt
    rw [ht]
  · intro hpath st
    rw [contribNN_path, contribTN_path]
    cases hp : pathOf (intersect TI DI) (jiCont RI l j) l j n_size with
    | zeroCopy => exact ⟨rfl, rfl⟩
    | gather => exact absurd hp hpath
    | scalar => exact ⟨rfl, rfl⟩
    | skip => exact ⟨rfl, rfl⟩

theorem gatherRun : DonorRun [4, 5, 6] [4, 5, 6] 0 2 :=
  { sortedJ := by decide, sortedI := by decide, le := by decide, lt := by decide,
    sub := by intro r h1 h2; interval_cases r <;> decide,
    maximal := by decide, onebased := by decide }

/-- Witness of C31: the rows `1, 3` of block `k` against the rows `1, 2, 3` of the donor
(`t = 2`, the donor rows not contiguous), the run `0..2` of `(4, 5, 6)` in the donor's
`J = (4, 5, 6)` and `n_size = 2`: the gather-and-multiply branch is entered with
`copy_cnt = 6`, and a buffer of size `4` has the size `6` afterwards. -/
theorem scratch_arena_witness :
    DonorRun [4, 5, 6] [4, 5, 6] 0 2 ∧
    pathOf (intersect [1, 3] [1, 2, 3]) (jiCont [4, 5, 6] 0 2) 0 2 2 = Path.gather ∧
    copyCnt (intersect [1, 3] [1, 2, 3]) (jiCont [4, 5, 6] 0 2) 0 2 2 = 6 ∧
    (contribNN [1, 3] [1, 2, 3] [4, 5, 6] [4, 5, 6] 0 2 2 (fun x => (x : ℚ)) (fun _ => 1)
      (fun _ => 0, fun _ => 0, 4)).2.2 = 6 := by
  have hpath : pathOf (intersect [1, 3] [1, 2, 3]) (jiCont [4, 5, 6] 0 2) 0 2 2 = Path.gather := by
    decide
  have hcnt : copyCnt (intersect [1, 3] [1, 2, 3]) (jiCont [4, 5, 6] 0 2) 0 2 2 = 6 := by decide
  have h := ((scratch_arena [1, 3] [1, 2, 3] [4, 5, 6] [4, 5, 6] 0 2 2 (fun x => (x : ℚ))
    (fun _ => 1) gatherRun).2.2.2.2.1 hpath (fun _ => 0, fun _ => 0, 4)
    (fun _ => 0, fun _ => 0, 4)).1.1
  rw [hcnt] at h
  exact ⟨gatherRun, hpath, hcnt, h⟩

end ArenaClaim

end Selbinv
